import Mathlib

/-!
# uPNG (`upng.c`): a shallow embedding and its verification

The definitions below transcribe the functions of `src/upng.c` one by one and keep
their names.  Conventions of the embedding:

* a byte (`unsigned char`) is a `Fin 256`; `unsigned` values are natural numbers
  reduced modulo `2 ^ 32` wherever the C arithmetic can wrap; `unsigned long` is taken
  to be 64 bits wide (LP64) and is reduced modulo `2 ^ 64` at the subtractions that can
  wrap; buffer sizes are assumed to stay far below `2 ^ 64`, so sums of positions are
  plain sums;
* a buffer is the list of its bytes whose value is determined; a load or a store
  outside that list (outside the object, or of a byte that was never written) is
  undefined behaviour and ends the run with `Exec.fault`;
* memory allocation is assumed to succeed (the `ENOMEM` branches are not taken);
* `while` and `for (;;)` loops are recursive functions on a fuel argument; the
  public entry points pass a fuel that the loop cannot exhaust, and a run that
  would exhaust it ends with `Exec.nofuel`;
* a function that updates the handle returns the new handle together with its
  C return value.
-/

namespace upng

/-! ## Basic types -/

/-- A byte, the C type `unsigned char`. -/
abbrev Byte := Fin 256

/-- Conversion of an integer value to `unsigned char`: the low eight bits. -/
def toByte (n : Nat) : Byte := ⟨n % 256, Nat.mod_lt _ (by decide)⟩

/-- Outcome of running a piece of the program. -/
inductive Exec (α : Type) where
  /-- normal completion with a value -/
  | ret (a : α) : Exec α
  /-- a load or store outside the determined bytes of an object: undefined behaviour -/
  | fault : Exec α
  /-- the fuel of a loop ran out -/
  | nofuel : Exec α
deriving DecidableEq

/-- Load of `m[i]`. -/
def load (m : List Byte) (i : Nat) : Exec Nat :=
  match m[i]? with
  | some b => .ret b.val
  | none => .fault

/-- Store `m[i] = v`.  A store at the end of the determined bytes extends them (it
lands in the part of the block that was allocated and not written yet); a store
further out is treated as undefined. -/
def store (m : List Byte) (i : Nat) (v : Byte) : Exec (List Byte) :=
  if i < m.length then .ret (m.set i v)
  else if i = m.length then .ret (m ++ [v])
  else .fault

/-- Store through a plain pointer into an object of fixed extent: `m[i] = v` with
`i` inside the object. -/
def poke (m : List Byte) (i : Nat) (v : Byte) : Exec (List Byte) :=
  if i < m.length then .ret (m.set i v) else .fault

/-- Load of `in[i]` at a place where the program has already checked `i` against
the length of the input (the default is never used there). -/
def peek (m : List Byte) (i : Nat) : Nat := (m.getD i 0).val

/-! ## Enumerations of `upng.h` -/

/-- Modelled from the spec: the enumeration `upng_error` is declared in `upng.h`,
which is not among the sources.  The spec names the codes OK, NOMEM, NOT_FOUND,
NOT_PNG, MALFORMED and UNSUPPORTED; the source needs `UPNG_EOK` to be zero (it tests
`if (error)` on values of this type).  This is the success code. -/
def UPNG_EOK : Nat := 0

/-- Modelled from the spec: error code NOMEM of `upng.h` (allocation failed). -/
def UPNG_ENOMEM : Nat := 1

/-- Modelled from the spec: error code NOT_FOUND of `upng.h` (file entry point). -/
def UPNG_ENOTFOUND : Nat := 2

/-- Modelled from the spec: error code NOT_PNG of `upng.h`. -/
def UPNG_ENOTPNG : Nat := 3

/-- Modelled from the spec: error code MALFORMED of `upng.h`. -/
def UPNG_EMALFORMED : Nat := 4

/-- Modelled from the spec: error code UNSUPPORTED of `upng.h`. -/
def UPNG_EUNSUPPORTED : Nat := 5

/-- Modelled from the spec: colour type GREY of `upng.h`; `upng_inspect` casts the
IHDR colour-type byte to `upng_color`, so the values are those of the PNG format. -/
def UPNG_GREY : Nat := 0

/-- Modelled from the spec: colour type RGB of `upng.h` (PNG colour type 2). -/
def UPNG_RGB : Nat := 2

/-- Modelled from the spec: colour type GREY_ALPHA of `upng.h` (PNG colour type 4). -/
def UPNG_GREY_ALPHA : Nat := 4

/-- Modelled from the spec: colour type RGBA of `upng.h` (PNG colour type 6). -/
def UPNG_RGBA : Nat := 6

/-- Modelled from the spec: the enumeration `upng_format` is declared in `upng.h`,
which is not among the sources.  The spec lists its tags as `G_{1,2,4,8}`, `RGB_888`,
`GA_{1,2,4,8}`, `RGBA_8888`, BADFORMAT and states that `0` is numerically the value of
`UPNG_G_1`; the tags are numbered in that order. -/
def UPNG_G_1 : Nat := 0

/-- Modelled from the spec: format tag `G_2` of `upng.h`. -/
def UPNG_G_2 : Nat := 1

/-- Modelled from the spec: format tag `G_4` of `upng.h`. -/
def UPNG_G_4 : Nat := 2

/-- Modelled from the spec: format tag `G_8` of `upng.h`. -/
def UPNG_G_8 : Nat := 3

/-- Modelled from the spec: format tag `RGB_888` of `upng.h`. -/
def UPNG_RGB_888 : Nat := 4

/-- Modelled from the spec: format tag `GA_1` of `upng.h`. -/
def UPNG_GA_1 : Nat := 5

/-- Modelled from the spec: format tag `GA_2` of `upng.h`. -/
def UPNG_GA_2 : Nat := 6

/-- Modelled from the spec: format tag `GA_4` of `upng.h`. -/
def UPNG_GA_4 : Nat := 7

/-- Modelled from the spec: format tag `GA_8` of `upng.h`. -/
def UPNG_GA_8 : Nat := 8

/-- Modelled from the spec: format tag `RGBA_8888` of `upng.h`. -/
def UPNG_RGBA_8888 : Nat := 9

/-- Modelled from the spec: format tag BADFORMAT of `upng.h`. -/
def UPNG_BADFORMAT : Nat := 10

/-- The constant `INT_MAX` of `limits.h` for a 32-bit `int`. -/
def INT_MAX : Nat := 2147483647

/-! ## The handle -/

/-- Value of the pointer `img_buffer`. -/
inductive buffer_ptr where
  /-- the null pointer -/
  | null : buffer_ptr
  /-- a block owned by the handle, with its determined bytes -/
  | block (bytes : List Byte) : buffer_ptr
  /-- an indeterminate value (copied from an uninitialised local) -/
  | garbage : buffer_ptr
deriving DecidableEq

/-- The structure `upng_info`.  `img_size` is `none` when it holds an indeterminate
value (copied from an uninitialised local). -/
structure upng_info where
  width : Nat
  height : Nat
  cmp_method : Nat
  filter_method : Nat
  interlace_method : Nat
  color_type : Nat
  color_depth : Nat
  img_buffer : buffer_ptr
  img_size : Option Nat
  error : Nat
  error_line : Nat
deriving DecidableEq

/-- The macro `SET_ERROR(info, code)` expanded at source line `line`. -/
def SET_ERROR (info : upng_info) (code : Nat) (line : Nat) : upng_info :=
  { info with error := code, error_line := line }

/-- The macro `MAKE_BYTE`. -/
def MAKE_BYTE (b : Nat) : Nat := b &&& 0xFF

/-- The macro `MAKE_DWORD`, as the 32-bit pattern it produces. -/
def MAKE_DWORD (a b c d : Nat) : Nat :=
  ((MAKE_BYTE a <<< 24) ||| (MAKE_BYTE b <<< 16) ||| (MAKE_BYTE c <<< 8) ||| MAKE_BYTE d)

/-- The macro `MAKE_DWORD_PTR` applied to `p + off`, at a place where the four
bytes are known to lie inside the input. -/
def MAKE_DWORD_PTR (p : List Byte) (off : Nat) : Nat :=
  MAKE_DWORD (peek p off) (peek p (off + 1)) (peek p (off + 2)) (peek p (off + 3))

/-- The constant `CHUNK_IDAT`. -/
def CHUNK_IDAT : Nat := MAKE_DWORD 73 68 65 84

/-- The constant `CHUNK_IEND`. -/
def CHUNK_IEND : Nat := MAKE_DWORD 73 69 78 68

/-- The macro `upng_chunk_length` for the chunk at offset `chunk` of the input. -/
def upng_chunk_length (inp : List Byte) (chunk : Nat) : Nat := MAKE_DWORD_PTR inp chunk

/-- The macro `upng_chunk_type` for the chunk at offset `chunk` of the input. -/
def upng_chunk_type (inp : List Byte) (chunk : Nat) : Nat := MAKE_DWORD_PTR inp (chunk + 4)

/-- The macro `upng_chunk_critical` for the chunk at offset `chunk` of the input. -/
def upng_chunk_critical (inp : List Byte) (chunk : Nat) : Bool :=
  (peek inp (chunk + 4) &&& 32) == 0

/-- The function `upng_new`: a fresh handle. -/
def upng_new : upng_info :=
  { width := 0, height := 0, cmp_method := 0, filter_method := 0, interlace_method := 0,
    color_type := UPNG_RGBA, color_depth := 8, img_buffer := .null, img_size := some 0,
    error := UPNG_EOK, error_line := 0 }

/-- The function `upng_get_error`. -/
def upng_get_error (info : upng_info) : Nat := info.error

/-- The function `upng_get_error_line`. -/
def upng_get_error_line (info : upng_info) : Nat := info.error_line

/-- The function `upng_get_width`. -/
def upng_get_width (info : upng_info) : Nat := info.width

/-- The function `upng_get_height`. -/
def upng_get_height (info : upng_info) : Nat := info.height

/-- The function `upng_get_bpp` (the products are `unsigned`). -/
def upng_get_bpp (info : upng_info) : Nat :=
  if info.color_type = UPNG_GREY then info.color_depth
  else if info.color_type = UPNG_RGB then (info.color_depth * 3) % 2 ^ 32
  else if info.color_type = UPNG_GREY_ALPHA then (info.color_depth * 2) % 2 ^ 32
  else if info.color_type = UPNG_RGBA then (info.color_depth * 4) % 2 ^ 32
  else 0

/-- The function `upng_get_format`; its last `default` arm returns the literal `0`. -/
def upng_get_format (info : upng_info) : Nat :=
  if info.color_type = UPNG_GREY then
    (if info.color_depth = 1 then UPNG_G_1
     else if info.color_depth = 2 then UPNG_G_2
     else if info.color_depth = 4 then UPNG_G_4
     else if info.color_depth = 8 then UPNG_G_8
     else UPNG_BADFORMAT)
  else if info.color_type = UPNG_RGB then
    (if info.color_depth = 8 then UPNG_RGB_888 else UPNG_BADFORMAT)
  else if info.color_type = UPNG_GREY_ALPHA then
    (if info.color_depth = 1 then UPNG_GA_1
     else if info.color_depth = 2 then UPNG_GA_2
     else if info.color_depth = 4 then UPNG_GA_4
     else if info.color_depth = 8 then UPNG_GA_8
     else UPNG_BADFORMAT)
  else if info.color_type = UPNG_RGBA then
    (if info.color_depth = 8 then UPNG_RGBA_8888 else UPNG_BADFORMAT)
  else 0

/-- The function `upng_get_buffer`. -/
def upng_get_buffer (info : upng_info) : buffer_ptr := info.img_buffer

/-- The function `upng_get_size`. -/
def upng_get_size (info : upng_info) : Option Nat := info.img_size

/-! ## Header inspection -/

/-- The function `upng_inspect`.  The input is the list of the `inlength` bytes at
`in`; a null `in` is not represented separately (it takes the same branch as the empty
input).  The result is the updated handle and the return value. -/
def upng_inspect (info : upng_info) (inp : List Byte) : upng_info × Nat :=
  if inp.length = 0 then
    let info := SET_ERROR info UPNG_ENOTPNG 783
    (info, info.error)
  else if inp.length < 29 then
    let info := SET_ERROR info UPNG_ENOTPNG 787
    (info, info.error)
  else if peek inp 0 ≠ 137 ∨ peek inp 1 ≠ 80 ∨ peek inp 2 ≠ 78 ∨ peek inp 3 ≠ 71
      ∨ peek inp 4 ≠ 13 ∨ peek inp 5 ≠ 10 ∨ peek inp 6 ≠ 26 ∨ peek inp 7 ≠ 10 then
    let info := SET_ERROR info UPNG_ENOTPNG 792
    (info, info.error)
  else if peek inp 12 ≠ 73 ∨ peek inp 13 ≠ 72 ∨ peek inp 14 ≠ 68 ∨ peek inp 15 ≠ 82 then
    let info := SET_ERROR info UPNG_EMALFORMED 796
    (info, info.error)
  else
    let info := { info with
      width := MAKE_DWORD_PTR inp 16
      height := MAKE_DWORD_PTR inp 20
      color_depth := peek inp 24
      color_type := peek inp 25
      cmp_method := peek inp 26
      filter_method := peek inp 27
      interlace_method := peek inp 28 }
    if info.cmp_method ≠ 0 then
      let info := SET_ERROR info UPNG_EUNSUPPORTED 812
      (info, info.error)
    else if info.filter_method ≠ 0 then
      let info := SET_ERROR info UPNG_EUNSUPPORTED 817
      (info, info.error)
    else if info.interlace_method ≠ 0 then
      let info := SET_ERROR info UPNG_EUNSUPPORTED 822
      (info, info.error)
    else
      let info :=
        if info.color_type = UPNG_GREY then
          (if ¬ (info.color_depth = 1 ∨ info.color_depth = 2 ∨ info.color_depth = 4
              ∨ info.color_depth = 8 ∨ info.color_depth = 16) then
            SET_ERROR info UPNG_EMALFORMED 830 else info)
        else if info.color_type = UPNG_RGB ∨ info.color_type = UPNG_GREY_ALPHA
            ∨ info.color_type = UPNG_RGBA then
          (if ¬ (info.color_depth = 8 ∨ info.color_depth = 16) then
            SET_ERROR info UPNG_EMALFORMED 836 else info)
        else SET_ERROR info UPNG_EMALFORMED 839
      (info, info.error)

/-! ## The run outcome as a monad -/

/-- Sequencing of two runs: the second one starts from the value of the first. -/
def Exec.bind {α β : Type} (x : Exec α) (f : α → Exec β) : Exec β :=
  match x with
  | .ret a => f a
  | .fault => .fault
  | .nofuel => .nofuel

instance : Monad Exec where
  pure := Exec.ret
  bind := Exec.bind

/-- Load of `m[i]` from an array of `unsigned`. -/
def loadw (m : List Nat) (i : Nat) : Exec Nat :=
  match m[i]? with
  | some v => .ret v
  | none => .fault

/-- Store `m[i] = v` into an array of `unsigned` of fixed extent. -/
def storew (m : List Nat) (i : Nat) (v : Nat) : Exec (List Nat) :=
  if i < m.length then .ret (m.set i v) else .fault

/-- A counted loop `for (i = lo; i < lo + count; i++) s = body(i, s)`. -/
def for_loop {σ : Type} (body : Nat → σ → Exec σ) : Nat → Nat → σ → Exec σ
  | 0, _, s => .ret s
  | k + 1, lo, s => do
    let s1 ← body lo s
    for_loop body k (lo + 1) s1

/-! ## Growable byte vectors -/

/-- The structure `ucvector`: `data` lists the determined bytes of the block,
`size` and `allocsize` are the fields of the same name. -/
structure ucvector where
  data : List Byte
  size : Nat
  allocsize : Nat
deriving DecidableEq

/-- The function `ucvector_init`. -/
def ucvector_init : ucvector := { data := [], size := 0, allocsize := 0 }

/-- The function `ucvector_init_buffer`. -/
def ucvector_init_buffer (buffer : List Byte) (size : Nat) : ucvector :=
  { data := buffer, size := size, allocsize := size }

/-- The function `ucvector_resize`, with `realloc` succeeding: the block keeps its
determined bytes, only the bookkeeping changes (the return value is `UPNG_EOK`). -/
def ucvector_resize (p : ucvector) (size : Nat) : ucvector :=
  if size * 1 > p.allocsize then { p with allocsize := size * 1 * 2, size := size }
  else { p with size := size }

/-- The function `ucvector_resizev`: resize, then give the new elements `value`. -/
def ucvector_resizev (p : ucvector) (size : Nat) (value : Byte) : Exec ucvector :=
  let oldsize := p.size
  let p1 := ucvector_resize p size
  do
    let d ← for_loop (fun i d => store d i value) (size - oldsize) oldsize p1.data
    pure { p1 with data := d }

/-- The library function `memcpy(dst + doff, src + soff, n)`. -/
def memcpy (dst : List Byte) (doff : Nat) (src : List Byte) (soff n : Nat) :
    Exec (List Byte) :=
  if soff + n ≤ src.length ∧ doff ≤ dst.length then
    .ret (dst.take doff ++ (src.drop soff).take n ++ dst.drop (doff + n))
  else .fault

/-! ## Bit reader -/

/-- The function `read_bit`: the bit and the advanced bit pointer. -/
def read_bit (bp : Nat) (bitstream : List Byte) : Exec (Nat × Nat) := do
  let b ← load bitstream (bp >>> 3)
  pure ((b >>> (bp &&& 0x7)) &&& 1, bp + 1)

/-- The function `read_bits`: the value (an `unsigned`) and the advanced bit
pointer. -/
def read_bits (bp : Nat) (bitstream : List Byte) (nbits : Nat) : Exec (Nat × Nat) :=
  for_loop (fun i (s : Nat × Nat) => do
      let (bit, bp1) ← read_bit s.2 bitstream
      pure ((s.1 + (bit <<< i)) % 2 ^ 32, bp1))
    nbits 0 (0, bp)

/-! ## Tables of the DEFLATE format -/

/-- The constant `FIRST_LENGTH_CODE_INDEX`. -/
def FIRST_LENGTH_CODE_INDEX : Nat := 257

/-- The constant `LAST_LENGTH_CODE_INDEX`. -/
def LAST_LENGTH_CODE_INDEX : Nat := 285

/-- The constant `NUM_DEFLATE_CODE_SYMBOLS`. -/
def NUM_DEFLATE_CODE_SYMBOLS : Nat := 288

/-- The constant `NUM_DISTANCE_SYMBOLS`. -/
def NUM_DISTANCE_SYMBOLS : Nat := 32

/-- The constant `NUM_CODE_LENGTH_CODES`. -/
def NUM_CODE_LENGTH_CODES : Nat := 19

/-- The table `LENGTHBASE`. -/
def LENGTHBASE : List Nat :=
  [3, 4, 5, 6, 7, 8, 9] ++
  [10, 11, 13, 15, 17, 19, 23] ++
  [27, 31, 35, 43, 51, 59, 67] ++
  [83, 99, 115, 131, 163, 195, 227] ++
  [258]

/-- The table `LENGTHEXTRA`. -/
def LENGTHEXTRA : List Nat :=
  [0, 0, 0, 0, 0, 0, 0] ++
  [0, 1, 1, 1, 1, 2, 2] ++
  [2, 2, 3, 3, 3, 3, 4] ++
  [4, 4, 4, 5, 5, 5, 5] ++
  [0]

/-- The table `DISTANCEBASE`. -/
def DISTANCEBASE : List Nat :=
  [1, 2, 3, 4, 5, 7, 9] ++
  [13, 17, 25, 33, 49, 65, 97] ++
  [129, 193, 257, 385, 513, 769, 1025] ++
  [1537, 2049, 3073, 4097, 6145, 8193, 12289] ++
  [16385, 24577]

/-- The table `DISTANCEEXTRA`. -/
def DISTANCEEXTRA : List Nat :=
  [0, 0, 0, 0, 1, 1, 2] ++
  [2, 3, 3, 4, 4, 5, 5] ++
  [6, 6, 7, 7, 8, 8, 9] ++
  [9, 10, 10, 11, 11, 12, 12] ++
  [13, 13]

/-- The table `CLCL`. -/
def CLCL : List Nat :=
  [16, 17, 18, 0, 8, 7, 9] ++
  [6, 10, 5, 11, 4, 12, 3] ++
  [13, 2, 14, 1, 15]

/-! ## Huffman trees -/

/-- The structure `huffman_tree`; each `uivector` is the list of its entries. -/
structure huffman_tree where
  tree2d : List Nat
  tree1d : List Nat
  lengths : List Nat
  maxbitlen : Nat
  numcodes : Nat
deriving DecidableEq

/-- The function `huffman_tree_init` (the two scalar fields, which C leaves
unset, are shown as zero). -/
def huffman_tree_init : huffman_tree :=
  { tree2d := [], tree1d := [], lengths := [], maxbitlen := 0, numcodes := 0 }

/-- The inner loop of `huffman_tree_create` for the code `code` of symbol `n`, of
length `len`, from bit `i` on, with `k` bits left.  The state is `tree2d`,
`nodefilled` and `treepos`; the flag of the result tells that `return 55` was
reached. -/
def huffman_tree_create_bits (numcodes n code len : Nat) :
    Nat → Nat → List Nat × Nat × Nat → Exec (Bool × (List Nat × Nat × Nat))
  | 0, _, st => .ret (false, st)
  | k + 1, i, (tree2d, nodefilled, treepos) =>
    let bit := (code >>> (len - i - 1)) &&& 1
    if treepos > (numcodes + 2 ^ 32 - 2) % 2 ^ 32 then .ret (true, (tree2d, nodefilled, treepos))
    else do
      let idx := (2 * treepos + bit) % 2 ^ 32
      let e ← loadw tree2d idx
      if e = 32767 then
        if i + 1 = len then do
          let t ← storew tree2d idx n
          huffman_tree_create_bits numcodes n code len k (i + 1) (t, nodefilled, 0)
        else do
          let nodefilled1 := (nodefilled + 1) % 2 ^ 32
          let t ← storew tree2d idx ((nodefilled1 + numcodes) % 2 ^ 32)
          huffman_tree_create_bits numcodes n code len k (i + 1) (t, nodefilled1, nodefilled1)
      else
        huffman_tree_create_bits numcodes n code len k (i + 1)
          (tree2d, nodefilled, (e + 2 ^ 32 - numcodes) % 2 ^ 32)

/-- The outer loop of `huffman_tree_create` over the symbols `n`, with `k` symbols
left; the flag of the result tells that `return 55` was reached. -/
def huffman_tree_create_codes (tree : huffman_tree) :
    Nat → Nat → List Nat × Nat × Nat → Exec (Bool × (List Nat × Nat × Nat))
  | 0, _, st => .ret (false, st)
  | k + 1, n, st => do
    let len ← loadw tree.lengths n
    let code ← if len = 0 then .ret 0 else loadw tree.tree1d n
    let r ← huffman_tree_create_bits tree.numcodes n code len len 0 st
    if r.1 then .ret r
    else huffman_tree_create_codes tree k (n + 1) r.2

/-- The function `huffman_tree_create`: the tree and the error code. -/
def huffman_tree_create (tree : huffman_tree) : Exec (huffman_tree × Nat) := do
  let t0 := List.replicate (tree.numcodes * 2) 32767
  let r ← huffman_tree_create_codes tree tree.numcodes 0 (t0, 0, 0)
  if r.1 then .ret ({ tree with tree2d := r.2.1 }, 55)
  else .ret ({ tree with tree2d := r.2.1.map (fun v => if v = 32767 then 0 else v) }, 0)

/-- The function `huffman_tree_create_lengths2`.  The entries of `tree1d` that the
program never writes (symbols of length zero) are never read either; they are shown
as zero. -/
def huffman_tree_create_lengths2 (tree : huffman_tree) : Exec (huffman_tree × Nat) := do
  let blcount0 := List.replicate (tree.maxbitlen + 1) 0
  let nextcode0 := List.replicate (tree.maxbitlen + 1) 0
  let tree1d0 := List.replicate tree.numcodes 0
  let blcount ← for_loop (fun bits (bl : List Nat) => do
      let l ← loadw tree.lengths bits
      let c ← loadw bl l
      storew bl l ((c + 1) % 2 ^ 32))
    tree.numcodes 0 blcount0
  let nextcode ← for_loop (fun bits (nc : List Nat) => do
      let a ← loadw nc (bits - 1)
      let b ← loadw blcount (bits - 1)
      storew nc bits (((a + b) <<< 1) % 2 ^ 32))
    tree.maxbitlen 1 nextcode0
  let (tree1d, _) ← for_loop (fun n (s : List Nat × List Nat) => do
      let l ← loadw tree.lengths n
      if l ≠ 0 then do
        let c ← loadw s.2 l
        let t ← storew s.1 n c
        let nc ← storew s.2 l ((c + 1) % 2 ^ 32)
        pure (t, nc)
      else pure s)
    tree.numcodes 0 (tree1d0, nextcode)
  huffman_tree_create { tree with tree1d := tree1d }

/-- The function `huffman_tree_create_lengths`: the first `numcodes` entries of
`bitlen` become the lengths of the tree. -/
def huffman_tree_create_lengths (tree : huffman_tree) (bitlen : List Nat)
    (numcodes maxbitlen : Nat) : Exec (huffman_tree × Nat) :=
  if bitlen.length < numcodes then .fault
  else
    huffman_tree_create_lengths2
      { tree with lengths := bitlen.take numcodes, numcodes := numcodes % 2 ^ 32,
                  maxbitlen := maxbitlen }

/-- The function `generate_fixed_tree`. -/
def generate_fixed_tree (tree : huffman_tree) : Exec (huffman_tree × Nat) :=
  let bitlen := List.replicate 144 8 ++ List.replicate 112 9 ++ List.replicate 24 7
    ++ List.replicate 8 8
  huffman_tree_create_lengths tree bitlen NUM_DEFLATE_CODE_SYMBOLS 15

/-- The function `generate_distance_tree`. -/
def generate_distance_tree (tree : huffman_tree) : Exec (huffman_tree × Nat) :=
  let bitlen := List.replicate NUM_DISTANCE_SYMBOLS 5
  huffman_tree_create_lengths tree bitlen NUM_DISTANCE_SYMBOLS 15

/-- The function `huffman_tree_decode`: the error code, `decoded`, `result` and the
new `treepos`.  With error 11 the outputs are left as they were (shown as zero). -/
def huffman_tree_decode (tree : huffman_tree) (treepos bit : Nat) :
    Exec (Nat × Bool × Nat × Nat) :=
  if treepos ≥ tree.numcodes then .ret (11, false, 0, treepos)
  else do
    let result ← loadw tree.tree2d ((2 * treepos + bit) % 2 ^ 32)
    let decoded := decide (result < tree.numcodes)
    if decoded then pure (0, decoded, result, 0)
    else pure (0, decoded, result, (result + 2 ^ 32 - tree.numcodes) % 2 ^ 32)

/-- The loop of `huffman_decode_symbol`: the error, the symbol and the bit pointer. -/
def huffman_decode_symbol_loop (inp : List Byte) (codetree : huffman_tree)
    (inlength : Nat) : Nat → Nat → Nat → Exec (Nat × Nat × Nat)
  | 0, _, _ => .nofuel
  | fuel + 1, treepos, bp =>
    if (bp &&& 0x07) = 0 ∧ (bp >>> 3) > inlength then .ret (10, 0, bp)
    else do
      let (bit, bp1) ← read_bit bp inp
      let (err, decoded, ct, treepos1) ← huffman_tree_decode codetree treepos bit
      if err ≠ 0 then pure (err, 0, bp1)
      else if decoded then pure (0, ct, bp1)
      else huffman_decode_symbol_loop inp codetree inlength fuel treepos1 bp1

/-- The function `huffman_decode_symbol`: the error, the symbol and the bit pointer.
Every round of the loop reads one bit of `inp`, so `8 * inp.length + 1` rounds are
never exhausted. -/
def huffman_decode_symbol (inp : List Byte) (bp : Nat) (codetree : huffman_tree)
    (inlength : Nat) : Exec (Nat × Nat × Nat) :=
  huffman_decode_symbol_loop inp codetree inlength (8 * inp.length + 1) 0 bp

/-- The function `get_tree_inflate_fixed`; the error codes of the two generators
are discarded, as in the source. -/
def get_tree_inflate_fixed (tree treeD : huffman_tree) : Exec (huffman_tree × huffman_tree) := do
  let (t, _) ← generate_fixed_tree tree
  let (tD, _) ← generate_distance_tree treeD
  pure (t, tD)

/-! ## Dynamic tree header -/

/-- The three repeat loops of `get_tree_inflate_dynamic` (`for (n = 0; n < replength;
n++)`), which differ only in the value stored and in the error code: `k` rounds
left, position `i`.  The result is the error, `i`, `bitlen` and `bitlenD`. -/
def repeat_lengths (HLIT HDIST value errcode : Nat) :
    Nat → Nat → List Nat → List Nat → Exec (Nat × Nat × List Nat × List Nat)
  | 0, i, bitlen, bitlenD => .ret (0, i, bitlen, bitlenD)
  | k + 1, i, bitlen, bitlenD =>
    if i ≥ HLIT + HDIST then .ret (errcode, i, bitlen, bitlenD)
    else if i < HLIT then do
      let b ← storew bitlen i value
      repeat_lengths HLIT HDIST value errcode k (i + 1) b bitlenD
    else do
      let b ← storew bitlenD (i - HLIT) value
      repeat_lengths HLIT HDIST value errcode k (i + 1) bitlen b

/-- The loop `while (i < HLIT + HDIST)` of `get_tree_inflate_dynamic`.  The result
is the error, `bitlen`, `bitlenD` and the bit pointer.  A repeat loop that breaks
with an error leaves `i >= HLIT + HDIST`, which ends the `while` as well. -/
def read_code_lengths (inp : List Byte) (inlength : Nat) (cltree : huffman_tree)
    (HLIT HDIST : Nat) :
    Nat → Nat → List Nat → List Nat → Nat → Exec (Nat × List Nat × List Nat × Nat)
  | 0, _, _, _, _ => .nofuel
  | fuel + 1, i, bitlen, bitlenD, bp =>
    if ¬ (i < HLIT + HDIST) then .ret (0, bitlen, bitlenD, bp)
    else do
      let (err, code, bp1) ← huffman_decode_symbol inp bp cltree inlength
      if err ≠ 0 then pure (err, bitlen, bitlenD, bp1)
      else if code ≤ 15 then
        if i < HLIT then do
          let b ← storew bitlen i code
          read_code_lengths inp inlength cltree HLIT HDIST fuel (i + 1) b bitlenD bp1
        else do
          let b ← storew bitlenD (i - HLIT) code
          read_code_lengths inp inlength cltree HLIT HDIST fuel (i + 1) bitlen b bp1
      else if code = 16 then
        if (bp1 >>> 3) ≥ inlength then pure (50, bitlen, bitlenD, bp1)
        else do
          let (v, bp2) ← read_bits bp1 inp 2
          let replength := 3 + v
          let value ←
            if (i + 2 ^ 32 - 1) % 2 ^ 32 < HLIT then loadw bitlen ((i + 2 ^ 32 - 1) % 2 ^ 32)
            else loadw bitlenD ((i + 2 * 2 ^ 32 - HLIT - 1) % 2 ^ 32)
          let (e, i1, b, bD) ← repeat_lengths HLIT HDIST value 13 replength i bitlen bitlenD
          if e ≠ 0 then pure (e, b, bD, bp2)
          else read_code_lengths inp inlength cltree HLIT HDIST fuel i1 b bD bp2
      else if code = 17 then
        if (bp1 >>> 3) ≥ inlength then pure (50, bitlen, bitlenD, bp1)
        else do
          let (v, bp2) ← read_bits bp1 inp 3
          let replength := 3 + v
          let (e, i1, b, bD) ← repeat_lengths HLIT HDIST 0 14 replength i bitlen bitlenD
          if e ≠ 0 then pure (e, b, bD, bp2)
          else read_code_lengths inp inlength cltree HLIT HDIST fuel i1 b bD bp2
      else if code = 18 then
        if (bp1 >>> 3) ≥ inlength then pure (50, bitlen, bitlenD, bp1)
        else do
          let (v, bp2) ← read_bits bp1 inp 7
          let replength := 11 + v
          let (e, i1, b, bD) ← repeat_lengths HLIT HDIST 0 15 replength i bitlen bitlenD
          if e ≠ 0 then pure (e, b, bD, bp2)
          else read_code_lengths inp inlength cltree HLIT HDIST fuel i1 b bD bp2
      else pure (16, bitlen, bitlenD, bp1)

/-- The loop of `get_tree_inflate_dynamic` that reads the code length code lengths
in the order of `CLCL`. -/
def read_clcl (inp : List Byte) (HCLEN : Nat) (bp : Nat) : Exec (List Nat × Nat) :=
  for_loop (fun i (s : List Nat × Nat) => do
      let slot ← loadw CLCL i
      if i < HCLEN then do
        let (v, bp1) ← read_bits s.2 inp 3
        let c ← storew s.1 slot v
        pure (c, bp1)
      else do
        let c ← storew s.1 slot 0
        pure (c, s.2))
    NUM_CODE_LENGTH_CODES 0 (List.replicate NUM_CODE_LENGTH_CODES 0, bp)

/-- The function `get_tree_inflate_dynamic`: the error, the two trees and the bit
pointer.  (The third tree, `codelengthcodetree`, is local to the only caller.) -/
def get_tree_inflate_dynamic (codetree codetreeD codelengthcodetree : huffman_tree)
    (inp : List Byte) (bp inlength : Nat) :
    Exec (Nat × huffman_tree × huffman_tree × Nat) :=
  if (bp >>> 3) ≥ (inlength + 2 ^ 64 - 2) % 2 ^ 64 then .ret (49, codetree, codetreeD, bp)
  else do
    let (v1, bp1) ← read_bits bp inp 5
    let HLIT := v1 + 257
    let (v2, bp2) ← read_bits bp1 inp 5
    let HDIST := v2 + 1
    let (v3, bp3) ← read_bits bp2 inp 4
    let HCLEN := v3 + 4
    let (codelengthcode, bp4) ← read_clcl inp HCLEN bp3
    let (cltree, error) ←
      huffman_tree_create_lengths codelengthcodetree codelengthcode NUM_CODE_LENGTH_CODES 7
    if error ≠ 0 then pure (error, codetree, codetreeD, bp4)
    else do
      let bitlen0 := List.replicate NUM_DEFLATE_CODE_SYMBOLS 0
      let bitlenD0 := List.replicate NUM_DISTANCE_SYMBOLS 0
      let (error1, bitlen, bitlenD, bp5) ←
        read_code_lengths inp inlength cltree HLIT HDIST (8 * inp.length + 1) 0 bitlen0 bitlenD0 bp4
      let l256 ← loadw bitlen 256
      let error2 := if error1 = 0 ∧ l256 = 0 then 64 else error1
      if error2 ≠ 0 then pure (error2, codetree, codetreeD, bp5)
      else do
        let (t, error3) ← huffman_tree_create_lengths codetree bitlen NUM_DEFLATE_CODE_SYMBOLS 15
        if error3 ≠ 0 then pure (error3, t, codetreeD, bp5)
        else do
          let (tD, error4) ← huffman_tree_create_lengths codetreeD bitlenD NUM_DISTANCE_SYMBOLS 15
          pure (error4, t, tD, bp5)

/-! ## Inflate -/

/-- One round of the back-reference copy loop of `inflate_huffman`
(`out->data[pos] = out->data[backward]; pos++; backward++; ...`); the state is the
data of `out`, `pos` and `backward`. -/
def copy_back (start distance : Nat) (s : List Byte × Nat × Nat) :
    Exec (List Byte × Nat × Nat) := do
  let b ← load s.1 s.2.2
  let d ← store s.1 s.2.1 (toByte b)
  let backward1 := (s.2.2 + 1) % 2 ^ 64
  let backward2 := if backward1 ≥ start then (start + 2 ^ 64 - distance) % 2 ^ 64 else backward1
  pure (d, s.2.1 + 1, backward2)

/-- The loop `while (!endreached && !error)` of `inflate_huffman`: the error, `out`,
the bit pointer and `pos`. -/
def inflate_huffman_loop (inp : List Byte) (inlength : Nat) (codetree codetreeD : huffman_tree) :
    Nat → ucvector → Nat → Nat → Exec (Nat × ucvector × Nat × Nat)
  | 0, _, _, _ => .nofuel
  | fuel + 1, out, bp, pos => do
    let (err, code, bp1) ← huffman_decode_symbol inp bp codetree inlength
    if err ≠ 0 then pure (err, out, bp1, pos)
    else if code = 256 then pure (0, out, bp1, pos)
    else if code ≤ 255 then
      let out1 := if pos ≥ out.size then ucvector_resize out ((pos + 1) * 2) else out
      if pos ≥ out1.size then pure (9913, out1, bp1, pos)
      else do
        let d ← store out1.data pos (toByte code)
        inflate_huffman_loop inp inlength codetree codetreeD fuel { out1 with data := d } bp1
          (pos + 1)
    else if code ≥ FIRST_LENGTH_CODE_INDEX ∧ code ≤ LAST_LENGTH_CODE_INDEX then do
      let lbase ← loadw LENGTHBASE (code - FIRST_LENGTH_CODE_INDEX)
      let numextrabits ← loadw LENGTHEXTRA (code - FIRST_LENGTH_CODE_INDEX)
      if (bp1 >>> 3) ≥ inlength then pure (51, out, bp1, pos)
      else do
        let (v, bp2) ← read_bits bp1 inp numextrabits
        let length := lbase + v
        let (errD, codeD, bp3) ← huffman_decode_symbol inp bp2 codetreeD inlength
        if errD ≠ 0 then pure (errD, out, bp3, pos)
        else if codeD > 29 then pure (18, out, bp3, pos)
        else do
          let dbase ← loadw DISTANCEBASE codeD
          let numextrabitsD ← loadw DISTANCEEXTRA codeD
          if (bp3 >>> 3) ≥ inlength then pure (51, out, bp3, pos)
          else do
            let (vD, bp4) ← read_bits bp3 inp numextrabitsD
            let distance := (dbase + vD) % 2 ^ 32
            let start := pos
            let backward := (start + 2 ^ 64 - distance) % 2 ^ 64
            let out1 :=
              if pos + length ≥ out.size then ucvector_resize out ((pos + length) * 2) else out
            if pos + length ≥ out1.size then pure (9914, out1, bp4, pos)
            else do
              let (d, pos1, _) ← for_loop (fun _ s => copy_back start distance s) length 0
                (out1.data, pos, backward)
              inflate_huffman_loop inp inlength codetree codetreeD fuel { out1 with data := d }
                bp4 pos1
    else inflate_huffman_loop inp inlength codetree codetreeD fuel out bp1 pos

/-- The function `inflate_huffman`: the error, `out`, the bit pointer and `pos`.
Every round of the loop decodes a symbol, which reads at least one bit of `inp`, so
`8 * inp.length + 1` rounds are never exhausted. -/
def inflate_huffman (out : ucvector) (inp : List Byte) (bp pos inlength btype : Nat) :
    Exec (Nat × ucvector × Nat × Nat) := do
  let (error, codetree, codetreeD, bp1) ←
    if btype = 1 then do
      let (t, tD) ← get_tree_inflate_fixed huffman_tree_init huffman_tree_init
      pure (0, t, tD, bp)
    else if btype = 2 then
      get_tree_inflate_dynamic huffman_tree_init huffman_tree_init huffman_tree_init inp bp
        inlength
    else pure (0, huffman_tree_init, huffman_tree_init, bp)
  if error ≠ 0 then pure (error, out, bp1, pos)
  else inflate_huffman_loop inp inlength codetree codetreeD (8 * inp.length + 1) out bp1 pos

/-- The function `inflate_nocmp`: the error, `out`, the bit pointer and `pos`.  The
loop `while ((bp & 7) != 0) bp++` is written as rounding up to a multiple of 8. -/
def inflate_nocmp (out : ucvector) (inp : List Byte) (bp pos inlength : Nat) :
    Exec (Nat × ucvector × Nat × Nat) :=
  let bp1 := (bp + 7) / 8 * 8
  let p := bp1 / 8
  if p ≥ (inlength + 2 ^ 64 - 4) % 2 ^ 64 then .ret (52, out, bp1, pos)
  else do
    let l0 ← load inp p
    let l1 ← load inp (p + 1)
    let LEN := l0 + 256 * l1
    let p := p + 2
    let n0 ← load inp p
    let n1 ← load inp (p + 1)
    let NLEN := n0 + 256 * n1
    let p := p + 2
    if LEN + NLEN ≠ 65535 then pure (21, out, bp1, pos)
    else
      let out1 := if pos + LEN ≥ out.size then ucvector_resize out (pos + LEN) else out
      if p + LEN > inlength then pure (23, out1, bp1, pos)
      else do
        let (d, pos1, p1) ← for_loop (fun _ (s : List Byte × Nat × Nat) => do
            let b ← load inp s.2.2
            let d ← store s.1 s.2.1 (toByte b)
            pure (d, s.2.1 + 1, s.2.2 + 1))
          LEN 0 (out1.data, pos, p)
        pure (0, { out1 with data := d }, p1 * 8, pos1)

/-- The loop `while (!BFINAL)` of `uz_inflate`, with the final `ucvector_resize`:
the error and `out`.  Here `inp` is already `&in[inpos]`. -/
def uz_inflate_loop (inp : List Byte) (insize : Nat) :
    Nat → ucvector → Nat → Nat → Exec (Nat × ucvector)
  | 0, _, _, _ => .nofuel
  | fuel + 1, out, bp, pos =>
    if (bp >>> 3) ≥ insize then .ret (52, out)
    else do
      let (BFINAL, bp1) ← read_bit bp inp
      let (t0, bp2) ← read_bit bp1 inp
      let (t1, bp3) ← read_bit bp2 inp
      let BTYPE := 1 * t0 + 2 * t1
      if BTYPE = 3 then pure (20, out)
      else do
        let (error, out1, bp4, pos1) ←
          if BTYPE = 0 then inflate_nocmp out inp bp3 pos insize
          else inflate_huffman out inp bp3 pos insize BTYPE
        if error ≠ 0 then pure (error, out1)
        else if BFINAL ≠ 0 then pure (0, ucvector_resize out1 pos1)
        else uz_inflate_loop inp insize fuel out1 bp4 pos1

/-- The function `uz_inflate`: the error and `out`.  Every round of the loop reads
three bits of the input, so `8 * inp.length + 1` rounds are never exhausted. -/
def uz_inflate (out : ucvector) (inp : List Byte) (insize inpos : Nat) : Exec (Nat × ucvector) :=
  uz_inflate_loop (inp.drop inpos) insize (8 * inp.length + 1) out 0 0

/-- The function `uzlib_decompress`: the error and the new values of `*out` and
`*outsize`.  `inp` lists the determined bytes at `in`. -/
def uzlib_decompress (out : List Byte) (outsize : Nat) (inp : List Byte) (insize : Nat) :
    Exec (Nat × List Byte × Nat) :=
  if insize < 2 then .ret (53, out, outsize)
  else do
    let b0 ← load inp 0
    let b1 ← load inp 1
    if (b0 * 256 + b1) % 31 ≠ 0 then pure (24, out, outsize)
    else
      let CM := b0 &&& 15
      let CINFO := (b0 >>> 4) &&& 15
      let FDICT := (b1 >>> 5) &&& 1
      if CM ≠ 8 ∨ CINFO > 7 then pure (25, out, outsize)
      else if FDICT ≠ 0 then pure (26, out, outsize)
      else do
        let outv := ucvector_init_buffer out outsize
        let (error, outv1) ← uz_inflate outv inp insize 2
        pure (error, outv1.data, outv1.size)

/-! ## Scanline reconstruction

The functions below receive pointers that may alias (`unfilter(in, in, ...)`), so they
run on a small memory with two objects: the block of the output vector and the block
of the inflated scanlines. -/

/-- The two objects a pointer can point into. -/
inductive Obj where
  /-- the block of the output vector -/
  | outb : Obj
  /-- the block of the inflated scanlines -/
  | inb : Obj
deriving DecidableEq

/-- The determined bytes of the two objects. -/
structure Mem where
  outb : List Byte
  inb : List Byte
deriving DecidableEq

/-- A pointer: an object and an offset into it. -/
structure Ptr where
  obj : Obj
  off : Nat
deriving DecidableEq

/-- Pointer arithmetic `p + k`. -/
def Ptr.add (p : Ptr) (k : Nat) : Ptr := { p with off := p.off + k }

/-- The bytes of the object a pointer points into. -/
def Mem.bytes (m : Mem) (o : Obj) : List Byte :=
  match o with
  | .outb => m.outb
  | .inb => m.inb

/-- Load of `p[i]`. -/
def Mem.load (m : Mem) (p : Ptr) (i : Nat) : Exec Nat :=
  upng.load (m.bytes p.obj) (p.off + i)

/-- Store `p[i] = v`. -/
def Mem.store (m : Mem) (p : Ptr) (i : Nat) (v : Byte) : Exec Mem :=
  match p.obj with
  | .outb => do
    let d ← poke m.outb (p.off + i) v
    pure { m with outb := d }
  | .inb => do
    let d ← poke m.inb (p.off + i) v
    pure { m with inb := d }

/-- Conversion of an `int` to `unsigned char`. -/
def toByteI (z : Int) : Byte := toByte (z % 256).toNat

/-- The function `paeth_predictor`. -/
def paeth_predictor (a b c : Int) : Int :=
  let p := a + b - c
  let pa := if p > a then p - a else a - p
  let pb := if p > b then p - b else b - p
  let pc := if p > c then p - c else c - p
  if pa ≤ pb ∧ pa ≤ pc then a
  else if pb ≤ pc then b
  else c

/-- The function `unfilter_scanline`: the memory and the error code.  `precon` is
`none` for the null pointer. -/
def unfilter_scanline (m : Mem) (recon scanline : Ptr) (precon : Option Ptr)
    (bytewidth filterType length : Nat) : Exec (Mem × Nat) :=
  let copy := fun (i : Nat) (m : Mem) => do
    let s ← m.load scanline i
    m.store recon i (toByte s)
  if filterType = 0 then do
    let m1 ← for_loop copy length 0 m
    pure (m1, UPNG_EOK)
  else if filterType = 1 then do
    let m1 ← for_loop copy bytewidth 0 m
    let m2 ← for_loop (fun i (m : Mem) => do
        let s ← m.load scanline i
        let r ← m.load recon (i - bytewidth)
        m.store recon i (toByte (s + r)))
      (length - bytewidth) bytewidth m1
    pure (m2, UPNG_EOK)
  else if filterType = 2 then
    match precon with
    | some pre => do
      let m1 ← for_loop (fun i (m : Mem) => do
          let s ← m.load scanline i
          let u ← m.load pre i
          m.store recon i (toByte (s + u)))
        length 0 m
      pure (m1, UPNG_EOK)
    | none => do
      let m1 ← for_loop copy length 0 m
      pure (m1, UPNG_EOK)
  else if filterType = 3 then
    match precon with
    | some pre => do
      let m1 ← for_loop (fun i (m : Mem) => do
          let s ← m.load scanline i
          let u ← m.load pre i
          m.store recon i (toByte (s + u / 2)))
        bytewidth 0 m
      let m2 ← for_loop (fun i (m : Mem) => do
          let s ← m.load scanline i
          let r ← m.load recon (i - bytewidth)
          let u ← m.load pre i
          m.store recon i (toByte (s + (r + u) / 2)))
        (length - bytewidth) bytewidth m1
      pure (m2, UPNG_EOK)
    | none => do
      let m1 ← for_loop copy bytewidth 0 m
      let m2 ← for_loop (fun i (m : Mem) => do
          let s ← m.load scanline i
          let r ← m.load recon (i - bytewidth)
          m.store recon i (toByte (s + r / 2)))
        (length - bytewidth) bytewidth m1
      pure (m2, UPNG_EOK)
  else if filterType = 4 then
    match precon with
    | some pre => do
      let m1 ← for_loop (fun i (m : Mem) => do
          let s ← m.load scanline i
          let u ← m.load pre i
          m.store recon i (toByteI ((s : Int) + paeth_predictor 0 u 0)))
        bytewidth 0 m
      let m2 ← for_loop (fun i (m : Mem) => do
          let s ← m.load scanline i
          let r ← m.load recon (i - bytewidth)
          let u ← m.load pre i
          let ul ← m.load pre (i - bytewidth)
          m.store recon i (toByteI ((s : Int) + paeth_predictor r u ul)))
        (length - bytewidth) bytewidth m1
      pure (m2, UPNG_EOK)
    | none => do
      let m1 ← for_loop copy bytewidth 0 m
      let m2 ← for_loop (fun i (m : Mem) => do
          let s ← m.load scanline i
          let r ← m.load recon (i - bytewidth)
          m.store recon i (toByteI ((s : Int) + paeth_predictor r 0 0)))
        (length - bytewidth) bytewidth m1
      pure (m2, UPNG_EOK)
  else .ret (m, UPNG_EUNSUPPORTED)

/-- The loop `for (y = 0; y < h; y++)` of `unfilter`, with `k` lines left: the
memory and the error code. -/
def unfilter_lines (out inp : Ptr) (bytewidth linebytes : Nat) :
    Nat → Nat → Option Ptr → Mem → Exec (Mem × Nat)
  | 0, _, _, m => .ret (m, UPNG_EOK)
  | k + 1, y, prevline, m => do
    let outindex := linebytes * y
    let inindex := (1 + linebytes) * y
    let filterType ← m.load inp inindex
    let (m1, error) ← unfilter_scanline m (out.add outindex) (inp.add (inindex + 1)) prevline
      bytewidth filterType linebytes
    if error ≠ 0 then pure (m1, error)
    else unfilter_lines out inp bytewidth linebytes k (y + 1) (some (out.add outindex)) m1

/-- The function `unfilter`: the memory and the error code. -/
def unfilter (m : Mem) (out inp : Ptr) (w h bpp : Nat) : Exec (Mem × Nat) :=
  let bytewidth := ((bpp + 7) % 2 ^ 32) / 8
  let linebytes := (((w * bpp) % 2 ^ 32 + 7) % 2 ^ 32) / 8
  unfilter_lines out inp bytewidth linebytes h 0 none m

/-- The body of the inner loop of `remove_padding_bits`; the state is the memory,
`obp` and `ibp`. -/
def move_bit (out inp : Ptr) (s : Mem × Nat × Nat) : Exec (Mem × Nat × Nat) := do
  let obp := s.2.1
  let ibp := s.2.2
  let b ← s.1.load inp (ibp >>> 3)
  let bit := (b >>> (7 - (ibp &&& 0x7))) &&& 1
  let o ← s.1.load out (obp >>> 3)
  let m1 ←
    if bit = 0 then s.1.store out (obp >>> 3) (toByte (o &&& (255 ^^^ (1 <<< (7 - (obp &&& 0x7))))))
    else s.1.store out (obp >>> 3) (toByte (o ||| (1 <<< (7 - (obp &&& 0x7)))))
  pure (m1, obp + 1, ibp + 1)

/-- The function `remove_padding_bits`. -/
def remove_padding_bits (m : Mem) (out inp : Ptr) (olinebits ilinebits h : Nat) : Exec Mem := do
  let diff := (ilinebits + 2 ^ 64 - olinebits) % 2 ^ 64
  let (m1, _, _) ← for_loop (fun _ (s : Mem × Nat × Nat) => do
      let (m2, obp, ibp) ← for_loop (fun _ s => move_bit out inp s) olinebits 0 s
      pure (m2, obp, ibp + diff))
    h 0 (m, 0, 0)
  pure m1

/-- The function `post_process_scanlines`: the memory and the error code. -/
def post_process_scanlines (m : Mem) (out inp : Ptr) (info_png : upng_info) :
    Exec (Mem × Nat) :=
  let bpp := upng_get_bpp info_png
  let w := info_png.width
  let h := info_png.height
  if bpp = 0 then .ret (m, UPNG_EUNSUPPORTED)
  else
    let wb := (w * bpp) % 2 ^ 32
    let padded := ((((wb + 7) % 2 ^ 32) / 8) * 8) % 2 ^ 32
    if bpp < 8 ∧ wb ≠ padded then do
      let (m1, error) ← unfilter m inp inp w h bpp
      if error ≠ 0 then pure (m1, error)
      else do
        let m2 ← remove_padding_bits m1 out inp wb padded h
        pure (m2, error)
    else unfilter m out inp w h bpp

/-! ## Decoding -/

/-- Conversion of the `int` produced by `MAKE_DWORD` (given as its 32-bit pattern)
to `unsigned long`: a pattern with the top bit set is a negative `int` and is
sign-extended. -/
def int_to_ulong (pattern : Nat) : Nat :=
  if pattern ≥ 2 ^ 31 then pattern + (2 ^ 64 - 2 ^ 32) else pattern

/-- The chunk loop `while (iend == 0 && chunk < in + size)` of `upng_decode`, with
`chunk` the offset of the current chunk: the handle and the `idat` vector when the
loop is left (by its condition or by `break`). -/
def chunk_loop (inp : List Byte) : Nat → Nat → ucvector → upng_info → Exec (upng_info × ucvector)
  | 0, _, _, _ => .nofuel
  | fuel + 1, chunk, idat, info =>
    if ¬ (chunk < inp.length) then .ret (info, idat)
    else if chunk + 12 > inp.length then .ret (SET_ERROR info UPNG_EMALFORMED 1017, idat)
    else
      let length := int_to_ulong (upng_chunk_length inp chunk)
      if length > INT_MAX then .ret (SET_ERROR info UPNG_EMALFORMED 1024, idat)
      else if chunk + length + 12 > inp.length then
        .ret (SET_ERROR info UPNG_EMALFORMED 1030, idat)
      else if upng_chunk_type inp chunk = CHUNK_IDAT then do
        let idat1 := ucvector_resize idat (idat.size + length)
        let d ← memcpy idat1.data (idat1.size - length) inp (chunk + 8) length
        chunk_loop inp fuel (chunk + (upng_chunk_length inp chunk + 12)) { idat1 with data := d }
          info
      else if upng_chunk_type inp chunk = CHUNK_IEND then .ret (info, idat)
      else if upng_chunk_critical inp chunk then
        .ret (SET_ERROR info UPNG_EUNSUPPORTED 1050, idat)
      else chunk_loop inp fuel (chunk + (upng_chunk_length inp chunk + 12)) idat info

/-- The vector `scanlines` of `upng_decode` after `ucvector_init` and its
`ucvector_resize` to `((width * (height * bpp + 7)) / 8) + height`, computed in
`unsigned` arithmetic. -/
def scanlines_vector (info : upng_info) : ucvector :=
  ucvector_resize ucvector_init
    ((((info.width * (((info.height * upng_get_bpp info) % 2 ^ 32 + 7) % 2 ^ 32)) % 2 ^ 32) / 8
      + info.height) % 2 ^ 32)

/-- The size `(height * width * bpp + 7) / 8` that `upng_decode` gives to the output
vector, computed in `unsigned` arithmetic. -/
def output_size (info : upng_info) : Nat :=
  (((((info.height * info.width) % 2 ^ 32) * upng_get_bpp info) % 2 ^ 32 + 7) % 2 ^ 32) / 8

/-- The block `if (info->error == UPNG_EOK) { ... }` of `upng_decode` that inflates
and unfilters: the handle and the locals `buffer` and `buffer_size` (indeterminate
when the block does not assign them). -/
def decode_image (info : upng_info) (idat : ucvector) :
    Exec (upng_info × buffer_ptr × Option Nat) :=
  if info.error = UPNG_EOK then do
    let scanlines := scanlines_vector info
    let (e, sdata, _) ← uzlib_decompress scanlines.data scanlines.size idat.data idat.size
    let info1 := SET_ERROR info e 1068
    if info1.error = UPNG_EOK then do
      let outv ← ucvector_resizev ucvector_init (output_size info1) 0
      let (m, e1) ← post_process_scanlines { outb := outv.data, inb := sdata }
        { obj := .outb, off := 0 } { obj := .inb, off := 0 } info1
      let info2 := SET_ERROR info1 e1 1079
      pure (info2, if outv.allocsize = 0 then .null else .block m.outb, some outv.size)
    else pure (info1, .garbage, none)
  else pure (info, .garbage, none)

/-- The function `upng_decode`: the handle and the return value.  Every round of
the chunk loop advances `chunk` by at least 12, so `inp.length` rounds are never
exhausted.  Freeing `img_buffer` when it holds an indeterminate value is undefined. -/
def upng_decode (info : upng_info) (inp : List Byte) : Exec (upng_info × Nat) :=
  if inp.length = 0 then
    let info := SET_ERROR info UPNG_ENOTPNG 998
    .ret (info, info.error)
  else
    let info := (upng_inspect info inp).1
    if info.error ≠ UPNG_EOK then .ret (info, info.error)
    else do
      let (info1, idat) ← chunk_loop inp inp.length 33 ucvector_init info
      let (info2, buffer, buffer_size) ← decode_image info1 idat
      if info2.img_buffer = .garbage then .fault
      else
        let info3 := { info2 with img_buffer := buffer, img_size := buffer_size }
        pure (info3, info3.error)

/-! ## Notions used to state the properties -/

/-- The eight bytes of the PNG signature, `89 50 4E 47 0D 0A 1A 0A`. -/
def PNG_SIGNATURE : List Byte := [137, 80, 78, 71, 13, 10, 26, 10]

/-- The ASCII tag `IHDR`. -/
def IHDR_TAG : List Byte := [73, 72, 68, 82]

/-- The input has at least 29 bytes, starts with the PNG signature and carries the
tag `IHDR` in bytes 12..15. -/
def header_framed (inp : List Byte) : Prop :=
  29 ≤ inp.length ∧ inp.take 8 = PNG_SIGNATURE ∧ (inp.drop 12).take 4 = IHDR_TAG

instance (inp : List Byte) : Decidable (header_framed inp) := by
  unfold header_framed; infer_instance

/-- The pairs of colour type and depth that the spec accepts: GREY with depth 1, 2,
4, 8 or 16; RGB, GREY_ALPHA and RGBA with depth 8 or 16. -/
def accepted_pair (color_type depth : Nat) : Prop :=
  (color_type = UPNG_GREY ∧ (depth = 1 ∨ depth = 2 ∨ depth = 4 ∨ depth = 8 ∨ depth = 16)) ∨
  ((color_type = UPNG_RGB ∨ color_type = UPNG_GREY_ALPHA ∨ color_type = UPNG_RGBA) ∧
    (depth = 8 ∨ depth = 16))

instance (c d : Nat) : Decidable (accepted_pair c d) := by
  unfold accepted_pair; infer_instance

/-- A 29-byte header (signature and the start of IHDR) with width 0, height 0,
depth 8 and colour type RGB. -/
def header_zero_width : List Byte :=
  [137, 80, 78, 71, 13, 10, 26, 10, 0, 0, 0, 13, 73, 72, 68, 82,
   0, 0, 0, 0, 0, 0, 0, 0, 8, 2, 0, 0, 0]

/-- A 29-byte header of a 1x1 image with depth 8 and colour type 3 (palette), which
is outside the four colour types of `upng_color`. -/
def header_palette : List Byte :=
  [137, 80, 78, 71, 13, 10, 26, 10, 0, 0, 0, 13, 73, 72, 68, 82,
   0, 0, 0, 1, 0, 0, 0, 1, 8, 3, 0, 0, 0]

/-- A 29-byte header of a 1x1 RGB image of depth 8 with interlace method 1. -/
def header_interlaced : List Byte :=
  [137, 80, 78, 71, 13, 10, 26, 10, 0, 0, 0, 13, 73, 72, 68, 82,
   0, 0, 0, 1, 0, 0, 0, 1, 8, 2, 0, 0, 1]

/-- A 29-byte header of a 1x1 RGB image of depth 8. -/
def header_rgb8 : List Byte :=
  [137, 80, 78, 71, 13, 10, 26, 10, 0, 0, 0, 13, 73, 72, 68, 82,
   0, 0, 0, 1, 0, 0, 0, 1, 8, 2, 0, 0, 0]

/-- The handle left by `upng_decode` on the empty input: error NOT_PNG. -/
def handle_after_empty : upng_info := SET_ERROR upng_new UPNG_ENOTPNG 998

/-- A complete PNG file of a 1x1 RGB image of depth 8 with the pixel `FF 00 00`: one
IDAT chunk holding the zlib header `78 01` and a final stored block. -/
def png_red_1x1 : List Byte :=
  [137, 80, 78, 71, 13, 10, 26, 10, 0, 0, 0, 13, 73, 72, 68, 82,
   0, 0, 0, 1, 0, 0, 0, 1, 8, 2, 0, 0, 0, 144, 119, 83,
   222, 0, 0, 0, 11, 73, 68, 65, 84, 120, 1, 1, 4, 0, 251, 255,
   0, 255, 0, 0, 95, 146, 230, 200, 0, 0, 0, 0, 73, 69, 78, 68,
   174, 66, 96, 130]

/-- A complete PNG file whose header declares a GREY image of depth 8, width
`2 ^ 29` and height 1, and whose IDAT chunk holds a final stored block with the single
byte 0. -/
def png_wide_grey : List Byte :=
  [137, 80, 78, 71, 13, 10, 26, 10, 0, 0, 0, 13, 73, 72, 68, 82,
   32, 0, 0, 0, 0, 0, 0, 1, 8, 0, 0, 0, 0, 102, 194, 187,
   158, 0, 0, 0, 8, 73, 68, 65, 84, 120, 1, 1, 1, 0, 254, 255,
   0, 237, 200, 133, 171, 0, 0, 0, 0, 73, 69, 78, 68, 174, 66, 96,
   130]

/-- A complete PNG file of a 1x1 RGB image whose IDAT chunk holds the zlib header
`78 01` and a block with BTYPE = 3. -/
def png_btype3 : List Byte :=
  [137, 80, 78, 71, 13, 10, 26, 10, 0, 0, 0, 13, 73, 72, 68, 82,
   0, 0, 0, 1, 0, 0, 0, 1, 8, 2, 0, 0, 0, 144, 119, 83,
   222, 0, 0, 0, 3, 73, 68, 65, 84, 120, 1, 7, 36, 87, 211, 168,
   0, 0, 0, 0, 73, 69, 78, 68, 174, 66, 96, 130]

/-- The chunk at offset `o` is well framed: its 12 bytes of framing lie inside
the input, its declared length is at most `INT_MAX`, and framing plus payload lie inside
the input. -/
def well_framed (inp : List Byte) (o : Nat) : Prop :=
  o + 12 ≤ inp.length ∧ int_to_ulong (upng_chunk_length inp o) ≤ INT_MAX ∧
    o + int_to_ulong (upng_chunk_length inp o) + 12 ≤ inp.length

instance (inp : List Byte) (o : Nat) : Decidable (well_framed inp o) := by
  unfold well_framed; infer_instance

/-- The chunk at offset `o` is one the chunk walk steps over without an error: it is
well framed and it is an IDAT chunk or a chunk that is neither IEND nor critical. -/
def stepped_over (inp : List Byte) (o : Nat) : Prop :=
  well_framed inp o ∧
    (upng_chunk_type inp o = CHUNK_IDAT ∨
      (upng_chunk_type inp o ≠ CHUNK_IEND ∧ upng_chunk_critical inp o = false))

instance (inp : List Byte) (o : Nat) : Decidable (stepped_over inp o) := by
  unfold stepped_over; infer_instance

/-- Walking the chunks from offset `o`: the offset of the first chunk that the walk does
not step over (an ill-framed chunk, an IEND chunk, an unknown critical chunk), or
the first offset past the input. -/
def first_stop (inp : List Byte) : Nat → Nat → Nat
  | 0, o => o
  | fuel + 1, o =>
    if o < inp.length ∧ stepped_over inp o then
      first_stop inp fuel (o + (upng_chunk_length inp o + 12))
    else o

/-- Where the chunk walk of `upng_decode`, which starts at offset 33, stops. -/
def chunk_walk_stop (inp : List Byte) : Nat := first_stop inp inp.length 33

/-- The 1x1 red PNG with a chunk of type `ABCD` (critical: bit 5 of `A` is clear)
between IHDR and IDAT. -/
def png_unknown_critical : List Byte :=
  [137, 80, 78, 71, 13, 10, 26, 10, 0, 0, 0, 13, 73, 72, 68, 82,
   0, 0, 0, 1, 0, 0, 0, 1, 8, 2, 0, 0, 0, 144, 119, 83,
   222, 0, 0, 0, 2, 65, 66, 67, 68, 1, 2, 94, 210, 241, 225, 0,
   0, 0, 11, 73, 68, 65, 84, 120, 1, 1, 4, 0, 251, 255, 0, 255,
   0, 0, 95, 146, 230, 200, 0, 0, 0, 0, 73, 69, 78, 68, 174, 66,
   96, 130]

/-- The 1x1 red PNG with a chunk of type `tEXt` (ancillary: bit 5 of `t` is set)
between IHDR and IDAT. -/
def png_with_text : List Byte :=
  [137, 80, 78, 71, 13, 10, 26, 10, 0, 0, 0, 13, 73, 72, 68, 82,
   0, 0, 0, 1, 0, 0, 0, 1, 8, 2, 0, 0, 0, 144, 119, 83,
   222, 0, 0, 0, 3, 116, 69, 88, 116, 65, 0, 66, 223, 106, 196, 19,
   0, 0, 0, 11, 73, 68, 65, 84, 120, 1, 1, 4, 0, 251, 255, 0,
   255, 0, 0, 95, 146, 230, 200, 0, 0, 0, 0, 73, 69, 78, 68, 174,
   66, 96, 130]

/-- The four bytes of a 32-bit value, most significant first. -/
def be32 (n : Nat) : List Byte :=
  [toByte (n / 2 ^ 24), toByte (n / 2 ^ 16), toByte (n / 2 ^ 8), toByte n]

/-- The two bytes of a 16-bit value, least significant first. -/
def le16 (n : Nat) : List Byte := [toByte n, toByte (n / 256)]

/-- The four bytes of the CRC field of a chunk; the decoder does not look at them. -/
structure crc_field where
  b0 : Byte
  b1 : Byte
  b2 : Byte
  b3 : Byte

/-- The bytes of a CRC field. -/
def crc_field.bytes (c : crc_field) : List Byte := [c.b0, c.b1, c.b2, c.b3]

/-- The ASCII tag `IDAT`. -/
def IDAT_TAG : List Byte := [73, 68, 65, 84]

/-- The ASCII tag `IEND`. -/
def IEND_TAG : List Byte := [73, 69, 78, 68]

/-- A chunk: big-endian payload length, type tag, payload, CRC. -/
def png_chunk (tag payload : List Byte) (crc : crc_field) : List Byte :=
  be32 payload.length ++ tag ++ payload ++ crc.bytes

/-- The payload of an IHDR chunk for an RGB image of depth 8: width, height, depth 8,
colour type 2, compression 0, filter 0, interlace 0. -/
def ihdr_rgb8 (w h : Nat) : List Byte := be32 w ++ be32 h ++ [8, 2, 0, 0, 0]

/-- The `h` scanlines of `linebytes` bytes each taken from the pixel bytes, each
prefixed by the filter byte 0. -/
def filter0_lines (linebytes : Nat) : Nat → List Byte → List Byte
  | 0, _ => []
  | h + 1, pixels =>
    (0 : Byte) :: (pixels.take linebytes ++ filter0_lines linebytes h (pixels.drop linebytes))

/-- A zlib stream: the header `78 01`, then a single final stored block (the byte
`01`, LEN and NLEN = 65535 - LEN as little-endian 16-bit values) holding `data`. -/
def stored_zlib (data : List Byte) : List Byte :=
  [0x78, 0x01, 0x01] ++ le16 data.length ++ le16 (65535 - data.length) ++ data

/-- The PNG file of claim C1: signature, IHDR chunk of an RGB image of depth 8, one
IDAT chunk with a stored block holding the filter-0 scanlines of the pixels, and an IEND
chunk.  The three CRC fields are arbitrary. -/
def stored_rgb_png (w h : Nat) (pixels : List Byte) (c1 c2 c3 : crc_field) : List Byte :=
  PNG_SIGNATURE ++ png_chunk IHDR_TAG (ihdr_rgb8 w h) c1
    ++ png_chunk IDAT_TAG (stored_zlib (filter0_lines (3 * w) h pixels)) c2
    ++ png_chunk IEND_TAG [] c3


/-- The payloads of the IDAT chunks met when walking the chunks from offset `o`, in
file order, up to the first IEND chunk (or the end of the input): chunks of any other
type contribute nothing, and nothing after the IEND chunk is looked at. -/
def idat_payloads (inp : List Byte) : Nat → Nat → List Byte
  | 0, _ => []
  | fuel + 1, o =>
    if o < inp.length then
      if upng_chunk_type inp o = CHUNK_IDAT then
        (inp.drop (o + 8)).take (upng_chunk_length inp o)
          ++ idat_payloads inp fuel (o + (upng_chunk_length inp o + 12))
      else if upng_chunk_type inp o = CHUNK_IEND then []
      else idat_payloads inp fuel (o + (upng_chunk_length inp o + 12))
    else []

/-- Walking the chunks from offset `o` up to the first IEND chunk (or the end of the
input), every chunk is well framed and none is an unknown critical chunk. -/
def chunks_clean (inp : List Byte) : Nat → Nat → Prop
  | 0, _ => True
  | fuel + 1, o =>
    o < inp.length →
      well_framed inp o ∧
      (upng_chunk_type inp o = CHUNK_IDAT →
        chunks_clean inp fuel (o + (upng_chunk_length inp o + 12))) ∧
      (upng_chunk_type inp o ≠ CHUNK_IDAT → upng_chunk_type inp o ≠ CHUNK_IEND →
        upng_chunk_critical inp o = false ∧
          chunks_clean inp fuel (o + (upng_chunk_length inp o + 12)))

instance chunks_clean_decidable (inp : List Byte) :
    ∀ fuel o, Decidable (chunks_clean inp fuel o)
  | 0, _ => isTrue trivial
  | fuel + 1, o =>
    have := chunks_clean_decidable inp fuel (o + (upng_chunk_length inp o + 12))
    by unfold chunks_clean; infer_instance

/-- Every value a run can return satisfies `P` (a run that does not return satisfies this
for every `P`). -/
def Exec.sat {α : Type} (x : Exec α) (P : α → Prop) : Prop := ∀ a, x = .ret a → P a

/-- The error codes that the block loop of the inflator (`uz_inflate` and the functions
below it) can produce. -/
def inflate_error_code (e : Nat) : Prop :=
  e ∈ [0, 10, 11, 13, 14, 15, 16, 18, 20, 21, 23, 49, 50, 51, 52, 55, 64, 9913, 9914]

instance (e : Nat) : Decidable (inflate_error_code e) := by
  unfold inflate_error_code; infer_instance

/-- The array `bitlen` that `generate_fixed_tree` fills in. -/
def fixed_lengths : List Nat :=
  List.replicate 144 8 ++ List.replicate 112 9 ++ List.replicate 24 7 ++ List.replicate 8 8

/-- The length of the code of symbol `s` in the fixed code of RFC 1951, section 3.2.6. -/
def fixed_len (s : Nat) : Nat :=
  if s < 144 then 8 else if s < 256 then 9 else if s < 280 then 7 else 8

/-- The code of symbol `s` in the fixed code of RFC 1951, section 3.2.6: 00110000 and up
for the symbols 0 to 143, 110010000 and up for 144 to 255, 0000000 and up for 256 to 279,
11000000 and up for 280 to 287. -/
def fixed_code (s : Nat) : Nat :=
  if s < 144 then 48 + s else if s < 256 then 400 + (s - 144) else if s < 280 then s - 256
  else 192 + (s - 280)

/-- The first `d` bits, of value `v`, of a code of the fixed code that is longer than
`d` bits, for `d` at least 1. -/
def fixed_node (d v : Nat) : Prop :=
  (1 ≤ d ∧ d ≤ 6 ∧ v < 2 ^ d) ∨ (d = 7 ∧ 24 ≤ v ∧ v < 128) ∨ (d = 8 ∧ 200 ≤ v ∧ v < 256)

/-- A numbering of the 286 pairs of `fixed_node`. -/
def fixed_rank (d v : Nat) : Nat :=
  if d ≤ 6 then 2 ^ d - 1 + v else if d = 7 then 127 + (v - 24) else 231 + (v - 200)

/-- The `n` low bits of `v`, most significant bit first. -/
def msb_bits (n v : Nat) : List Nat :=
  (List.range n).map (fun i => v / 2 ^ (n - i - 1) % 2)

/-- Written from the claim, not from the source: the code of the literal byte `b` in the
fixed code of RFC 1951, most significant bit first: the 8 bits of `00110000 + b` for
`b ≤ 143`, the 9 bits of `110010000 + (b - 144)` for `b ≥ 144`. -/
def fixed_literal_bits (b : Nat) : List Nat :=
  if b ≤ 143 then msb_bits 8 (0x30 + b) else msb_bits 9 (0x190 + (b - 144))

/-- Written from the claim, not from the source: the codes of the bytes of `D`, then the
7-bit code 0000000 of the end of the block. -/
def fixed_literals_bits : List Byte → List Nat
  | [] => List.replicate 7 0
  | b :: D => fixed_literal_bits b.val ++ fixed_literals_bits D

/-- Written from the claim, not from the source: bits packed into bytes from the least
significant bit on; the last byte is filled up with zero bits. -/
def pack_bits (bits : List Nat) : List Byte :=
  (List.range ((bits.length + 7) / 8)).map (fun j =>
    toByte (bits.getD (8 * j) 0 + 2 * bits.getD (8 * j + 1) 0 + 4 * bits.getD (8 * j + 2) 0
      + 8 * bits.getD (8 * j + 3) 0 + 16 * bits.getD (8 * j + 4) 0
      + 32 * bits.getD (8 * j + 5) 0 + 64 * bits.getD (8 * j + 6) 0
      + 128 * bits.getD (8 * j + 7) 0))

/-- Written from the claim, not from the source: the zlib stream of one final block of
the bytes `D` in the fixed code: the header bytes 78 01, then the bits BFINAL = 1,
BTYPE = 1 (two bits, the low one first), the codes of the bytes and the end of block. -/
def fixed_zlib (D : List Byte) : List Byte :=
  [0x78, 0x01] ++ pack_bits ([1, 1, 0] ++ fixed_literals_bits D)

/-- The first code of length `bits` in the canonical Huffman code of RFC 1951 for the
code lengths `lengths` (the value `next_code[bits]` of the RFC; lengths of zero are not
counted). -/
def next_code (lengths : List Nat) : Nat → Nat
  | 0 => 0
  | bits + 1 =>
    (next_code lengths bits + (if bits = 0 then 0 else lengths.count bits)) * 2

/-- The canonical Huffman code of symbol `s`: the first code of its length plus the
number of earlier symbols of the same length. -/
def canonical_code (lengths : List Nat) (s : Nat) : Nat :=
  next_code lengths (lengths.getD s 0) + (lengths.take s).count (lengths.getD s 0)

/-- Bit `i` of the code of symbol `s`, counted from the most significant of its
`lengths[s]` bits. -/
def code_bit (lengths : List Nat) (s i : Nat) : Nat :=
  (canonical_code lengths s >>> (lengths.getD s 0 - i - 1)) &&& 1

/-- The state of `huffman_tree_create` while the codes are entered, for a code with
lengths `L` and code values `c` over `N` symbols: the codes of the symbols below `n` are
in the table `t`, and the first `i` bits of the code of symbol `n` are.  `nf` is
`nodefilled`; node `k` has been reached by the `depth k` bits of value `val k`.  An
entry is 32767 (not filled), a symbol (a leaf) or `N` plus a node (a pointer). -/
structure trie_inv (N : Nat) (L c : Nat → Nat) (n i : Nat) (t : List Nat) (nf : Nat)
    (depth val : Nat → Nat) : Prop where
  /-- the extent of the table -/
  len : t.length = 2 * N
  /-- the nodes in use lie inside the table -/
  nfN : nf < N
  /-- node 0 is the root -/
  root : depth 0 = 0 ∧ val 0 = 0
  /-- the entries of the nodes that are not in use are not filled -/
  fresh : ∀ k b, nf < k → k < N → b < 2 → t.getD (2 * k + b) 0 = 32767
  /-- what an entry of a node in use holds -/
  cls : ∀ k b, k ≤ nf → b < 2 →
    t.getD (2 * k + b) 0 = 32767 ∨
    (t.getD (2 * k + b) 0 < n ∧ L (t.getD (2 * k + b) 0) = depth k + 1 ∧
      c (t.getD (2 * k + b) 0) = 2 * val k + b) ∨
    (∃ k1, t.getD (2 * k + b) 0 = k1 + N ∧ k1 ≤ nf ∧ k1 ≠ 0 ∧ depth k1 = depth k + 1 ∧
      val k1 = 2 * val k + b)
  /-- every node but the root is pointed to -/
  parent : ∀ k, k ≤ nf → k ≠ 0 → ∃ k0 b, k0 ≤ nf ∧ b < 2 ∧ t.getD (2 * k0 + b) 0 = k + N
  /-- every node but the root is a proper prefix of a code that was entered -/
  onpath : ∀ k, k ≤ nf → k ≠ 0 →
    (∃ s, s < n ∧ L s ≠ 0 ∧ depth k < L s ∧ val k = c s / 2 ^ (L s - depth k)) ∨
    (depth k ≤ i ∧ depth k < L n ∧ val k = c n / 2 ^ (L n - depth k))
  /-- two nodes are not reached by the same bits -/
  inj : ∀ k k1, k ≤ nf → k1 ≤ nf → depth k = depth k1 → val k = val k1 → k = k1
  /-- every prefix of an entered code leads to a node whose entry for the next bit is
  filled -/
  reach : ∀ s, s < n → L s ≠ 0 → ∀ j, j < L s →
    ∃ k, k ≤ nf ∧ depth k = j ∧ val k = c s / 2 ^ (L s - j) ∧
      t.getD (2 * k + c s / 2 ^ (L s - j - 1) % 2) 0 ≠ 32767
  /-- the same for the bits of symbol `n` that were entered -/
  reachn : ∀ j, j < i →
    ∃ k, k ≤ nf ∧ depth k = j ∧ val k = c n / 2 ^ (L n - j) ∧
      t.getD (2 * k + c n / 2 ^ (L n - j - 1) % 2) 0 ≠ 32767

/-- The code with lengths `L` and values `c` over `N` symbols is a prefix code whose
values fit their lengths. -/
structure prefix_code (N : Nat) (L c : Nat → Nat) : Prop where
  /-- the value of a code fits its length -/
  fits : ∀ s, s < N → L s ≠ 0 → c s < 2 ^ L s
  /-- no code is the beginning of another one -/
  free : ∀ s t, s < N → t < N → L s ≠ 0 → L t ≠ 0 → s ≠ t → L s ≤ L t →
    c s ≠ c t / 2 ^ (L t - L s)

/-- The table that `huffman_tree_create_lengths` makes of the lengths 2, 0, 1, 3, 3: the
codes are 10, none, 0, 110 and 111. -/
def five_symbol_tree : huffman_tree :=
  { tree2d := [2, 6, 0, 7, 3, 4, 0, 0, 0, 0], tree1d := [6, 0, 2, 14, 15],
    lengths := [2, 0, 1, 3, 3], maxbitlen := 3, numcodes := 5 }

/-- A count of the nodes that the code with lengths `L` and values `c` over `N` symbols
needs in the table: `S d v` holds of the proper non-empty prefixes (the first `d` bits,
of value `v`, of a code), and `rank` numbers them from 1 to `B` without repetition,
where `B + 2 ≤ N`. -/
structure node_cert (N : Nat) (L c : Nat → Nat) (S : Nat → Nat → Prop)
    (rank : Nat → Nat → Nat) (B : Nat) : Prop where
  /-- the nodes fit the table -/
  bound : B + 2 ≤ N
  /-- the proper non-empty prefixes of the codes -/
  pre : ∀ s d, s < N → L s ≠ 0 → 0 < d → d < L s → S d (c s / 2 ^ (L s - d))
  /-- the numbers lie between 1 and `B` -/
  range : ∀ d v, S d v → 1 ≤ rank d v ∧ rank d v ≤ B
  /-- no number is given twice -/
  inj : ∀ d v d1 v1, S d v → S d1 v1 → rank d v = rank d1 v1 → d = d1 ∧ v = v1

/-- The sum over the symbols with a non-zero length `l` of `2 ^ (maxbitlen - l)`: the
Kraft sum of the code lengths, scaled by `2 ^ maxbitlen`. -/
def kraft_weight (maxbitlen : Nat) (lengths : List Nat) : Nat :=
  (lengths.map (fun l => if l = 0 then 0 else 2 ^ (maxbitlen - l))).sum

/-- The non-zero lengths, all at most `maxbitlen`, are oversubscribed: the sum of
`2 ^ (-l)` over them exceeds 1. -/
def oversubscribed (maxbitlen : Nat) (lengths : List Nat) : Prop :=
  2 ^ maxbitlen < kraft_weight maxbitlen lengths

instance (maxbitlen : Nat) (lengths : List Nat) : Decidable (oversubscribed maxbitlen lengths) := by
  unfold oversubscribed; infer_instance

/-- The output after an LZ77 copy of `j` bytes at position `start` with distance `d`:
the bytes before `start` are kept, byte `start + k` is byte `start - d + k mod d` of the
prefix, and the determined bytes from `start + j` on are kept. -/
def lz_copy (data : List Byte) (start d j : Nat) : List Byte :=
  data.take start ++ (List.range j).map (fun k => data.getD (start - d + k % d) 0)
    ++ data.drop (start + j)

/-- The Paeth predictor of the PNG specification: of `a`, `b` and `c`, the one nearest
to `a + b - c`, with ties resolved in this order. -/
def paeth_ref (a b c : Int) : Int :=
  if |a + b - c - a| ≤ |a + b - c - b| ∧ |a + b - c - a| ≤ |a + b - c - c| then a
  else if |a + b - c - b| ≤ |a + b - c - c| then b
  else c

/-- The predictor of PNG filter type `f` from the neighbours left, up and upper left:
`0`, `left`, `up`, `floor ((left + up) / 2)` and the Paeth predictor. -/
def predictor (f : Nat) (left up upleft : Int) : Int :=
  if f = 0 then 0
  else if f = 1 then left
  else if f = 2 then up
  else if f = 3 then (left + up) / 2
  else paeth_ref left up upleft

/-- The left neighbour of byte `i` of a line: the byte `bytewidth` places before it, or 0
for the first `bytewidth` bytes. -/
def left_of (bytewidth : Nat) (line : List Byte) (i : Nat) : Int :=
  if i < bytewidth then 0 else ((line.getD (i - bytewidth) 0).val : Int)

/-- The upper neighbour of byte `i`: byte `i` of the previous line, or 0 when there is
no previous line. -/
def up_of (prev : Option (List Byte)) (i : Nat) : Int :=
  match prev with
  | some p => ((p.getD i 0).val : Int)
  | none => 0

/-- The upper left neighbour of byte `i`: the left neighbour of byte `i` in the previous
line, or 0 when there is no previous line. -/
def upleft_of (bytewidth : Nat) (prev : Option (List Byte)) (i : Nat) : Int :=
  match prev with
  | some p => left_of bytewidth p i
  | none => 0

/-- The reference forward filter of PNG: byte `i` of the filtered line is the raw byte
minus the predictor of its neighbours in the raw line and the previous line, modulo 256. -/
def filter_line (f bytewidth : Nat) (raw : List Byte) (prev : Option (List Byte)) : List Byte :=
  (List.range raw.length).map (fun i =>
    toByteI (((raw.getD i 0).val : Int)
      - predictor f (left_of bytewidth raw i) (up_of prev i) (upleft_of bytewidth prev i)))

/-- The reference reconstruction of the first `i` bytes of a line: byte `i` is the
filtered byte plus the predictor of its neighbours in the reconstructed line and the
previous line, modulo 256. -/
def recon_upto (f bytewidth : Nat) (scan : List Byte) (prev : Option (List Byte)) :
    Nat → List Byte
  | 0 => []
  | i + 1 =>
    recon_upto f bytewidth scan prev i ++
      [toByteI (((scan.getD i 0).val : Int)
        + predictor f (left_of bytewidth (recon_upto f bytewidth scan prev i) i) (up_of prev i)
            (upleft_of bytewidth prev i))]

/-- The reference reconstruction of a filtered line. -/
def recon_line (f bytewidth : Nat) (scan : List Byte) (prev : Option (List Byte)) : List Byte :=
  recon_upto f bytewidth scan prev scan.length

/-- The memory while a line is reconstructed at offset `ro` of the output block: the
first `i` bytes of the line `R` have been written. -/
def line_state (m : Mem) (ro : Nat) (R : List Byte) (i : Nat) : Mem :=
  { m with outb := m.outb.take ro ++ R.take i ++ m.outb.drop (ro + i) }

/-- A memory for a Paeth-filtered line: the output block holds the previous line
`05 06 07` and room for one more line; the inflated block holds the filter byte 4
and the reference filter of the raw line `0A 14 1E`. -/
def paeth_line_mem : Mem :=
  { outb := [5, 6, 7, 0, 0, 0],
    inb := (4 : Byte) :: filter_line 4 1 [10, 20, 30] (some [5, 6, 7]) }

/-- The bit at position `p` of a buffer, counting the bits of each byte from the most
significant one. -/
def bit_at (l : List Byte) (p : Nat) : Nat :=
  ((l.getD (p / 8) 0).val >>> (7 - p % 8)) &&& 1

/-- The memory `M` after `N` bits have been repacked from the inflated block (from byte
`io` on, lines of `ilinebits` bits) into the output block (from byte `oo` on, lines of
`olinebits` bits): the inflated block and the extent of the output block are as in `m`,
the first `N` bits of the output are the bits of the input lines, and every other bit
of the output block is as in `m`. -/
def bits_moved (m : Mem) (oo io olinebits ilinebits N : Nat) (M : Mem) : Prop :=
  M.inb = m.inb ∧ M.outb.length = m.outb.length ∧
  ∀ q, bit_at M.outb q =
    if 8 * oo ≤ q ∧ q < 8 * oo + N then
      bit_at m.inb (8 * io + ((q - 8 * oo) / olinebits * ilinebits + (q - 8 * oo) % olinebits))
    else bit_at m.outb q

/-- A memory for the rows `80` and `40` of a 2x2 image of depth 1 after they were
unfiltered in place: the inflated block `00 80 00 40` has become `80 40 00 40`; the
output block has one byte. -/
def checker_mem : Mem :=
  { outb := [0], inb := [0x80, 0x40, 0x00, 0x40] }

/-- A memory for a 2x2 image of 8 bits per pixel whose second scanline has the
filter byte 5: two lines of three inflated bytes, and four bytes of output. -/
def bad_filter_mem : Mem :=
  { outb := [0, 0, 0, 0], inb := [0, 1, 2, 5, 3, 4] }

/-- A complete PNG file of a 1x1 RGB image of depth 8 whose IDAT chunk holds a zlib
stream with one final stored block of the single byte 0: the stream inflates to the
filter byte of the only scanline and to none of its three bytes. -/
def png_short_stream : List Byte :=
  [137, 80, 78, 71, 13, 10, 26, 10, 0, 0, 0, 13, 73, 72, 68, 82,
   0, 0, 0, 1, 0, 0, 0, 1, 8, 2, 0, 0, 0, 144, 119, 83,
   222, 0, 0, 0, 12, 73, 68, 65, 84, 120, 1, 1, 1, 0, 254, 255,
   0, 0, 1, 0, 1, 247, 141, 1, 81, 0, 0, 0, 0, 73, 69, 78,
   68, 174, 66, 96, 130]

/-- A complete PNG file whose header declares a GREY image of depth 8, width `2 ^ 16`
and height `2 ^ 16`, and whose IDAT chunk holds a zlib stream with one final stored
block of the two bytes 0 0. -/
def png_square_grey : List Byte :=
  [137, 80, 78, 71, 13, 10, 26, 10, 0, 0, 0, 13, 73, 72, 68, 82,
   0, 1, 0, 0, 0, 1, 0, 0, 8, 0, 0, 0, 0, 73, 239, 111,
   63, 0, 0, 0, 13, 73, 68, 65, 84, 120, 1, 1, 2, 0, 253, 255,
   0, 0, 0, 2, 0, 1, 126, 5, 13, 210, 0, 0, 0, 0, 73, 69,
   78, 68, 174, 66, 96, 130]

/-- A complete PNG file of a 1x1 RGB image whose IDAT chunk holds nothing but the zlib
header `78 01`. -/
def png_header_only_stream : List Byte :=
  [137, 80, 78, 71, 13, 10, 26, 10, 0, 0, 0, 13, 73, 72, 68, 82,
   0, 0, 0, 1, 0, 0, 0, 1, 8, 2, 0, 0, 0, 144, 119, 83,
   222, 0, 0, 0, 2, 73, 68, 65, 84, 120, 1, 236, 26, 126, 210, 0,
   0, 0, 0, 73, 69, 78, 68, 174, 66, 96, 130]

/-- The bit of the input at bit pointer `p`, as `read_bit` takes it: bit `p & 7` of the
byte `p >> 3`. -/
def stream_bit (inp : List Byte) (p : Nat) : Nat :=
  ((inp.getD (p >>> 3) 0).val >>> (p &&& 0x7)) &&& 1

/-- The number that the `n` bits of the input from bit pointer `bp` on form when the
first of them is the most significant one, the way Huffman codes are sent. -/
def msb_value (inp : List Byte) (bp : Nat) : Nat → Nat
  | 0 => 0
  | n + 1 => 2 * msb_value inp bp n + stream_bit inp (bp + n)

/-- The table that `huffman_tree_create_lengths` makes of the lengths 1, 0, 2: the codes
are 0, none and 10; no code begins with 11. -/
def three_symbol_tree : huffman_tree :=
  { tree2d := [0, 4, 2, 0, 0, 0], tree1d := [2, 0, 6], lengths := [1, 0, 2], maxbitlen := 2,
    numcodes := 3 }

/-! ## Example dynamic headers -/

/-- A dynamic header (the bits after `BFINAL` and `BTYPE`) with 257 literal/length
codes, one distance code and four code length codes, in which symbols 18 and 0 of
the code length alphabet have length 1; the code lengths are two symbols 18 with a
repeat count of 138 each. -/
def dynamic_header_overflow : List Byte := [0x00, 0x00, 0x90, 0xFC, 0xFF, 0x03]

/-- The same header with repeat counts 138 and 120, which end exactly at index
258. -/
def dynamic_header_no_end : List Byte := [0x00, 0x00, 0x90, 0xFC, 0x6F, 0x03]

/-- The code length code lengths of the two example headers. -/
def example_clcl : List Nat := [1, 0, 0, 0, 0, 0, 0, 0, 0, 0, 0, 0, 0, 0, 0, 0, 0, 0, 1]

/-- The table that `huffman_tree_create_lengths` builds from `example_clcl`. -/
def example_cltree : huffman_tree :=
  { tree2d := 0 :: 18 :: List.replicate 36 0,
    tree1d := [34, 0, 0, 0, 0, 0, 0, 0, 0, 0, 0, 0, 0, 0, 0, 0, 0, 0, 35],
    lengths := example_clcl, maxbitlen := 7, numcodes := 19 }

/-! ## Reconstruction in place -/

/-- The memory while a line is reconstructed in place at offset `ro` of the inflated
block: the first `i` bytes of the line `R` have been written. -/
def line_state_in (m : Mem) (ro : Nat) (R : List Byte) (i : Nat) : Mem :=
  { m with inb := m.inb.take ro ++ R.take i ++ m.inb.drop (ro + i) }

/-- A memory for a 3x2 image of 8 bits per pixel: the inflated block holds a line with
filter type 1 and a line with filter type 4; the output block has room for six
bytes. -/
def two_line_mem : Mem :=
  { outb := [0, 0, 0, 0, 0, 0], inb := [1, 10, 20, 30, 4, 1, 2, 3] }

/-! ## A dynamic header that starts with a repeat -/

/-- A zlib stream whose only block is final and dynamic (the bits 1, then 0 1), with
257 literal/length codes, one distance code and four code length codes; symbols 16 and
0 of the code length alphabet have length 1, and the first code length symbol is 16
(the bit 1) with the repeat count bits 0 0. -/
def zlib_repeat_first : List Byte := [0x78, 0x01, 0x05, 0x00, 0x02, 0x24]

/-- The code length code lengths of `zlib_repeat_first`. -/
def repeat_first_clcl : List Nat := [1, 0, 0, 0, 0, 0, 0, 0, 0, 0, 0, 0, 0, 0, 0, 0, 1, 0, 0]

/-- The table that `huffman_tree_create_lengths` builds from `repeat_first_clcl`. -/
def repeat_first_cltree : huffman_tree :=
  { tree2d := 0 :: 16 :: List.replicate 36 0,
    tree1d := [34, 0, 0, 0, 0, 0, 0, 0, 0, 0, 0, 0, 0, 0, 0, 0, 35, 0, 0],
    lengths := repeat_first_clcl, maxbitlen := 7, numcodes := 19 }

/-- A complete PNG file of a 1x1 RGB image of depth 8 whose IDAT chunk holds
`zlib_repeat_first`. -/
def png_repeat_first : List Byte :=
  [137, 80, 78, 71, 13, 10, 26, 10, 0, 0, 0, 13, 73, 72, 68, 82,
   0, 0, 0, 1, 0, 0, 0, 1, 8, 2, 0, 0, 0, 144, 119, 83,
   222, 0, 0, 0, 6, 73, 68, 65, 84, 120, 1, 5, 0, 2, 36, 211,
   12, 201, 189, 0, 0, 0, 0, 73, 69, 78, 68, 174, 66, 96, 130]

/-! ## Lines of an image whose width makes `w * bpp + 7` wrap -/

/-- A memory for an image of two lines: the inflated block holds the bytes `00 05`
followed by `n` bytes 0, the output block `n` bytes 0.  With `n = 2 ^ 30` these are the
`2 * (1 + 2 ^ 29)` inflated bytes and the `2 * 2 ^ 29` output bytes of an image of width
`2 ^ 29` and 8 bits per pixel. -/
def wide_filter_mem (n : Nat) : Mem :=
  { outb := List.replicate n 0, inb := 0 :: 5 :: List.replicate n 0 }

/-- A memory for an image of two lines: the inflated block holds the bytes `00 00`
followed by `n` bytes 7, the output block `n` bytes 0.  With `n = 2 ^ 30` these are the
`2 * (1 + 2 ^ 29)` inflated bytes and the `2 * 2 ^ 29` output bytes of an image whose
lines have `2 ^ 29` bytes. -/
def wide_inplace_mem (n : Nat) : Mem :=
  { outb := List.replicate n 0, inb := 0 :: 0 :: List.replicate n 7 }

/-- A complete PNG file whose header declares a GREY image of depth 8, width `2 ^ 29`
and height 2, and whose IDAT chunk holds a final stored block with the four bytes
`00 05 00 00`. -/
def png_wide_two_lines : List Byte :=
  [137, 80, 78, 71, 13, 10, 26, 10, 0, 0, 0, 13, 73, 72, 68, 82,
   32, 0, 0, 0, 0, 0, 0, 2, 8, 0, 0, 0, 0, 224, 86, 201,
   48, 0, 0, 0, 15, 73, 68, 65, 84, 120, 1, 1, 4, 0, 251, 255,
   0, 5, 0, 0, 0, 19, 0, 6, 176, 124, 204, 145, 0, 0, 0, 0,
   73, 69, 78, 68, 174, 66, 96, 130]

/-- A complete PNG file whose header declares a GREY image of depth 1, width
`2 ^ 32 - 1` and height 2, and whose IDAT chunk holds a final stored block with the four
bytes `00 00 07 00`. -/
def png_widest_bits : List Byte :=
  [137, 80, 78, 71, 13, 10, 26, 10, 0, 0, 0, 13, 73, 72, 68, 82,
   255, 255, 255, 255, 0, 0, 0, 2, 1, 0, 0, 0, 0, 174, 179, 89,
   201, 0, 0, 0, 15, 73, 68, 65, 84, 120, 1, 1, 4, 0, 251, 255,
   0, 0, 7, 0, 0, 18, 0, 8, 25, 59, 148, 190, 0, 0, 0, 0,
   73, 69, 78, 68, 174, 66, 96, 130]
/-! ## Header inspection and accessors -/

theorem split16 (l : List Byte) (h : 16 ≤ l.length) :
    ∃ a0 a1 a2 a3 a4 a5 a6 a7 a8 a9 a10 a11 a12 a13 a14 a15 r,
      l = a0 :: a1 :: a2 :: a3 :: a4 :: a5 :: a6 :: a7 :: a8 :: a9 :: a10 :: a11 :: a12 ::
        a13 :: a14 :: a15 :: r := by
  rcases l with _ | ⟨a0, _ | ⟨a1, _ | ⟨a2, _ | ⟨a3, _ | ⟨a4, _ | ⟨a5, _ | ⟨a6, _ | ⟨a7, _ | ⟨a8, _ | ⟨a9, _ | ⟨a10, _ | ⟨a11, _ | ⟨a12, _ | ⟨a13, _ | ⟨a14, _ | ⟨a15, r⟩⟩⟩⟩⟩⟩⟩⟩⟩⟩⟩⟩⟩⟩⟩⟩
  all_goals first
    | (simp at h; done)
    | (simp only [List.length_cons] at h; omega)
    | exact ⟨a0, a1, a2, a3, a4, a5, a6, a7, a8, a9, a10, a11, a12, a13, a14, a15, r, rfl⟩

theorem val_ne_iff (a : Byte) (n : Nat) (h : n < 256) : a.val ≠ n ↔ a ≠ ⟨n, h⟩ := by
  constructor
  · intro h1 h2; exact h1 (by rw [h2])
  · intro h1 h2; exact h1 (Fin.ext h2)

/-- Claim C2: whatever the handle, `upng_inspect` returns NOT_PNG when the input is
empty, shorter than 29 bytes, or does not start with the PNG signature; and it returns
MALFORMED when those checks pass and bytes 12..15 are not the tag `IHDR`. -/
theorem C2_inspect_not_png_or_missing_ihdr (info : upng_info) (inp : List Byte) :
    ((inp = [] ∨ inp.length < 29 ∨ inp.take 8 ≠ PNG_SIGNATURE) →
        (upng_inspect info inp).2 = UPNG_ENOTPNG) ∧
    (29 ≤ inp.length → inp.take 8 = PNG_SIGNATURE → (inp.drop 12).take 4 ≠ IHDR_TAG →
        (upng_inspect info inp).2 = UPNG_EMALFORMED) := by
  by_cases hlen : inp.length < 29
  · refine ⟨fun _ => ?_, fun h => absurd hlen (by omega)⟩
    unfold upng_inspect
    by_cases h0 : inp.length = 0
    · simp [h0, SET_ERROR]
    · simp [h0, hlen, SET_ERROR]
  · obtain ⟨a0, a1, a2, a3, a4, a5, a6, a7, a8, a9, a10, a11, a12, a13, a14, a15, r, rfl⟩ :=
      split16 inp (by omega)
    have h0 : ¬ (a0 :: a1 :: a2 :: a3 :: a4 :: a5 :: a6 :: a7 :: a8 :: a9 :: a10 :: a11 ::
        a12 :: a13 :: a14 :: a15 :: r).length = 0 := by simp
    constructor
    · intro h
      rcases h with h | h | h
      · simp at h
      · exact absurd h hlen
      · unfold upng_inspect
        rw [if_neg h0, if_neg hlen, if_pos]
        · simp [SET_ERROR]
        · simp only [peek, List.getD_cons_zero, List.getD_cons_succ]
          simp only [PNG_SIGNATURE, List.take_succ_cons, List.take_zero, ne_eq, List.cons.injEq,
            and_true, not_and_or] at h
          simp only [val_ne_iff _ _ (by decide : 137 < 256), val_ne_iff _ _ (by decide : 80 < 256),
            val_ne_iff _ _ (by decide : 78 < 256), val_ne_iff _ _ (by decide : 71 < 256),
            val_ne_iff _ _ (by decide : 13 < 256), val_ne_iff _ _ (by decide : 10 < 256),
            val_ne_iff _ _ (by decide : 26 < 256)]
          tauto
    · intro _ hs ht
      unfold upng_inspect
      simp only [PNG_SIGNATURE, List.take_succ_cons, List.take_zero, List.cons.injEq,
        and_true] at hs
      obtain ⟨rfl, rfl, rfl, rfl, rfl, rfl, rfl, rfl⟩ := hs
      rw [if_neg h0, if_neg hlen, if_neg (by simp only [peek, List.getD_cons_zero, List.getD_cons_succ]; decide), if_pos]
      · simp [SET_ERROR]
      · simp only [peek, List.getD_cons_zero, List.getD_cons_succ]
        simp only [IHDR_TAG, List.drop_succ_cons, List.drop_zero, List.take_succ_cons,
          List.take_zero, ne_eq, List.cons.injEq, and_true, not_and_or] at ht
        simp only [val_ne_iff _ _ (by decide : 73 < 256), val_ne_iff _ _ (by decide : 72 < 256),
            val_ne_iff _ _ (by decide : 68 < 256), val_ne_iff _ _ (by decide : 82 < 256)]
        tauto


theorem header_framed_checks (inp : List Byte) (h : header_framed inp) :
    ¬ (peek inp 0 ≠ 137 ∨ peek inp 1 ≠ 80 ∨ peek inp 2 ≠ 78 ∨ peek inp 3 ≠ 71
      ∨ peek inp 4 ≠ 13 ∨ peek inp 5 ≠ 10 ∨ peek inp 6 ≠ 26 ∨ peek inp 7 ≠ 10) ∧
    ¬ (peek inp 12 ≠ 73 ∨ peek inp 13 ≠ 72 ∨ peek inp 14 ≠ 68 ∨ peek inp 15 ≠ 82) := by
  obtain ⟨hlen, hs, ht⟩ := h
  obtain ⟨a0, a1, a2, a3, a4, a5, a6, a7, a8, a9, a10, a11, a12, a13, a14, a15, r, rfl⟩ :=
    split16 inp (by omega)
  simp only [PNG_SIGNATURE, List.take_succ_cons, List.take_zero, List.cons.injEq,
    and_true] at hs
  simp only [IHDR_TAG, List.drop_succ_cons, List.drop_zero, List.take_succ_cons,
    List.take_zero, List.cons.injEq, and_true] at ht
  obtain ⟨rfl, rfl, rfl, rfl, rfl, rfl, rfl, rfl⟩ := hs
  obtain ⟨rfl, rfl, rfl, rfl⟩ := ht
  simp only [peek, List.getD_cons_zero, List.getD_cons_succ]
  decide

/-- The header fields that `upng_inspect` stores once the signature and the tag
have been checked. -/
theorem inspect_framed (info : upng_info) (inp : List Byte) (h : header_framed inp) :
    upng_inspect info inp =
      (let info1 := { info with
          width := MAKE_DWORD_PTR inp 16
          height := MAKE_DWORD_PTR inp 20
          color_depth := peek inp 24
          color_type := peek inp 25
          cmp_method := peek inp 26
          filter_method := peek inp 27
          interlace_method := peek inp 28 }
       if peek inp 26 ≠ 0 then (SET_ERROR info1 UPNG_EUNSUPPORTED 812, UPNG_EUNSUPPORTED)
       else if peek inp 27 ≠ 0 then (SET_ERROR info1 UPNG_EUNSUPPORTED 817, UPNG_EUNSUPPORTED)
       else if peek inp 28 ≠ 0 then (SET_ERROR info1 UPNG_EUNSUPPORTED 822, UPNG_EUNSUPPORTED)
       else if accepted_pair (peek inp 25) (peek inp 24) then (info1, info.error)
       else if peek inp 25 = UPNG_GREY then
         (SET_ERROR info1 UPNG_EMALFORMED 830, UPNG_EMALFORMED)
       else if peek inp 25 = UPNG_RGB ∨ peek inp 25 = UPNG_GREY_ALPHA ∨ peek inp 25 = UPNG_RGBA
         then (SET_ERROR info1 UPNG_EMALFORMED 836, UPNG_EMALFORMED)
       else (SET_ERROR info1 UPNG_EMALFORMED 839, UPNG_EMALFORMED)) := by
  obtain ⟨hs, ht⟩ := header_framed_checks inp h
  have hlen := h.1
  unfold upng_inspect
  rw [if_neg (by omega), if_neg (by omega), if_neg hs, if_neg ht]
  simp only [accepted_pair, SET_ERROR, UPNG_GREY, UPNG_RGB, UPNG_GREY_ALPHA, UPNG_RGBA]
  split_ifs <;> first | rfl | (exfalso; omega)

/-- Claim C3: for an input of at least 29 bytes with a valid signature and IHDR tag,
`upng_inspect` returns UNSUPPORTED when the compression, filter or interlace byte is
non-zero, and otherwise MALFORMED when the pair (colour type, depth) is not accepted. -/
theorem C3_inspect_unsupported_or_bad_pair (info : upng_info) (inp : List Byte)
    (h : header_framed inp) :
    ((peek inp 26 ≠ 0 ∨ peek inp 27 ≠ 0 ∨ peek inp 28 ≠ 0) →
        (upng_inspect info inp).2 = UPNG_EUNSUPPORTED) ∧
    (peek inp 26 = 0 → peek inp 27 = 0 → peek inp 28 = 0 →
      ¬ accepted_pair (peek inp 25) (peek inp 24) →
        (upng_inspect info inp).2 = UPNG_EMALFORMED) := by
  rw [inspect_framed info inp h]
  constructor
  · intro hne
    by_cases h26 : peek inp 26 ≠ 0
    · rw [if_pos h26]
    · by_cases h27 : peek inp 27 ≠ 0
      · rw [if_neg h26, if_pos h27]
      · have h28 : peek inp 28 ≠ 0 := by tauto
        rw [if_neg h26, if_neg h27, if_pos h28]
  · intro h26 h27 h28 hp
    rw [if_neg (not_not.mpr h26), if_neg (not_not.mpr h27), if_neg (not_not.mpr h28), if_neg hp]
    split_ifs <;> rfl

/-- Witness for C3: a header with interlace method 1 is framed and is rejected
with UNSUPPORTED, and a palette header with MALFORMED. -/
theorem C3_witness :
    header_framed header_interlaced ∧
    (upng_inspect upng_new header_interlaced).2 = UPNG_EUNSUPPORTED := by
  have hf : header_framed header_interlaced := by decide
  exact ⟨hf, (C3_inspect_unsupported_or_bad_pair upng_new header_interlaced hf).1
    (by decide)⟩

/-- Counterexample to C4 as stated: a header with width 0 and height 0 passes
`upng_inspect` on a fresh handle, and the descriptor then has width 0. -/
theorem C4_counterexample_zero_width :
    (upng_inspect upng_new header_zero_width).2 = UPNG_EOK ∧
    ¬ (1 ≤ (upng_inspect upng_new header_zero_width).1.width ∧
       1 ≤ (upng_inspect upng_new header_zero_width).1.height) := by
  decide

theorem inspect_ok_framed (info : upng_info) (inp : List Byte)
    (hok : (upng_inspect info inp).2 = UPNG_EOK) : header_framed inp := by
  by_contra hnf
  unfold upng_inspect at hok
  by_cases h0 : inp.length = 0
  · simp [h0, SET_ERROR, UPNG_ENOTPNG, UPNG_EOK] at hok
  by_cases h29 : inp.length < 29
  · simp [h0, h29, SET_ERROR, UPNG_ENOTPNG, UPNG_EOK] at hok
  rw [if_neg h0, if_neg h29] at hok
  by_cases hs : (peek inp 0 ≠ 137 ∨ peek inp 1 ≠ 80 ∨ peek inp 2 ≠ 78 ∨ peek inp 3 ≠ 71
      ∨ peek inp 4 ≠ 13 ∨ peek inp 5 ≠ 10 ∨ peek inp 6 ≠ 26 ∨ peek inp 7 ≠ 10)
  · rw [if_pos hs] at hok
    simp [SET_ERROR, UPNG_ENOTPNG, UPNG_EOK] at hok
  rw [if_neg hs] at hok
  by_cases ht : (peek inp 12 ≠ 73 ∨ peek inp 13 ≠ 72 ∨ peek inp 14 ≠ 68 ∨ peek inp 15 ≠ 82)
  · rw [if_pos ht] at hok
    simp [SET_ERROR, UPNG_EMALFORMED, UPNG_EOK] at hok
  apply hnf
  obtain ⟨a0, a1, a2, a3, a4, a5, a6, a7, a8, a9, a10, a11, a12, a13, a14, a15, r, rfl⟩ :=
    split16 inp (by omega)
  simp only [peek, List.getD_cons_zero, List.getD_cons_succ, ne_eq, not_or, not_not] at hs ht
  refine ⟨by omega, ?_, ?_⟩
  · simp only [PNG_SIGNATURE, List.take_succ_cons, List.take_zero, List.cons.injEq, and_true]
    refine ⟨Fin.ext hs.1, Fin.ext hs.2.1, Fin.ext hs.2.2.1, Fin.ext hs.2.2.2.1,
      Fin.ext hs.2.2.2.2.1, Fin.ext hs.2.2.2.2.2.1, Fin.ext hs.2.2.2.2.2.2.1,
      Fin.ext hs.2.2.2.2.2.2.2⟩
  · simp only [IHDR_TAG, List.drop_succ_cons, List.drop_zero, List.take_succ_cons,
      List.take_zero, List.cons.injEq, and_true]
    exact ⟨Fin.ext ht.1, Fin.ext ht.2.1, Fin.ext ht.2.2.1, Fin.ext ht.2.2.2⟩

/-- What a successful `upng_inspect` establishes: the handle had no error, the
header is framed, the three method bytes are zero, the pair is accepted, and the
descriptor holds the header fields. -/
theorem inspect_ok (info : upng_info) (inp : List Byte)
    (hok : (upng_inspect info inp).2 = UPNG_EOK) :
    header_framed inp ∧ info.error = UPNG_EOK ∧
    peek inp 26 = 0 ∧ peek inp 27 = 0 ∧ peek inp 28 = 0 ∧
    accepted_pair (peek inp 25) (peek inp 24) ∧
    (upng_inspect info inp).1 = { info with
          width := MAKE_DWORD_PTR inp 16
          height := MAKE_DWORD_PTR inp 20
          color_depth := peek inp 24
          color_type := peek inp 25
          cmp_method := peek inp 26
          filter_method := peek inp 27
          interlace_method := peek inp 28 } := by
  have hf := inspect_ok_framed info inp hok
  rw [inspect_framed info inp hf] at hok ⊢
  by_cases h26 : peek inp 26 ≠ 0
  · rw [if_pos h26] at hok
    exact absurd (show UPNG_EUNSUPPORTED = UPNG_EOK from hok) (by decide)
  by_cases h27 : peek inp 27 ≠ 0
  · rw [if_neg h26, if_pos h27] at hok
    exact absurd (show UPNG_EUNSUPPORTED = UPNG_EOK from hok) (by decide)
  by_cases h28 : peek inp 28 ≠ 0
  · rw [if_neg h26, if_neg h27, if_pos h28] at hok
    exact absurd (show UPNG_EUNSUPPORTED = UPNG_EOK from hok) (by decide)
  by_cases hp : accepted_pair (peek inp 25) (peek inp 24)
  · rw [if_neg h26, if_neg h27, if_neg h28, if_pos hp] at hok ⊢
    simp only [ne_eq, not_not] at h26 h27 h28
    exact ⟨hf, hok, h26, h27, h28, hp, rfl⟩
  · rw [if_neg h26, if_neg h27, if_neg h28, if_neg hp] at hok
    exfalso
    split_ifs at hok <;> exact absurd (show UPNG_EMALFORMED = UPNG_EOK from hok) (by decide)

/-- Claim C4, amended: whenever `upng_inspect` returns OK, the descriptor has a
colour type among GREY, RGB, GREY_ALPHA, RGBA, a depth accepted for that colour type,
and compression = filter = interlace = 0; width and height are the two big-endian
header fields, whatever their value. -/
theorem C4_descriptor_after_inspect (info : upng_info) (inp : List Byte)
    (hok : (upng_inspect info inp).2 = UPNG_EOK) :
    accepted_pair (upng_inspect info inp).1.color_type (upng_inspect info inp).1.color_depth ∧
    (upng_inspect info inp).1.cmp_method = 0 ∧
    (upng_inspect info inp).1.filter_method = 0 ∧
    (upng_inspect info inp).1.interlace_method = 0 ∧
    (upng_inspect info inp).1.width = MAKE_DWORD_PTR inp 16 ∧
    (upng_inspect info inp).1.height = MAKE_DWORD_PTR inp 20 := by
  obtain ⟨_, _, h26, h27, h28, hp, heq⟩ := inspect_ok info inp hok
  rw [heq]
  exact ⟨hp, h26, h27, h28, rfl, rfl⟩

/-- Witness for C4: the header of a 1x1 RGB image of depth 8 passes inspection. -/
theorem C4_witness :
    (upng_inspect upng_new header_rgb8).2 = UPNG_EOK ∧
    accepted_pair (upng_inspect upng_new header_rgb8).1.color_type
      (upng_inspect upng_new header_rgb8).1.color_depth :=
  ⟨by decide, (C4_descriptor_after_inspect upng_new header_rgb8 (by decide)).1⟩

/-- Claim C6 at its failing input: after inspecting a palette header (colour type 3)
the handle holds colour type 3, and `upng_get_format` returns the literal 0 of its
last `default` arm, which is the tag `G_1` and not BADFORMAT. -/
theorem C6_get_format_unknown_colour_type :
    (upng_inspect upng_new header_palette).1.color_type = 3 ∧
    upng_get_format (upng_inspect upng_new header_palette).1 = UPNG_G_1 ∧
    upng_get_format (upng_inspect upng_new header_palette).1 ≠ UPNG_BADFORMAT := by
  decide

/-- The part of C6 that holds: for the four known colour types `upng_get_format`
follows the table of the spec, and for any other colour type it returns 0. -/
theorem get_format_table (info : upng_info) :
    (info.color_type = UPNG_GREY → upng_get_format info =
      (if info.color_depth = 1 then UPNG_G_1 else if info.color_depth = 2 then UPNG_G_2
       else if info.color_depth = 4 then UPNG_G_4 else if info.color_depth = 8 then UPNG_G_8
       else UPNG_BADFORMAT)) ∧
    (info.color_type = UPNG_RGB → upng_get_format info =
      (if info.color_depth = 8 then UPNG_RGB_888 else UPNG_BADFORMAT)) ∧
    (info.color_type = UPNG_GREY_ALPHA → upng_get_format info =
      (if info.color_depth = 1 then UPNG_GA_1 else if info.color_depth = 2 then UPNG_GA_2
       else if info.color_depth = 4 then UPNG_GA_4 else if info.color_depth = 8 then UPNG_GA_8
       else UPNG_BADFORMAT)) ∧
    (info.color_type = UPNG_RGBA → upng_get_format info =
      (if info.color_depth = 8 then UPNG_RGBA_8888 else UPNG_BADFORMAT)) ∧
    (info.color_type ≠ UPNG_GREY → info.color_type ≠ UPNG_RGB →
      info.color_type ≠ UPNG_GREY_ALPHA → info.color_type ≠ UPNG_RGBA →
      upng_get_format info = 0) := by
  unfold upng_get_format
  refine ⟨fun h => ?_, fun h => ?_, fun h => ?_, fun h => ?_, fun h1 h2 h3 h4 => ?_⟩
  · simp [h]
  · simp [h, UPNG_RGB, UPNG_GREY]
  · simp [h, UPNG_RGB, UPNG_GREY, UPNG_GREY_ALPHA]
  · simp [h, UPNG_RGB, UPNG_GREY, UPNG_GREY_ALPHA, UPNG_RGBA]
  · simp [h1, h2, h3, h4]

/-! ## The run monad -/

@[simp] theorem ret_bind {α β : Type} (a : α) (f : α → Exec β) : (Exec.ret a >>= f) = f a := rfl

@[simp] theorem fault_bind {α β : Type} (f : α → Exec β) :
    ((Exec.fault : Exec α) >>= f) = Exec.fault := rfl

@[simp] theorem nofuel_bind {α β : Type} (f : α → Exec β) :
    ((Exec.nofuel : Exec α) >>= f) = Exec.nofuel := rfl

@[simp] theorem pure_eq_ret {α : Type} (a : α) : (pure a : Exec α) = Exec.ret a := rfl

theorem bind_eq_ret {α β : Type} (x : Exec α) (f : α → Exec β) (b : β)
    (h : (x >>= f) = Exec.ret b) : ∃ a, x = Exec.ret a ∧ f a = Exec.ret b := by
  cases x with
  | ret a => exact ⟨a, rfl, h⟩
  | fault => exact absurd h (by simp)
  | nofuel => exact absurd h (by simp)

/-! ## Decoding: error bookkeeping -/

theorem inspect_shape (info : upng_info) (inp : List Byte) :
    ∃ info1, upng_inspect info inp = (info1, info1.error) ∧
      info1.img_buffer = info.img_buffer ∧ info1.img_size = info.img_size := by
  unfold upng_inspect
  by_cases h0 : inp.length = 0
  · rw [if_pos h0]; exact ⟨_, rfl, rfl, rfl⟩
  rw [if_neg h0]
  by_cases h29 : inp.length < 29
  · rw [if_pos h29]; exact ⟨_, rfl, rfl, rfl⟩
  rw [if_neg h29]
  by_cases hs : (peek inp 0 ≠ 137 ∨ peek inp 1 ≠ 80 ∨ peek inp 2 ≠ 78 ∨ peek inp 3 ≠ 71
      ∨ peek inp 4 ≠ 13 ∨ peek inp 5 ≠ 10 ∨ peek inp 6 ≠ 26 ∨ peek inp 7 ≠ 10)
  · rw [if_pos hs]; exact ⟨_, rfl, rfl, rfl⟩
  rw [if_neg hs]
  by_cases ht : (peek inp 12 ≠ 73 ∨ peek inp 13 ≠ 72 ∨ peek inp 14 ≠ 68 ∨ peek inp 15 ≠ 82)
  · rw [if_pos ht]; exact ⟨_, rfl, rfl, rfl⟩
  rw [if_neg ht]
  dsimp only
  by_cases h26 : peek inp 26 ≠ 0
  · rw [if_pos h26]; exact ⟨_, rfl, rfl, rfl⟩
  rw [if_neg h26]
  by_cases h27 : peek inp 27 ≠ 0
  · rw [if_pos h27]; exact ⟨_, rfl, rfl, rfl⟩
  rw [if_neg h27]
  by_cases h28 : peek inp 28 ≠ 0
  · rw [if_pos h28]; exact ⟨_, rfl, rfl, rfl⟩
  rw [if_neg h28]
  refine ⟨_, rfl, ?_, ?_⟩
  · split_ifs <;> rfl
  · split_ifs <;> rfl

theorem inspect_snd (info : upng_info) (inp : List Byte) :
    (upng_inspect info inp).2 = (upng_inspect info inp).1.error := by
  obtain ⟨i, h, _, _⟩ := inspect_shape info inp
  rw [h]

theorem inspect_img_buffer (info : upng_info) (inp : List Byte) :
    (upng_inspect info inp).1.img_buffer = info.img_buffer := by
  obtain ⟨i, h, hb, _⟩ := inspect_shape info inp
  rw [h]; exact hb

theorem decode_ok_inspect (info : upng_info) (inp : List Byte) (r : upng_info)
    (h : upng_decode info inp = .ret (r, UPNG_EOK)) :
    inp.length ≠ 0 ∧ (upng_inspect info inp).2 = UPNG_EOK := by
  unfold upng_decode at h
  by_cases h0 : inp.length = 0
  · rw [if_pos h0] at h
    simp only [SET_ERROR, Exec.ret.injEq, Prod.mk.injEq] at h
    exact absurd h.2 (by decide)
  · rw [if_neg h0] at h
    refine ⟨h0, ?_⟩
    rw [inspect_snd]
    by_contra hne
    simp only [] at h
    rw [if_pos hne] at h
    simp only [Exec.ret.injEq, Prod.mk.injEq] at h
    exact hne h.2

/-- A retained error is returned again.  For every handle whose recorded error is not OK
and every PNG that decodes with OK on a fresh handle, `upng_decode` on that handle
returns the retained error, and `upng_get_error` still reports it afterwards:
`upng_inspect` sets `info->error` when it fails and never sets it to OK. -/
theorem retained_error_is_returned (info : upng_info) (inp : List Byte)
    (herr : info.error ≠ UPNG_EOK)
    (hfresh : ∃ r, upng_decode upng_new inp = .ret (r, UPNG_EOK)) :
    ∃ info1, upng_decode info inp = .ret (info1, info.error) ∧
      upng_get_error info1 = info.error := by
  obtain ⟨r, hr⟩ := hfresh
  obtain ⟨h0, hins⟩ := decode_ok_inspect upng_new inp r hr
  obtain ⟨hf, _, h26, h27, h28, hp, _⟩ := inspect_ok upng_new inp hins
  have hi := inspect_framed info inp hf
  rw [if_neg (not_not.mpr h26), if_neg (not_not.mpr h27), if_neg (not_not.mpr h28),
    if_pos hp] at hi
  unfold upng_decode
  rw [if_neg h0, hi]
  simp only []
  rw [if_pos herr]
  exact ⟨_, rfl, rfl⟩

/-- C5 at its failing input: decoding the empty input leaves NOT_PNG on a fresh handle;
the 1x1 red PNG decodes with OK on a fresh handle.  On the handle with the retained error,
`upng_inspect` (called by `upng_decode` with the comment "reads header and resets other
parameters in info") fills in the header fields and leaves the error as it is, and
`upng_decode` returns NOT_PNG again instead of OK; `upng_get_error` still reports
NOT_PNG.  A failure, on the other hand, does replace the retained error: on the same
handle a header with interlace method 1 gives UNSUPPORTED. -/
theorem C5_error_not_cleared :
    upng_decode upng_new [] = .ret (handle_after_empty, UPNG_ENOTPNG) ∧
    (∃ r, upng_decode upng_new png_red_1x1 = .ret (r, UPNG_EOK) ∧
      upng_get_error r = UPNG_EOK) ∧
    (upng_inspect handle_after_empty png_red_1x1).1.width = 1 ∧
    (upng_inspect handle_after_empty png_red_1x1).1.error = UPNG_ENOTPNG ∧
    (∃ info1, upng_decode handle_after_empty png_red_1x1 = .ret (info1, UPNG_ENOTPNG) ∧
      upng_get_error info1 = UPNG_ENOTPNG) ∧
    (upng_inspect handle_after_empty header_interlaced).2 = UPNG_EUNSUPPORTED :=
  ⟨by decide, ⟨_, by rfl, by rfl⟩, by rfl, by rfl,
    retained_error_is_returned handle_after_empty png_red_1x1 (by decide) ⟨_, by rfl⟩, by rfl⟩

/-- Claim C7 at its failing input: the PNG declaring a GREY image of depth 8, width
`2 ^ 29` and height 1 decodes with OK, and `upng_get_size` is then 0, although
`ceil(w * bpp * h / 8)` is `2 ^ 29`; the `unsigned` product `height * width * bpp`
has wrapped to 0. -/
theorem C7_size_wraps_at_wide_image :
    ∃ info, upng_decode upng_new png_wide_grey = .ret (info, UPNG_EOK) ∧
      upng_get_width info = 2 ^ 29 ∧ upng_get_height info = 1 ∧ upng_get_bpp info = 8 ∧
      upng_get_size info = some 0 ∧
      (upng_get_width info * upng_get_bpp info * upng_get_height info + 7) / 8 = 2 ^ 29 :=
  ⟨_, by rfl, by decide, by decide, by decide, by decide, by decide⟩

/-! ## Decoding: the chunk walk -/

/-- The possible outcomes of one round of the chunk loop. -/
theorem chunk_loop_round (inp : List Byte) (info : upng_info) (f chunk : Nat) (idat : ucvector) :
    chunk_loop inp (f + 1) chunk idat info = .ret (info, idat) ∨
    (∃ code line, code ≠ UPNG_EOK ∧
      chunk_loop inp (f + 1) chunk idat info = .ret (SET_ERROR info code line, idat)) ∨
    (∃ idat1, chunk_loop inp (f + 1) chunk idat info
      = chunk_loop inp f (chunk + (upng_chunk_length inp chunk + 12)) idat1 info) ∨
    chunk_loop inp (f + 1) chunk idat info = .fault := by
  rw [chunk_loop]
  by_cases h1 : ¬ (chunk < inp.length)
  · rw [if_pos h1]; exact Or.inl rfl
  rw [if_neg h1]
  by_cases h2 : chunk + 12 > inp.length
  · rw [if_pos h2]; exact Or.inr (Or.inl ⟨_, _, by decide, rfl⟩)
  rw [if_neg h2]
  simp only []
  by_cases h3 : int_to_ulong (upng_chunk_length inp chunk) > INT_MAX
  · rw [if_pos h3]; exact Or.inr (Or.inl ⟨_, _, by decide, rfl⟩)
  rw [if_neg h3]
  by_cases h4 : chunk + int_to_ulong (upng_chunk_length inp chunk) + 12 > inp.length
  · rw [if_pos h4]; exact Or.inr (Or.inl ⟨_, _, by decide, rfl⟩)
  rw [if_neg h4]
  by_cases h5 : upng_chunk_type inp chunk = CHUNK_IDAT
  · rw [if_pos h5]
    cases hm : memcpy (ucvector_resize idat
        (idat.size + int_to_ulong (upng_chunk_length inp chunk))).data
        ((ucvector_resize idat (idat.size + int_to_ulong (upng_chunk_length inp chunk))).size
          - int_to_ulong (upng_chunk_length inp chunk)) inp (chunk + 8)
        (int_to_ulong (upng_chunk_length inp chunk)) with
    | ret d => exact Or.inr (Or.inr (Or.inl ⟨_, rfl⟩))
    | fault => exact Or.inr (Or.inr (Or.inr rfl))
    | nofuel => unfold memcpy at hm; split_ifs at hm
  rw [if_neg h5]
  by_cases h6 : upng_chunk_type inp chunk = CHUNK_IEND
  · rw [if_pos h6]; exact Or.inl rfl
  rw [if_neg h6]
  by_cases h7 : upng_chunk_critical inp chunk = true
  · rw [if_pos h7]; exact Or.inr (Or.inl ⟨_, _, by decide, rfl⟩)
  rw [if_neg h7]
  exact Or.inr (Or.inr (Or.inl ⟨_, rfl⟩))

theorem chunk_loop_img_buffer (inp : List Byte) (info : upng_info) :
    ∀ fuel chunk idat info1 idat1,
      chunk_loop inp fuel chunk idat info = .ret (info1, idat1) →
      info1.img_buffer = info.img_buffer ∧ (info1.error = info.error ∨ info1.error ≠ UPNG_EOK) := by
  intro fuel
  induction fuel with
  | zero => intro chunk idat info1 idat1 h; simp [chunk_loop] at h
  | succ f ih =>
    intro chunk idat info1 idat1 h
    rcases chunk_loop_round inp info f chunk idat with h1 | ⟨code, line, hc, h1⟩ | ⟨i, h1⟩ | h1
    · rw [h1] at h
      simp only [Exec.ret.injEq, Prod.mk.injEq] at h
      rw [← h.1]; exact ⟨rfl, Or.inl rfl⟩
    · rw [h1] at h
      simp only [Exec.ret.injEq, Prod.mk.injEq] at h
      rw [← h.1]; exact ⟨rfl, Or.inr hc⟩
    · rw [h1] at h
      exact ih _ _ _ _ h
    · rw [h1] at h
      exact absurd h (by simp)

theorem int_to_ulong_small (p : Nat) (h : int_to_ulong p ≤ INT_MAX) : int_to_ulong p = p := by
  unfold int_to_ulong at h ⊢
  unfold INT_MAX at h
  split_ifs at h ⊢ with h1
  · omega
  · rfl

/-- One round of the chunk loop at a chunk that is stepped over. -/
theorem chunk_loop_step (inp : List Byte) (info : upng_info) (fuel o : Nat) (idat : ucvector)
    (hs : stepped_over inp o) (hinv : idat.size ≤ idat.data.length) :
    ∃ idat1, idat1.size ≤ idat1.data.length ∧
      chunk_loop inp (fuel + 1) o idat info =
        chunk_loop inp fuel (o + (upng_chunk_length inp o + 12)) idat1 info := by
  obtain ⟨⟨hf1, hf2, hf3⟩, hty⟩ := hs
  have hl := int_to_ulong_small _ hf2
  rw [hl] at hf3
  rw [chunk_loop]
  rw [if_neg (by omega), if_neg (by omega)]
  simp only [hl]
  rw [if_neg (by rw [← hl]; omega), if_neg (by omega)]
  by_cases hidat : upng_chunk_type inp o = CHUNK_IDAT
  · rw [if_pos hidat]
    have hm : memcpy (ucvector_resize idat (idat.size + upng_chunk_length inp o)).data
        ((ucvector_resize idat (idat.size + upng_chunk_length inp o)).size
          - upng_chunk_length inp o) inp (o + 8) (upng_chunk_length inp o) =
        .ret (idat.data.take idat.size ++ (inp.drop (o + 8)).take (upng_chunk_length inp o)
          ++ idat.data.drop (idat.size + upng_chunk_length inp o)) := by
      have e1 : (ucvector_resize idat (idat.size + upng_chunk_length inp o)).data = idat.data := by
        unfold ucvector_resize; split_ifs <;> rfl
      have e2 : (ucvector_resize idat (idat.size + upng_chunk_length inp o)).size
          = idat.size + upng_chunk_length inp o := by
        unfold ucvector_resize; split_ifs <;> rfl
      rw [e1, e2]
      unfold memcpy
      rw [if_pos ⟨by omega, by omega⟩]
      simp
    rw [hm]
    refine ⟨_, ?_, rfl⟩
    have e2 : (ucvector_resize idat (idat.size + upng_chunk_length inp o)).size
        = idat.size + upng_chunk_length inp o := by
      unfold ucvector_resize; split_ifs <;> rfl
    simp only [e2, List.length_append, List.length_take, List.length_drop]
    omega
  · rw [if_neg hidat]
    rcases hty with h | ⟨h1, h2⟩
    · exact absurd h hidat
    · rw [if_neg h1, h2]
      exact ⟨idat, hinv, by simp⟩

theorem first_stop_ge (inp : List Byte) : ∀ fuel o, o ≤ first_stop inp fuel o := by
  intro fuel
  induction fuel with
  | zero => intro o; simp [first_stop]
  | succ f ih =>
    intro o
    unfold first_stop
    split_ifs
    · exact le_trans (by omega) (ih _)
    · exact le_refl _

/-- The chunk loop runs up to the offset where the walk stops, where it still has
fuel. -/
theorem chunk_loop_to_stop (inp : List Byte) (info : upng_info) :
    ∀ fuel o idat, 1 ≤ fuel → inp.length < fuel + o → idat.size ≤ idat.data.length →
      ∃ g idat1, chunk_loop inp fuel o idat info =
          chunk_loop inp (g + 1) (first_stop inp fuel o) idat1 info ∧
        ¬ (first_stop inp fuel o < inp.length ∧ stepped_over inp (first_stop inp fuel o)) := by
  intro fuel
  induction fuel with
  | zero => intro o idat h; omega
  | succ f ih =>
    intro o idat _ hlt hinv
    by_cases hstep : o < inp.length ∧ stepped_over inp o
    · obtain ⟨idat1, hinv1, he⟩ := chunk_loop_step inp info f o idat hstep.2 hinv
      have hf1 := hstep.2.1.1
      have hfs : first_stop inp (f + 1) o
          = first_stop inp f (o + (upng_chunk_length inp o + 12)) := by
        rw [first_stop, if_pos hstep]
      obtain ⟨g, idat2, h1, h2⟩ := ih (o + (upng_chunk_length inp o + 12)) idat1 (by omega)
        (by omega) hinv1
      rw [hfs]
      exact ⟨g, idat2, by rw [he, h1], h2⟩
    · have hfs : first_stop inp (f + 1) o = o := by rw [first_stop, if_neg hstep]
      rw [hfs]
      exact ⟨f, idat, rfl, hstep⟩

/-- What `upng_decode` returns when the chunk loop ends with an error. -/
theorem decode_of_chunk_error (info : upng_info) (inp : List Byte) (info1 : upng_info)
    (idat : ucvector) (h0 : inp.length ≠ 0)
    (hins : (upng_inspect info inp).1.error = UPNG_EOK)
    (hbuf : info.img_buffer ≠ .garbage)
    (hloop : chunk_loop inp inp.length 33 ucvector_init (upng_inspect info inp).1
      = .ret (info1, idat))
    (herr : info1.error ≠ UPNG_EOK) :
    upng_decode info inp
      = .ret ({ info1 with img_buffer := .garbage, img_size := none }, info1.error) := by
  have hb := (chunk_loop_img_buffer inp _ _ _ _ _ _ hloop).1
  rw [inspect_img_buffer] at hb
  unfold upng_decode
  rw [if_neg h0]
  simp only []
  rw [if_neg (not_not.mpr hins), hloop]
  simp only [ret_bind, decode_image, if_neg herr, pure_eq_ret]
  rw [if_neg (by rw [hb]; exact hbuf)]

/-- The outcome of `upng_decode` when the chunk walk stops at a chunk inside the
input: MALFORMED for an ill-framed chunk, UNSUPPORTED for a well-framed unknown
critical chunk. -/
theorem decode_at_stop (info : upng_info) (inp : List Byte)
    (hins : (upng_inspect info inp).2 = UPNG_EOK) (hbuf : info.img_buffer ≠ .garbage)
    (hlt : chunk_walk_stop inp < inp.length) :
    (¬ well_framed inp (chunk_walk_stop inp) →
      ∃ r, upng_decode info inp = .ret (r, UPNG_EMALFORMED) ∧ r.error = UPNG_EMALFORMED) ∧
    (well_framed inp (chunk_walk_stop inp) →
      upng_chunk_type inp (chunk_walk_stop inp) ≠ CHUNK_IDAT →
      upng_chunk_type inp (chunk_walk_stop inp) ≠ CHUNK_IEND →
      upng_chunk_critical inp (chunk_walk_stop inp) = true →
      ∃ r, upng_decode info inp = .ret (r, UPNG_EUNSUPPORTED) ∧ r.error = UPNG_EUNSUPPORTED) := by
  have hf := (inspect_ok info inp hins).1
  have hlen : 29 ≤ inp.length := hf.1
  rw [inspect_snd] at hins
  obtain ⟨g, idat1, hloop, _⟩ := chunk_loop_to_stop inp (upng_inspect info inp).1 inp.length 33
    ucvector_init (by omega) (by omega) (by simp [ucvector_init])
  change chunk_loop inp inp.length 33 ucvector_init (upng_inspect info inp).1
    = chunk_loop inp (g + 1) (chunk_walk_stop inp) idat1 (upng_inspect info inp).1 at hloop
  constructor
  · intro hnw
    have hcase : ∃ line, chunk_loop inp (g + 1) (chunk_walk_stop inp) idat1
        (upng_inspect info inp).1
        = .ret (SET_ERROR (upng_inspect info inp).1 UPNG_EMALFORMED line, idat1) := by
      rw [chunk_loop]
      rw [if_neg (by omega)]
      by_cases h1 : chunk_walk_stop inp + 12 > inp.length
      · rw [if_pos h1]; exact ⟨_, rfl⟩
      rw [if_neg h1]
      simp only []
      by_cases h2 : int_to_ulong (upng_chunk_length inp (chunk_walk_stop inp)) > INT_MAX
      · rw [if_pos h2]; exact ⟨_, rfl⟩
      rw [if_neg h2]
      by_cases h3 : chunk_walk_stop inp
          + int_to_ulong (upng_chunk_length inp (chunk_walk_stop inp)) + 12 > inp.length
      · rw [if_pos h3]; exact ⟨_, rfl⟩
      exact absurd ⟨by omega, by omega, by omega⟩ hnw
    obtain ⟨line, hc⟩ := hcase
    rw [hc] at hloop
    have := decode_of_chunk_error info inp _ _ (by omega) hins hbuf hloop
      (show UPNG_EMALFORMED ≠ UPNG_EOK by decide)
    exact ⟨_, this, rfl⟩
  · intro hw h1 h2 h3
    have hl := int_to_ulong_small _ hw.2.1
    have hc : chunk_loop inp (g + 1) (chunk_walk_stop inp) idat1 (upng_inspect info inp).1
        = .ret (SET_ERROR (upng_inspect info inp).1 UPNG_EUNSUPPORTED 1050, idat1) := by
      rw [chunk_loop]
      rw [if_neg (by omega), if_neg (by have := hw.1; omega)]
      simp only []
      rw [if_neg (by have := hw.2.1; omega), if_neg (by have := hw.2.2; omega), if_neg h1,
        if_neg h2, h3]
      rfl
    rw [hc] at hloop
    have := decode_of_chunk_error info inp _ _ (by omega) hins hbuf hloop
      (show UPNG_EUNSUPPORTED ≠ UPNG_EOK by decide)
    exact ⟨_, this, rfl⟩

/-- Claim C9: for an input that passes inspect, let `o` be the offset at which the
chunk walk from offset 33 stops, with `o` inside the input.  `upng_decode` returns
MALFORMED when the chunk at `o` has `o + 12 > size`, a declared length above `INT_MAX`,
or `o + length + 12 > size`; it returns UNSUPPORTED when that chunk is well framed, is
neither IDAT nor IEND and has bit 5 of its first type byte clear.  A well-framed chunk
that is neither IDAT nor IEND and has that bit set is stepped over: the loop goes on
with the same handle (no error) and the same IDAT data. -/
theorem C9_chunk_walk_rejection (info : upng_info) (inp : List Byte)
    (hins : (upng_inspect info inp).2 = UPNG_EOK) (hbuf : info.img_buffer ≠ .garbage) :
    (chunk_walk_stop inp < inp.length →
      (chunk_walk_stop inp + 12 > inp.length ∨
        int_to_ulong (upng_chunk_length inp (chunk_walk_stop inp)) > INT_MAX ∨
        chunk_walk_stop inp + int_to_ulong (upng_chunk_length inp (chunk_walk_stop inp)) + 12
          > inp.length) →
      ∃ r, upng_decode info inp = .ret (r, UPNG_EMALFORMED) ∧
        upng_get_error r = UPNG_EMALFORMED) ∧
    (chunk_walk_stop inp < inp.length → well_framed inp (chunk_walk_stop inp) →
      upng_chunk_type inp (chunk_walk_stop inp) ≠ CHUNK_IDAT →
      upng_chunk_type inp (chunk_walk_stop inp) ≠ CHUNK_IEND →
      (peek inp (chunk_walk_stop inp + 4) &&& 32) = 0 →
      ∃ r, upng_decode info inp = .ret (r, UPNG_EUNSUPPORTED) ∧
        upng_get_error r = UPNG_EUNSUPPORTED) ∧
    (∀ fuel o idat (h : upng_info), o < inp.length → well_framed inp o →
      upng_chunk_type inp o ≠ CHUNK_IDAT → upng_chunk_type inp o ≠ CHUNK_IEND →
      (peek inp (o + 4) &&& 32) ≠ 0 →
      chunk_loop inp (fuel + 1) o idat h
        = chunk_loop inp fuel (o + (upng_chunk_length inp o + 12)) idat h) := by
  refine ⟨fun hlt hbad => ?_, fun hlt hw h1 h2 h3 => ?_, fun fuel o idat h ho hw h1 h2 h3 => ?_⟩
  · apply (decode_at_stop info inp hins hbuf hlt).1
    intro hw
    unfold well_framed at hw
    omega
  · apply (decode_at_stop info inp hins hbuf hlt).2 hw h1 h2
    simp [upng_chunk_critical, h3]
  · have hl := int_to_ulong_small _ hw.2.1
    rw [chunk_loop]
    rw [if_neg (by omega), if_neg (by have := hw.1; omega)]
    simp only []
    rw [if_neg (by have := hw.2.1; omega), if_neg (by have := hw.2.2; omega), if_neg h1,
      if_neg h2]
    have hc : upng_chunk_critical inp o = false := by simp [upng_chunk_critical, h3]
    rw [hc]
    simp

/-- Witness for C9: the 1x1 red PNG with an unknown critical chunk `ABCD` before
IDAT passes inspect and is rejected with UNSUPPORTED. -/
theorem C9_witness :
    (upng_inspect upng_new png_unknown_critical).2 = UPNG_EOK ∧
    ∃ r, upng_decode upng_new png_unknown_critical = .ret (r, UPNG_EUNSUPPORTED) ∧
      upng_get_error r = UPNG_EUNSUPPORTED :=
  ⟨by decide,
   (C9_chunk_walk_rejection upng_new png_unknown_critical (by decide) (by decide)).2.1
     (by decide) (by decide) (by decide) (by decide) (by decide)⟩

/-! ## Decoding: truncation by one byte -/

theorem peek_take (inp : List Byte) (n i : Nat) (h : i < n) :
    peek (inp.take n) i = peek inp i := by
  unfold peek
  rw [List.getD_eq_getElem?_getD, List.getD_eq_getElem?_getD, List.getElem?_take_of_lt h]

theorem peek_dropLast (inp : List Byte) (i : Nat) (h : i + 1 < inp.length) :
    peek inp.dropLast i = peek inp i := by
  rw [List.dropLast_eq_take]
  exact peek_take inp _ i (by omega)

theorem dword_dropLast (inp : List Byte) (off : Nat) (h : off + 4 < inp.length) :
    MAKE_DWORD_PTR inp.dropLast off = MAKE_DWORD_PTR inp off := by
  unfold MAKE_DWORD_PTR
  rw [peek_dropLast inp off (by omega), peek_dropLast inp (off + 1) (by omega),
    peek_dropLast inp (off + 2) (by omega), peek_dropLast inp (off + 3) (by omega)]

/-- The result of `upng_inspect` depends only on the first 29 bytes of an input that
has that many. -/
theorem inspect_congr (info : upng_info) (inp inp1 : List Byte) (hl : 29 ≤ inp.length)
    (hl1 : 29 ≤ inp1.length) (hp : ∀ i, i < 29 → peek inp i = peek inp1 i) :
    upng_inspect info inp = upng_inspect info inp1 := by
  have a0 := hp 0 (by decide)
  have a1 := hp 1 (by decide)
  have a2 := hp 2 (by decide)
  have a3 := hp 3 (by decide)
  have a4 := hp 4 (by decide)
  have a5 := hp 5 (by decide)
  have a6 := hp 6 (by decide)
  have a7 := hp 7 (by decide)
  have a12 := hp 12 (by decide)
  have a13 := hp 13 (by decide)
  have a14 := hp 14 (by decide)
  have a15 := hp 15 (by decide)
  have a16 := hp 16 (by decide)
  have a17 := hp 17 (by decide)
  have a18 := hp 18 (by decide)
  have a19 := hp 19 (by decide)
  have a20 := hp 20 (by decide)
  have a21 := hp 21 (by decide)
  have a22 := hp 22 (by decide)
  have a23 := hp 23 (by decide)
  have a24 := hp 24 (by decide)
  have a25 := hp 25 (by decide)
  have a26 := hp 26 (by decide)
  have a27 := hp 27 (by decide)
  have a28 := hp 28 (by decide)
  have e : MAKE_DWORD_PTR inp 16 = MAKE_DWORD_PTR inp1 16 := by
    simp only [MAKE_DWORD_PTR, a16, a17, a18, a19]
  have e1 : MAKE_DWORD_PTR inp 20 = MAKE_DWORD_PTR inp1 20 := by
    simp only [MAKE_DWORD_PTR, a20, a21, a22, a23]
  unfold upng_inspect
  rw [if_neg (by omega : ¬ inp.length = 0), if_neg (by omega : ¬ inp.length < 29),
    if_neg (by omega : ¬ inp1.length = 0), if_neg (by omega : ¬ inp1.length < 29)]
  rw [a0, a1, a2, a3, a4, a5, a6, a7, a12, a13, a14, a15, a24, a25, a26, a27, a28, e, e1]

theorem inspect_dropLast (info : upng_info) (inp : List Byte) (hl : 30 ≤ inp.length) :
    upng_inspect info inp.dropLast = upng_inspect info inp :=
  inspect_congr info _ _ (by rw [List.length_dropLast]; omega) (by omega)
    (fun i hi => peek_dropLast inp i (by omega))

/-- The chunk walk of the input without its last byte reaches the same IEND chunk
when that chunk ends exactly at the end of the input. -/
theorem first_stop_dropLast (inp : List Byte) (s : Nat)
    (hw : well_framed inp s)
    (hend : s + upng_chunk_length inp s + 12 = inp.length) :
    ∀ fuel o, first_stop inp fuel o = s → first_stop inp.dropLast fuel o = s := by
  have hsl := int_to_ulong_small _ hw.2.1
  intro fuel
  induction fuel with
  | zero => intro o h; simpa [first_stop] using h
  | succ f ih =>
    intro o h
    rw [first_stop] at h ⊢
    by_cases hstep : o < inp.length ∧ stepped_over inp o
    · rw [if_pos hstep] at h
      have hge := first_stop_ge inp f (o + (upng_chunk_length inp o + 12))
      rw [h] at hge
      obtain ⟨ho, ⟨hf1, hf2, hf3⟩, hty⟩ := hstep
      have hl := int_to_ulong_small _ hf2
      have e1 : upng_chunk_length inp.dropLast o = upng_chunk_length inp o :=
        dword_dropLast inp o (by omega)
      have e2 : upng_chunk_type inp.dropLast o = upng_chunk_type inp o :=
        dword_dropLast inp (o + 4) (by omega)
      have e3 : upng_chunk_critical inp.dropLast o = upng_chunk_critical inp o := by
        unfold upng_chunk_critical
        rw [peek_dropLast inp (o + 4) (by omega)]
      have hstep1 : o < inp.dropLast.length ∧ stepped_over inp.dropLast o := by
        refine ⟨by rw [List.length_dropLast]; omega, ⟨?_, ?_, ?_⟩, ?_⟩
        · rw [List.length_dropLast]; omega
        · rw [e1]; exact hf2
        · rw [e1, hl, List.length_dropLast]; omega
        · rw [e2, e3]; exact hty
      rw [if_pos hstep1, e1]
      exact ih _ h
    · rw [if_neg hstep] at h
      subst h
      rw [if_neg]
      rintro ⟨_, ⟨hf1, hf2, hf3⟩, _⟩
      have e1 : upng_chunk_length inp.dropLast o = upng_chunk_length inp o :=
        dword_dropLast inp o (by have := hw.1; omega)
      rw [e1, hsl, List.length_dropLast] at hf3
      omega

/-- Fuel beyond what the walk needs does not change where it stops. -/
theorem first_stop_fuel (inp : List Byte) :
    ∀ f o, inp.length < f + o → ∀ g, f ≤ g → first_stop inp g o = first_stop inp f o := by
  intro f
  induction f with
  | zero =>
    intro o h g _
    cases g with
    | zero => rfl
    | succ g =>
      rw [first_stop, first_stop, if_neg (fun h1 => absurd h1.1 (by omega))]
  | succ f ih =>
    intro o h g hg
    obtain ⟨g1, rfl⟩ : ∃ g1, g = g1 + 1 := ⟨g - 1, by omega⟩
    rw [first_stop, first_stop]
    by_cases hstep : o < inp.length ∧ stepped_over inp o
    · rw [if_pos hstep, if_pos hstep]
      exact ih _ (by omega) g1 (by omega)
    · rw [if_neg hstep, if_neg hstep]

/-- Claim C10: a PNG that decodes with OK on a fresh handle and whose bytes end
exactly at the end of the IEND chunk that its chunk walk reaches is rejected, once its
last byte is removed, with MALFORMED (so with MALFORMED or NOT_PNG). -/
theorem C10_truncated_by_one_byte (inp : List Byte) (r : upng_info)
    (hok : upng_decode upng_new inp = .ret (r, UPNG_EOK))
    (hw : well_framed inp (chunk_walk_stop inp))
    (_hty : upng_chunk_type inp (chunk_walk_stop inp) = CHUNK_IEND)
    (hend : chunk_walk_stop inp + upng_chunk_length inp (chunk_walk_stop inp) + 12
      = inp.length) :
    ∃ r1 e, upng_decode upng_new inp.dropLast = .ret (r1, e) ∧ upng_get_error r1 = e ∧
      e = UPNG_EMALFORMED ∧ (e = UPNG_EMALFORMED ∨ e = UPNG_ENOTPNG) := by
  obtain ⟨_, hins⟩ := decode_ok_inspect upng_new inp r hok
  have hge : 33 ≤ chunk_walk_stop inp := first_stop_ge inp inp.length 33
  have hw1 := hw.1
  have hsl := int_to_ulong_small _ hw.2.1
  have hstop : chunk_walk_stop inp.dropLast = chunk_walk_stop inp := by
    have h1 := first_stop_dropLast inp (chunk_walk_stop inp) hw hend inp.length 33 rfl
    have h2 := first_stop_fuel inp.dropLast inp.dropLast.length 33 (by omega) inp.length
      (by rw [List.length_dropLast]; omega)
    unfold chunk_walk_stop at h1 ⊢
    rw [← h2, h1]
  have hins1 : (upng_inspect upng_new inp.dropLast).2 = UPNG_EOK := by
    rw [inspect_dropLast upng_new inp (by omega)]; exact hins
  have hlt1 : chunk_walk_stop inp.dropLast < inp.dropLast.length := by
    rw [hstop, List.length_dropLast]; omega
  have hnw : ¬ well_framed inp.dropLast (chunk_walk_stop inp.dropLast) := by
    rw [hstop]
    rintro ⟨_, _, hf3⟩
    have e1 : upng_chunk_length inp.dropLast (chunk_walk_stop inp)
        = upng_chunk_length inp (chunk_walk_stop inp) := dword_dropLast inp _ (by omega)
    rw [e1, hsl, List.length_dropLast] at hf3
    omega
  obtain ⟨r1, h1, h2⟩ := (decode_at_stop upng_new inp.dropLast hins1 (by decide) hlt1).1 hnw
  exact ⟨r1, _, h1, h2, rfl, Or.inl rfl⟩

/-- Witness for C10: the 1x1 red PNG, which ends with its IEND chunk. -/
theorem C10_witness :
    ∃ r1 e, upng_decode upng_new png_red_1x1.dropLast = .ret (r1, e) ∧ upng_get_error r1 = e ∧
      e = UPNG_EMALFORMED ∧ (e = UPNG_EMALFORMED ∨ e = UPNG_ENOTPNG) :=
  C10_truncated_by_one_byte png_red_1x1 _ (by rfl) (by decide) (by decide) (by decide)

/-! ## Inflating a stored block -/

theorem toByte_val (b : Byte) : toByte b.val = b := by
  apply Fin.ext
  simp only [toByte]
  exact Nat.mod_eq_of_lt b.isLt

theorem toByte_val_eq (n : Nat) : (toByte n).val = n % 256 := rfl

theorem load_eq (m : List Byte) (i : Nat) (h : i < m.length) : load m i = .ret (m[i]).val := by
  unfold load
  rw [List.getElem?_eq_getElem h]

theorem store_eq (d : List Byte) (pos : Nat) (v : Byte) (h : pos ≤ d.length) :
    store d pos v = .ret (d.take pos ++ v :: d.drop (pos + 1)) := by
  unfold store
  by_cases h1 : pos < d.length
  · rw [if_pos h1, List.set_eq_take_append_cons_drop, if_pos h1]
  · have h2 : pos = d.length := by omega
    rw [if_neg h1, if_pos h2]
    subst h2
    simp

/-- The copy loop of `inflate_nocmp`: `n` bytes go from `inp[p..]` to `d[pos..]`. -/
theorem nocmp_copy (inp : List Byte) :
    ∀ n lo (d : List Byte) pos p, pos ≤ d.length → p + n ≤ inp.length →
      for_loop (fun _ (s : List Byte × Nat × Nat) =>
            load inp s.2.2 >>= fun b => store s.1 s.2.1 (toByte b) >>= fun d =>
              Exec.ret (d, s.2.1 + 1, s.2.2 + 1))
          n lo (d, pos, p)
        = .ret (d.take pos ++ (inp.drop p).take n ++ d.drop (pos + n), pos + n, p + n) := by
  intro n
  induction n with
  | zero =>
    intro lo d pos p _ _
    simp [for_loop]
  | succ n ih =>
    intro lo d pos p hpos hp
    rw [for_loop]
    simp only [load_eq inp p (by omega), ret_bind, toByte_val, store_eq d pos _ hpos]
    rw [ih (lo + 1) _ (pos + 1) (p + 1) (by simp; omega) (by omega)]
    have e1 : (inp.drop p).take (n + 1) = inp[p] :: (inp.drop (p + 1)).take n := by
      rw [List.drop_eq_getElem_cons (by omega), List.take_succ_cons]
    have hl : (List.take pos d).length = pos := by simp; omega
    have e2 : (List.take pos d ++ inp[p] :: List.drop (pos + 1) d).take (pos + 1)
        = List.take pos d ++ [inp[p]] := by
      rw [List.take_append_eq_append_take, hl]
      simp
    have e3 : (List.take pos d ++ inp[p] :: List.drop (pos + 1) d).drop (pos + 1 + n)
        = List.drop (pos + (n + 1)) d := by
      rw [List.drop_append_eq_append_drop, hl]
      have : List.drop (pos + 1 + n) (List.take pos d) = [] := by
        apply List.drop_eq_nil_of_le; rw [hl]; omega
      rw [this]
      have : pos + 1 + n - pos = n + 1 := by omega
      rw [this]
      simp [List.drop_drop]
      congr 1; omega
    rw [e1, e2, e3]
    simp
    omega


theorem le16_decode (n : Nat) (h : n < 65536) :
    (toByte n).val + 256 * (toByte (n / 256)).val = n := by
  simp only [toByte_val_eq]; omega

theorem resize_data (p : ucvector) (n : Nat) : (ucvector_resize p n).data = p.data := by
  unfold ucvector_resize; split_ifs <;> rfl

theorem resize_size (p : ucvector) (n : Nat) : (ucvector_resize p n).size = n := by
  unfold ucvector_resize; split_ifs <;> rfl

theorem ite_resize_data (c : Prop) [Decidable c] (p : ucvector) (n : Nat) :
    (if c then ucvector_resize p n else p).data = p.data := by
  split_ifs
  · exact resize_data _ _
  · rfl

theorem read_bit_first (l : List Byte) : read_bit 0 (1 :: l) = .ret (1, 1) := by
  simp [read_bit, load]

theorem read_bit_second (l : List Byte) : read_bit 1 (1 :: l) = .ret (0, 2) := by
  simp [read_bit, load]

theorem read_bit_third (l : List Byte) : read_bit 2 (1 :: l) = .ret (0, 3) := by
  simp [read_bit, load]
  decide

/-- The function `inflate_nocmp` on a stored block that starts in the first byte
of the input, with nothing written yet. -/
theorem nocmp_stored (D T : List Byte) (x0 : Byte) (out : ucvector) (insize : Nat)
    (hD : D.length ≤ 65535) (hsz : insize = 7 + D.length + T.length) (hT : insize < 2 ^ 64) :
    ∃ v, inflate_nocmp out
        (x0 :: toByte D.length :: toByte (D.length / 256) :: toByte (65535 - D.length)
          :: toByte ((65535 - D.length) / 256) :: (D ++ T)) 3 0 insize
        = .ret (0, v, (5 + D.length) * 8, D.length) ∧
      v.data = D ++ out.data.drop D.length := by
  unfold inflate_nocmp
  have e1 : (3 + 7) / 8 * 8 / 8 = 1 := by decide
  simp only [e1]
  rw [if_neg (by omega)]
  simp only [load, List.getElem?_cons_zero, List.getElem?_cons_succ, ret_bind]
  rw [le16_decode _ (by omega), le16_decode _ (by omega)]
  rw [if_neg (by omega)]
  simp only [pure_eq_ret]
  rw [if_neg (by omega)]
  have hc := nocmp_copy
    (x0 :: toByte D.length :: toByte (D.length / 256) :: toByte (65535 - D.length)
          :: toByte ((65535 - D.length) / 256) :: (D ++ T)) D.length 0
    (if 0 + D.length ≥ out.size then ucvector_resize out (0 + D.length) else out).data 0 5
    (by omega) (by simp; omega)
  simp only [load] at hc
  rw [hc]
  simp only [ret_bind]
  have hdata : (if 0 + D.length ≥ out.size then ucvector_resize out (0 + D.length) else out).data
      = out.data := by
    split_ifs
    · exact resize_data _ _
    · rfl
  refine ⟨{ (if 0 + D.length ≥ out.size then ucvector_resize out (0 + D.length) else out) with
    data := D ++ out.data.drop D.length }, ?_, rfl⟩
  simp [ite_resize_data]


/-- One round of the loop of `uz_inflate` on a final stored block. -/
theorem uz_inflate_loop_stored (inp : List Byte) (insize fuel : Nat) (out v : ucvector)
    (bp pos bp1 pos1 : Nat)
    (hbp : ¬ (bp >>> 3) ≥ insize)
    (h1 : read_bit bp inp = .ret (1, bp + 1))
    (h2 : read_bit (bp + 1) inp = .ret (0, bp + 2))
    (h3 : read_bit (bp + 2) inp = .ret (0, bp + 3))
    (hn : inflate_nocmp out inp (bp + 3) pos insize = .ret (0, v, bp1, pos1)) :
    uz_inflate_loop inp insize (fuel + 1) out bp pos = .ret (0, ucvector_resize v pos1) := by
  rw [uz_inflate_loop, if_neg hbp, h1, ret_bind]
  dsimp only
  rw [h2, ret_bind]
  dsimp only
  rw [h3, ret_bind]
  dsimp only
  rw [if_neg (by decide), if_pos (by decide), hn, ret_bind]
  dsimp only
  rw [if_neg (by decide), if_pos (by decide)]
  rfl

/-- A zlib stream with one final stored block, as `uz_inflate` sees it. -/
theorem uz_inflate_stored (D T : List Byte) (out : ucvector) (hD : D.length ≤ 65535)
    (hT : 7 + D.length + T.length < 2 ^ 64) :
    ∃ v, uz_inflate out (stored_zlib D ++ T) (7 + D.length + T.length) 2 = .ret (0, v) ∧
      v.data = D ++ out.data.drop D.length ∧ v.size = D.length := by
  have hform : stored_zlib D ++ T = 120 :: 1 :: 1 :: toByte D.length :: toByte (D.length / 256)
      :: toByte (65535 - D.length) :: toByte ((65535 - D.length) / 256) :: (D ++ T) := by
    simp [stored_zlib, le16]
  rw [hform]
  obtain ⟨v, hv, hvd⟩ := nocmp_stored D T 1 out (7 + D.length + T.length) hD rfl hT
  unfold uz_inflate
  rw [List.drop_succ_cons, List.drop_succ_cons, List.drop_zero]
  refine ⟨ucvector_resize v D.length, ?_, ?_, ?_⟩
  · exact uz_inflate_loop_stored _ _ _ out v 0 0 _ _ (by simp) (read_bit_first _)
      (read_bit_second _) (read_bit_third _) hv
  · rw [resize_data, hvd]
  · rw [resize_size]

/-- Inflating a zlib stream that consists of one final stored block: the output
receives the data of the block and its size is the length of the data. -/
theorem inflate_stored (D T o : List Byte) (osize : Nat) (hD : D.length ≤ 65535)
    (hT : 7 + D.length + T.length < 2 ^ 64) :
    uzlib_decompress o osize (stored_zlib D ++ T) (7 + D.length + T.length)
      = .ret (0, D ++ o.drop D.length, D.length) := by
  obtain ⟨v, hv, hvd, hvs⟩ := uz_inflate_stored D T (ucvector_init_buffer o osize) hD hT
  have h0 : load (stored_zlib D ++ T) 0 = .ret 120 := by
    simp [stored_zlib, load]
    rfl
  have h1 : load (stored_zlib D ++ T) 1 = .ret 1 := by simp [stored_zlib, load]
  unfold uzlib_decompress
  rw [if_neg (by omega), h0, ret_bind, h1, ret_bind]
  rw [if_neg (by decide)]
  dsimp only
  rw [if_neg (by decide), if_neg (by decide), hv, ret_bind]
  simp only [pure_eq_ret, hvd, hvs, ucvector_init_buffer]


/-! ## Unfiltering scanlines of filter type 0 -/

theorem fill_loop (v : Byte) :
    ∀ n (d : List Byte) lo, lo = d.length →
      for_loop (fun i d => store d i v) n lo d = .ret (d ++ List.replicate n v) := by
  intro n
  induction n with
  | zero => intro d lo _; simp [for_loop]
  | succ n ih =>
    intro d lo hlo
    rw [for_loop, hlo, store_eq d d.length v (le_refl _), ret_bind,
      ih _ (d.length + 1) (by simp)]
    simp [List.replicate_succ]

/-- The output vector of `upng_decode`: `size` zero bytes. -/
theorem resizev_init (n : Nat) :
    ∃ v, ucvector_resizev ucvector_init n 0 = .ret v ∧ v.data = List.replicate n 0 ∧
      v.size = n ∧ (0 < n → v.allocsize ≠ 0) := by
  unfold ucvector_resizev
  have hd : (ucvector_resize ucvector_init n).data = [] := resize_data _ _
  have hs : ucvector_init.size = 0 := rfl
  simp only [hd, hs, Nat.sub_zero]
  rw [fill_loop 0 n [] 0 rfl, ret_bind]
  refine ⟨_, rfl, by simp, resize_size _ _, ?_⟩
  intro hn
  simp only [pure_eq_ret, ucvector_resize, ucvector_init]
  rw [if_pos (by omega)]
  simp only []
  omega

theorem length_filter0_lines (r : Nat) :
    ∀ h (P : List Byte), P.length = r * h → (filter0_lines r h P).length = h * (1 + r) := by
  intro h
  induction h with
  | zero => intro P _; simp [filter0_lines]
  | succ h ih =>
    intro P hP
    rw [filter0_lines]
    simp only [List.length_cons, List.length_append, List.length_take]
    rw [ih (P.drop r) (by rw [List.length_drop, hP, Nat.mul_succ]; omega)]
    rw [Nat.mul_succ] at hP
    rw [Nat.succ_mul]
    omega

/-- The scanlines from line `y` on. -/
theorem drop_filter0_lines (r : Nat) :
    ∀ h (P : List Byte) y, y ≤ h → P.length = r * h →
      (filter0_lines r h P).drop ((1 + r) * y) = filter0_lines r (h - y) (P.drop (r * y)) := by
  intro h
  induction h with
  | zero =>
    intro P y hy _
    have : y = 0 := by omega
    subst this
    simp
  | succ h ih =>
    intro P y hy hP
    cases y with
    | zero => simp
    | succ y =>
      rw [Nat.mul_succ] at hP
      have hlen : (List.take r P).length = r := by rw [List.length_take]; omega
      rw [filter0_lines]
      have e : (1 + r) * (y + 1) = ((1 + r) * y + r) + 1 := by ring
      rw [e, List.drop_succ_cons, List.drop_append_eq_append_drop, hlen]
      have e1 : List.drop ((1 + r) * y + r) (List.take r P) = [] := by
        apply List.drop_eq_nil_of_le; rw [hlen]; omega
      have e2 : (1 + r) * y + r - r = (1 + r) * y := by omega
      rw [e1, e2, List.nil_append, ih (P.drop r) y (by omega)
        (by rw [List.length_drop]; omega), List.drop_drop]
      have e3 : h + 1 - (y + 1) = h - y := by omega
      have e4 : r + r * y = r * (y + 1) := by ring
      rw [e3, e4]


theorem poke_eq (d : List Byte) (i : Nat) (v : Byte) (h : i < d.length) :
    poke d i v = .ret (d.take i ++ v :: d.drop (i + 1)) := by
  unfold poke
  rw [if_pos h, List.set_eq_take_append_cons_drop, if_pos h]

/-- Replacing one more byte: the list algebra behind the copy loops. -/
theorem splice_step (d : List Byte) (pos n : Nat) (b : Byte) (rest : List Byte)
    (hpos : pos ≤ d.length) :
    (d.take pos ++ b :: d.drop (pos + 1)).take (pos + 1) ++ rest
        ++ (d.take pos ++ b :: d.drop (pos + 1)).drop (pos + 1 + n)
      = d.take pos ++ (b :: rest) ++ d.drop (pos + (n + 1)) := by
  have hl : (List.take pos d).length = pos := by simp; omega
  have e2 : (List.take pos d ++ b :: List.drop (pos + 1) d).take (pos + 1)
      = List.take pos d ++ [b] := by
    rw [List.take_append_eq_append_take, hl]
    simp
  have e3 : (List.take pos d ++ b :: List.drop (pos + 1) d).drop (pos + 1 + n)
      = List.drop (pos + (n + 1)) d := by
    rw [List.drop_append_eq_append_drop, hl]
    have : List.drop (pos + 1 + n) (List.take pos d) = [] := by
      apply List.drop_eq_nil_of_le; rw [hl]; omega
    rw [this]
    have : pos + 1 + n - pos = n + 1 := by omega
    rw [this]
    simp [List.drop_drop]
    congr 1; omega
  rw [e2, e3]
  simp

/-- The copy loop of `unfilter_scanline` for filter type 0, from the scanlines block
into the output block. -/
theorem copy_line (ro so : Nat) :
    ∀ k lo (m : Mem), ro + lo + k ≤ m.outb.length → so + lo + k ≤ m.inb.length →
      for_loop (fun i (m : Mem) =>
            m.load { obj := .inb, off := so } i >>= fun s =>
              m.store { obj := .outb, off := ro } i (toByte s))
          k lo m
        = .ret { m with outb := m.outb.take (ro + lo) ++ (m.inb.drop (so + lo)).take k
                  ++ m.outb.drop (ro + lo + k) } := by
  intro k
  induction k with
  | zero =>
    intro lo m _ _
    simp [for_loop]
  | succ k ih =>
    intro lo m ho hi
    rw [for_loop]
    have h1 : m.load { obj := .inb, off := so } lo = .ret (m.inb[so + lo]).val := by
      simp only [Mem.load, Mem.bytes]
      exact load_eq _ _ (by omega)
    have h2 : m.store { obj := .outb, off := ro } lo (m.inb[so + lo])
        = .ret { m with
            outb := (m.outb.take (ro + lo) ++ m.inb[so + lo] :: m.outb.drop (ro + lo + 1)) } := by
      simp only [Mem.store]
      rw [poke_eq _ _ _ (by omega)]
      rfl
    simp only [h1, ret_bind, toByte_val, h2]
    rw [ih (lo + 1) _ (by simp; omega) (by simpa using (by omega))]
    have e1 : (m.inb.drop (so + lo)).take (k + 1)
        = m.inb[so + lo] :: (m.inb.drop (so + lo + 1)).take k := by
      rw [List.drop_eq_getElem_cons (by omega), List.take_succ_cons]
    have := splice_step m.outb (ro + lo) k m.inb[so + lo]
      ((m.inb.drop (so + lo + 1)).take k) (by omega)
    simp only [e1]
    simp only [Nat.add_assoc] at this ⊢
    rw [this]


/-- The function `unfilter_scanline` with filter type 0 copies the scanline. -/
theorem unfilter_scanline_zero (m : Mem) (ro so : Nat) (prev : Option Ptr) (bw len : Nat)
    (ho : ro + len ≤ m.outb.length) (hi : so + len ≤ m.inb.length) :
    unfilter_scanline m { obj := .outb, off := ro } { obj := .inb, off := so } prev bw 0 len
      = .ret ({ m with outb := m.outb.take ro ++ (m.inb.drop so).take len
                  ++ m.outb.drop (ro + len) }, UPNG_EOK) := by
  unfold unfilter_scanline
  rw [if_pos rfl]
  have := copy_line ro so len 0 m (by omega) (by omega)
  simp only [Nat.add_zero] at this
  simp only [this, ret_bind, pure_eq_ret]

/-- The loop of `unfilter` over scanlines that all have filter type 0: the pixel bytes
of the lines are copied to the output block. -/
theorem unfilter_lines_zero (r bw h : Nat) (P : List Byte) (hP : P.length = r * h) :
    ∀ k y prev (m : Mem), y + k = h → m.inb = filter0_lines r h P → m.outb.length = r * h →
      unfilter_lines { obj := .outb, off := 0 } { obj := .inb, off := 0 } bw r k y prev m
        = .ret ({ m with outb := m.outb.take (r * y) ++ (P.drop (r * y)).take (r * k)
                    ++ m.outb.drop (r * (y + k)) }, UPNG_EOK) := by
  intro k
  induction k with
  | zero =>
    intro y prev m _ _ _
    simp [unfilter_lines]
  | succ k ih =>
    intro y prev m hyk hin hout
    have hh : r * h = r * y + (r * k + r) := by rw [← hyk]; ring
    have hD := length_filter0_lines r h P hP
    have hDh : h * (1 + r) = (1 + r) * y + (1 + r) * k + (1 + r) := by rw [← hyk]; ring
    have hdrop := drop_filter0_lines r h P y (by omega) hP
    have hk : h - y = k + 1 := by omega
    rw [hk, filter0_lines] at hdrop
    have hPd : (P.drop (r * y)).length = r * k + r := by rw [List.length_drop, hP, hh]; omega
    -- the filter byte
    have hf : m.load { obj := .inb, off := 0 } ((1 + r) * y) = .ret 0 := by
      simp only [Mem.load, Mem.bytes, Nat.zero_add, load, hin]
      have : (filter0_lines r h P)[(1 + r) * y]? = some 0 := by
        have := congrArg (fun l => l[0]?) hdrop
        simpa using this
      rw [this]
      rfl
    -- the bytes of the scanline
    have hline : (m.inb.drop ((1 + r) * y + 1)).take r = (P.drop (r * y)).take r := by
      rw [hin, ← List.drop_drop, hdrop, List.drop_succ_cons, List.drop_zero,
        List.take_append_of_le_length (by rw [List.length_take, hPd]; omega),
        List.take_take, Nat.min_self]
    rw [unfilter_lines]
    simp only [hf, ret_bind, Ptr.add, Nat.zero_add]
    rw [unfilter_scanline_zero m (r * y) ((1 + r) * y + 1) prev bw r (by omega)
      (by rw [hin, hD, hDh]; have : (1 + r) * k ≥ 0 := Nat.zero_le _; omega)]
    simp only [ret_bind]
    rw [if_neg (by decide)]
    rw [hline]
    rw [ih (y + 1) _ _ (by omega) (by exact hin)
      (by simp only [List.length_append, List.length_take, List.length_drop]; omega)]
    have hA : (List.take (r * y) m.outb).length = r * y := by rw [List.length_take]; omega
    have hB : (List.take r (List.drop (r * y) P)).length = r := by
      rw [List.length_take, hPd]; omega
    have e1 : r * (y + 1) = r * y + r := by ring
    have e2 : r * (y + 1 + k) = r * y + r + r * k := by ring
    have e3 : r * (y + (k + 1)) = r * y + r + r * k := by ring
    have e4 : r * (k + 1) = r + r * k := by ring
    simp only [e1, e2, e3, e4]
    have t1 : List.take (r * y + r) (List.take (r * y) m.outb ++ List.take r (List.drop (r * y) P)
        ++ List.drop (r * y + r) m.outb)
        = List.take (r * y) m.outb ++ List.take r (List.drop (r * y) P) := by
      rw [List.take_append_of_le_length (by rw [List.length_append, hA, hB])]
      rw [List.take_of_length_le (by rw [List.length_append, hA, hB])]
    have t2 : List.drop (r * y + r + r * k) (List.take (r * y) m.outb
        ++ List.take r (List.drop (r * y) P) ++ List.drop (r * y + r) m.outb)
        = List.drop (r * y + r + r * k) m.outb := by
      rw [List.drop_append_eq_append_drop, List.length_append, hA, hB]
      rw [List.drop_eq_nil_of_le (by rw [List.length_append, hA, hB]; omega)]
      rw [List.nil_append, List.drop_drop]
      congr 1; omega
    have t3 : List.take (r + r * k) (List.drop (r * y) P)
        = List.take r (List.drop (r * y) P) ++ List.take (r * k) (List.drop (r * y + r) P) := by
      rw [List.take_add, List.drop_drop]
    rw [t1, t2, t3]
    simp only [List.append_assoc]


/-! ## The stored-block RGB image, end to end -/

theorem shl8_or (x y : Nat) (hy : y < 256) : x <<< 8 ||| y = x * 256 + y := by
  rw [Nat.shiftLeft_eq, Nat.mul_comm, ← Nat.mul_add_lt_is_or (by omega : y < 2 ^ 8)]

theorem dword_nest (a b c d : Nat) :
    (a <<< 24 ||| b <<< 16 ||| c <<< 8 ||| d) = (((a <<< 8 ||| b) <<< 8 ||| c) <<< 8) ||| d := by
  apply Nat.eq_of_testBit_eq
  intro i
  simp only [Nat.testBit_or, Nat.testBit_shiftLeft]
  have e1 : (8 ≤ i - 8) ↔ (16 ≤ i) := by omega
  have e2 : (8 ≤ i - 16) ↔ (24 ≤ i) := by omega
  by_cases h8 : 8 ≤ i <;> by_cases h16 : 16 ≤ i <;> by_cases h24 : 24 ≤ i <;>
    simp [h8, h16, h24, Nat.sub_sub, e1, e2] <;> omega

/-- The macro `MAKE_DWORD` on four byte values is the big-endian number. -/
theorem dword_sum (a b c d : Nat) (ha : a < 256) (hb : b < 256) (hc : c < 256) (hd : d < 256) :
    MAKE_DWORD a b c d = a * 2 ^ 24 + b * 2 ^ 16 + c * 2 ^ 8 + d := by
  have m : ∀ x, x < 256 → x &&& 0xFF = x := by
    intro x hx
    have := Nat.and_pow_two_sub_one_eq_mod x 8
    simp at this
    rw [this]; omega
  unfold MAKE_DWORD MAKE_BYTE
  rw [m a ha, m b hb, m c hc, m d hd, dword_nest, shl8_or _ _ hd, shl8_or _ _ hc, shl8_or _ _ hb]
  ring

theorem dword_be32 (n : Nat) (h : n < 2 ^ 32) :
    MAKE_DWORD (toByte (n / 2 ^ 24)).val (toByte (n / 2 ^ 16)).val (toByte (n / 2 ^ 8)).val
      (toByte n).val = n := by
  rw [dword_sum _ _ _ _ (Fin.isLt _) (Fin.isLt _) (Fin.isLt _) (Fin.isLt _)]
  simp only [toByte_val_eq]
  omega

theorem peek_append (A X : List Byte) (k : Nat) : peek (A ++ X) (A.length + k) = peek X k := by
  unfold peek
  rw [List.getD_append_right _ _ _ _ (by omega)]
  congr 2
  omega

theorem peek_cons_succ (x : Byte) (l : List Byte) (k : Nat) : peek (x :: l) (k + 1) = peek l k := by
  simp [peek]

theorem peek_cons_zero (x : Byte) (l : List Byte) : peek (x :: l) 0 = x.val := by
  simp [peek]

/-- The fields of a chunk that follows the bytes `A` of the input. -/
theorem chunk_fields (A B payload : List Byte) (crc : crc_field) (t0 t1 t2 t3 : Byte)
    (hL : payload.length < 2 ^ 31) :
    upng_chunk_length (A ++ png_chunk [t0, t1, t2, t3] payload crc ++ B) A.length
      = payload.length ∧
    upng_chunk_type (A ++ png_chunk [t0, t1, t2, t3] payload crc ++ B) A.length
      = MAKE_DWORD t0.val t1.val t2.val t3.val ∧
    ((A ++ png_chunk [t0, t1, t2, t3] payload crc ++ B).drop (A.length + 8)).take payload.length
      = payload ∧
    (A ++ png_chunk [t0, t1, t2, t3] payload crc ++ B).length
      = A.length + payload.length + 12 + B.length := by
  have hform : A ++ png_chunk [t0, t1, t2, t3] payload crc ++ B
      = A ++ (toByte (payload.length / 2 ^ 24) :: toByte (payload.length / 2 ^ 16)
        :: toByte (payload.length / 2 ^ 8) :: toByte payload.length :: t0 :: t1 :: t2 :: t3
        :: (payload ++ (crc.bytes ++ B))) := by
    simp [png_chunk, be32]
  rw [hform]
  refine ⟨?_, ?_, ?_, ?_⟩
  · unfold upng_chunk_length MAKE_DWORD_PTR
    have := peek_append A (toByte (payload.length / 2 ^ 24) :: toByte (payload.length / 2 ^ 16)
        :: toByte (payload.length / 2 ^ 8) :: toByte payload.length :: t0 :: t1 :: t2 :: t3
        :: (payload ++ (crc.bytes ++ B))) 0
    rw [Nat.add_zero] at this
    rw [this, peek_append, peek_append, peek_append]
    simp only [peek_cons_succ, peek_cons_zero]
    exact dword_be32 _ (by omega)
  · unfold upng_chunk_type MAKE_DWORD_PTR
    simp only [Nat.add_assoc]
    rw [peek_append, peek_append, peek_append, peek_append]
    simp only [peek_cons_succ, peek_cons_zero, Nat.reduceAdd]
  · rw [List.drop_append_eq_append_drop]
    have e1 : List.drop (A.length + 8) A = [] := List.drop_eq_nil_of_le (by omega)
    have e2 : A.length + 8 - A.length = 8 := by omega
    rw [e1, e2]
    simp
  · simp [crc_field.bytes]
    omega


/-- One round of the chunk loop at a well-framed IDAT chunk: its payload is appended
to the `idat` vector. -/
theorem chunk_loop_idat (inp : List Byte) (info : upng_info) (f o : Nat) (idat : ucvector)
    (ho : o + 12 ≤ inp.length) (hL : upng_chunk_length inp o < 2 ^ 31)
    (hfr : o + upng_chunk_length inp o + 12 ≤ inp.length)
    (hty : upng_chunk_type inp o = CHUNK_IDAT) (hinv : idat.size ≤ idat.data.length) :
    chunk_loop inp (f + 1) o idat info
      = chunk_loop inp f (o + (upng_chunk_length inp o + 12))
          { ucvector_resize idat (idat.size + upng_chunk_length inp o) with
            data := idat.data.take idat.size
              ++ (inp.drop (o + 8)).take (upng_chunk_length inp o)
              ++ idat.data.drop (idat.size + upng_chunk_length inp o) } info := by
  have hl : int_to_ulong (upng_chunk_length inp o) = upng_chunk_length inp o := by
    unfold int_to_ulong; rw [if_neg (by omega)]
  rw [chunk_loop]
  rw [if_neg (by omega), if_neg (by omega)]
  simp only [hl]
  rw [if_neg (by unfold INT_MAX; omega), if_neg (by omega), if_pos hty]
  have hm : memcpy (ucvector_resize idat (idat.size + upng_chunk_length inp o)).data
      ((ucvector_resize idat (idat.size + upng_chunk_length inp o)).size
        - upng_chunk_length inp o) inp (o + 8) (upng_chunk_length inp o) =
      .ret (idat.data.take idat.size ++ (inp.drop (o + 8)).take (upng_chunk_length inp o)
        ++ idat.data.drop (idat.size + upng_chunk_length inp o)) := by
    rw [resize_data, resize_size]
    unfold memcpy
    rw [if_pos ⟨by omega, by omega⟩]
    simp
  rw [hm, ret_bind]

/-- One round of the chunk loop at a well-framed IEND chunk ends the loop. -/
theorem chunk_loop_iend (inp : List Byte) (info : upng_info) (f o : Nat) (idat : ucvector)
    (ho : o + 12 ≤ inp.length) (hL : upng_chunk_length inp o < 2 ^ 31)
    (hfr : o + upng_chunk_length inp o + 12 ≤ inp.length)
    (hty : upng_chunk_type inp o = CHUNK_IEND) :
    chunk_loop inp (f + 1) o idat info = .ret (info, idat) := by
  have hl : int_to_ulong (upng_chunk_length inp o) = upng_chunk_length inp o := by
    unfold int_to_ulong; rw [if_neg (by omega)]
  rw [chunk_loop]
  rw [if_neg (by omega), if_neg (by omega)]
  simp only [hl]
  rw [if_neg (by unfold INT_MAX; omega), if_neg (by omega),
    if_neg (by rw [hty]; decide), if_pos hty]

/-- What `upng_inspect` stores for an input that starts with the signature and
the IHDR chunk of an RGB image of depth 8. -/
theorem inspect_rgb8 (info : upng_info) (w h : Nat) (c1 : crc_field) (rest : List Byte)
    (hw : w < 2 ^ 32) (hh : h < 2 ^ 32) :
    upng_inspect info (PNG_SIGNATURE ++ png_chunk IHDR_TAG (ihdr_rgb8 w h) c1 ++ rest)
      = ({ info with
            width := w
            height := h
            color_depth := 8
            color_type := 2
            cmp_method := 0
            filter_method := 0
            interlace_method := 0 }, info.error) := by
  have hform : ∃ l, PNG_SIGNATURE ++ png_chunk IHDR_TAG (ihdr_rgb8 w h) c1 ++ rest
      = (137 :: 80 :: 78 :: 71 :: 13 :: 10 :: 26 :: 10
        :: toByte (13 / 2 ^ 24) :: toByte (13 / 2 ^ 16) :: toByte (13 / 2 ^ 8) :: toByte 13
        :: 73 :: 72 :: 68 :: 82
        :: toByte (w / 2 ^ 24) :: toByte (w / 2 ^ 16) :: toByte (w / 2 ^ 8) :: toByte w
        :: toByte (h / 2 ^ 24) :: toByte (h / 2 ^ 16) :: toByte (h / 2 ^ 8) :: toByte h
        :: 8 :: 2 :: 0 :: 0 :: 0 :: l) :=
    ⟨c1.bytes ++ rest, by simp [PNG_SIGNATURE, png_chunk, IHDR_TAG, ihdr_rgb8, be32]⟩
  obtain ⟨l, hl⟩ := hform
  rw [hl]
  have hf : header_framed (137 :: 80 :: 78 :: 71 :: 13 :: 10 :: 26 :: 10
        :: toByte (13 / 2 ^ 24) :: toByte (13 / 2 ^ 16) :: toByte (13 / 2 ^ 8) :: toByte 13
        :: 73 :: 72 :: 68 :: 82
        :: toByte (w / 2 ^ 24) :: toByte (w / 2 ^ 16) :: toByte (w / 2 ^ 8) :: toByte w
        :: toByte (h / 2 ^ 24) :: toByte (h / 2 ^ 16) :: toByte (h / 2 ^ 8) :: toByte h
        :: 8 :: 2 :: 0 :: 0 :: 0 :: l) := by
    refine ⟨?_, rfl, rfl⟩
    simp only [List.length_cons]
    omega
  rw [inspect_framed _ _ hf]
  have p24 : peek (137 :: 80 :: 78 :: 71 :: 13 :: 10 :: 26 :: 10
        :: toByte (13 / 2 ^ 24) :: toByte (13 / 2 ^ 16) :: toByte (13 / 2 ^ 8) :: toByte 13
        :: 73 :: 72 :: 68 :: 82
        :: toByte (w / 2 ^ 24) :: toByte (w / 2 ^ 16) :: toByte (w / 2 ^ 8) :: toByte w
        :: toByte (h / 2 ^ 24) :: toByte (h / 2 ^ 16) :: toByte (h / 2 ^ 8) :: toByte h
        :: 8 :: 2 :: 0 :: 0 :: 0 :: l) 24 = 8 := rfl
  have p25 : peek (137 :: 80 :: 78 :: 71 :: 13 :: 10 :: 26 :: 10
        :: toByte (13 / 2 ^ 24) :: toByte (13 / 2 ^ 16) :: toByte (13 / 2 ^ 8) :: toByte 13
        :: 73 :: 72 :: 68 :: 82
        :: toByte (w / 2 ^ 24) :: toByte (w / 2 ^ 16) :: toByte (w / 2 ^ 8) :: toByte w
        :: toByte (h / 2 ^ 24) :: toByte (h / 2 ^ 16) :: toByte (h / 2 ^ 8) :: toByte h
        :: 8 :: 2 :: 0 :: 0 :: 0 :: l) 25 = 2 := rfl
  have p26 : peek (137 :: 80 :: 78 :: 71 :: 13 :: 10 :: 26 :: 10
        :: toByte (13 / 2 ^ 24) :: toByte (13 / 2 ^ 16) :: toByte (13 / 2 ^ 8) :: toByte 13
        :: 73 :: 72 :: 68 :: 82
        :: toByte (w / 2 ^ 24) :: toByte (w / 2 ^ 16) :: toByte (w / 2 ^ 8) :: toByte w
        :: toByte (h / 2 ^ 24) :: toByte (h / 2 ^ 16) :: toByte (h / 2 ^ 8) :: toByte h
        :: 8 :: 2 :: 0 :: 0 :: 0 :: l) 26 = 0 := rfl
  have p27 : peek (137 :: 80 :: 78 :: 71 :: 13 :: 10 :: 26 :: 10
        :: toByte (13 / 2 ^ 24) :: toByte (13 / 2 ^ 16) :: toByte (13 / 2 ^ 8) :: toByte 13
        :: 73 :: 72 :: 68 :: 82
        :: toByte (w / 2 ^ 24) :: toByte (w / 2 ^ 16) :: toByte (w / 2 ^ 8) :: toByte w
        :: toByte (h / 2 ^ 24) :: toByte (h / 2 ^ 16) :: toByte (h / 2 ^ 8) :: toByte h
        :: 8 :: 2 :: 0 :: 0 :: 0 :: l) 27 = 0 := rfl
  have p28 : peek (137 :: 80 :: 78 :: 71 :: 13 :: 10 :: 26 :: 10
        :: toByte (13 / 2 ^ 24) :: toByte (13 / 2 ^ 16) :: toByte (13 / 2 ^ 8) :: toByte 13
        :: 73 :: 72 :: 68 :: 82
        :: toByte (w / 2 ^ 24) :: toByte (w / 2 ^ 16) :: toByte (w / 2 ^ 8) :: toByte w
        :: toByte (h / 2 ^ 24) :: toByte (h / 2 ^ 16) :: toByte (h / 2 ^ 8) :: toByte h
        :: 8 :: 2 :: 0 :: 0 :: 0 :: l) 28 = 0 := rfl
  have pw : MAKE_DWORD_PTR (137 :: 80 :: 78 :: 71 :: 13 :: 10 :: 26 :: 10
        :: toByte (13 / 2 ^ 24) :: toByte (13 / 2 ^ 16) :: toByte (13 / 2 ^ 8) :: toByte 13
        :: 73 :: 72 :: 68 :: 82
        :: toByte (w / 2 ^ 24) :: toByte (w / 2 ^ 16) :: toByte (w / 2 ^ 8) :: toByte w
        :: toByte (h / 2 ^ 24) :: toByte (h / 2 ^ 16) :: toByte (h / 2 ^ 8) :: toByte h
        :: 8 :: 2 :: 0 :: 0 :: 0 :: l) 16 = w := dword_be32 w hw
  have ph : MAKE_DWORD_PTR (137 :: 80 :: 78 :: 71 :: 13 :: 10 :: 26 :: 10
        :: toByte (13 / 2 ^ 24) :: toByte (13 / 2 ^ 16) :: toByte (13 / 2 ^ 8) :: toByte 13
        :: 73 :: 72 :: 68 :: 82
        :: toByte (w / 2 ^ 24) :: toByte (w / 2 ^ 16) :: toByte (w / 2 ^ 8) :: toByte w
        :: toByte (h / 2 ^ 24) :: toByte (h / 2 ^ 16) :: toByte (h / 2 ^ 8) :: toByte h
        :: 8 :: 2 :: 0 :: 0 :: 0 :: l) 20 = h := dword_be32 h hh
  rw [p24, p25, p26, p27, p28, pw, ph]
  rw [if_neg (by decide), if_neg (by decide), if_neg (by decide), if_pos (by decide)]


theorem inflate_stored_nil (D o : List Byte) (osize : Nat) (hD : D.length ≤ 65535) :
    uzlib_decompress o osize (stored_zlib D) (stored_zlib D).length
      = .ret (0, D ++ o.drop D.length, D.length) := by
  have h := inflate_stored D [] o osize hD (by simp; omega)
  have hl : (stored_zlib D).length = 7 + D.length + ([] : List Byte).length := by
    simp [stored_zlib, le16]; omega
  rw [List.append_nil] at h
  rw [hl]
  exact h

/-- The function `post_process_scanlines` for an RGB image of depth 8 whose
scanlines all have filter type 0: the output block receives the pixel bytes. -/
theorem post_process_rgb8 (info : upng_info) (m : Mem) (w h : Nat) (P : List Byte)
    (hwid : info.width = w) (hhei : info.height = h) (hbpp : upng_get_bpp info = 24)
    (hP : P.length = 3 * w * h) (hw : w ≤ 65535)
    (hin : m.inb = filter0_lines (3 * w) h P) (hout : m.outb.length = 3 * w * h) :
    post_process_scanlines m { obj := .outb, off := 0 } { obj := .inb, off := 0 } info
      = .ret ({ m with outb := P }, UPNG_EOK) := by
  have hP1 : P.length = (3 * w) * h := hP
  unfold post_process_scanlines
  simp only [hbpp, hwid, hhei]
  rw [if_neg (by decide), if_neg (by intro hc; exact absurd hc.1 (by decide))]
  unfold unfilter
  have hl : (((w * 24) % 2 ^ 32 + 7) % 2 ^ 32) / 8 = 3 * w := by omega
  rw [hl]
  rw [unfilter_lines_zero (3 * w) _ h P hP1 h 0 none m (by omega) hin hout]
  have e1 : List.take (3 * w * 0) m.outb = [] := by simp
  have e2 : List.drop (3 * w * (0 + h)) m.outb = [] := by
    apply List.drop_eq_nil_of_le; rw [hout]; simp
  have e3 : List.take (3 * w * h) (List.drop (3 * w * 0) P) = P := by
    rw [Nat.mul_zero, List.drop_zero]
    exact List.take_of_length_le (by omega)
  rw [e1, e2, e3]
  simp

/-- The inflate-and-unfilter block of `upng_decode` for an RGB image of depth 8 whose
IDAT data is a stored block with filter-0 scanlines. -/
theorem decode_image_rgb8 (info : upng_info) (idat : ucvector) (w h : Nat) (P : List Byte)
    (herr : info.error = UPNG_EOK) (hwid : info.width = w) (hhei : info.height = h)
    (hct : info.color_type = 2) (hcd : info.color_depth = 8)
    (hw : 1 ≤ w) (hh : 1 ≤ h) (hP : P.length = 3 * w * h) (hsz : h * (1 + 3 * w) ≤ 65535)
    (hdata : idat.data = stored_zlib (filter0_lines (3 * w) h P))
    (hsize : idat.size = (stored_zlib (filter0_lines (3 * w) h P)).length) :
    decode_image info idat
      = .ret (SET_ERROR (SET_ERROR info 0 1068) 0 1079, .block P, some (3 * w * h)) := by
  have hP1 : P.length = (3 * w) * h := hP
  have hD := length_filter0_lines (3 * w) h P hP1
  have hmul : h * (1 + 3 * w) = h + 3 * (h * w) := by ring
  have hwle : w ≤ h * w := Nat.le_mul_of_pos_left w hh
  have hbpp : upng_get_bpp info = 24 := by
    unfold upng_get_bpp
    rw [hct, hcd]
    decide
  have hbpp1 : upng_get_bpp (SET_ERROR info 0 1068) = 24 := hbpp
  have hout : output_size (SET_ERROR info 0 1068) = 3 * w * h := by
    unfold output_size
    rw [hbpp1]
    show ((((info.height * info.width) % 2 ^ 32) * 24) % 2 ^ 32 + 7) % 2 ^ 32 / 8 = 3 * w * h
    rw [hwid, hhei]
    have : 3 * w * h = 3 * (h * w) := by ring
    rw [this]
    omega
  obtain ⟨outv, hv, hvd, hvs, hva⟩ := resizev_init (3 * w * h)
  have hpos : 0 < 3 * w * h := by
    have : 3 * w * h = 3 * (h * w) := by ring
    omega
  unfold decode_image
  rw [if_pos herr]
  simp only [resize_data, scanlines_vector, hdata, hsize]
  rw [inflate_stored_nil _ _ _ (by omega), ret_bind]
  simp only [hout, hv, ret_bind]
  rw [if_pos (by rfl)]
  rw [post_process_rgb8 (SET_ERROR info 0 1068) _ w h P hwid hhei hbpp1 hP (by omega)
    (by simp [ucvector_init]) (by rw [hvd]; simp), ret_bind]
  simp only [pure_eq_ret, hvs]
  rw [if_neg (hva hpos)]
  rfl


/-- Claim C1: for every `w >= 1`, `h >= 1` and pixel bytes `P` of length `3*w*h` with
`h*(1+3*w) <= 65535`, `upng_decode` on a fresh handle with the PNG made of the
signature, the IHDR chunk of an RGB image of depth 8, one IDAT chunk holding the zlib
header `78 01` and a final stored block with the `h` filter-0 scanlines of `P`, and an
IEND chunk (whatever the three CRC fields) returns OK; afterwards the width is `w`, the
height `h`, the bits per pixel 24, the format RGB_888, the size `3*w*h` and the buffer
holds `P`. -/
theorem C1_decode_stored_rgb (w h : Nat) (P : List Byte) (c1 c2 c3 : crc_field)
    (hw : 1 ≤ w) (hh : 1 ≤ h) (hP : P.length = 3 * w * h) (hsz : h * (1 + 3 * w) ≤ 65535) :
    ∃ info, upng_decode upng_new (stored_rgb_png w h P c1 c2 c3) = .ret (info, UPNG_EOK) ∧
      upng_get_width info = w ∧ upng_get_height info = h ∧ upng_get_bpp info = 24 ∧
      upng_get_format info = UPNG_RGB_888 ∧ upng_get_size info = some (3 * w * h) ∧
      upng_get_buffer info = .block P := by
  have hP1 : P.length = (3 * w) * h := hP
  have hD := length_filter0_lines (3 * w) h P hP1
  have hmul : h * (1 + 3 * w) = h + 3 * (h * w) := by ring
  have hwle : w ≤ h * w := Nat.le_mul_of_pos_left w hh
  have hZ : (stored_zlib (filter0_lines (3 * w) h P)).length
      = 7 + (filter0_lines (3 * w) h P).length := by
    simp [stored_zlib, le16]; omega
  have hpre : (PNG_SIGNATURE ++ png_chunk IHDR_TAG (ihdr_rgb8 w h) c1).length = 33 := by
    simp [PNG_SIGNATURE, png_chunk, IHDR_TAG, ihdr_rgb8, be32, crc_field.bytes]
  -- the two chunks after the header
  obtain ⟨a1, a2, a3, a4⟩ := chunk_fields (PNG_SIGNATURE ++ png_chunk IHDR_TAG (ihdr_rgb8 w h) c1)
    (png_chunk IEND_TAG [] c3) (stored_zlib (filter0_lines (3 * w) h P)) c2 73 68 65 84
    (by rw [hZ, hD]; omega)
  obtain ⟨b1, b2, _, b4⟩ := chunk_fields (PNG_SIGNATURE ++ png_chunk IHDR_TAG (ihdr_rgb8 w h) c1
      ++ png_chunk IDAT_TAG (stored_zlib (filter0_lines (3 * w) h P)) c2) []
    [] c3 73 69 78 68 (by simp)
  rw [List.append_nil] at b1 b2 b4
  have hidat : (PNG_SIGNATURE ++ png_chunk IHDR_TAG (ihdr_rgb8 w h) c1
      ++ png_chunk IDAT_TAG (stored_zlib (filter0_lines (3 * w) h P)) c2).length
      = 33 + ((stored_zlib (filter0_lines (3 * w) h P)).length + 12) := by
    rw [List.length_append, hpre]
    simp [png_chunk, be32, IDAT_TAG, crc_field.bytes]
  have hiend : (png_chunk IEND_TAG [] c3).length = 12 := by
    simp [png_chunk, be32, IEND_TAG, crc_field.bytes]
  rw [hpre] at a1 a2 a3 a4
  rw [hiend] at a4
  rw [hidat] at b1 b2
  simp only [List.length_nil] at b1 b4 a4
  change upng_chunk_length (stored_rgb_png w h P c1 c2 c3) 33 = _ at a1
  change upng_chunk_type (stored_rgb_png w h P c1 c2 c3) 33 = _ at a2
  change ((stored_rgb_png w h P c1 c2 c3).drop (33 + 8)).take _ = _ at a3
  change (stored_rgb_png w h P c1 c2 c3).length = _ at a4
  change upng_chunk_length (stored_rgb_png w h P c1 c2 c3) _ = _ at b1
  change upng_chunk_type (stored_rgb_png w h P c1 c2 c3) _ = _ at b2
  -- inspection
  have hins := inspect_rgb8 upng_new w h c1
    (png_chunk IDAT_TAG (stored_zlib (filter0_lines (3 * w) h P)) c2 ++ png_chunk IEND_TAG [] c3)
    (by omega) (by omega)
  rw [← List.append_assoc] at hins
  change upng_inspect upng_new (stored_rgb_png w h P c1 c2 c3) = _ at hins
  -- the chunk loop
  have hlen : (stored_rgb_png w h P c1 c2 c3).length
      = ((stored_zlib (filter0_lines (3 * w) h P)).length + 55) + 1 + 1 := by
    rw [a4]; omega
  unfold upng_decode
  rw [if_neg (by rw [hlen]; omega), hins]
  simp only []
  rw [if_neg (by decide)]
  rw [hlen]
  rw [chunk_loop_idat _ _ _ 33 _ (by rw [hlen]; omega) (by rw [a1, hZ, hD]; omega)
    (by rw [a1, hlen]; omega) (by rw [a2]; rfl) (by simp [ucvector_init])]
  rw [a1]
  rw [chunk_loop_iend _ _ _ _ _ (by rw [hlen]; omega) (by rw [b1]; decide)
    (by rw [b1, hlen]; omega) (by rw [b2]; rfl), ret_bind]
  simp only []
  rw [decode_image_rgb8 _ _ w h P rfl rfl rfl rfl rfl hw hh hP hsz
    (by simp [ucvector_init, a3]) (by simp [resize_size, ucvector_init]), ret_bind]
  simp only []
  rw [if_neg (by simp [SET_ERROR, upng_new])]
  refine ⟨_, rfl, rfl, rfl, rfl, rfl, rfl, rfl⟩

/-- Witness for C1: the 1x1 image with the pixel `FF 00 00`. -/
theorem C1_witness :
    ∃ info, upng_decode upng_new (stored_rgb_png 1 1 [255, 0, 0] ⟨144, 119, 83, 222⟩
        ⟨95, 146, 230, 200⟩ ⟨174, 66, 96, 130⟩) = .ret (info, UPNG_EOK) ∧
      upng_get_width info = 1 ∧ upng_get_height info = 1 ∧ upng_get_bpp info = 24 ∧
      upng_get_format info = UPNG_RGB_888 ∧ upng_get_size info = some (3 * 1 * 1) ∧
      upng_get_buffer info = .block [255, 0, 0] :=
  C1_decode_stored_rgb 1 1 [255, 0, 0] ⟨144, 119, 83, 222⟩ ⟨95, 146, 230, 200⟩
    ⟨174, 66, 96, 130⟩ (by decide) (by decide) (by decide) (by decide)

/-- The PNG of the witness is the 1x1 red PNG file, byte for byte. -/
theorem stored_rgb_png_red :
    stored_rgb_png 1 1 [255, 0, 0] ⟨144, 119, 83, 222⟩ ⟨95, 146, 230, 200⟩ ⟨174, 66, 96, 130⟩
      = png_red_1x1 := by
  decide


/-! ## Decoding: errors of the inflator -/

/-- Claim C8 at its failing input: a PNG with a valid header and well-framed chunks
whose IDAT stream holds a block with BTYPE = 3.  The inflator rejects the stream with
its error 20, and `upng_decode` returns 20, which `upng_get_error` reports as well;
20 is not MALFORMED (nor any other code of `upng_error`). -/
theorem C8_inflator_code_returned_for_btype3 :
    uzlib_decompress [] 4 [120, 1, 7] 3 = .ret (20, [], 4) ∧
    ∃ r, upng_decode upng_new png_btype3 = .ret (r, 20) ∧ upng_get_error r = 20 ∧
      upng_get_error r ≠ UPNG_EMALFORMED :=
  ⟨by rfl, _, by rfl, by decide, by decide⟩

/-- The error code of the inflator is passed through unchanged: for every handle
without a recorded error and every input that passes inspect and whose chunk walk ends
without an error, if `uzlib_decompress` rejects the concatenated IDAT stream with the
non-zero code `e`, then `upng_decode` returns `e` and `upng_get_error` reports `e`. -/
theorem inflate_error_passed_through (info : upng_info) (inp : List Byte)
    (info1 : upng_info) (idat : ucvector) (e : Nat) (d : List Byte) (s : Nat)
    (hins : (upng_inspect info inp).2 = UPNG_EOK) (hbuf : info.img_buffer ≠ .garbage)
    (hloop : chunk_loop inp inp.length 33 ucvector_init (upng_inspect info inp).1
      = .ret (info1, idat))
    (hok1 : info1.error = UPNG_EOK)
    (hz : uzlib_decompress (scanlines_vector info1).data (scanlines_vector info1).size
      idat.data idat.size = .ret (e, d, s))
    (he : e ≠ 0) :
    ∃ r, upng_decode info inp = .ret (r, e) ∧ upng_get_error r = e := by
  have hlen : 29 ≤ inp.length := (inspect_ok info inp hins).1.1
  rw [inspect_snd] at hins
  have hb := (chunk_loop_img_buffer inp _ _ _ _ _ _ hloop).1
  rw [inspect_img_buffer] at hb
  have hd : decode_image info1 idat = .ret (SET_ERROR info1 e 1068, .garbage, none) := by
    unfold decode_image
    rw [if_pos hok1]
    simp only []
    rw [hz, ret_bind]
    simp only []
    rw [if_neg (show ¬ (SET_ERROR info1 e 1068).error = UPNG_EOK from he)]
    rfl
  unfold upng_decode
  rw [if_neg (by omega)]
  simp only []
  rw [if_neg (not_not.mpr hins), hloop, ret_bind]
  simp only []
  rw [hd, ret_bind]
  simp only []
  rw [if_neg (by rw [show (SET_ERROR info1 e 1068).img_buffer = info1.img_buffer from rfl, hb]
                 exact hbuf)]
  exact ⟨_, rfl, rfl⟩

/-- The pass-through of inflator errors at the PNG whose IDAT stream holds a block
with BTYPE = 3. -/
theorem inflate_error_passed_through_btype3 :
    ∃ r, upng_decode upng_new png_btype3 = .ret (r, 20) ∧ upng_get_error r = 20 :=
  inflate_error_passed_through upng_new png_btype3
    (upng_inspect upng_new png_btype3).1 { data := [120, 1, 7], size := 3, allocsize := 6 }
    20 [] 4 (by decide) (by decide) (by rfl) (by decide) (by rfl) (by decide)

/-! ## The IDAT stream -/

/-- The chunk loop on clean chunks: it ends without an error and has appended the
IDAT payloads to the vector. -/
theorem chunk_loop_clean (inp : List Byte) (info : upng_info) :
    ∀ fuel o idat, 1 ≤ fuel → inp.length < fuel + o → idat.data.length = idat.size →
      chunks_clean inp fuel o →
      ∃ idat1, chunk_loop inp fuel o idat info = .ret (info, idat1) ∧
        idat1.data = idat.data ++ idat_payloads inp fuel o ∧
        idat1.data.length = idat1.size := by
  intro fuel
  induction fuel with
  | zero => intro o idat h; omega
  | succ f ih =>
    intro o idat _ hlen hinv hclean
    by_cases ho : o < inp.length
    · have hc := hclean ho
      obtain ⟨hw, hidat, hother⟩ := hc
      have hl := int_to_ulong_small _ hw.2.1
      have hL : upng_chunk_length inp o < 2 ^ 31 := by
        have := hw.2.1; rw [hl] at this; unfold INT_MAX at this; omega
      have hfr : o + upng_chunk_length inp o + 12 ≤ inp.length := by
        have := hw.2.2; rw [hl] at this; exact this
      by_cases h1 : upng_chunk_type inp o = CHUNK_IDAT
      · rw [chunk_loop_idat inp info f o idat hw.1 hL hfr h1 (by omega)]
        obtain ⟨idat1, e1, e2, e3⟩ := ih (o + (upng_chunk_length inp o + 12))
          { ucvector_resize idat (idat.size + upng_chunk_length inp o) with
            data := idat.data.take idat.size
              ++ (inp.drop (o + 8)).take (upng_chunk_length inp o)
              ++ idat.data.drop (idat.size + upng_chunk_length inp o) }
          (by omega) (by omega)
          (by
            show (idat.data.take idat.size
              ++ (inp.drop (o + 8)).take (upng_chunk_length inp o)
              ++ idat.data.drop (idat.size + upng_chunk_length inp o)).length
                = (ucvector_resize idat (idat.size + upng_chunk_length inp o)).size
            rw [resize_size]
            simp only [List.length_append, List.length_take, List.length_drop]
            omega)
          (hidat h1)
        refine ⟨idat1, e1, ?_, e3⟩
        rw [e2]
        show idat.data.take idat.size
              ++ (inp.drop (o + 8)).take (upng_chunk_length inp o)
              ++ idat.data.drop (idat.size + upng_chunk_length inp o)
              ++ idat_payloads inp f (o + (upng_chunk_length inp o + 12))
            = idat.data ++ idat_payloads inp (f + 1) o
        rw [List.take_of_length_le (show idat.data.length ≤ idat.size by omega),
          List.drop_of_length_le
            (show idat.data.length ≤ idat.size + upng_chunk_length inp o by omega)]
        simp [idat_payloads, if_pos ho, if_pos h1]
      · by_cases h2 : upng_chunk_type inp o = CHUNK_IEND
        · rw [chunk_loop_iend inp info f o idat hw.1 hL hfr h2]
          refine ⟨idat, rfl, ?_, hinv⟩
          simp [idat_payloads, if_pos ho, if_neg h1, if_pos h2]
        · obtain ⟨hcrit, hrest⟩ := hother h1 h2
          obtain ⟨idat1, e1, e2, e3⟩ := ih (o + (upng_chunk_length inp o + 12)) idat
            (by omega) (by omega) hinv hrest
          refine ⟨idat1, ?_, ?_, e3⟩
          · rw [← e1, chunk_loop]
            rw [if_neg (by omega), if_neg (by have := hw.1; omega)]
            simp only []
            rw [if_neg (by have := hw.2.1; omega), if_neg (by have := hw.2.2; omega),
              if_neg h1, if_neg h2, hcrit]
            simp
          · rw [e2]
            simp [idat_payloads, if_pos ho, if_neg h1, if_neg h2]
    · refine ⟨idat, ?_, ?_, hinv⟩
      · rw [chunk_loop, if_pos ho]
      · simp [idat_payloads, if_neg ho]

/-- Claim C11 (IDAT concatenation): for every input that passes inspect and whose
chunks from offset 33 are well framed with no unknown critical chunk, the chunk loop of
`upng_decode` ends without an error with a vector `idat` whose bytes are exactly the
concatenation, in file order, of the payloads of the IDAT chunks before the first IEND
chunk, and whose size is their number; and `decode_image` hands the bytes and the size
of that vector to `uzlib_decompress`. -/
theorem C11_idat_concatenation (info : upng_info) (inp : List Byte)
    (hins : (upng_inspect info inp).2 = UPNG_EOK)
    (hclean : chunks_clean inp inp.length 33) :
    ∃ idat,
      chunk_loop inp inp.length 33 ucvector_init (upng_inspect info inp).1
        = .ret ((upng_inspect info inp).1, idat) ∧
      idat.data = idat_payloads inp inp.length 33 ∧
      idat.size = (idat_payloads inp inp.length 33).length ∧
      ∃ k, ∀ v : ucvector, decode_image (upng_inspect info inp).1 v
        = (uzlib_decompress (scanlines_vector (upng_inspect info inp).1).data
            (scanlines_vector (upng_inspect info inp).1).size v.data v.size >>= k) := by
  have hlen : 29 ≤ inp.length := (inspect_ok_framed info inp hins).1
  obtain ⟨idat, e1, e2, e3⟩ := chunk_loop_clean inp (upng_inspect info inp).1 inp.length 33
    ucvector_init (by omega) (by omega) rfl hclean
  refine ⟨idat, e1, ?_, ?_, ?_⟩
  · rw [e2]; rfl
  · rw [← e3, e2]; rfl
  · have herr : (upng_inspect info inp).1.error = UPNG_EOK := by
      rw [← inspect_snd]; exact hins
    refine ⟨?k, fun v => ?_⟩
    case intro.intro.intro.refine_3 =>
      unfold decode_image
      rw [if_pos herr]
      dsimp only
      exact rfl

/-- Witness for C11: the 1x1 red PNG with a `tEXt` chunk before its IDAT chunk; the
stream handed on is the 11-byte payload of the IDAT chunk. -/
theorem C11_witness :
    ∃ idat,
      chunk_loop png_with_text png_with_text.length 33 ucvector_init
          (upng_inspect upng_new png_with_text).1
        = .ret ((upng_inspect upng_new png_with_text).1, idat) ∧
      idat.data = idat_payloads png_with_text png_with_text.length 33 ∧
      idat.size = (idat_payloads png_with_text png_with_text.length 33).length ∧
      ∃ k, ∀ v : ucvector, decode_image (upng_inspect upng_new png_with_text).1 v
        = (uzlib_decompress (scanlines_vector (upng_inspect upng_new png_with_text).1).data
            (scanlines_vector (upng_inspect upng_new png_with_text).1).size v.data v.size
              >>= k) :=
  C11_idat_concatenation upng_new png_with_text (by decide) (by decide)

/-! ## Error codes of the inflator -/

theorem sat_ret {α : Type} (a : α) (P : α → Prop) (h : P a) : (Exec.ret a).sat P := by
  intro b hb; cases hb; exact h

theorem sat_pure {α : Type} (a : α) (P : α → Prop) (h : P a) : (pure a : Exec α).sat P :=
  sat_ret a P h

theorem sat_fault {α : Type} (P : α → Prop) : (Exec.fault : Exec α).sat P := by
  intro b hb; cases hb

theorem sat_nofuel {α : Type} (P : α → Prop) : (Exec.nofuel : Exec α).sat P := by
  intro b hb; cases hb

theorem sat_bind {α β : Type} (x : Exec α) (f : α → Exec β) (Q : α → Prop) (P : β → Prop)
    (hx : x.sat Q) (hf : ∀ a, Q a → (f a).sat P) : (x >>= f).sat P := by
  intro b hb
  obtain ⟨a, ha, hfa⟩ := bind_eq_ret x f b hb
  exact hf a (hx a ha) b hfa

theorem sat_bind_any {α β : Type} (x : Exec α) (f : α → Exec β) (P : β → Prop)
    (hf : ∀ a, (f a).sat P) : (x >>= f).sat P :=
  sat_bind x f (fun _ => True) P (fun _ _ => trivial) (fun a _ => hf a)

theorem sat_ite {α : Type} (c : Prop) [Decidable c] (x y : Exec α) (P : α → Prop)
    (hx : c → x.sat P) (hy : ¬ c → y.sat P) : (if c then x else y).sat P := by
  by_cases h : c
  · rw [if_pos h]; exact hx h
  · rw [if_neg h]; exact hy h

theorem tree_decode_codes (tree : huffman_tree) (treepos bit : Nat) :
    (huffman_tree_decode tree treepos bit).sat (fun r => r.1 = 0 ∨ r.1 = 11) := by
  unfold huffman_tree_decode
  refine sat_ite _ _ _ _ ?_ ?_
  · intro _; exact sat_ret _ _ (Or.inr rfl)
  · intro _
    refine sat_bind_any _ _ _ ?_; intro result
    refine sat_ite _ _ _ _ ?_ ?_ <;> intro _ <;> exact sat_pure _ _ (Or.inl rfl)

theorem decode_symbol_loop_codes (inp : List Byte) (codetree : huffman_tree) (inlength : Nat) :
    ∀ fuel treepos bp, (huffman_decode_symbol_loop inp codetree inlength fuel treepos bp).sat
      (fun r => r.1 = 0 ∨ r.1 = 10 ∨ r.1 = 11) := by
  intro fuel
  induction fuel with
  | zero => intro treepos bp; exact sat_nofuel _
  | succ f ih =>
    intro treepos bp
    rw [huffman_decode_symbol_loop]
    refine sat_ite _ _ _ _ ?_ ?_
    · intro _; exact sat_ret _ _ (Or.inr (Or.inl rfl))
    · intro _
      refine sat_bind_any _ _ _ ?_; rintro ⟨bit, bp1⟩
      refine sat_bind _ _ _ _ (tree_decode_codes codetree treepos bit) ?_
      rintro ⟨err, decoded, ct, treepos1⟩ herr
      dsimp only at herr ⊢
      refine sat_ite _ _ _ _ ?_ ?_
      · intro _; refine sat_pure _ _ ?_; rcases herr with h | h
        · exact Or.inl h
        · exact Or.inr (Or.inr h)
      · intro _
        refine sat_ite _ _ _ _ ?_ ?_
        · intro _; exact sat_pure _ _ (Or.inl rfl)
        · intro _; exact ih treepos1 bp1

theorem decode_symbol_codes (inp : List Byte) (bp : Nat) (codetree : huffman_tree)
    (inlength : Nat) :
    (huffman_decode_symbol inp bp codetree inlength).sat
      (fun r => r.1 = 0 ∨ r.1 = 10 ∨ r.1 = 11) :=
  decode_symbol_loop_codes inp codetree inlength _ 0 bp

theorem tree_create_codes (tree : huffman_tree) :
    (huffman_tree_create tree).sat (fun r => r.2 = 0 ∨ r.2 = 55) := by
  unfold huffman_tree_create
  refine sat_bind_any _ _ _ ?_; intro r
  refine sat_ite _ _ _ _ ?_ ?_
  · intro _; exact sat_ret _ _ (Or.inr rfl)
  · intro _; exact sat_ret _ _ (Or.inl rfl)

theorem tree_create_lengths_codes (tree : huffman_tree) (bitlen : List Nat)
    (numcodes maxbitlen : Nat) :
    (huffman_tree_create_lengths tree bitlen numcodes maxbitlen).sat
      (fun r => r.2 = 0 ∨ r.2 = 55) := by
  unfold huffman_tree_create_lengths
  refine sat_ite _ _ _ _ ?_ ?_
  · intro _; exact sat_fault _
  · intro _
    unfold huffman_tree_create_lengths2
    refine sat_bind_any _ _ _ ?_; intro blcount
    refine sat_bind_any _ _ _ ?_; intro nextcode
    refine sat_bind_any _ _ _ ?_; rintro ⟨tree1d, x⟩
    exact tree_create_codes _

theorem iec (e : Nat) (h : decide (inflate_error_code e) = true) : inflate_error_code e :=
  of_decide_eq_true h

theorem repeat_lengths_codes (HLIT HDIST value errcode : Nat) (he : inflate_error_code errcode) :
    ∀ k i bitlen bitlenD, (repeat_lengths HLIT HDIST value errcode k i bitlen bitlenD).sat
      (fun r => inflate_error_code r.1) := by
  intro k
  induction k with
  | zero => intro i bitlen bitlenD; exact sat_ret _ _ (iec _ rfl)
  | succ k ih =>
    intro i bitlen bitlenD
    rw [repeat_lengths]
    refine sat_ite _ _ _ _ ?_ ?_
    · intro _; exact sat_ret _ _ he
    · intro _
      refine sat_ite _ _ _ _ ?_ ?_
      · intro _; refine sat_bind_any _ _ _ ?_; intro b; exact ih _ _ _
      · intro _; refine sat_bind_any _ _ _ ?_; intro b; exact ih _ _ _

theorem read_code_lengths_codes (inp : List Byte) (inlength : Nat) (cltree : huffman_tree)
    (HLIT HDIST : Nat) :
    ∀ fuel i bitlen bitlenD bp,
      (read_code_lengths inp inlength cltree HLIT HDIST fuel i bitlen bitlenD bp).sat
        (fun r => inflate_error_code r.1) := by
  intro fuel
  induction fuel with
  | zero => intro i bitlen bitlenD bp; exact sat_nofuel _
  | succ f ih =>
    intro i bitlen bitlenD bp
    rw [read_code_lengths]
    refine sat_ite _ _ _ _ ?_ ?_
    · intro _; exact sat_ret _ _ (iec _ rfl)
    · intro _
      refine sat_bind _ _ _ _ (decode_symbol_codes inp bp cltree inlength) ?_
      rintro ⟨err, code, bp1⟩ herr
      dsimp only at herr ⊢
      refine sat_ite _ _ _ _ ?_ ?_
      · intro _; refine sat_pure _ _ ?_
        rcases herr with h | h | h <;> rw [h] <;> exact iec _ rfl
      intro _
      refine sat_ite _ _ _ _ ?_ ?_
      · intro _
        refine sat_ite _ _ _ _ ?_ ?_ <;> intro _ <;> refine sat_bind_any _ _ _ ?_ <;> intro b <;>
          exact ih _ _ _ _
      intro _
      refine sat_ite _ _ _ _ ?_ ?_
      · intro _
        refine sat_ite _ _ _ _ ?_ ?_
        · intro _; exact sat_pure _ _ (iec _ rfl)
        intro _
        refine sat_bind_any _ _ _ ?_; rintro ⟨v, bp2⟩
        refine sat_ite _ _ _ _ ?_ ?_ <;> intro _ <;> refine sat_bind_any _ _ _ ?_ <;>
          intro value <;>
          refine sat_bind _ _ _ _
            (repeat_lengths_codes HLIT HDIST value 13 (iec _ rfl) _ _ _ _) ?_ <;>
          rintro ⟨e, i1, b, bD⟩ he <;> dsimp only at he ⊢ <;>
          refine sat_ite _ _ _ _ ?_ ?_
        · intro _; exact sat_pure _ _ he
        · intro _; exact ih _ _ _ _
        · intro _; exact sat_pure _ _ he
        · intro _; exact ih _ _ _ _
      intro _
      refine sat_ite _ _ _ _ ?_ ?_
      · intro _
        refine sat_ite _ _ _ _ ?_ ?_
        · intro _; exact sat_pure _ _ (iec _ rfl)
        intro _
        refine sat_bind_any _ _ _ ?_; rintro ⟨v, bp2⟩
        refine sat_bind _ _ _ _ (repeat_lengths_codes HLIT HDIST 0 14 (iec _ rfl) _ _ _ _) ?_
        rintro ⟨e, i1, b, bD⟩ he
        dsimp only at he ⊢
        refine sat_ite _ _ _ _ ?_ ?_
        · intro _; exact sat_pure _ _ he
        · intro _; exact ih _ _ _ _
      intro _
      refine sat_ite _ _ _ _ ?_ ?_
      · intro _
        refine sat_ite _ _ _ _ ?_ ?_
        · intro _; exact sat_pure _ _ (iec _ rfl)
        intro _
        refine sat_bind_any _ _ _ ?_; rintro ⟨v, bp2⟩
        refine sat_bind _ _ _ _ (repeat_lengths_codes HLIT HDIST 0 15 (iec _ rfl) _ _ _ _) ?_
        rintro ⟨e, i1, b, bD⟩ he
        dsimp only at he ⊢
        refine sat_ite _ _ _ _ ?_ ?_
        · intro _; exact sat_pure _ _ he
        · intro _; exact ih _ _ _ _
      intro _
      exact sat_pure _ _ (iec _ rfl)

theorem tree_create_lengths_inflate_code (tree : huffman_tree) (bitlen : List Nat)
    (numcodes maxbitlen : Nat) :
    (huffman_tree_create_lengths tree bitlen numcodes maxbitlen).sat
      (fun r => inflate_error_code r.2) := by
  intro r hr
  rcases tree_create_lengths_codes tree bitlen numcodes maxbitlen r hr with h | h <;>
    rw [h] <;> exact iec _ rfl

theorem tree_dynamic_codes (codetree codetreeD codelengthcodetree : huffman_tree)
    (inp : List Byte) (bp inlength : Nat) :
    (get_tree_inflate_dynamic codetree codetreeD codelengthcodetree inp bp inlength).sat
      (fun r => inflate_error_code r.1) := by
  unfold get_tree_inflate_dynamic
  refine sat_ite _ _ _ _ ?_ ?_
  · intro _; exact sat_ret _ _ (iec _ rfl)
  intro _
  refine sat_bind_any _ _ _ ?_; rintro ⟨v1, bp1⟩
  refine sat_bind_any _ _ _ ?_; rintro ⟨v2, bp2⟩
  refine sat_bind_any _ _ _ ?_; rintro ⟨v3, bp3⟩
  refine sat_bind_any _ _ _ ?_; rintro ⟨codelengthcode, bp4⟩
  refine sat_bind _ _ _ _ (tree_create_lengths_inflate_code _ _ _ _) ?_
  rintro ⟨cltree, error⟩ herror
  dsimp only at herror ⊢
  refine sat_ite _ _ _ _ ?_ ?_
  · intro _; exact sat_pure _ _ herror
  intro _
  refine sat_bind _ _ _ _ (read_code_lengths_codes _ _ _ _ _ _ _ _ _ _) ?_
  rintro ⟨error1, bitlen, bitlenD, bp5⟩ herror1
  dsimp only at herror1 ⊢
  refine sat_bind_any _ _ _ ?_; intro l256
  refine sat_ite _ _ _ _ ?_ ?_
  · intro _; refine sat_pure _ _ ?_
    by_cases hc : error1 = 0 ∧ l256 = 0
    · simp only [if_pos hc]; exact iec _ rfl
    · simp only [if_neg hc]; exact herror1
  intro _
  refine sat_bind _ _ _ _ (tree_create_lengths_inflate_code _ _ _ _) ?_
  rintro ⟨t, error3⟩ herror3
  dsimp only at herror3 ⊢
  refine sat_ite _ _ _ _ ?_ ?_
  · intro _; exact sat_pure _ _ herror3
  intro _
  refine sat_bind _ _ _ _ (tree_create_lengths_inflate_code _ _ _ _) ?_
  rintro ⟨tD, error4⟩ herror4
  exact sat_pure _ _ herror4

theorem decode_symbol_inflate_code (inp : List Byte) (bp : Nat) (codetree : huffman_tree)
    (inlength : Nat) :
    (huffman_decode_symbol inp bp codetree inlength).sat (fun r => inflate_error_code r.1) := by
  intro r hr
  rcases decode_symbol_codes inp bp codetree inlength r hr with h | h | h <;>
    rw [h] <;> exact iec _ rfl

theorem inflate_huffman_loop_codes (inp : List Byte) (inlength : Nat)
    (codetree codetreeD : huffman_tree) :
    ∀ fuel out bp pos, (inflate_huffman_loop inp inlength codetree codetreeD fuel out bp pos).sat
      (fun r => inflate_error_code r.1) := by
  intro fuel
  induction fuel with
  | zero => intro out bp pos; exact sat_nofuel _
  | succ f ih =>
    intro out bp pos
    rw [inflate_huffman_loop]
    refine sat_bind _ _ _ _ (decode_symbol_inflate_code inp bp codetree inlength) ?_
    rintro ⟨err, code, bp1⟩ herr
    dsimp only at herr ⊢
    refine sat_ite _ _ _ _ ?_ ?_
    · intro _; exact sat_pure _ _ herr
    intro _
    refine sat_ite _ _ _ _ ?_ ?_
    · intro _; exact sat_pure _ _ (iec _ rfl)
    intro _
    refine sat_ite _ _ _ _ ?_ ?_
    · intro _
      refine sat_ite _ _ _ _ ?_ ?_
      · intro _; exact sat_pure _ _ (iec _ rfl)
      · intro _; refine sat_bind_any _ _ _ ?_; intro d; exact ih _ _ _
    intro _
    refine sat_ite _ _ _ _ ?_ ?_
    · intro _
      refine sat_bind_any _ _ _ ?_; intro lbase
      refine sat_bind_any _ _ _ ?_; intro numextrabits
      refine sat_ite _ _ _ _ ?_ ?_
      · intro _; exact sat_pure _ _ (iec _ rfl)
      intro _
      refine sat_bind_any _ _ _ ?_; rintro ⟨v, bp2⟩
      refine sat_bind _ _ _ _ (decode_symbol_inflate_code inp _ codetreeD inlength) ?_
      rintro ⟨errD, codeD, bp3⟩ herrD
      dsimp only at herrD ⊢
      refine sat_ite _ _ _ _ ?_ ?_
      · intro _; exact sat_pure _ _ herrD
      intro _
      refine sat_ite _ _ _ _ ?_ ?_
      · intro _; exact sat_pure _ _ (iec _ rfl)
      intro _
      refine sat_bind_any _ _ _ ?_; intro dbase
      refine sat_bind_any _ _ _ ?_; intro numextrabitsD
      refine sat_ite _ _ _ _ ?_ ?_
      · intro _; exact sat_pure _ _ (iec _ rfl)
      intro _
      refine sat_bind_any _ _ _ ?_; rintro ⟨vD, bp4⟩
      dsimp only
      refine sat_ite _ _ _ _ ?_ ?_
      · intro _; exact sat_pure _ _ (iec _ rfl)
      intro _
      refine sat_bind_any _ _ _ ?_; rintro ⟨d, pos1, x⟩
      exact ih _ _ _
    · intro _; exact ih _ _ _

theorem inflate_huffman_codes (out : ucvector) (inp : List Byte) (bp pos inlength btype : Nat) :
    (inflate_huffman out inp bp pos inlength btype).sat (fun r => inflate_error_code r.1) := by
  have hjp : ∀ y : Nat × huffman_tree × huffman_tree × Nat, inflate_error_code y.1 →
      (match y with
        | (error, codetree, codetreeD, bp1) =>
          if error ≠ 0 then (pure (error, out, bp1, pos) : Exec (Nat × ucvector × Nat × Nat))
          else inflate_huffman_loop inp inlength codetree codetreeD (8 * inp.length + 1) out
            bp1 pos).sat (fun r => inflate_error_code r.1) := by
    rintro ⟨error, codetree, codetreeD, bp1⟩ herror
    dsimp only at herror ⊢
    refine sat_ite _ _ _ _ ?_ ?_
    · intro _; exact sat_pure _ _ herror
    · intro _; exact inflate_huffman_loop_codes _ _ _ _ _ _ _ _
  unfold inflate_huffman
  dsimp only
  refine sat_ite _ _ _ _ ?_ ?_
  · intro _
    refine sat_bind_any _ _ _ ?_; rintro ⟨t, tD⟩
    exact hjp (0, t, tD, bp) (iec _ rfl)
  intro _
  refine sat_ite _ _ _ _ ?_ ?_
  · intro _
    exact sat_bind _ _ (fun (r : Nat × huffman_tree × huffman_tree × Nat) =>
      inflate_error_code r.1) _ (tree_dynamic_codes _ _ _ _ _ _) hjp
  · intro _
    exact hjp (0, huffman_tree_init, huffman_tree_init, bp) (iec _ rfl)

theorem inflate_nocmp_codes (out : ucvector) (inp : List Byte) (bp pos inlength : Nat) :
    (inflate_nocmp out inp bp pos inlength).sat (fun r => inflate_error_code r.1) := by
  unfold inflate_nocmp
  dsimp only
  refine sat_ite _ _ _ _ ?_ ?_
  · intro _; exact sat_ret _ _ (iec _ rfl)
  intro _
  refine sat_bind_any _ _ _ ?_; intro l0
  refine sat_bind_any _ _ _ ?_; intro l1
  refine sat_bind_any _ _ _ ?_; intro n0
  refine sat_bind_any _ _ _ ?_; intro n1
  refine sat_ite _ _ _ _ ?_ ?_
  · intro _; exact sat_pure _ _ (iec _ rfl)
  intro _
  refine sat_ite _ _ _ _ ?_ ?_
  · intro _; exact sat_pure _ _ (iec _ rfl)
  intro _
  refine sat_bind_any _ _ _ ?_; rintro ⟨d, pos1, p1⟩
  exact sat_pure _ _ (iec _ rfl)

theorem uz_inflate_loop_codes (inp : List Byte) (insize : Nat) :
    ∀ fuel out bp pos, (uz_inflate_loop inp insize fuel out bp pos).sat
      (fun r => inflate_error_code r.1) := by
  intro fuel
  induction fuel with
  | zero => intro out bp pos; exact sat_nofuel _
  | succ f ih =>
    intro out bp pos
    rw [uz_inflate_loop]
    refine sat_ite _ _ _ _ ?_ ?_
    · intro _; exact sat_ret _ _ (iec _ rfl)
    intro _
    refine sat_bind_any _ _ _ ?_; rintro ⟨BFINAL, bp1⟩
    refine sat_bind_any _ _ _ ?_; rintro ⟨t0, bp2⟩
    refine sat_bind_any _ _ _ ?_; rintro ⟨t1, bp3⟩
    dsimp only
    refine sat_ite _ _ _ _ ?_ ?_
    · intro _; exact sat_pure _ _ (iec _ rfl)
    intro _
    have hk : ∀ y : Nat × ucvector × Nat × Nat, inflate_error_code y.1 →
        (if y.1 ≠ 0 then (pure (y.1, y.2.1) : Exec (Nat × ucvector))
          else if BFINAL ≠ 0 then pure (0, ucvector_resize y.2.1 y.2.2.2)
          else uz_inflate_loop inp insize f y.2.1 y.2.2.1 y.2.2.2).sat
          (fun r => inflate_error_code r.1) := by
      intro y herror
      refine sat_ite _ _ _ _ ?_ ?_
      · intro _; exact sat_pure _ _ herror
      intro _
      refine sat_ite _ _ _ _ ?_ ?_
      · intro _; exact sat_pure _ _ (iec _ rfl)
      · intro _; exact ih _ _ _
    refine sat_ite _ _ _ _ ?_ ?_
    · intro _
      exact sat_bind _ _ (fun (r : Nat × ucvector × Nat × Nat) => inflate_error_code r.1) _
        (inflate_nocmp_codes _ _ _ _ _) hk
    · intro _
      exact sat_bind _ _ (fun (r : Nat × ucvector × Nat × Nat) => inflate_error_code r.1) _
        (inflate_huffman_codes _ _ _ _ _ _) hk

/-- The block loop of the inflator produces none of the four error codes of the zlib
header checks. -/
theorem uz_inflate_codes (out : ucvector) (inp : List Byte) (insize inpos : Nat) :
    (uz_inflate out inp insize inpos).sat (fun r => inflate_error_code r.1) :=
  uz_inflate_loop_codes _ _ _ _ _ _

theorem byte_and_15 (b : Byte) : b.val &&& 15 = b.val % 16 :=
  Nat.and_pow_two_sub_one_eq_mod b.val 4

theorem byte_shr_4 (b : Byte) : (b.val >>> 4) &&& 15 = b.val / 16 := by
  have h := Nat.and_pow_two_sub_one_eq_mod (b.val >>> 4) 4
  have hb := b.isLt
  rw [Nat.shiftRight_eq_div_pow] at h ⊢
  rw [show (15 : Nat) = 2 ^ 4 - 1 from rfl, h]
  omega

theorem byte_bit_5 (b : Byte) : (b.val >>> 5) &&& 1 = b.val / 32 % 2 := by
  rw [Nat.and_one_is_mod, Nat.shiftRight_eq_div_pow]

theorem load_peek (m : List Byte) (i : Nat) (h : i < m.length) : load m i = .ret (peek m i) := by
  rw [load_eq m i h]; unfold peek
  rw [List.getD_eq_getElem _ _ h]

theorem peek_byte (m : List Byte) (i : Nat) : ∃ b : Byte, peek m i = b.val := ⟨_, rfl⟩

/-- Claim C12 (zlib header validation): for every input, `uzlib_decompress` returns
error 53 if the input has fewer than 2 bytes; otherwise 24 if `(256 * in[0] + in[1])
mod 31` is not zero; otherwise 25 if the low four bits of `in[0]` are not 8 or its high
four bits exceed 7; otherwise 26 if bit 5 of `in[1]` is set; and a header that passes
all four checks reaches the block loop (`uz_inflate`), whose result is returned and is
none of these four codes. -/
theorem C12_zlib_header_validation (out : List Byte) (outsize : Nat) (inp : List Byte) :
    (inp.length < 2 → uzlib_decompress out outsize inp inp.length = .ret (53, out, outsize)) ∧
    (2 ≤ inp.length → (256 * peek inp 0 + peek inp 1) % 31 ≠ 0 →
      uzlib_decompress out outsize inp inp.length = .ret (24, out, outsize)) ∧
    (2 ≤ inp.length → (256 * peek inp 0 + peek inp 1) % 31 = 0 →
      (peek inp 0 % 16 ≠ 8 ∨ peek inp 0 / 16 > 7) →
      uzlib_decompress out outsize inp inp.length = .ret (25, out, outsize)) ∧
    (2 ≤ inp.length → (256 * peek inp 0 + peek inp 1) % 31 = 0 →
      ¬ (peek inp 0 % 16 ≠ 8 ∨ peek inp 0 / 16 > 7) → peek inp 1 / 32 % 2 = 1 →
      uzlib_decompress out outsize inp inp.length = .ret (26, out, outsize)) ∧
    (2 ≤ inp.length → (256 * peek inp 0 + peek inp 1) % 31 = 0 →
      ¬ (peek inp 0 % 16 ≠ 8 ∨ peek inp 0 / 16 > 7) → ¬ peek inp 1 / 32 % 2 = 1 →
      uzlib_decompress out outsize inp inp.length
          = (uz_inflate (ucvector_init_buffer out outsize) inp inp.length 2 >>= fun r =>
              pure (r.1, r.2.data, r.2.size)) ∧
        ∀ e o s, uzlib_decompress out outsize inp inp.length = .ret (e, o, s) →
          e ≠ 53 ∧ e ≠ 24 ∧ e ≠ 25 ∧ e ≠ 26) := by
  obtain ⟨b0, hb0⟩ := peek_byte inp 0
  obtain ⟨b1, hb1⟩ := peek_byte inp 1
  have hmul : ∀ x y : Nat, x * 256 + y = 256 * x + y := fun x y => by omega
  refine ⟨?_, ?_, ?_, ?_, ?_⟩
  · intro h; unfold uzlib_decompress; rw [if_pos h]
  · intro h hck
    unfold uzlib_decompress
    rw [if_neg (by omega), load_peek inp 0 (by omega), load_peek inp 1 (by omega)]
    simp only [ret_bind, hmul]
    rw [if_pos hck]; rfl
  · intro h hck hcm
    unfold uzlib_decompress
    rw [if_neg (by omega), load_peek inp 0 (by omega), load_peek inp 1 (by omega)]
    simp only [ret_bind, hmul]
    rw [if_neg (by omega)]
    rw [hb0, byte_and_15, byte_shr_4, ← hb0, if_pos hcm]; rfl
  · intro h hck hcm hfd
    unfold uzlib_decompress
    rw [if_neg (by omega), load_peek inp 0 (by omega), load_peek inp 1 (by omega)]
    simp only [ret_bind, hmul]
    rw [if_neg (by omega)]
    rw [hb0, byte_and_15, byte_shr_4, ← hb0, if_neg hcm, hb1, byte_bit_5, ← hb1,
      if_pos (by omega)]; rfl
  · intro h hck hcm hfd
    have hrun : uzlib_decompress out outsize inp inp.length
        = (uz_inflate (ucvector_init_buffer out outsize) inp inp.length 2 >>= fun r =>
            pure (r.1, r.2.data, r.2.size)) := by
      unfold uzlib_decompress
      rw [if_neg (by omega), load_peek inp 0 (by omega), load_peek inp 1 (by omega)]
      simp only [ret_bind, hmul]
      rw [if_neg (by omega)]
      rw [hb0, byte_and_15, byte_shr_4, ← hb0, if_neg hcm, hb1, byte_bit_5, ← hb1,
        if_neg (by omega)]
    refine ⟨hrun, ?_⟩
    intro e o s hret
    rw [hrun] at hret
    obtain ⟨r, hr, hk⟩ := bind_eq_ret _ _ _ hret
    have hc : inflate_error_code r.1 := uz_inflate_codes _ _ _ _ r hr
    simp only [pure_eq_ret, Exec.ret.injEq, Prod.mk.injEq] at hk
    rw [hk.1] at hc
    unfold inflate_error_code at hc
    simp only [List.mem_cons, List.mem_singleton, List.not_mem_nil, or_false] at hc
    clear hret hrun hk hfd hcm hck
    omega

/-! ## Stored blocks -/

/-- Claim C13 (stored-block round trip): for every byte sequence `D` of at most 65535
bytes, every initial output vector (`o`, `osize`) and every trailer `T` (the whole input
fitting a 64-bit address space), `uzlib_decompress` applied to `78 01`, the byte `01`
(BFINAL = 1, BTYPE = 0), LEN = |D| and NLEN = 65535 - LEN as little-endian 16-bit values,
`D` and then `T` returns error 0 and an output of size exactly |D| whose bytes are `D`. -/
theorem C13_stored_block_round_trip (D T o : List Byte) (osize : Nat)
    (hD : D.length ≤ 65535) (hT : 7 + D.length + T.length < 2 ^ 64) :
    ∃ data,
      uzlib_decompress o osize
          ([0x78, 0x01, 0x01] ++ le16 D.length ++ le16 (65535 - D.length) ++ D ++ T)
          ([0x78, 0x01, 0x01] ++ le16 D.length ++ le16 (65535 - D.length) ++ D ++ T).length
        = .ret (0, data, D.length) ∧
      data.take D.length = D := by
  refine ⟨D ++ o.drop D.length, ?_, by simp⟩
  have hlen : ([0x78, 0x01, 0x01] ++ le16 D.length ++ le16 (65535 - D.length) ++ D ++ T).length
      = 7 + D.length + T.length := by
    simp [le16]; omega
  rw [hlen]
  exact inflate_stored D T o osize hD hT

/-- Witness for C13: the two bytes `41 42` in a stored block, followed by a one-byte
trailer, inflated into an empty output vector. -/
theorem C13_witness :
    ∃ data,
      uzlib_decompress [] 0
          ([0x78, 0x01, 0x01] ++ le16 ([0x41, 0x42] : List Byte).length
            ++ le16 (65535 - ([0x41, 0x42] : List Byte).length) ++ [0x41, 0x42] ++ [0xAA])
          ([0x78, 0x01, 0x01] ++ le16 ([0x41, 0x42] : List Byte).length
            ++ le16 (65535 - ([0x41, 0x42] : List Byte).length) ++ [0x41, 0x42] ++ [0xAA]).length
        = .ret (0, data, ([0x41, 0x42] : List Byte).length) ∧
      data.take ([0x41, 0x42] : List Byte).length = [0x41, 0x42] :=
  C13_stored_block_round_trip [0x41, 0x42] [0xAA] [] 0 (by decide) (by decide)

/-! ## Oversubscribed code lengths -/

/-- Claim C16 at its failing input: nine symbols of length 3 (followed by ten symbols of
length 0, as the 19 code length codes of a dynamic block, or on their own) are
oversubscribed, and `huffman_tree_create_lengths` returns 0 with a table for them
instead of error 55. -/
theorem C16_nine_codes_of_length_three :
    oversubscribed 7 (List.replicate 9 3 ++ List.replicate 10 0) ∧
    (∃ t, huffman_tree_create_lengths huffman_tree_init
        (List.replicate 9 3 ++ List.replicate 10 0) 19 7 = .ret (t, 0)) ∧
    oversubscribed 3 (List.replicate 9 3) ∧
    (∃ t, huffman_tree_create_lengths huffman_tree_init (List.replicate 9 3) 9 3
      = .ret (t, 0)) := by
  refine ⟨by decide, ⟨_, by rfl⟩, by decide, ⟨_, by rfl⟩⟩

/-- With a tenth symbol of length 3 the oversubscription is noticed: while the codes of
later symbols are entered, the walk has left the table and error 55 is returned. -/
theorem ten_codes_of_length_three :
    ∃ t, huffman_tree_create_lengths huffman_tree_init
      (List.replicate 10 3 ++ List.replicate 9 0) 19 7 = .ret (t, 55) :=
  ⟨_, by rfl⟩

/-! ## Back-references -/

theorem loadw_getD (m : List Nat) (i : Nat) (h : i < m.length) :
    loadw m i = .ret (m.getD i 0) := by
  unfold loadw
  rw [List.getElem?_eq_getElem h, List.getD_eq_getElem _ _ h]

theorem lengthbase_ge : ∀ c : Fin 29, 3 ≤ LENGTHBASE.getD c.val 0 := by decide

/-- The copy of the witness of C17 written out: `41` followed by five copies at
distance 1 is `41 41 41 41 41 41`. -/
theorem lz_copy_run : lz_copy [0x41] 1 1 5 = [0x41, 0x41, 0x41, 0x41, 0x41, 0x41] := by
  decide

/-! ## Scanline reconstruction -/

/-- A counted loop whose states are known in advance. -/
theorem for_loop_chain {σ : Type} (body : Nat → σ → Exec σ) (St : Nat → σ) :
    ∀ count lo, (∀ i, lo ≤ i → i < lo + count → body i (St i) = .ret (St (i + 1))) →
      for_loop body count lo (St lo) = .ret (St (lo + count)) := by
  intro count
  induction count with
  | zero => intro lo _; rfl
  | succ k ih =>
    intro lo h
    rw [for_loop, h lo (Nat.le_refl _) (by omega), ret_bind, ih (lo + 1) (fun i h1 h2 =>
      h i (by omega) (by omega))]
    rw [show lo + 1 + k = lo + (k + 1) by omega]

theorem recon_upto_length (f bw : Nat) (scan : List Byte) (prev : Option (List Byte)) :
    ∀ i, (recon_upto f bw scan prev i).length = i := by
  intro i
  induction i with
  | zero => rfl
  | succ i ih => rw [recon_upto, List.length_append, ih]; rfl

theorem recon_upto_take (f bw : Nat) (scan : List Byte) (prev : Option (List Byte)) :
    ∀ j i, i ≤ j → (recon_upto f bw scan prev j).take i = recon_upto f bw scan prev i := by
  intro j
  induction j with
  | zero => intro i h; rw [Nat.le_zero.mp h]; rfl
  | succ j ih =>
    intro i h
    by_cases hij : i ≤ j
    · rw [recon_upto, List.take_append_of_le_length (by rw [recon_upto_length]; exact hij)]
      exact ih i hij
    · have : i = j + 1 := by omega
      subst this
      exact List.take_of_length_le (by rw [recon_upto_length])

theorem recon_upto_get (f bw : Nat) (scan : List Byte) (prev : Option (List Byte))
    (j i : Nat) (h : i < j) :
    (recon_upto f bw scan prev j).getD i 0
      = toByteI (((scan.getD i 0).val : Int)
        + predictor f (left_of bw (recon_upto f bw scan prev i) i) (up_of prev i)
            (upleft_of bw prev i)) := by
  have h1 := recon_upto_take f bw scan prev j (i + 1) (by omega)
  have h2 : ((recon_upto f bw scan prev j).take (i + 1)).getD i 0
      = (recon_upto f bw scan prev j).getD i 0 := by
    rw [List.getD_eq_getElem?_getD, List.getD_eq_getElem?_getD,
      List.getElem?_take_of_lt (by omega)]
  rw [← h2, h1, recon_upto, List.getD_eq_getElem?_getD,
    List.getElem?_append_right (by rw [recon_upto_length]), recon_upto_length]
  simp

theorem line_state_zero (m : Mem) (ro : Nat) (R : List Byte) : line_state m ro R 0 = m := by
  unfold line_state
  simp

theorem line_state_load_in (m : Mem) (ro so : Nat) (R : List Byte) (i j : Nat)
    (h : so + j < m.inb.length) :
    (line_state m ro R i).load { obj := .inb, off := so } j
      = .ret (m.inb.getD (so + j) 0).val := by
  unfold Mem.load Mem.bytes line_state
  dsimp only
  rw [load_eq _ _ h, List.getD_eq_getElem _ _ h]

theorem line_state_load_before (m : Mem) (ro po : Nat) (R : List Byte) (i j : Nat)
    (hro : ro ≤ m.outb.length) (h : po + j < ro) :
    (line_state m ro R i).load { obj := .outb, off := po } j
      = .ret (m.outb.getD (po + j) 0).val := by
  unfold Mem.load Mem.bytes line_state load
  dsimp only
  rw [List.append_assoc, List.getElem?_append_left (by rw [List.length_take]; omega),
    List.getElem?_take_of_lt h, List.getElem?_eq_getElem (by omega),
    List.getD_eq_getElem _ _ (by omega)]

theorem line_state_load_recon (m : Mem) (ro : Nat) (R : List Byte) (i j : Nat)
    (hro : ro ≤ m.outb.length) (hi : i ≤ R.length) (h : j < i) :
    (line_state m ro R i).load { obj := .outb, off := ro } j = .ret (R.getD j 0).val := by
  unfold Mem.load Mem.bytes line_state load
  dsimp only
  have hl : (m.outb.take ro).length = ro := by rw [List.length_take]; omega
  rw [List.append_assoc, List.getElem?_append_right (by rw [hl]; omega), hl,
    show ro + j - ro = j by omega,
    List.getElem?_append_left (by rw [List.length_take]; omega),
    List.getElem?_take_of_lt h, List.getElem?_eq_getElem (by omega),
    List.getD_eq_getElem _ _ (by omega)]

theorem line_state_store (m : Mem) (ro : Nat) (R : List Byte) (i : Nat) (v : Byte)
    (hro : ro + R.length ≤ m.outb.length) (hi : i < R.length) (hv : v = R.getD i 0) :
    (line_state m ro R i).store { obj := .outb, off := ro } i v
      = .ret (line_state m ro R (i + 1)) := by
  have hl : (m.outb.take ro ++ R.take i).length = ro + i := by
    rw [List.length_append, List.length_take, List.length_take]; omega
  unfold Mem.store line_state
  dsimp only
  rw [poke_eq _ _ _ (by
    rw [List.length_append, hl, List.length_drop]; omega)]
  rw [ret_bind]
  congr 2
  rw [← hl, List.take_left, List.drop_append, List.drop_drop, hl]
  rw [show R.take (i + 1) = R.take i ++ [R.getD i 0] by
    rw [List.take_succ, List.getD_eq_getElem?_getD, List.getElem?_eq_getElem hi]; rfl]
  rw [hv, show ro + i + 1 = ro + (i + 1) by omega]
  simp

theorem toByteI_natCast (n : Nat) : toByteI (n : Int) = toByte n := by
  unfold toByteI toByte
  congr 1
  omega

theorem paeth_predictor_eq (a b c : Int) : paeth_predictor a b c = paeth_ref a b c := by
  unfold paeth_predictor paeth_ref
  have h : ∀ x y : Int, (if x > y then x - y else y - x) = |x - y| := by
    intro x y
    by_cases hxy : x > y
    · rw [if_pos hxy, abs_of_pos (by omega)]
    · rw [if_neg hxy, abs_of_nonpos (by omega)]; omega
  simp only [h]

theorem getD_drop_take (l : List Byte) (o n i : Nat) (hi : i < n) :
    ((l.drop o).take n).getD i 0 = l.getD (o + i) 0 := by
  rw [List.getD_eq_getElem?_getD, List.getD_eq_getElem?_getD, List.getElem?_take_of_lt hi,
    List.getElem?_drop]

theorem up_of_map (outb : List Byte) (pre : Option Nat) (n i : Nat) (hi : i < n) :
    up_of (pre.map (fun po => (outb.drop po).take n)) i
      = (match pre with
          | some po => ((outb.getD (po + i) 0).val : Int)
          | none => 0) := by
  cases pre with
  | none => rfl
  | some po =>
    show (((((outb.drop po).take n).getD i 0).val : Int)) = _
    rw [getD_drop_take _ _ _ _ hi]

theorem upleft_of_map (outb : List Byte) (pre : Option Nat) (bw n i : Nat) (hi : i < n) :
    upleft_of bw (pre.map (fun po => (outb.drop po).take n)) i
      = (match pre with
          | some po => if i < bw then 0 else ((outb.getD (po + (i - bw)) 0).val : Int)
          | none => 0) := by
  cases pre with
  | none => rfl
  | some po =>
    show left_of bw ((outb.drop po).take n) i
      = if i < bw then 0 else ((outb.getD (po + (i - bw)) 0).val : Int)
    unfold left_of
    by_cases hb : i < bw
    · rw [if_pos hb, if_pos hb]
    · rw [if_neg hb, if_neg hb, getD_drop_take _ _ _ _ (by omega)]

/-- Byte `i` of the reference reconstruction, with its neighbours read from the
reconstruction itself and from the output block. -/
theorem recon_line_get (m : Mem) (so : Nat) (pre : Option Nat) (f bw n i : Nat)
    (hbw : 1 ≤ bw) (hso : so + n ≤ m.inb.length) (hi : i < n) :
    (recon_line f bw ((m.inb.drop so).take n)
        (pre.map (fun po => (m.outb.drop po).take n))).getD i 0
      = toByteI (((m.inb.getD (so + i) 0).val : Int)
          + predictor f
              (if i < bw then 0
                else (((recon_line f bw ((m.inb.drop so).take n)
                  (pre.map (fun po => (m.outb.drop po).take n))).getD (i - bw) 0).val : Int))
              (match pre with
                | some po => ((m.outb.getD (po + i) 0).val : Int)
                | none => 0)
              (match pre with
                | some po => if i < bw then 0 else ((m.outb.getD (po + (i - bw)) 0).val : Int)
                | none => 0)) := by
  have hlen : ((m.inb.drop so).take n).length = n := by
    rw [List.length_take, List.length_drop]; omega
  have hleft : left_of bw (recon_upto f bw ((m.inb.drop so).take n)
        (pre.map (fun po => (m.outb.drop po).take n)) i) i
      = (if i < bw then 0
          else (((recon_upto f bw ((m.inb.drop so).take n)
            (pre.map (fun po => (m.outb.drop po).take n)) n).getD (i - bw) 0).val : Int)) := by
    unfold left_of
    by_cases hb : i < bw
    · rw [if_pos hb, if_pos hb]
    · rw [if_neg hb, if_neg hb]
      rw [← recon_upto_take _ _ _ _ n i (by omega), List.getD_eq_getElem?_getD,
        List.getD_eq_getElem?_getD, List.getElem?_take_of_lt (by omega)]
  unfold recon_line
  rw [hlen, recon_upto_get _ _ _ _ n i hi, getD_drop_take _ _ _ _ hi, hleft,
    up_of_map _ _ _ _ hi, upleft_of_map _ _ _ _ _ hi]

theorem recon_line_length (f bw : Nat) (scan : List Byte) (prev : Option (List Byte)) :
    (recon_line f bw scan prev).length = scan.length :=
  recon_upto_length f bw scan prev scan.length

theorem paeth_ref_zero : paeth_ref 0 0 0 = 0 := by decide

/-- The function `unfilter_scanline` without a previous line, for the filter types 0
to 4: the line written at offset `ro` of the output block is the reference
reconstruction of the scanline at offset `so` of the inflated block. -/
theorem unfilter_scanline_none (m : Mem) (ro so bw f n : Nat) (hf : f ≤ 4) (hbw : 1 ≤ bw)
    (hn : bw ≤ n) (hro : ro + n ≤ m.outb.length) (hso : so + n ≤ m.inb.length) :
    unfilter_scanline m { obj := .outb, off := ro } { obj := .inb, off := so } none bw f n
      = .ret (line_state m ro (recon_line f bw ((m.inb.drop so).take n) none) n, UPNG_EOK) := by
  have hlen : ((m.inb.drop so).take n).length = n := by
    rw [List.length_take, List.length_drop]; omega
  have hR : (recon_line f bw ((m.inb.drop so).take n) none).length = n := by
    rw [recon_line_length, hlen]
  have hget := fun i (hi : i < n) => recon_line_get m so none f bw n i hbw hso hi
  simp only [Option.map_none'] at hget
  generalize recon_line f bw ((m.inb.drop so).take n) none = R at hR hget ⊢
  have hro1 : ro + R.length ≤ m.outb.length := by omega
  -- the loop that copies bytes
  have hcopy : ∀ count lo, lo + count ≤ n →
      (∀ i, lo ≤ i → i < lo + count → R.getD i 0 = m.inb.getD (so + i) 0) →
      for_loop (fun i (m : Mem) =>
            m.load { obj := .inb, off := so } i >>= fun s =>
              m.store { obj := .outb, off := ro } i (toByte s))
          count lo (line_state m ro R lo)
        = .ret (line_state m ro R (lo + count)) := by
    intro count lo hc hv
    refine for_loop_chain _ (line_state m ro R) count lo ?_
    intro i h1 h2
    dsimp only
    rw [line_state_load_in m ro so R i i (by omega), ret_bind, toByte_val]
    exact line_state_store m ro R i _ hro1 (by omega) (hv i h1 h2).symm
  -- the loops that use the left neighbour
  have hleft : ∀ (g : Nat → Nat → Byte),
      (∀ i, bw ≤ i → i < n →
        R.getD i 0 = g (m.inb.getD (so + i) 0).val (R.getD (i - bw) 0).val) →
      for_loop (fun i (m : Mem) =>
            m.load { obj := .inb, off := so } i >>= fun s =>
              m.load { obj := .outb, off := ro } (i - bw) >>= fun r =>
                m.store { obj := .outb, off := ro } i (g s r))
          (n - bw) bw (line_state m ro R bw)
        = .ret (line_state m ro R n) := by
    intro g hv
    have := for_loop_chain (fun i (m : Mem) =>
            m.load { obj := .inb, off := so } i >>= fun s =>
              m.load { obj := .outb, off := ro } (i - bw) >>= fun r =>
                m.store { obj := .outb, off := ro } i (g s r)) (line_state m ro R) (n - bw) bw
      (by
        intro i h1 h2
        dsimp only
        rw [line_state_load_in m ro so R i i (by omega), ret_bind,
          line_state_load_recon m ro R i (i - bw) (by omega) (by omega) (by omega), ret_bind]
        exact line_state_store m ro R i _ hro1 (by omega) (hv i h1 (by omega)).symm)
    rw [show bw + (n - bw) = n by omega] at this
    exact this
  have hfirst := hcopy bw 0 (by omega)
  rw [line_state_zero, Nat.zero_add] at hfirst
  have hall := hcopy n 0 (by omega)
  rw [line_state_zero, Nat.zero_add] at hall
  unfold unfilter_scanline
  have hcases : f = 0 ∨ f = 1 ∨ f = 2 ∨ f = 3 ∨ f = 4 := by omega
  rcases hcases with h | h | h | h | h <;> subst h
  · rw [if_pos rfl]
    simp only [hall (fun i _ hi => by
      rw [hget i hi]; simp [predictor, toByteI_natCast, toByte_val]), ret_bind, pure_eq_ret]
  · rw [if_neg (by decide), if_pos rfl]
    simp only [hfirst (fun i _ hi => by
        rw [hget i (by omega), if_pos (by omega)]
        simp [predictor, toByteI_natCast, toByte_val]),
      hleft (fun s r => toByte (s + r)) (fun i h1 h2 => by
        rw [hget i h2, if_neg (by omega)]
        simp only [predictor, if_neg (show ¬ (1 = 0) by decide), if_pos]
        rw [← Nat.cast_add, toByteI_natCast]),
      ret_bind, pure_eq_ret]
  · rw [if_neg (by decide), if_neg (by decide), if_pos rfl]
    simp only [hall (fun i _ hi => by
      rw [hget i hi]; simp [predictor, toByteI_natCast, toByte_val]), ret_bind, pure_eq_ret]
  · rw [if_neg (by decide), if_neg (by decide), if_neg (by decide), if_pos rfl]
    simp only [hfirst (fun i _ hi => by
        rw [hget i (by omega), if_pos (by omega)]
        simp [predictor, toByteI_natCast, toByte_val]),
      hleft (fun s r => toByte (s + r / 2)) (fun i h1 h2 => by
        rw [hget i h2, if_neg (by omega)]
        simp only [predictor, if_neg (show ¬ (3 = 0) by decide),
          if_neg (show ¬ (3 = 1) by decide), if_neg (show ¬ (3 = 2) by decide), if_pos]
        rw [← toByteI_natCast]
        congr 1),
      ret_bind, pure_eq_ret]
  · rw [if_neg (by decide), if_neg (by decide), if_neg (by decide), if_neg (by decide),
      if_pos rfl]
    simp only [hfirst (fun i _ hi => by
        rw [hget i (by omega), if_pos (by omega)]
        simp [predictor, paeth_ref_zero, toByteI_natCast, toByte_val]),
      hleft (fun s r => toByteI ((s : Int) + paeth_predictor (r : Int) 0 0)) (fun i h1 h2 => by
        rw [hget i h2, if_neg (by omega)]
        simp only [predictor, if_neg (show ¬ (4 = 0) by decide),
          if_neg (show ¬ (4 = 1) by decide), if_neg (show ¬ (4 = 2) by decide),
          if_neg (show ¬ (4 = 3) by decide), paeth_predictor_eq]),
      ret_bind, pure_eq_ret]

/-- The function `unfilter_scanline` with the previous line at offset `po` of the
output block, before the line that is written, for the filter types 0 to 4: the line
written at offset `ro` is the reference reconstruction of the scanline at offset `so`
of the inflated block. -/
theorem unfilter_scanline_some (m : Mem) (ro so po bw f n : Nat) (hf : f ≤ 4) (hbw : 1 ≤ bw)
    (hn : bw ≤ n) (hro : ro + n ≤ m.outb.length) (hso : so + n ≤ m.inb.length)
    (hpo : po + n ≤ ro) :
    unfilter_scanline m { obj := .outb, off := ro } { obj := .inb, off := so }
        (some { obj := .outb, off := po }) bw f n
      = .ret (line_state m ro (recon_line f bw ((m.inb.drop so).take n)
          (some ((m.outb.drop po).take n))) n, UPNG_EOK) := by
  have hlen : ((m.inb.drop so).take n).length = n := by
    rw [List.length_take, List.length_drop]; omega
  have hR : (recon_line f bw ((m.inb.drop so).take n)
      (some ((m.outb.drop po).take n))).length = n := by
    rw [recon_line_length, hlen]
  have hget := fun i (hi : i < n) => recon_line_get m so (some po) f bw n i hbw hso hi
  simp only [Option.map_some'] at hget
  generalize recon_line f bw ((m.inb.drop so).take n) (some ((m.outb.drop po).take n)) = R
    at hR hget ⊢
  have hro1 : ro + R.length ≤ m.outb.length := by omega
  have hcopy : ∀ count lo, lo + count ≤ n →
      (∀ i, lo ≤ i → i < lo + count → R.getD i 0 = m.inb.getD (so + i) 0) →
      for_loop (fun i (m : Mem) =>
            m.load { obj := .inb, off := so } i >>= fun s =>
              m.store { obj := .outb, off := ro } i (toByte s))
          count lo (line_state m ro R lo)
        = .ret (line_state m ro R (lo + count)) := by
    intro count lo hc hv
    refine for_loop_chain _ (line_state m ro R) count lo ?_
    intro i h1 h2
    dsimp only
    rw [line_state_load_in m ro so R i i (by omega), ret_bind, toByte_val]
    exact line_state_store m ro R i _ hro1 (by omega) (hv i h1 h2).symm
  have hleft : ∀ (g : Nat → Nat → Byte),
      (∀ i, bw ≤ i → i < n →
        R.getD i 0 = g (m.inb.getD (so + i) 0).val (R.getD (i - bw) 0).val) →
      for_loop (fun i (m : Mem) =>
            m.load { obj := .inb, off := so } i >>= fun s =>
              m.load { obj := .outb, off := ro } (i - bw) >>= fun r =>
                m.store { obj := .outb, off := ro } i (g s r))
          (n - bw) bw (line_state m ro R bw)
        = .ret (line_state m ro R n) := by
    intro g hv
    have := for_loop_chain (fun i (m : Mem) =>
            m.load { obj := .inb, off := so } i >>= fun s =>
              m.load { obj := .outb, off := ro } (i - bw) >>= fun r =>
                m.store { obj := .outb, off := ro } i (g s r)) (line_state m ro R) (n - bw) bw
      (by
        intro i h1 h2
        dsimp only
        rw [line_state_load_in m ro so R i i (by omega), ret_bind,
          line_state_load_recon m ro R i (i - bw) (by omega) (by omega) (by omega), ret_bind]
        exact line_state_store m ro R i _ hro1 (by omega) (hv i h1 (by omega)).symm)
    rw [show bw + (n - bw) = n by omega] at this
    exact this
  have hup : ∀ (g : Nat → Nat → Byte) count lo, lo + count ≤ n →
      (∀ i, lo ≤ i → i < lo + count →
        R.getD i 0 = g (m.inb.getD (so + i) 0).val (m.outb.getD (po + i) 0).val) →
      for_loop (fun i (m : Mem) =>
            m.load { obj := .inb, off := so } i >>= fun s =>
              m.load { obj := .outb, off := po } i >>= fun u =>
                m.store { obj := .outb, off := ro } i (g s u))
          count lo (line_state m ro R lo)
        = .ret (line_state m ro R (lo + count)) := by
    intro g count lo hc hv
    refine for_loop_chain _ (line_state m ro R) count lo ?_
    intro i h1 h2
    dsimp only
    rw [line_state_load_in m ro so R i i (by omega), ret_bind,
      line_state_load_before m ro po R i i (by omega) (by omega), ret_bind]
    exact line_state_store m ro R i _ hro1 (by omega) (hv i h1 h2).symm
  have hleftup : ∀ (g : Nat → Nat → Nat → Byte),
      (∀ i, bw ≤ i → i < n →
        R.getD i 0 = g (m.inb.getD (so + i) 0).val (R.getD (i - bw) 0).val
          (m.outb.getD (po + i) 0).val) →
      for_loop (fun i (m : Mem) =>
            m.load { obj := .inb, off := so } i >>= fun s =>
              m.load { obj := .outb, off := ro } (i - bw) >>= fun r =>
                m.load { obj := .outb, off := po } i >>= fun u =>
                  m.store { obj := .outb, off := ro } i (g s r u))
          (n - bw) bw (line_state m ro R bw)
        = .ret (line_state m ro R n) := by
    intro g hv
    have := for_loop_chain (fun i (m : Mem) =>
            m.load { obj := .inb, off := so } i >>= fun s =>
              m.load { obj := .outb, off := ro } (i - bw) >>= fun r =>
                m.load { obj := .outb, off := po } i >>= fun u =>
                  m.store { obj := .outb, off := ro } i (g s r u)) (line_state m ro R)
      (n - bw) bw
      (by
        intro i h1 h2
        dsimp only
        rw [line_state_load_in m ro so R i i (by omega), ret_bind,
          line_state_load_recon m ro R i (i - bw) (by omega) (by omega) (by omega), ret_bind,
          line_state_load_before m ro po R i i (by omega) (by omega), ret_bind]
        exact line_state_store m ro R i _ hro1 (by omega) (hv i h1 (by omega)).symm)
    rw [show bw + (n - bw) = n by omega] at this
    exact this
  have hfull : ∀ (g : Nat → Nat → Nat → Nat → Byte),
      (∀ i, bw ≤ i → i < n →
        R.getD i 0 = g (m.inb.getD (so + i) 0).val (R.getD (i - bw) 0).val
          (m.outb.getD (po + i) 0).val (m.outb.getD (po + (i - bw)) 0).val) →
      for_loop (fun i (m : Mem) =>
            m.load { obj := .inb, off := so } i >>= fun s =>
              m.load { obj := .outb, off := ro } (i - bw) >>= fun r =>
                m.load { obj := .outb, off := po } i >>= fun u =>
                  m.load { obj := .outb, off := po } (i - bw) >>= fun ul =>
                    m.store { obj := .outb, off := ro } i (g s r u ul))
          (n - bw) bw (line_state m ro R bw)
        = .ret (line_state m ro R n) := by
    intro g hv
    have := for_loop_chain (fun i (m : Mem) =>
            m.load { obj := .inb, off := so } i >>= fun s =>
              m.load { obj := .outb, off := ro } (i - bw) >>= fun r =>
                m.load { obj := .outb, off := po } i >>= fun u =>
                  m.load { obj := .outb, off := po } (i - bw) >>= fun ul =>
                    m.store { obj := .outb, off := ro } i (g s r u ul)) (line_state m ro R)
      (n - bw) bw
      (by
        intro i h1 h2
        dsimp only
        rw [line_state_load_in m ro so R i i (by omega), ret_bind,
          line_state_load_recon m ro R i (i - bw) (by omega) (by omega) (by omega), ret_bind,
          line_state_load_before m ro po R i i (by omega) (by omega), ret_bind,
          line_state_load_before m ro po R i (i - bw) (by omega) (by omega), ret_bind]
        exact line_state_store m ro R i _ hro1 (by omega) (hv i h1 (by omega)).symm)
    rw [show bw + (n - bw) = n by omega] at this
    exact this
  have hfirst := hcopy bw 0 (by omega)
  rw [line_state_zero, Nat.zero_add] at hfirst
  have hall := hcopy n 0 (by omega)
  rw [line_state_zero, Nat.zero_add] at hall
  have hupfirst := fun g => hup g bw 0 (by omega)
  simp only [line_state_zero, Nat.zero_add] at hupfirst
  have hupall := fun g => hup g n 0 (by omega)
  simp only [line_state_zero, Nat.zero_add] at hupall
  unfold unfilter_scanline
  have hcases : f = 0 ∨ f = 1 ∨ f = 2 ∨ f = 3 ∨ f = 4 := by omega
  rcases hcases with h | h | h | h | h <;> subst h
  · rw [if_pos rfl]
    simp only [hall (fun i _ hi => by
      rw [hget i hi]; simp [predictor, toByteI_natCast, toByte_val]), ret_bind, pure_eq_ret]
  · rw [if_neg (by decide), if_pos rfl]
    simp only [hfirst (fun i _ hi => by
        rw [hget i (by omega), if_pos (by omega)]
        simp [predictor, toByteI_natCast, toByte_val]),
      hleft (fun s r => toByte (s + r)) (fun i h1 h2 => by
        rw [hget i h2, if_neg (by omega)]
        simp only [predictor, if_neg (show ¬ (1 = 0) by decide), if_pos]
        rw [← Nat.cast_add, toByteI_natCast]),
      ret_bind, pure_eq_ret]
  · rw [if_neg (by decide), if_neg (by decide), if_pos rfl]
    simp only [hupall (fun s u => toByte (s + u)) (fun i _ hi => by
        rw [hget i hi]
        simp only [predictor, if_neg (show ¬ (2 = 0) by decide),
          if_neg (show ¬ (2 = 1) by decide), if_pos]
        rw [← Nat.cast_add, toByteI_natCast]),
      ret_bind, pure_eq_ret]
  · rw [if_neg (by decide), if_neg (by decide), if_neg (by decide), if_pos rfl]
    simp only [hupfirst (fun s u => toByte (s + u / 2)) (fun i _ hi => by
        rw [hget i (by omega), if_pos (by omega)]
        simp only [predictor, if_neg (show ¬ (3 = 0) by decide),
          if_neg (show ¬ (3 = 1) by decide), if_neg (show ¬ (3 = 2) by decide), if_pos]
        rw [← toByteI_natCast]
        congr 1
        omega),
      hleftup (fun s r u => toByte (s + (r + u) / 2)) (fun i h1 h2 => by
        rw [hget i h2, if_neg (by omega)]
        simp only [predictor, if_neg (show ¬ (3 = 0) by decide),
          if_neg (show ¬ (3 = 1) by decide), if_neg (show ¬ (3 = 2) by decide), if_pos]
        rw [← toByteI_natCast]
        congr 1),
      ret_bind, pure_eq_ret]
  · rw [if_neg (by decide), if_neg (by decide), if_neg (by decide), if_neg (by decide),
      if_pos rfl]
    simp only [hupfirst (fun s u => toByteI ((s : Int) + paeth_predictor 0 (u : Int) 0))
        (fun i _ hi => by
          rw [hget i (by omega), if_pos (by omega), if_pos (by omega)]
          simp only [predictor, if_neg (show ¬ (4 = 0) by decide),
            if_neg (show ¬ (4 = 1) by decide), if_neg (show ¬ (4 = 2) by decide),
            if_neg (show ¬ (4 = 3) by decide), paeth_predictor_eq]),
      hfull (fun s r u ul => toByteI ((s : Int) + paeth_predictor (r : Int) (u : Int) (ul : Int)))
        (fun i h1 h2 => by
          rw [hget i h2, if_neg (by omega), if_neg (by omega)]
          simp only [predictor, if_neg (show ¬ (4 = 0) by decide),
            if_neg (show ¬ (4 = 1) by decide), if_neg (show ¬ (4 = 2) by decide),
            if_neg (show ¬ (4 = 3) by decide), paeth_predictor_eq]),
      ret_bind, pure_eq_ret]

theorem toByteI_add_sub (x p : Int) : toByteI (((toByteI (x - p)).val : Int) + p) = toByteI x := by
  unfold toByteI toByte
  apply Fin.ext
  show ((((((x - p) % 256).toNat % 256 : Nat) : Int) + p) % 256).toNat % 256
    = (x % 256).toNat % 256
  omega

theorem filter_line_length (f bw : Nat) (raw : List Byte) (prev : Option (List Byte)) :
    (filter_line f bw raw prev).length = raw.length := by
  unfold filter_line
  rw [List.length_map, List.length_range]

theorem filter_line_get (f bw : Nat) (raw : List Byte) (prev : Option (List Byte)) (i : Nat)
    (hi : i < raw.length) :
    (filter_line f bw raw prev).getD i 0
      = toByteI (((raw.getD i 0).val : Int)
          - predictor f (left_of bw raw i) (up_of prev i) (upleft_of bw prev i)) := by
  unfold filter_line
  rw [List.getD_eq_getElem?_getD, List.getElem?_map, List.getElem?_range hi]
  rfl

/-- Reconstructing a line that the reference filter produced gives the raw line back. -/
theorem recon_filter_line (f bw : Nat) (raw : List Byte) (prev : Option (List Byte))
    (hbw : 1 ≤ bw) :
    recon_line f bw (filter_line f bw raw prev) prev = raw := by
  have h : ∀ i, i ≤ raw.length →
      recon_upto f bw (filter_line f bw raw prev) prev i = raw.take i := by
    intro i
    induction i with
    | zero => intro _; rfl
    | succ i ih =>
      intro hi
      have hleft : left_of bw (raw.take i) i = left_of bw raw i := by
        unfold left_of
        by_cases hb : i < bw
        · rw [if_pos hb, if_pos hb]
        · rw [if_neg hb, if_neg hb, List.getD_eq_getElem?_getD, List.getD_eq_getElem?_getD,
            List.getElem?_take_of_lt (by omega)]
      rw [recon_upto, ih (by omega), filter_line_get f bw raw prev i (by omega), hleft,
        toByteI_add_sub, toByteI_natCast, toByte_val, List.take_succ,
        List.getD_eq_getElem?_getD, List.getElem?_eq_getElem (by omega)]
      rfl
  unfold recon_line
  rw [filter_line_length, h raw.length (Nat.le_refl _), List.take_length]

theorem line_state_full (m : Mem) (ro : Nat) (R : List Byte) :
    line_state m ro R R.length
      = { m with outb := m.outb.take ro ++ R ++ m.outb.drop (ro + R.length) } := by
  unfold line_state
  rw [List.take_length]

/-- Claim C18 (filter round trip): for every filter type `f` in 0..4, every bytewidth of
at least 1, every raw scanline of at least bytewidth bytes and every previous line
(absent, or the line of the same length at offset `po` of the output block, before the
line that is written): when the scanline at offset `so` of the inflated block is the
reference forward filter of the raw line, `unfilter_scanline` with the same `f`,
bytewidth and previous line returns OK and writes exactly the raw line at offset `ro`. -/
theorem C18_filter_round_trip (f bw : Nat) (raw : List Byte) (pre : Option Nat) (m : Mem)
    (ro so : Nat) (hf : f ≤ 4) (hbw : 1 ≤ bw) (hn : bw ≤ raw.length)
    (hro : ro + raw.length ≤ m.outb.length) (hso : so + raw.length ≤ m.inb.length)
    (hpre : ∀ po, pre = some po → po + raw.length ≤ ro)
    (hscan : (m.inb.drop so).take raw.length
      = filter_line f bw raw (pre.map (fun po => (m.outb.drop po).take raw.length))) :
    unfilter_scanline m { obj := .outb, off := ro } { obj := .inb, off := so }
        (pre.map (fun po => { obj := .outb, off := po })) bw f raw.length
      = .ret ({ m with outb := m.outb.take ro ++ raw ++ m.outb.drop (ro + raw.length) },
          UPNG_EOK) := by
  cases pre with
  | none =>
    rw [Option.map_none', unfilter_scanline_none m ro so bw f raw.length hf hbw hn hro hso,
      hscan, Option.map_none', recon_filter_line f bw raw none hbw, line_state_full]
  | some po =>
    rw [Option.map_some', unfilter_scanline_some m ro so po bw f raw.length hf hbw hn hro hso
      (hpre po rfl), hscan, Option.map_some', recon_filter_line f bw raw _ hbw, line_state_full]

/-- Witness for C18: a three-byte line filtered with the Paeth filter above the line
`05 06 07`. -/
theorem C18_witness :
    unfilter_scanline paeth_line_mem { obj := .outb, off := 3 } { obj := .inb, off := 1 }
        ((some 0 : Option Nat).map (fun po => { obj := .outb, off := po })) 1 4
        ([10, 20, 30] : List Byte).length
      = .ret ({ paeth_line_mem with
          outb := paeth_line_mem.outb.take 3 ++ [10, 20, 30]
            ++ paeth_line_mem.outb.drop (3 + ([10, 20, 30] : List Byte).length) }, UPNG_EOK) :=
  C18_filter_round_trip 4 1 [10, 20, 30] (some 0) paeth_line_mem 3 1 (by decide) (by decide)
    (by decide) (by decide) (by decide) (by intro po h; cases h; decide) (by decide)

/-! ## Unknown filter types -/

theorem line_state_outb_length (m : Mem) (ro : Nat) (R : List Byte) (i : Nat)
    (hro : ro + i ≤ m.outb.length) (hi : i ≤ R.length) :
    (line_state m ro R i).outb.length = m.outb.length := by
  unfold line_state
  dsimp only
  rw [List.length_append, List.length_append, List.length_take, List.length_take,
    List.length_drop]
  omega

theorem unfilter_scanline_unknown (m : Mem) (recon scanline : Ptr) (precon : Option Ptr)
    (bw f n : Nat) (hf : 4 < f) :
    unfilter_scanline m recon scanline precon bw f n = .ret (m, UPNG_EUNSUPPORTED) := by
  unfold unfilter_scanline
  rw [if_neg (by omega), if_neg (by omega), if_neg (by omega), if_neg (by omega),
    if_neg (by omega)]

/-- The loop of `unfilter` over the scanlines from line `y` on, into a separate output
block: it returns, with UNSUPPORTED when one of these lines has a filter byte above 4
and with OK otherwise. -/
theorem unfilter_lines_total (bw L h : Nat) (hbw : 1 ≤ bw) (hL : bw ≤ L) (inb : List Byte)
    (hin : inb.length = h * (1 + L)) (olen : Nat) (hout : h * L ≤ olen) :
    ∀ k y prev (m : Mem), y + k = h → m.inb = inb → m.outb.length = olen →
      (prev = none ∨ (1 ≤ y ∧ prev = some { obj := .outb, off := L * (y - 1) })) →
      ∃ m1 e,
        unfilter_lines { obj := .outb, off := 0 } { obj := .inb, off := 0 } bw L k y prev m
          = .ret (m1, e) ∧
        m1.inb = inb ∧ m1.outb.length = olen ∧
        (e = UPNG_EUNSUPPORTED ∨ e = UPNG_EOK) ∧
        (e = UPNG_EUNSUPPORTED ↔
          ∃ y1, y ≤ y1 ∧ y1 < h ∧ (inb.getD (y1 * (1 + L)) 0).val > 4) := by
  intro k
  induction k with
  | zero =>
    intro y prev m hyk _ _ _
    refine ⟨m, UPNG_EOK, rfl, by assumption, by assumption, Or.inr rfl, ?_⟩
    constructor
    · intro h; exact absurd h (by decide)
    · rintro ⟨y1, h1, h2, _⟩; omega
  | succ k ih =>
    intro y prev m hyk hmin hmout hprev
    have e1 : h * (1 + L) = (1 + L) * y + (1 + L) * k + 1 + L := by rw [← hyk]; ring
    have e2 : h * L = L * y + L * k + L := by rw [← hyk]; ring
    have e3 : y * (1 + L) = (1 + L) * y := by ring
    have hf : m.load { obj := .inb, off := 0 } ((1 + L) * y)
        = .ret (inb.getD (y * (1 + L)) 0).val := by
      unfold Mem.load Mem.bytes
      dsimp only
      rw [Nat.zero_add, hmin, load_eq _ _ (by omega), e3, List.getD_eq_getElem _ _ (by omega)]
    rw [unfilter_lines, hf, ret_bind]
    dsimp only [Ptr.add]
    rw [Nat.zero_add, Nat.zero_add]
    by_cases hft : 4 < (inb.getD (y * (1 + L)) 0).val
    · rw [unfilter_scanline_unknown _ _ _ _ _ _ _ hft, ret_bind]
      dsimp only
      rw [if_pos (by decide)]
      refine ⟨m, UPNG_EUNSUPPORTED, rfl, hmin, hmout, Or.inl rfl, ?_⟩
      constructor
      · intro _; exact ⟨y, Nat.le_refl _, by omega, hft⟩
      · intro _; rfl
    · have hstep : ∃ m2,
          unfilter_scanline m { obj := .outb, off := L * y } { obj := .inb, off := (1 + L) * y + 1 }
            prev bw (inb.getD (y * (1 + L)) 0).val L = .ret (m2, UPNG_EOK) ∧
          m2.inb = inb ∧ m2.outb.length = olen := by
        rcases hprev with hp | ⟨hy, hp⟩
        · rw [hp, unfilter_scanline_none m (L * y) ((1 + L) * y + 1) bw _ L (by omega) hbw hL
            (by omega) (by rw [hmin]; omega)]
          exact ⟨_, rfl, hmin, by
            rw [line_state_outb_length _ _ _ _ (by omega) (by
              rw [recon_line_length, List.length_take, List.length_drop, hmin]; omega)]
            exact hmout⟩
        · have e4 : L * y = L * (y - 1) + L := by
            obtain ⟨z, rfl⟩ : ∃ z, y = z + 1 := ⟨y - 1, by omega⟩
            rw [Nat.add_sub_cancel]; ring
          rw [hp, unfilter_scanline_some m (L * y) ((1 + L) * y + 1) (L * (y - 1)) bw _ L
            (by omega) hbw hL (by omega) (by rw [hmin]; omega) (by omega)]
          exact ⟨_, rfl, hmin, by
            rw [line_state_outb_length _ _ _ _ (by omega) (by
              rw [recon_line_length, List.length_take, List.length_drop, hmin]; omega)]
            exact hmout⟩
      obtain ⟨m2, hrun, h2in, h2out⟩ := hstep
      rw [hrun, ret_bind]
      dsimp only
      rw [if_neg (by decide)]
      obtain ⟨m1, e, hr, h1in, h1out, he, hiff⟩ := ih (y + 1) (some { obj := .outb, off := L * y })
        m2 (by omega) h2in h2out (Or.inr ⟨by omega, by rw [Nat.add_sub_cancel]⟩)
      refine ⟨m1, e, hr, h1in, h1out, he, ?_⟩
      rw [hiff]
      constructor
      · rintro ⟨y1, h1, h2, h3⟩; exact ⟨y1, by omega, h2, h3⟩
      · rintro ⟨y1, h1, h2, h3⟩
        refine ⟨y1, ?_, h2, h3⟩
        by_contra hc
        have : y1 = y := by omega
        subst this
        exact hft h3

/-- Unknown filter types where the line size does not wrap: for every `w >= 1`, every
`h` and every `bpp >= 1` for which `w * bpp + 7` stays within 32 bits, every inflated
input of `h * (1 + linebytes)` bytes and every separate output buffer of at least
`h * linebytes` bytes, `unfilter` returns, and it returns UNSUPPORTED if and only if some
scanline `y < h` has a filter byte greater than 4 at input offset `y * (1 + linebytes)`,
and OK otherwise. -/
theorem unknown_filter_rejected_nowrap (m : Mem) (w h bpp : Nat) (hw : 1 ≤ w) (hbpp : 1 ≤ bpp)
    (hnowrap : w * bpp + 7 < 2 ^ 32)
    (hin : m.inb.length = h * (1 + (w * bpp + 7) / 8))
    (hout : h * ((w * bpp + 7) / 8) ≤ m.outb.length) :
    ∃ m1 e,
      unfilter m { obj := .outb, off := 0 } { obj := .inb, off := 0 } w h bpp = .ret (m1, e) ∧
      (e = UPNG_EUNSUPPORTED ∨ e = UPNG_EOK) ∧
      (e = UPNG_EUNSUPPORTED ↔
        ∃ y, y < h ∧ (m.inb.getD (y * (1 + (w * bpp + 7) / 8)) 0).val > 4) := by
  have hle : bpp ≤ w * bpp := Nat.le_mul_of_pos_left bpp hw
  have h1 : ((bpp + 7) % 2 ^ 32) / 8 = (bpp + 7) / 8 := by
    rw [Nat.mod_eq_of_lt (by omega)]
  have h2 : (((w * bpp) % 2 ^ 32 + 7) % 2 ^ 32) / 8 = (w * bpp + 7) / 8 := by
    rw [Nat.mod_eq_of_lt (show w * bpp < 2 ^ 32 by omega), Nat.mod_eq_of_lt hnowrap]
  obtain ⟨m1, e, hr, _, _, he, hiff⟩ := unfilter_lines_total ((bpp + 7) / 8) ((w * bpp + 7) / 8)
    h (by omega) (by omega) m.inb hin m.outb.length hout h 0 none m (by omega) rfl rfl
    (Or.inl rfl)
  refine ⟨m1, e, ?_, he, ?_⟩
  · unfold unfilter
    dsimp only
    rw [h1, h2]
    exact hr
  · rw [hiff]
    constructor
    · rintro ⟨y1, _, h2, h3⟩; exact ⟨y1, h2, h3⟩
    · rintro ⟨y1, h2, h3⟩; exact ⟨y1, Nat.zero_le _, h2, h3⟩

/-- An instance of `unknown_filter_rejected_nowrap`: a 2x2 image of 8 bits per pixel
whose second scanline has the filter byte 5. -/
theorem unknown_filter_rejected_example :
    ∃ m1 e,
      unfilter bad_filter_mem { obj := .outb, off := 0 } { obj := .inb, off := 0 } 2 2 8
        = .ret (m1, e) ∧
      (e = UPNG_EUNSUPPORTED ∨ e = UPNG_EOK) ∧
      (e = UPNG_EUNSUPPORTED ↔
        ∃ y, y < 2 ∧ (bad_filter_mem.inb.getD (y * (1 + (2 * 8 + 7) / 8)) 0).val > 4) :=
  unknown_filter_rejected_nowrap bad_filter_mem 2 2 8 (by decide) (by decide) (by decide)
    (by decide) (by decide)

/-! ## Lines whose size wraps in 32 bits -/

theorem scanline_empty (m : Mem) (recon scanline : Ptr) (precon : Option Ptr) (bw : Nat) :
    unfilter_scanline m recon scanline precon bw 0 0 = .ret (m, UPNG_EOK) := by rfl

/-- The function `unfilter` on two lines when its `linebytes` is 0: the filter bytes are
read at the offsets 0 and 1, and a line of filter type 0 is neither read nor written. -/
theorem unfilter_two_empty_lines (m : Mem) (out : Ptr) (w bpp f1 : Nat)
    (hl : (((w * bpp) % 2 ^ 32 + 7) % 2 ^ 32) / 8 = 0)
    (h0 : m.load { obj := .inb, off := 0 } 0 = .ret 0)
    (h1 : m.load { obj := .inb, off := 0 } 1 = .ret f1) (hf : f1 = 0 ∨ 4 < f1) :
    unfilter m out { obj := .inb, off := 0 } w 2 bpp
      = .ret (m, if f1 = 0 then UPNG_EOK else UPNG_EUNSUPPORTED) := by
  unfold unfilter
  dsimp only
  rw [hl, unfilter_lines, show (1 + 0) * 0 = 0 from rfl, h0, ret_bind, scanline_empty, ret_bind]
  dsimp only
  rw [if_neg (by decide), unfilter_lines, show (1 + 0) * (0 + 1) = 1 from rfl, h1, ret_bind]
  rcases hf with h | h
  · subst h
    rw [scanline_empty, ret_bind]
    dsimp only
    rw [if_neg (by decide), unfilter_lines, if_pos rfl]
  · rw [unfilter_scanline_unknown _ _ _ _ _ _ _ h, ret_bind]
    dsimp only
    rw [if_pos (by decide), if_neg (by omega)]
    rfl

theorem wide_filter_load0 (n : Nat) :
    (wide_filter_mem n).load { obj := .inb, off := 0 } 0 = .ret 0 := by rfl

theorem wide_filter_load1 (n : Nat) :
    (wide_filter_mem n).load { obj := .inb, off := 0 } 1 = .ret 5 := by
  unfold Mem.load Mem.bytes wide_filter_mem load
  simp
  rfl

/-- The bytes of `wide_filter_mem` from offset 2 on are 0. -/
theorem wide_filter_getD (n k : Nat) : (wide_filter_mem n).inb.getD (k + 2) 0 = 0 := by
  show (0 :: 5 :: List.replicate n (0 : Byte)).getD (k + 1 + 1) 0 = 0
  rw [List.getD_cons_succ, List.getD_cons_succ, List.getD_eq_getElem?_getD,
    List.getElem?_replicate]
  split <;> rfl

/-- C20 at its failing input: an image of width `2 ^ 29`, height 2 and 8 bits per pixel,
a header that `upng_inspect` accepts (`png_wide_two_lines`).  A line has `2 ^ 29` bytes,
but `unfilter` computes `linebytes = (w * bpp + 7) / 8` in 32 bits and gets 0.  On the
inflated input `00 05 00 00 ...` of `2 * (1 + 2 ^ 29)` bytes, with a separate output of
`2 * 2 ^ 29` bytes, no scanline has a filter byte above 4 at its offset
`y * (1 + 2 ^ 29)`, and `unfilter` returns UNSUPPORTED: it takes the byte at offset 1
for the filter byte of the second line.  The same happens in `upng_decode` on the file
`png_wide_two_lines`, whose IDAT chunk inflates to the first four of these bytes. -/
theorem C20_filter_offsets_wrap :
    (upng_inspect upng_new png_wide_two_lines).2 = UPNG_EOK ∧
    (upng_inspect upng_new png_wide_two_lines).1.width = 2 ^ 29 ∧
    (upng_inspect upng_new png_wide_two_lines).1.height = 2 ∧
    upng_get_bpp (upng_inspect upng_new png_wide_two_lines).1 = 8 ∧
    (((2 ^ 29 * 8) % 2 ^ 32 + 7) % 2 ^ 32) / 8 = 0 ∧
    (2 ^ 29 * 8 + 7) / 8 = 2 ^ 29 ∧
    (wide_filter_mem (2 ^ 30)).inb.length = 2 * (1 + (2 ^ 29 * 8 + 7) / 8) ∧
    2 * ((2 ^ 29 * 8 + 7) / 8) ≤ (wide_filter_mem (2 ^ 30)).outb.length ∧
    (∀ y, y < 2 →
      ((wide_filter_mem (2 ^ 30)).inb.getD (y * (1 + (2 ^ 29 * 8 + 7) / 8)) 0).val ≤ 4) ∧
    unfilter (wide_filter_mem (2 ^ 30)) { obj := .outb, off := 0 } { obj := .inb, off := 0 }
        (2 ^ 29) 2 8
      = .ret (wide_filter_mem (2 ^ 30), UPNG_EUNSUPPORTED) ∧
    (∃ r, upng_decode upng_new png_wide_two_lines = .ret (r, UPNG_EUNSUPPORTED)) := by
  refine ⟨by rfl, by rfl, by rfl, by rfl, by norm_num, by norm_num, ?_, ?_, ?_, ?_, ⟨_, by rfl⟩⟩
  · show (0 :: 5 :: List.replicate (2 ^ 30) (0 : Byte)).length = _
    rw [List.length_cons, List.length_cons, List.length_replicate]
    norm_num
  · show _ ≤ (List.replicate (2 ^ 30) (0 : Byte)).length
    rw [List.length_replicate]
    norm_num
  · intro y hy
    have h : y = 0 ∨ y = 1 := by omega
    rcases h with h | h <;> subst h
    · decide
    · rw [show 1 * (1 + (2 ^ 29 * 8 + 7) / 8) = (2 ^ 29 - 1) + 2 by norm_num,
        wide_filter_getD]
      decide
  · exact unfilter_two_empty_lines (wide_filter_mem (2 ^ 30)) _ (2 ^ 29) 8 5 (by norm_num)
      (wide_filter_load0 _) (wide_filter_load1 _) (Or.inr (by decide))

/-! ## Removing the padding bits -/

/-- A counted loop with an invariant that every round keeps. -/
theorem for_loop_inv {σ : Type} (body : Nat → σ → Exec σ) (Inv : Nat → σ → Prop) :
    ∀ count lo s, Inv lo s →
      (∀ i s, lo ≤ i → i < lo + count → Inv i s → ∃ s1, body i s = .ret s1 ∧ Inv (i + 1) s1) →
      ∃ s1, for_loop body count lo s = .ret s1 ∧ Inv (lo + count) s1 := by
  intro count
  induction count with
  | zero => intro lo s h _; exact ⟨s, rfl, h⟩
  | succ k ih =>
    intro lo s h hstep
    obtain ⟨s1, h1, h2⟩ := hstep lo s (Nat.le_refl _) (by omega) h
    obtain ⟨s2, h3, h4⟩ := ih (lo + 1) s1 h2 (fun i s hi1 hi2 hinv =>
      hstep i s (by omega) (by omega) hinv)
    refine ⟨s2, ?_, ?_⟩
    · rw [for_loop, h1, ret_bind, h3]
    · rw [show lo + (k + 1) = lo + 1 + k by omega]; exact h4

theorem shr_and_one (x n : Nat) : (x >>> n) &&& 1 = (x.testBit n).toNat := by
  rw [Nat.and_one_is_mod, Nat.shiftRight_eq_div_pow, Nat.toNat_testBit]

theorem byte_clear_bit (o k j : Nat) (hj : j < 8) :
    ((toByte (o &&& (255 ^^^ (1 <<< k)))).val >>> j) &&& 1
      = if j = k then 0 else (o >>> j) &&& 1 := by
  rw [shr_and_one, shr_and_one, toByte_val_eq, show (256 : Nat) = 2 ^ 8 from rfl,
    Nat.testBit_mod_two_pow, Nat.testBit_and, Nat.testBit_xor,
    show (255 : Nat) = 2 ^ 8 - 1 from rfl, Nat.testBit_two_pow_sub_one, Nat.shiftLeft_eq,
    Nat.one_mul, Nat.testBit_two_pow]
  by_cases h : j = k
  · subst h; simp [hj]
  · have h2 : ¬ k = j := fun e => h e.symm
    simp [hj, h, h2]

theorem byte_set_bit (o k j : Nat) (hj : j < 8) :
    ((toByte (o ||| (1 <<< k))).val >>> j) &&& 1
      = if j = k then 1 else (o >>> j) &&& 1 := by
  rw [shr_and_one, shr_and_one, toByte_val_eq, show (256 : Nat) = 2 ^ 8 from rfl,
    Nat.testBit_mod_two_pow, Nat.testBit_or, Nat.shiftLeft_eq,
    Nat.one_mul, Nat.testBit_two_pow]
  by_cases h : j = k
  · subst h; simp [hj]
  · have h2 : ¬ k = j := fun e => h e.symm
    simp [hj, h, h2]

theorem and_seven (x : Nat) : x &&& 0x7 = x % 8 := Nat.and_pow_two_sub_one_eq_mod x 3

theorem shr_three (x : Nat) : x >>> 3 = x / 8 := Nat.shiftRight_eq_div_pow x 3

/-- Writing one byte changes the bits of that byte only. -/
theorem bit_at_set (l : List Byte) (i : Nat) (v : Byte) (q : Nat) (hi : i < l.length) :
    bit_at (l.set i v) q
      = if q / 8 = i then (v.val >>> (7 - q % 8)) &&& 1 else bit_at l q := by
  unfold bit_at
  by_cases h : q / 8 = i
  · rw [if_pos h, h, List.getD_eq_getElem?_getD, List.getElem?_set_self hi]
    rfl
  · rw [if_neg h, List.getD_eq_getElem?_getD, List.getD_eq_getElem?_getD,
      List.getElem?_set_ne (fun e => h e.symm)]

/-- One round of the inner loop of `remove_padding_bits`: bit `N` of the output
receives bit `ibp` of the input. -/
theorem move_bit_step (m : Mem) (oo io ol il N ibp : Nat) (M : Mem)
    (hM : bits_moved m oo io ol il N M)
    (hsrc : ibp = N / ol * il + N % ol)
    (hout : 8 * oo + N < 8 * m.outb.length) (hin : 8 * io + ibp < 8 * m.inb.length) :
    ∃ M1, move_bit { obj := .outb, off := oo } { obj := .inb, off := io } (M, N, ibp)
        = .ret (M1, N + 1, ibp + 1) ∧
      bits_moved m oo io ol il (N + 1) M1 := by
  obtain ⟨hMin, hMlen, hMbits⟩ := hM
  have hidx : oo + N / 8 < M.outb.length := by rw [hMlen]; omega
  have hbit1 : ∀ x : Nat, x &&& 1 = 0 ∨ x &&& 1 = 1 := by
    intro x; rw [Nat.and_one_is_mod]; omega
  -- the bit that is read
  have hb : ((m.inb.getD (io + ibp / 8) 0).val >>> (7 - ibp % 8)) &&& 1
      = bit_at m.inb (8 * io + ibp) := by
    unfold bit_at
    rw [show (8 * io + ibp) / 8 = io + ibp / 8 by omega,
      show (8 * io + ibp) % 8 = ibp % 8 by omega]
  -- the bits of the byte that is written
  have hnew : ∀ (v : Byte),
      (∀ j, j < 8 → (v.val >>> (7 - j)) &&& 1
        = if j = N % 8 then bit_at m.inb (8 * io + ibp)
          else ((M.outb.getD (oo + N / 8) 0).val >>> (7 - j)) &&& 1) →
      bits_moved m oo io ol il (N + 1) { M with outb := M.outb.set (oo + N / 8) v } := by
    intro v hv
    refine ⟨hMin, by show (M.outb.set (oo + N / 8) v).length = _; rw [List.length_set, hMlen], ?_⟩
    intro q
    show bit_at (M.outb.set (oo + N / 8) v) q = _
    rw [bit_at_set _ _ _ _ hidx]
    by_cases hq : q = 8 * oo + N
    · subst hq
      rw [if_pos (by omega), hv _ (Nat.mod_lt _ (by decide)), if_pos (by omega),
        if_pos ⟨by omega, by omega⟩, show 8 * oo + N - 8 * oo = N by omega, hsrc]
    · by_cases hq8 : q / 8 = oo + N / 8
      · rw [if_pos hq8, hv _ (Nat.mod_lt _ (by decide)), if_neg (by omega)]
        have hold : ((M.outb.getD (oo + N / 8) 0).val >>> (7 - q % 8)) &&& 1
            = bit_at M.outb q := by
          unfold bit_at; rw [hq8]
        rw [hold, hMbits q]
        by_cases hr : 8 * oo ≤ q ∧ q < 8 * oo + N
        · rw [if_pos hr, if_pos ⟨hr.1, by omega⟩]
        · rw [if_neg hr, if_neg (by omega)]
      · rw [if_neg hq8, hMbits q]
        by_cases hr : 8 * oo ≤ q ∧ q < 8 * oo + N
        · rw [if_pos hr, if_pos ⟨hr.1, by omega⟩]
        · rw [if_neg hr, if_neg (by omega)]
  have hload1 : M.load { obj := .inb, off := io } (ibp >>> 3)
      = .ret (m.inb.getD (io + ibp / 8) 0).val := by
    unfold Mem.load Mem.bytes
    dsimp only
    rw [hMin, shr_three, load_eq _ _ (by omega), List.getD_eq_getElem _ _ (by omega)]
  have hload2 : M.load { obj := .outb, off := oo } (N >>> 3)
      = .ret (M.outb.getD (oo + N / 8) 0).val := by
    unfold Mem.load Mem.bytes
    dsimp only
    rw [shr_three, load_eq _ _ hidx, List.getD_eq_getElem _ _ hidx]
  have hstore : ∀ v : Byte, M.store { obj := .outb, off := oo } (N >>> 3) v
      = .ret { M with outb := M.outb.set (oo + N / 8) v } := by
    intro v
    unfold Mem.store poke
    dsimp only
    rw [shr_three, if_pos hidx]
    rfl
  unfold move_bit
  dsimp only
  rw [hload1, ret_bind, hload2, ret_bind, and_seven, and_seven, hb]
  rcases hbit1 ((m.inb.getD (io + ibp / 8) 0).val >>> (7 - ibp % 8)) with h0 | h1
  · rw [hb] at h0
    rw [if_pos h0, hstore, ret_bind]
    refine ⟨_, rfl, hnew _ ?_⟩
    intro j hj
    rw [byte_clear_bit _ _ _ (by omega), h0]
    by_cases hjn : j = N % 8
    · rw [if_pos (by omega), if_pos hjn]
    · rw [if_neg (by omega), if_neg hjn]
  · rw [hb] at h1
    rw [if_neg (by omega), hstore, ret_bind]
    refine ⟨_, rfl, hnew _ ?_⟩
    intro j hj
    rw [byte_set_bit _ _ _ (by omega), h1]
    by_cases hjn : j = N % 8
    · rw [if_pos (by omega), if_pos hjn]
    · rw [if_neg (by omega), if_neg hjn]

theorem div_mod_line (y x ol : Nat) (hx : x < ol) :
    (y * ol + x) / ol = y ∧ (y * ol + x) % ol = x := by
  have hol : 0 < ol := by omega
  constructor
  · rw [Nat.add_comm, Nat.add_mul_div_right _ _ hol, Nat.div_eq_of_lt hx, Nat.zero_add]
  · rw [Nat.add_comm, Nat.add_mul_mod_self_right, Nat.mod_eq_of_lt hx]

/-- The inner loop of `remove_padding_bits` for line `y`. -/
theorem move_line (m : Mem) (oo io ol il h y : Nat) (M : Mem) (hle : ol ≤ il) (hy : y < h)
    (hM : bits_moved m oo io ol il (y * ol) M)
    (hout : 8 * oo + ol * h ≤ 8 * m.outb.length)
    (hin : 8 * io + il * h ≤ 8 * m.inb.length) :
    ∃ M1, for_loop (fun _ s => move_bit { obj := .outb, off := oo } { obj := .inb, off := io } s)
          ol 0 (M, y * ol, y * il)
        = .ret (M1, y * ol + ol, y * il + ol) ∧
      bits_moved m oo io ol il (y * ol + ol) M1 := by
  have e1 : ol * h = y * ol + ol + (h - y - 1) * ol := by
    obtain ⟨z, rfl⟩ : ∃ z, h = y + 1 + z := ⟨h - y - 1, by omega⟩
    rw [show y + 1 + z - y - 1 = z by omega]; ring
  have e2 : il * h = y * il + il + (h - y - 1) * il := by
    obtain ⟨z, rfl⟩ : ∃ z, h = y + 1 + z := ⟨h - y - 1, by omega⟩
    rw [show y + 1 + z - y - 1 = z by omega]; ring
  obtain ⟨s1, hrun, hs1, hs2, hinv⟩ := for_loop_inv
    (fun _ s => move_bit { obj := .outb, off := oo } { obj := .inb, off := io } s)
    (fun x (s : Mem × Nat × Nat) => s.2.1 = y * ol + x ∧ s.2.2 = y * il + x ∧
      bits_moved m oo io ol il (y * ol + x) s.1)
    ol 0 (M, y * ol, y * il) ⟨rfl, rfl, hM⟩
    (by
      rintro x ⟨M2, obp, ibp⟩ _ hx ⟨h1, h2, h3⟩
      dsimp only at h1 h2 h3
      subst h1 h2
      have hdm := div_mod_line y x ol (by omega)
      obtain ⟨M3, hr, hb⟩ := move_bit_step m oo io ol il (y * ol + x) (y * il + x) M2 h3
        (by rw [hdm.1, hdm.2]) (by omega) (by omega)
      exact ⟨_, hr, rfl, rfl, hb⟩)
  obtain ⟨M1, obp, ibp⟩ := s1
  dsimp only at hs1 hs2 hinv
  rw [Nat.zero_add] at hs1 hs2 hinv
  subst hs1 hs2
  exact ⟨M1, hrun, hinv⟩

/-- Claim C19 (bit repacking): for every `h`, every `olinebits <= ilinebits`, every
input of at least `ilinebits * h` bits (from byte `io` of the inflated block) and every
disjoint output of at least `olinebits * h` bits (from byte `oo` of the output block),
`remove_padding_bits` returns; afterwards the output bit at MSB-first position
`y * olinebits + x` equals the input bit at MSB-first position `y * ilinebits + x` for
all `y < h` and `x < olinebits`, and all other bits of the output block, like the
inflated block, are unchanged. -/
theorem C19_bit_repacking (m : Mem) (oo io ol il h : Nat) (hle : ol ≤ il) (hil : il < 2 ^ 64)
    (hout : 8 * oo + ol * h ≤ 8 * m.outb.length)
    (hin : 8 * io + il * h ≤ 8 * m.inb.length) :
    ∃ m1,
      remove_padding_bits m { obj := .outb, off := oo } { obj := .inb, off := io } ol il h
        = .ret m1 ∧
      m1.inb = m.inb ∧ m1.outb.length = m.outb.length ∧
      (∀ y x, y < h → x < ol →
        bit_at m1.outb (8 * oo + (y * ol + x)) = bit_at m.inb (8 * io + (y * il + x))) ∧
      (∀ q, q < 8 * oo ∨ 8 * oo + h * ol ≤ q → bit_at m1.outb q = bit_at m.outb q) := by
  have hdiff : (il + 2 ^ 64 - ol) % 2 ^ 64 = il - ol := by
    rw [show il + 2 ^ 64 - ol = (il - ol) + 2 ^ 64 by omega, Nat.add_mod_right]
    exact Nat.mod_eq_of_lt (by omega)
  obtain ⟨s1, hrun, hs1, hs2, hinv⟩ := for_loop_inv
    (fun _ (s : Mem × Nat × Nat) =>
      for_loop (fun _ s => move_bit { obj := .outb, off := oo } { obj := .inb, off := io } s)
        ol 0 s >>= fun r => Exec.ret (r.1, r.2.1, r.2.2 + (il + 2 ^ 64 - ol) % 2 ^ 64))
    (fun y (s : Mem × Nat × Nat) => s.2.1 = y * ol ∧ s.2.2 = y * il ∧
      bits_moved m oo io ol il (y * ol) s.1)
    h 0 (m, 0, 0) ⟨by simp, by simp, rfl, rfl, fun q => by
      rw [Nat.zero_mul, if_neg (by omega)]⟩
    (by
      rintro y ⟨M2, obp, ibp⟩ _ hy ⟨h1, h2, h3⟩
      dsimp only at h1 h2 h3
      subst h1 h2
      obtain ⟨M3, hr, hb⟩ := move_line m oo io ol il h y M2 hle (by omega) h3 hout hin
      refine ⟨(M3, y * ol + ol, y * il + ol + (il - ol)), ?_, ?_, ?_, ?_⟩
      · dsimp only
        rw [hr, ret_bind, hdiff]
      · show y * ol + ol = (y + 1) * ol
        ring
      · show y * il + ol + (il - ol) = (y + 1) * il
        rw [Nat.add_assoc, Nat.add_sub_cancel' hle]; ring
      · show bits_moved m oo io ol il ((y + 1) * ol) M3
        rw [show (y + 1) * ol = y * ol + ol by ring]
        exact hb)
  obtain ⟨M1, obp, ibp⟩ := s1
  dsimp only at hs1 hs2 hinv
  rw [Nat.zero_add] at hinv
  obtain ⟨hMin, hMlen, hMbits⟩ := hinv
  refine ⟨M1, ?_, hMin, hMlen, ?_, ?_⟩
  · unfold remove_padding_bits
    dsimp only
    have hrun2 : for_loop (fun _ (s : Mem × Nat × Nat) => do
          let (m2, obp, ibp) ← for_loop
            (fun _ s => move_bit { obj := .outb, off := oo } { obj := .inb, off := io } s) ol 0 s
          pure (m2, obp, ibp + (il + 2 ^ 64 - ol) % 2 ^ 64)) h 0 (m, 0, 0)
        = .ret (M1, obp, ibp) := hrun
    rw [hrun2]
    rfl
  · intro y x hy hx
    have hlt : y * ol + x < h * ol := by
      have : (y + 1) * ol ≤ h * ol := Nat.mul_le_mul_right _ (by omega)
      rw [Nat.add_mul, Nat.one_mul] at this
      omega
    have hdm := div_mod_line y x ol hx
    rw [hMbits, if_pos ⟨by omega, by omega⟩,
      show 8 * oo + (y * ol + x) - 8 * oo = y * ol + x by omega, hdm.1, hdm.2]
  · intro q hq
    rw [hMbits, if_neg (by omega)]

/-- Witness for C19: the unfiltered rows `80` and `40` of a 2x2 image of depth 1
(olinebits 2, ilinebits 8), repacked into one byte. -/
theorem C19_witness :
    ∃ m1,
      remove_padding_bits checker_mem { obj := .outb, off := 0 } { obj := .inb, off := 0 } 2 8 2
        = .ret m1 ∧
      m1.inb = checker_mem.inb ∧ m1.outb.length = checker_mem.outb.length ∧
      (∀ y x, y < 2 → x < 2 →
        bit_at m1.outb (8 * 0 + (y * 2 + x)) = bit_at checker_mem.inb (8 * 0 + (y * 8 + x))) ∧
      (∀ q, q < 8 * 0 ∨ 8 * 0 + 2 * 2 ≤ q → bit_at m1.outb q = bit_at checker_mem.outb q) :=
  C19_bit_repacking checker_mem 0 0 2 8 2 (by decide) (by decide) (by decide) (by decide)

/-- The repacking of the witness of C19 written out: the rows `80` and `40` give the
single byte `90`. -/
theorem checker_repacked :
    remove_padding_bits checker_mem { obj := .outb, off := 0 } { obj := .inb, off := 0 } 2 8 2
      = .ret { checker_mem with outb := [0x90] } := by
  decide

/-! ## Canonical Huffman codes -/

theorem getD_set (l : List Nat) (i j v : Nat) (hi : i < l.length) :
    (l.set i v).getD j 0 = if j = i then v else l.getD j 0 := by
  rw [List.getD_eq_getElem?_getD, List.getD_eq_getElem?_getD]
  by_cases h : j = i
  · subst h; rw [if_pos rfl, List.getElem?_set_self hi]; rfl
  · rw [if_neg h, List.getElem?_set_ne (fun e => h e.symm)]

theorem storew_eq (l : List Nat) (i v : Nat) (hi : i < l.length) :
    storew l i v = .ret (l.set i v) := by
  unfold storew; rw [if_pos hi]

theorem count_take_succ (l : List Nat) (n j : Nat) (hn : n < l.length) :
    (l.take (n + 1)).count j = (l.take n).count j + (if l.getD n 0 = j then 1 else 0) := by
  rw [List.take_succ, List.getD_eq_getElem?_getD, List.getElem?_eq_getElem hn,
    List.count_append]
  simp only [Option.toList, Option.getD_some, List.count_cons, List.count_nil, Nat.zero_add,
    beq_iff_eq]

theorem count_take_le (l : List Nat) (n j : Nat) : (l.take n).count j ≤ n := by
  have h1 := List.count_le_length j (l.take n)
  have h2 := List.length_take_le n l
  omega

theorem mod_pow_dvd (x j : Nat) (hj : j ≤ 32) : x % 2 ^ 32 % 2 ^ j = x % 2 ^ j :=
  Nat.mod_mod_of_dvd x (Nat.pow_dvd_pow 2 hj)

/-- Step 1 of `huffman_tree_create_lengths2`: `blcount[j]` is the number of symbols
of length `j`. -/
theorem blcount_loop (lens : List Nat) (M : Nat) (hlen : ∀ l ∈ lens, l ≤ M)
    (hN : lens.length < 2 ^ 32) :
    ∃ bl, for_loop (fun bits (bl : List Nat) =>
          loadw lens bits >>= fun l => loadw bl l >>= fun c => storew bl l ((c + 1) % 2 ^ 32))
        lens.length 0 (List.replicate (M + 1) 0) = .ret bl ∧
      bl.length = M + 1 ∧ ∀ j, j ≤ M → bl.getD j 0 = lens.count j := by
  obtain ⟨bl, hrun, hl, hc⟩ := for_loop_inv
    (fun bits (bl : List Nat) =>
      loadw lens bits >>= fun l => loadw bl l >>= fun c => storew bl l ((c + 1) % 2 ^ 32))
    (fun n (bl : List Nat) => bl.length = M + 1 ∧ ∀ j, j ≤ M → bl.getD j 0 = (lens.take n).count j)
    lens.length 0 (List.replicate (M + 1) 0)
    ⟨List.length_replicate _ _, fun j hj => by
      rw [List.take_zero, List.count_nil, List.getD_eq_getElem?_getD,
        List.getElem?_replicate, if_pos (by omega)]; rfl⟩
    (by
      intro n bl _ hn ⟨hl, hc⟩
      have hlM : lens.getD n 0 ≤ M := hlen _ (by
        rw [List.getD_eq_getElem _ _ (by omega)]; exact List.getElem_mem _)
      refine ⟨bl.set (lens.getD n 0) ((bl.getD (lens.getD n 0) 0 + 1) % 2 ^ 32), ?_, ?_, ?_⟩
      · dsimp only
        rw [loadw_getD _ _ (by omega), ret_bind, loadw_getD _ _ (by omega), ret_bind,
          storew_eq _ _ _ (by omega)]
      · rw [List.length_set, hl]
      · intro j hj
        rw [getD_set _ _ _ _ (by omega), count_take_succ _ _ _ (by omega)]
        by_cases hjl : j = lens.getD n 0
        · rw [if_pos hjl, if_pos hjl.symm, hjl, hc _ hlM]
          have := count_take_le lens n (lens.getD n 0)
          exact Nat.mod_eq_of_lt (by omega)
        · rw [if_neg hjl, if_neg (fun e => hjl e.symm), hc j hj, Nat.add_zero])
  refine ⟨bl, hrun, hl, fun j hj => ?_⟩
  rw [hc j hj, Nat.zero_add, List.take_length]

/-- Step 2 of `huffman_tree_create_lengths2`: `nextcode[j]` agrees with the first
canonical code of length `j` in its low `j` bits. -/
theorem nextcode_loop (lens bl : List Nat) (M : Nat) (hM : M ≤ 32) (hbl : bl.length = M + 1)
    (hc : ∀ j, j ≤ M → bl.getD j 0 = lens.count j) :
    ∃ nc, for_loop (fun bits (nc : List Nat) =>
          loadw nc (bits - 1) >>= fun a => loadw bl (bits - 1) >>= fun b =>
            storew nc bits (((a + b) <<< 1) % 2 ^ 32))
        M 1 (List.replicate (M + 1) 0) = .ret nc ∧
      nc.length = M + 1 ∧ ∀ j, j ≤ M → nc.getD j 0 % 2 ^ j = next_code lens j % 2 ^ j := by
  obtain ⟨nc, hrun, hl, hv⟩ := for_loop_inv
    (fun bits (nc : List Nat) =>
      loadw nc (bits - 1) >>= fun a => loadw bl (bits - 1) >>= fun b =>
        storew nc bits (((a + b) <<< 1) % 2 ^ 32))
    (fun n (nc : List Nat) => nc.length = M + 1 ∧
      ∀ j, j < n → j ≤ M → nc.getD j 0 % 2 ^ j = next_code lens j % 2 ^ j)
    M 1 (List.replicate (M + 1) 0)
    ⟨List.length_replicate _ _, fun j hj _ => by
      have : j = 0 := by omega
      subst this
      simp [Nat.mod_one]⟩
    (by
      intro n nc h1 hn ⟨hl, hv⟩
      refine ⟨nc.set n (((nc.getD (n - 1) 0 + bl.getD (n - 1) 0) <<< 1) % 2 ^ 32), ?_, ?_, ?_⟩
      · dsimp only
        rw [loadw_getD _ _ (by omega), ret_bind, loadw_getD _ _ (by omega), ret_bind,
          storew_eq _ _ _ (by omega)]
      · rw [List.length_set, hl]
      · intro j hj hjM
        rw [getD_set _ _ _ _ (by omega)]
        by_cases hjn : j = n
        · rw [if_pos hjn, hjn]
          obtain ⟨b, rfl⟩ : ∃ b, n = b + 1 := ⟨n - 1, by omega⟩
          rw [Nat.add_sub_cancel, mod_pow_dvd _ _ (by omega), Nat.shiftLeft_eq, Nat.pow_one,
            next_code, hc b (by omega)]
          have hb := hv b (by omega) (by omega)
          by_cases hb0 : b = 0
          · subst hb0
            rw [if_pos rfl]
            simp only [next_code, Nat.zero_add, Nat.zero_mul, Nat.pow_one]
            omega
          · rw [if_neg hb0, Nat.pow_succ, Nat.mul_mod_mul_right, Nat.mul_mod_mul_right,
              Nat.add_mod, hb, ← Nat.add_mod]
        · rw [if_neg hjn]
          exact hv j (by omega) hjM)
  exact ⟨nc, hrun, hl, fun j hj => hv j (by omega) hj⟩

/-- Step 3 of `huffman_tree_create_lengths2`: `tree1d[s]` agrees with the canonical
code of `s` in its low `lengths[s]` bits. -/
theorem tree1d_loop (lens nc0 : List Nat) (M : Nat) (hM : M ≤ 32)
    (hlen : ∀ l ∈ lens, l ≤ M) (hnc : nc0.length = M + 1)
    (hv : ∀ j, j ≤ M → nc0.getD j 0 % 2 ^ j = next_code lens j % 2 ^ j) :
    ∃ r, for_loop (fun n (s : List Nat × List Nat) =>
          loadw lens n >>= fun l =>
            if l ≠ 0 then
              loadw s.2 l >>= fun c => storew s.1 n c >>= fun t =>
                storew s.2 l ((c + 1) % 2 ^ 32) >>= fun nc => Exec.ret (t, nc)
            else Exec.ret s)
        lens.length 0 (List.replicate lens.length 0, nc0) = .ret r ∧
      r.1.length = lens.length ∧
      ∀ s, s < lens.length → lens.getD s 0 ≠ 0 →
        r.1.getD s 0 % 2 ^ (lens.getD s 0) = canonical_code lens s % 2 ^ (lens.getD s 0) := by
  obtain ⟨r, hrun, h1, _, _, h4⟩ := for_loop_inv
    (fun n (s : List Nat × List Nat) =>
      loadw lens n >>= fun l =>
        if l ≠ 0 then
          loadw s.2 l >>= fun c => storew s.1 n c >>= fun t =>
            storew s.2 l ((c + 1) % 2 ^ 32) >>= fun nc => Exec.ret (t, nc)
        else Exec.ret s)
    (fun n (s : List Nat × List Nat) => s.1.length = lens.length ∧ s.2.length = M + 1 ∧
      (∀ j, j ≤ M → s.2.getD j 0 % 2 ^ j = (next_code lens j + (lens.take n).count j) % 2 ^ j) ∧
      ∀ x, x < n → lens.getD x 0 ≠ 0 →
        s.1.getD x 0 % 2 ^ (lens.getD x 0) = canonical_code lens x % 2 ^ (lens.getD x 0))
    lens.length 0 (List.replicate lens.length 0, nc0)
    ⟨List.length_replicate _ _, hnc, fun j hj => by
      rw [List.take_zero, List.count_nil, Nat.add_zero]; exact hv j hj,
      fun x hx _ => by omega⟩
    (by
      rintro n ⟨t, nc⟩ _ hn ⟨h1, h2, h3, h4⟩
      dsimp only at h1 h2 h3 h4
      have hlM : lens.getD n 0 ≤ M := hlen _ (by
        rw [List.getD_eq_getElem _ _ (by omega)]; exact List.getElem_mem _)
      dsimp only
      rw [loadw_getD _ _ (by omega), ret_bind]
      by_cases hl0 : lens.getD n 0 ≠ 0
      · rw [if_pos hl0, loadw_getD _ _ (by omega), ret_bind, storew_eq _ _ _ (by omega),
          ret_bind, storew_eq _ _ _ (by omega), ret_bind]
        refine ⟨_, rfl, ?_, ?_, ?_, ?_⟩
        · show (t.set n _).length = _
          rw [List.length_set, h1]
        · show (nc.set _ _).length = _
          rw [List.length_set, h2]
        · intro j hj
          show (nc.set _ _).getD j 0 % 2 ^ j = _
          rw [getD_set _ _ _ _ (by omega), count_take_succ _ _ _ (by omega)]
          by_cases hjl : j = lens.getD n 0
          · rw [if_pos hjl, if_pos hjl.symm, ← hjl, mod_pow_dvd _ _ (by omega), Nat.add_mod,
              h3 j hj, ← Nat.add_mod, Nat.add_assoc]
          · rw [if_neg hjl, if_neg (fun e => hjl e.symm), Nat.add_zero]
            exact h3 j hj
        · intro x hx hx0
          show (t.set n _).getD x 0 % _ = _
          rw [getD_set _ _ _ _ (by omega)]
          by_cases hxn : x = n
          · rw [if_pos hxn, hxn, h3 _ hlM]
            rfl
          · rw [if_neg hxn]
            exact h4 x (by omega) hx0
      · rw [if_neg hl0]
        refine ⟨_, rfl, h1, h2, ?_, ?_⟩
        · intro j hj
          show nc.getD j 0 % 2 ^ j = _
          rw [count_take_succ _ _ _ (by omega), h3 j hj]
          by_cases hjl : lens.getD n 0 = j
          · rw [if_pos hjl]
            have : j = 0 := by rw [← hjl]; exact not_not.mp hl0
            subst this
            simp [Nat.mod_one]
          · rw [if_neg hjl, Nat.add_zero]
        · intro x hx hx0
          show t.getD x 0 % _ = _
          by_cases hxn : x = n
          · subst hxn; exact absurd hx0 hl0
          · exact h4 x (by omega) hx0)
  exact ⟨r, hrun, h1, fun s hs hs0 => h4 s (by omega) hs0⟩

/-- The function `huffman_tree_create_lengths2` hands a `tree1d` to
`huffman_tree_create` whose entries agree with the canonical codes in their low
`lengths[s]` bits. -/
theorem create_lengths2_codes (tree : huffman_tree) (hM : tree.maxbitlen ≤ 32)
    (hN : tree.numcodes = tree.lengths.length) (hN32 : tree.lengths.length < 2 ^ 32)
    (hlen : ∀ l ∈ tree.lengths, l ≤ tree.maxbitlen) :
    ∃ tree1d, huffman_tree_create_lengths2 tree
        = huffman_tree_create { tree with tree1d := tree1d } ∧
      tree1d.length = tree.lengths.length ∧
      ∀ s, s < tree.lengths.length → tree.lengths.getD s 0 ≠ 0 →
        tree1d.getD s 0 % 2 ^ (tree.lengths.getD s 0)
          = canonical_code tree.lengths s % 2 ^ (tree.lengths.getD s 0) := by
  obtain ⟨bl, hbl, hbl1, hbl2⟩ := blcount_loop tree.lengths tree.maxbitlen hlen hN32
  obtain ⟨nc, hnc, hnc1, hnc2⟩ := nextcode_loop tree.lengths bl tree.maxbitlen hM hbl1 hbl2
  obtain ⟨r, hr, hr1, hr2⟩ := tree1d_loop tree.lengths nc tree.maxbitlen hM hlen hnc1 hnc2
  refine ⟨r.1, ?_, hr1, hr2⟩
  unfold huffman_tree_create_lengths2
  rw [hN]
  simp only [hbl, ret_bind, hnc, pure_eq_ret, hr]

theorem sum_map_le (l : List Nat) (f g : Nat → Nat) (h : ∀ x, f x ≤ g x) :
    (l.map f).sum ≤ (l.map g).sum := by
  induction l with
  | nil => exact Nat.le_refl _
  | cons a t ih => rw [List.map_cons, List.map_cons, List.sum_cons, List.sum_cons]
                   exact Nat.add_le_add (h a) ih

/-- The weight of the codes shorter than `B + 1` is the weight of the codes shorter
than `B` plus that of the codes of length `B`. -/
theorem weight_below_succ (lens : List Nat) (M B : Nat) (hB : B ≠ 0) :
    (lens.map (fun l => if l = 0 ∨ B + 1 ≤ l then 0 else 2 ^ (M - l))).sum
      = (lens.map (fun l => if l = 0 ∨ B ≤ l then 0 else 2 ^ (M - l))).sum
        + lens.count B * 2 ^ (M - B) := by
  induction lens with
  | nil => simp
  | cons a t ih =>
    rw [List.map_cons, List.map_cons, List.sum_cons, List.sum_cons, ih, List.count_cons]
    by_cases ha : a = B
    · subst ha
      rw [if_neg (by omega), if_pos (by omega)]
      simp only [beq_self_eq_true, if_true]
      rw [Nat.add_mul, Nat.one_mul]; omega
    · have hne : (a == B) = false := by simpa using ha
      rw [hne]
      simp only [Bool.false_eq_true, if_false, Nat.add_zero]
      by_cases h1 : a = 0 ∨ B ≤ a
      · rw [if_pos h1, if_pos (by omega)]; omega
      · rw [if_neg h1, if_neg (by omega)]; omega

theorem weight_below_zero (lens : List Nat) (M B : Nat) (hB : B ≤ 1) :
    (lens.map (fun l => if l = 0 ∨ B ≤ l then 0 else 2 ^ (M - l))).sum = 0 := by
  induction lens with
  | nil => rfl
  | cons a t ih =>
    rw [List.map_cons, List.sum_cons, ih, if_pos (by omega)]

/-- The first canonical code of length `B`, scaled to `M` bits, is the weight of the
codes shorter than `B`. -/
theorem next_code_weight (lens : List Nat) (M : Nat) :
    ∀ B, B ≤ M → next_code lens B * 2 ^ (M - B)
      = (lens.map (fun l => if l = 0 ∨ B ≤ l then 0 else 2 ^ (M - l))).sum := by
  intro B
  induction B with
  | zero => intro _; rw [weight_below_zero lens M 0 (by omega)]; simp [next_code]
  | succ B ih =>
    intro hB
    have hpow : 2 * 2 ^ (M - (B + 1)) = 2 ^ (M - B) := by
      rw [show M - B = (M - (B + 1)) + 1 by omega, Nat.pow_succ]; omega
    rw [next_code, Nat.mul_assoc, hpow, Nat.add_mul, ih (by omega)]
    by_cases hB0 : B = 0
    · subst hB0
      rw [if_pos rfl, Nat.zero_mul, Nat.add_zero, weight_below_zero lens M 0 (by omega),
        weight_below_zero lens M (0 + 1) (by omega)]
    · rw [if_neg hB0, weight_below_succ lens M B hB0]

theorem next_code_mono (lens : List Nat) (l : Nat) (hl : l ≠ 0) :
    ∀ d, (next_code lens l + lens.count l) * 2 ^ (d + 1) ≤ next_code lens (l + (d + 1)) := by
  intro d
  induction d with
  | zero =>
    rw [Nat.zero_add, Nat.pow_one, next_code, if_neg hl]
  | succ d ih =>
    rw [show l + (d + 1 + 1) = (l + (d + 1)) + 1 by omega, next_code, Nat.pow_succ,
      ← Nat.mul_assoc]
    exact Nat.mul_le_mul_right _ (Nat.le_trans ih (Nat.le_add_right _ _))

theorem count_take_lt (lens : List Nat) (s : Nat) (hs : s < lens.length) :
    (lens.take s).count (lens.getD s 0) + 1 ≤ lens.count (lens.getD s 0) := by
  have h := count_take_succ lens s (lens.getD s 0) hs
  rw [if_pos rfl] at h
  rw [← h]
  exact (List.take_sublist _ _).count_le _

theorem count_take_mono (lens : List Nat) (s t j : Nat) (h : s ≤ t) :
    (lens.take s).count j ≤ (lens.take t).count j := by
  have : (lens.take s) = (lens.take t).take s := by
    rw [List.take_take, Nat.min_eq_left h]
  rw [this]
  exact (List.take_sublist _ _).count_le _

/-- In the order of code length and then of symbol, the code after the code of `s`
lies above it: one more than the code of `s`, extended to the length of the later code,
is at most the later code. -/
theorem canonical_order (lens : List Nat) (s t : Nat) (hs : s < lens.length)
    (hs0 : lens.getD s 0 ≠ 0)
    (hord : lens.getD s 0 < lens.getD t 0 ∨ (lens.getD s 0 = lens.getD t 0 ∧ s < t)) :
    (canonical_code lens s + 1) * 2 ^ (lens.getD t 0 - lens.getD s 0) ≤ canonical_code lens t := by
  have hc := count_take_lt lens s hs
  rcases hord with hlt | ⟨heq, hst⟩
  · obtain ⟨d, hd⟩ : ∃ d, lens.getD t 0 = lens.getD s 0 + (d + 1) :=
      ⟨lens.getD t 0 - lens.getD s 0 - 1, by omega⟩
    have h1 := next_code_mono lens (lens.getD s 0) hs0 d
    rw [hd, show lens.getD s 0 + (d + 1) - lens.getD s 0 = d + 1 by omega]
    have h2 : (canonical_code lens s + 1) * 2 ^ (d + 1)
        ≤ (next_code lens (lens.getD s 0) + lens.count (lens.getD s 0)) * 2 ^ (d + 1) :=
      Nat.mul_le_mul_right _ (by unfold canonical_code; omega)
    have h3 : next_code lens (lens.getD s 0 + (d + 1)) ≤ canonical_code lens t := by
      unfold canonical_code; rw [hd]; exact Nat.le_add_right _ _
    omega
  · rw [heq, Nat.sub_self, Nat.pow_zero, Nat.mul_one]
    unfold canonical_code
    rw [← heq]
    have h1 := count_take_succ lens s (lens.getD s 0) hs
    rw [if_pos rfl] at h1
    have h2 := count_take_mono lens (s + 1) t (lens.getD s 0) (by omega)
    omega

/-- The canonical codes are prefix-free: the code of `s` is not the first
`lengths[s]` bits of the code of another symbol `t`. -/
theorem canonical_prefix_free (lens : List Nat) (s t : Nat) (hs : s < lens.length)
    (ht : t < lens.length) (hs0 : lens.getD s 0 ≠ 0) (ht0 : lens.getD t 0 ≠ 0)
    (hne : s ≠ t) (hle : lens.getD s 0 ≤ lens.getD t 0) :
    canonical_code lens s
      ≠ canonical_code lens t / 2 ^ (lens.getD t 0 - lens.getD s 0) := by
  have hpos : 0 < 2 ^ (lens.getD t 0 - lens.getD s 0) := Nat.pow_pos (by decide)
  by_cases hord : lens.getD s 0 < lens.getD t 0 ∨ (lens.getD s 0 = lens.getD t 0 ∧ s < t)
  · have h := canonical_order lens s t hs hs0 hord
    have h2 := (Nat.le_div_iff_mul_le hpos).mpr h
    omega
  · have heq : lens.getD s 0 = lens.getD t 0 := by omega
    have hts : t < s := by omega
    have h := canonical_order lens t s ht ht0 (Or.inr ⟨heq.symm, hts⟩)
    rw [heq, Nat.sub_self, Nat.pow_zero, Nat.mul_one] at h
    rw [heq, Nat.sub_self, Nat.pow_zero, Nat.div_one]
    omega

/-- When the lengths are not oversubscribed, the canonical code of a symbol fits its
length. -/
theorem canonical_code_lt (lens : List Nat) (M s : Nat) (hlen : ∀ l ∈ lens, l ≤ M)
    (hk : ¬ oversubscribed M lens) (hs : s < lens.length) (hs0 : lens.getD s 0 ≠ 0) :
    canonical_code lens s < 2 ^ (lens.getD s 0) := by
  have hlM : lens.getD s 0 ≤ M := hlen _ (by
    rw [List.getD_eq_getElem _ _ hs]; exact List.getElem_mem _)
  have h1 := count_take_lt lens s hs
  have h2 := next_code_weight lens M (lens.getD s 0) hlM
  have h3 := weight_below_succ lens M (lens.getD s 0) hs0
  have h4 : (lens.map (fun l => if l = 0 ∨ lens.getD s 0 + 1 ≤ l then 0 else 2 ^ (M - l))).sum
      ≤ kraft_weight M lens := by
    unfold kraft_weight
    apply sum_map_le
    intro x
    by_cases hx : x = 0
    · rw [if_pos (Or.inl hx), if_pos hx]
    · by_cases hx2 : lens.getD s 0 + 1 ≤ x
      · rw [if_pos (Or.inr hx2)]; exact Nat.zero_le _
      · rw [if_neg (by omega), if_neg hx]
  have h5 : kraft_weight M lens ≤ 2 ^ M := by
    unfold oversubscribed at hk; omega
  have h6 : (canonical_code lens s + 1) * 2 ^ (M - lens.getD s 0)
      ≤ 2 ^ (lens.getD s 0) * 2 ^ (M - lens.getD s 0) := by
    rw [← Nat.pow_add, show lens.getD s 0 + (M - lens.getD s 0) = M by omega]
    have h7 : (canonical_code lens s + 1) * 2 ^ (M - lens.getD s 0)
        ≤ (next_code lens (lens.getD s 0) + lens.count (lens.getD s 0))
          * 2 ^ (M - lens.getD s 0) :=
      Nat.mul_le_mul_right _ (by unfold canonical_code; omega)
    have h8 : (next_code lens (lens.getD s 0) + lens.count (lens.getD s 0))
          * 2 ^ (M - lens.getD s 0)
        = (lens.map (fun l => if l = 0 ∨ lens.getD s 0 + 1 ≤ l then 0 else 2 ^ (M - l))).sum := by
      rw [Nat.add_mul, h2, h3]
    rw [h8] at h7
    omega
  have := Nat.le_of_mul_le_mul_right h6 (Nat.pow_pos (by decide))
  omega

/-! ## The table of `huffman_tree_create` -/

theorem div_pow_succ (x k : Nat) : x / 2 ^ k = 2 * (x / 2 ^ (k + 1)) + x / 2 ^ k % 2 := by
  rw [Nat.pow_succ, ← Nat.div_div_eq_div_mul]
  omega

/-- The first `i + 1` bits of a code are its first `i` bits followed by bit `i`. -/
theorem prefix_step (x len i : Nat) (hi : i < len) :
    x / 2 ^ (len - (i + 1)) = 2 * (x / 2 ^ (len - i)) + x / 2 ^ (len - i - 1) % 2 := by
  have := div_pow_succ x (len - i - 1)
  rw [show len - i - 1 + 1 = len - i by omega] at this
  rw [show len - (i + 1) = len - i - 1 by omega]
  exact this

/-- The bit that `huffman_tree_create` takes from `tree1d` is the bit of the code. -/
theorem source_bit (code cval len i : Nat) (hi : i < len) (hc : code % 2 ^ len = cval) :
    (code >>> (len - i - 1)) &&& 1 = cval / 2 ^ (len - i - 1) % 2 := by
  rw [Nat.and_one_is_mod, Nat.shiftRight_eq_div_pow, ← hc, ← Nat.toNat_testBit,
    ← Nat.toNat_testBit, Nat.testBit_mod_two_pow]
  simp [show len - i - 1 < len by omega]

/-- When the last bit of symbol `n` has been entered, the codes of the symbols below
`n + 1` are in the table. -/
theorem trie_inv_next (N : Nat) (L c : Nat → Nat) (n : Nat) (t : List Nat) (nf : Nat)
    (depth val : Nat → Nat) (h : trie_inv N L c n (L n) t nf depth val) :
    trie_inv N L c (n + 1) 0 t nf depth val where
  len := h.len
  nfN := h.nfN
  root := h.root
  fresh := h.fresh
  cls := fun k b hk hb => by
    rcases h.cls k b hk hb with h1 | ⟨h1, h2⟩ | h1
    · exact Or.inl h1
    · exact Or.inr (Or.inl ⟨by omega, h2⟩)
    · exact Or.inr (Or.inr h1)
  parent := h.parent
  onpath := fun k hk hk0 => by
    rcases h.onpath k hk hk0 with ⟨s, h1, h2⟩ | ⟨_, h2, h3⟩
    · exact Or.inl ⟨s, by omega, h2⟩
    · exact Or.inl ⟨n, by omega, by omega, h2, h3⟩
  inj := h.inj
  reach := fun s hs hs0 j hj => by
    by_cases hsn : s = n
    · subst hsn; exact h.reachn j hj
    · exact h.reach s (by omega) hs0 j hj
  reachn := fun j hj => by omega

/-- A symbol of length zero leaves the table as it is. -/
theorem trie_inv_skip (N : Nat) (L c : Nat → Nat) (n : Nat) (t : List Nat) (nf : Nat)
    (depth val : Nat → Nat) (h : trie_inv N L c n 0 t nf depth val) (hL : L n = 0) :
    trie_inv N L c (n + 1) 0 t nf depth val := by
  apply trie_inv_next
  rw [hL]
  exact h

/-- The table before any code is entered. -/
theorem trie_inv_init (N : Nat) (L c : Nat → Nat) (hN : 0 < N) :
    trie_inv N L c 0 0 (List.replicate (N * 2) 32767) 0 (fun _ => 0) (fun _ => 0) where
  len := by rw [List.length_replicate]; omega
  nfN := hN
  root := ⟨rfl, rfl⟩
  fresh := fun k b _ hk hb => by
    rw [List.getD_eq_getElem?_getD, List.getElem?_replicate, if_pos (by omega)]; rfl
  cls := fun k b _ hb => Or.inl (by
    rw [List.getD_eq_getElem?_getD, List.getElem?_replicate, if_pos (by omega)]; rfl)
  parent := fun k hk hk0 => by omega
  onpath := fun k hk hk0 => by omega
  inj := fun k k1 hk hk1 _ _ => by omega
  reach := fun s hs => by omega
  reachn := fun j hj => by omega

/-- The last bit of the code of symbol `n` meets an entry that is not filled: the symbol
is stored there. -/
theorem trie_inv_leaf (N : Nat) (L c : Nat → Nat) (n i : Nat) (t : List Nat) (nf : Nat)
    (depth val : Nat → Nat) (tp b : Nat) (h : trie_inv N L c n i t nf depth val)
    (hN : N ≤ 16383) (hn : n < N) (hi : i + 1 = L n) (htp : tp ≤ nf) (hd : depth tp = i)
    (hv : val tp = c n / 2 ^ (L n - i)) (hb : c n / 2 ^ (L n - i - 1) % 2 = b)
    (he : t.getD (2 * tp + b) 0 = 32767) :
    trie_inv N L c (n + 1) 0 (t.set (2 * tp + b) n) nf depth val := by
  have hb2 : b < 2 := by omega
  have hlen := h.len
  have hnf := h.nfN
  have hidx : 2 * tp + b < t.length := by omega
  have hget : ∀ k b1, b1 < 2 → (t.set (2 * tp + b) n).getD (2 * k + b1) 0
      = if k = tp ∧ b1 = b then n else t.getD (2 * k + b1) 0 := by
    intro k b1 hb1
    rw [getD_set _ _ _ _ hidx]
    by_cases hkb : k = tp ∧ b1 = b
    · rw [if_pos hkb, if_pos (by omega)]
    · rw [if_neg hkb, if_neg (by omega)]
  have hkeep : ∀ k b1, b1 < 2 → t.getD (2 * k + b1) 0 ≠ 32767 →
      (t.set (2 * tp + b) n).getD (2 * k + b1) 0 ≠ 32767 := by
    intro k b1 hb1 hne
    rw [hget k b1 hb1]
    by_cases hkb : k = tp ∧ b1 = b
    · rw [if_pos hkb]; omega
    · rw [if_neg hkb]; exact hne
  have hcn : c n = 2 * val tp + b := by
    have := prefix_step (c n) (L n) i (by omega)
    rw [hb, ← hv, show L n - (i + 1) = 0 by omega, pow_zero, Nat.div_one] at this
    exact this
  refine { len := ?_, nfN := hnf, root := h.root, fresh := ?_, cls := ?_, parent := ?_,
           onpath := ?_, inj := h.inj, reach := ?_, reachn := ?_ }
  · rw [List.length_set]; exact hlen
  · intro k b1 hk hkN hb1
    rw [hget k b1 hb1, if_neg (by omega)]
    exact h.fresh k b1 hk hkN hb1
  · intro k b1 hk hb1
    rw [hget k b1 hb1]
    by_cases hkb : k = tp ∧ b1 = b
    · rw [if_pos hkb]
      refine Or.inr (Or.inl ⟨by omega, ?_, ?_⟩)
      · rw [hkb.1]; omega
      · rw [hkb.1, hkb.2]; exact hcn
    · rw [if_neg hkb]
      rcases h.cls k b1 hk hb1 with h1 | ⟨h1, h2⟩ | h1
      · exact Or.inl h1
      · exact Or.inr (Or.inl ⟨by omega, h2⟩)
      · exact Or.inr (Or.inr h1)
  · intro k hk hk0
    obtain ⟨k0, b1, h1, h2, h3⟩ := h.parent k hk hk0
    refine ⟨k0, b1, h1, h2, ?_⟩
    rw [hget k0 b1 h2, if_neg]
    · exact h3
    · intro hkb
      rw [hkb.1, hkb.2, he] at h3
      omega
  · intro k hk hk0
    rcases h.onpath k hk hk0 with ⟨s, h1, h2⟩ | ⟨_, h2, h3⟩
    · exact Or.inl ⟨s, by omega, h2⟩
    · exact Or.inl ⟨n, by omega, by omega, h2, h3⟩
  · intro s hs hs0 j hj
    by_cases hsn : s = n
    · subst hsn
      by_cases hji : j = i
      · subst hji
        refine ⟨tp, htp, hd, hv, ?_⟩
        rw [hb, hget tp b hb2, if_pos ⟨rfl, rfl⟩]
        omega
      · obtain ⟨k, h1, h2, h3, h4⟩ := h.reachn j (by omega)
        exact ⟨k, h1, h2, h3, hkeep k _ (Nat.mod_lt _ (by decide)) h4⟩
    · obtain ⟨k, h1, h2, h3, h4⟩ := h.reach s (by omega) hs0 j hj
      exact ⟨k, h1, h2, h3, hkeep k _ (Nat.mod_lt _ (by decide)) h4⟩
  · intro j hj; omega

/-- A bit of the code of symbol `n` that is not its last one meets an entry that is not
filled: a new node is taken and the entry points to it. -/
theorem trie_inv_node (N : Nat) (L c : Nat → Nat) (n i : Nat) (t : List Nat) (nf : Nat)
    (depth val : Nat → Nat) (tp b : Nat) (h : trie_inv N L c n i t nf depth val)
    (hN : N ≤ 16383) (hn : n < N) (hi : i + 1 < L n) (hnf1 : nf + 1 < N) (htp : tp ≤ nf)
    (hd : depth tp = i) (hv : val tp = c n / 2 ^ (L n - i))
    (hb : c n / 2 ^ (L n - i - 1) % 2 = b) (he : t.getD (2 * tp + b) 0 = 32767) :
    trie_inv N L c n (i + 1) (t.set (2 * tp + b) (nf + 1 + N)) (nf + 1)
      (Function.update depth (nf + 1) (i + 1))
      (Function.update val (nf + 1) (c n / 2 ^ (L n - (i + 1)))) := by
  have hb2 : b < 2 := by omega
  have hlen := h.len
  have hidx : 2 * tp + b < t.length := by omega
  have hget : ∀ k b1, b1 < 2 → (t.set (2 * tp + b) (nf + 1 + N)).getD (2 * k + b1) 0
      = if k = tp ∧ b1 = b then nf + 1 + N else t.getD (2 * k + b1) 0 := by
    intro k b1 hb1
    rw [getD_set _ _ _ _ hidx]
    by_cases hkb : k = tp ∧ b1 = b
    · rw [if_pos hkb, if_pos (by omega)]
    · rw [if_neg hkb, if_neg (by omega)]
  have hkeep : ∀ k b1, b1 < 2 → t.getD (2 * k + b1) 0 ≠ 32767 →
      (t.set (2 * tp + b) (nf + 1 + N)).getD (2 * k + b1) 0 ≠ 32767 := by
    intro k b1 hb1 hne
    rw [hget k b1 hb1]
    by_cases hkb : k = tp ∧ b1 = b
    · rw [if_pos hkb]; omega
    · rw [if_neg hkb]; exact hne
  have hpre : c n / 2 ^ (L n - (i + 1)) = 2 * val tp + b := by
    have := prefix_step (c n) (L n) i (by omega)
    rw [hb, ← hv] at this
    exact this
  have hdo : ∀ k, k ≤ nf → Function.update depth (nf + 1) (i + 1) k = depth k :=
    fun k hk => Function.update_noteq (by omega) _ _
  have hvo : ∀ k, k ≤ nf →
      Function.update val (nf + 1) (c n / 2 ^ (L n - (i + 1))) k = val k :=
    fun k hk => Function.update_noteq (by omega) _ _
  have hdn : Function.update depth (nf + 1) (i + 1) (nf + 1) = i + 1 :=
    Function.update_same _ _ _
  have hvn : Function.update val (nf + 1) (c n / 2 ^ (L n - (i + 1))) (nf + 1)
      = c n / 2 ^ (L n - (i + 1)) := Function.update_same _ _ _
  -- no node in use is reached by the bits of the new node
  have hnew : ∀ k, k ≤ nf → depth k = i + 1 → val k = 2 * val tp + b → False := by
    intro k hk hdk hvk
    have hk0 : k ≠ 0 := by
      intro e; rw [e, h.root.1] at hdk; omega
    obtain ⟨k0, b1, h1, h2, h3⟩ := h.parent k hk hk0
    rcases h.cls k0 b1 h1 h2 with h4 | ⟨h4, _⟩ | ⟨k1, h4, _, _, h5, h6⟩
    · omega
    · omega
    · have hk1 : k1 = k := by omega
      rw [hk1] at h5 h6
      have e1 : k0 = tp := h.inj k0 tp h1 htp (by omega) (by omega)
      have e2 : b1 = b := by omega
      rw [e1, e2, he] at h3
      omega
  refine { len := ?_, nfN := hnf1, root := ?_, fresh := ?_, cls := ?_, parent := ?_,
           onpath := ?_, inj := ?_, reach := ?_, reachn := ?_ }
  · rw [List.length_set]; exact hlen
  · rw [hdo 0 (by omega), hvo 0 (by omega)]; exact h.root
  · intro k b1 hk hkN hb1
    rw [hget k b1 hb1, if_neg (by omega)]
    exact h.fresh k b1 (by omega) hkN hb1
  · intro k b1 hk hb1
    rw [hget k b1 hb1]
    by_cases hkn : k = nf + 1
    · rw [if_neg (by omega)]
      exact Or.inl (h.fresh k b1 (by omega) (by omega) hb1)
    · have hk1 : k ≤ nf := by omega
      rw [hdo k hk1, hvo k hk1]
      by_cases hkb : k = tp ∧ b1 = b
      · rw [if_pos hkb]
        refine Or.inr (Or.inr ⟨nf + 1, rfl, by omega, by omega, ?_, ?_⟩)
        · rw [hdn, hkb.1, hd]
        · rw [hvn, hkb.1, hkb.2]; exact hpre
      · rw [if_neg hkb]
        rcases h.cls k b1 hk1 hb1 with h1 | h1 | ⟨k1, h1, h2, h3, h4, h5⟩
        · exact Or.inl h1
        · exact Or.inr (Or.inl h1)
        · refine Or.inr (Or.inr ⟨k1, h1, by omega, h3, ?_, ?_⟩)
          · rw [hdo k1 h2]; exact h4
          · rw [hvo k1 h2]; exact h5
  · intro k hk hk0
    by_cases hkn : k = nf + 1
    · refine ⟨tp, b, by omega, hb2, ?_⟩
      rw [hget tp b hb2, if_pos ⟨rfl, rfl⟩, hkn]
    · obtain ⟨k0, b1, h1, h2, h3⟩ := h.parent k (by omega) hk0
      refine ⟨k0, b1, by omega, h2, ?_⟩
      rw [hget k0 b1 h2, if_neg]
      · exact h3
      · intro hkb
        rw [hkb.1, hkb.2, he] at h3
        omega
  · intro k hk hk0
    by_cases hkn : k = nf + 1
    · rw [hkn, hdn, hvn]
      exact Or.inr ⟨by omega, hi, rfl⟩
    · have hk1 : k ≤ nf := by omega
      rw [hdo k hk1, hvo k hk1]
      rcases h.onpath k hk1 hk0 with h1 | ⟨h1, h2⟩
      · exact Or.inl h1
      · exact Or.inr ⟨by omega, h2⟩
  · intro k k1 hk hk1 hdk hvk
    by_cases hkn : k = nf + 1
    · by_cases hkn1 : k1 = nf + 1
      · omega
      · exfalso
        have hk2 : k1 ≤ nf := by omega
        rw [hkn, hdn, hdo k1 hk2] at hdk
        rw [hkn, hvn, hvo k1 hk2] at hvk
        exact hnew k1 hk2 hdk.symm (by omega)
    · have hk2 : k ≤ nf := by omega
      by_cases hkn1 : k1 = nf + 1
      · exfalso
        rw [hkn1, hdn, hdo k hk2] at hdk
        rw [hkn1, hvn, hvo k hk2] at hvk
        exact hnew k hk2 hdk (by omega)
      · have hk3 : k1 ≤ nf := by omega
        rw [hdo k hk2, hdo k1 hk3] at hdk
        rw [hvo k hk2, hvo k1 hk3] at hvk
        exact h.inj k k1 hk2 hk3 hdk hvk
  · intro s hs hs0 j hj
    obtain ⟨k, h1, h2, h3, h4⟩ := h.reach s hs hs0 j hj
    refine ⟨k, by omega, ?_, ?_, hkeep k _ (Nat.mod_lt _ (by decide)) h4⟩
    · rw [hdo k h1]; exact h2
    · rw [hvo k h1]; exact h3
  · intro j hj
    by_cases hji : j = i
    · subst hji
      refine ⟨tp, by omega, ?_, ?_, ?_⟩
      · rw [hdo tp htp]; exact hd
      · rw [hvo tp htp]; exact hv
      · rw [hb, hget tp b hb2, if_pos ⟨rfl, rfl⟩]
        omega
    · obtain ⟨k, h1, h2, h3, h4⟩ := h.reachn j (by omega)
      refine ⟨k, by omega, ?_, ?_, hkeep k _ (Nat.mod_lt _ (by decide)) h4⟩
      · rw [hdo k h1]; exact h2
      · rw [hvo k h1]; exact h3

/-- A bit of the code of symbol `n` meets an entry that is filled: the entry points to a
node, the bit is not the last one, and the node is the one of the longer prefix. -/
theorem trie_inv_follow (N : Nat) (L c : Nat → Nat) (n i : Nat) (t : List Nat) (nf : Nat)
    (depth val : Nat → Nat) (tp b : Nat) (h : trie_inv N L c n i t nf depth val)
    (hpc : prefix_code N L c) (hn : n < N) (hi : i < L n) (htp : tp ≤ nf)
    (hd : depth tp = i) (hv : val tp = c n / 2 ^ (L n - i))
    (hb : c n / 2 ^ (L n - i - 1) % 2 = b) (he : t.getD (2 * tp + b) 0 ≠ 32767) :
    ∃ k1, t.getD (2 * tp + b) 0 = k1 + N ∧ k1 ≤ nf ∧ i + 1 < L n ∧ depth k1 = i + 1 ∧
      val k1 = c n / 2 ^ (L n - (i + 1)) ∧ trie_inv N L c n (i + 1) t nf depth val := by
  have hb2 : b < 2 := by omega
  have hpre : c n / 2 ^ (L n - (i + 1)) = 2 * val tp + b := by
    have := prefix_step (c n) (L n) i hi
    rw [hb, ← hv] at this
    exact this
  rcases h.cls tp b htp hb2 with h1 | ⟨h1, h2, h3⟩ | ⟨k1, h1, h2, h3, h4, h5⟩
  · exact absurd h1 he
  · exfalso
    have := hpc.free (t.getD (2 * tp + b) 0) n (by omega) hn (by omega) (by omega)
      (by omega) (by omega)
    apply this
    rw [h3, h2, hd, ← hpre]
  · have hlt : i + 1 < L n := by
      by_contra hcon
      have hL : L n = i + 1 := by omega
      rcases h.onpath k1 h2 h3 with ⟨s, g1, g2, g3, g4⟩ | ⟨g1, g2, g3⟩
      · have := hpc.free n s hn (by omega) (by omega) g2 (by omega) (by omega)
        apply this
        have e1 : depth k1 = L n := by omega
        have e2 : c n = val k1 := by
          rw [h5, ← hpre, hL, Nat.sub_self, pow_zero, Nat.div_one]
        rw [e2, g4, e1]
      · omega
    refine ⟨k1, h1, h2, hlt, by omega, by omega, ?_⟩
    exact { len := h.len, nfN := h.nfN, root := h.root, fresh := h.fresh, cls := h.cls,
            parent := h.parent,
            onpath := fun k hk hk0 => by
              rcases h.onpath k hk hk0 with g1 | ⟨g1, g2⟩
              · exact Or.inl g1
              · exact Or.inr ⟨by omega, g2⟩
            inj := h.inj, reach := h.reach,
            reachn := fun j hj => by
              by_cases hji : j = i
              · subst hji
                exact ⟨tp, htp, hd, hv, by rw [hb]; exact he⟩
              · exact h.reachn j (by omega) }

/-- A round of the inner loop of `huffman_tree_create` that goes on reads the table at
`treepos`, which therefore lies inside it. -/
theorem create_bits_ret_lt (N n code len k i : Nat) (t : List Nat) (nf tp : Nat)
    (r : List Nat × Nat × Nat) (ht : t.length = 2 * N) (htp : tp < 2 ^ 31)
    (h : huffman_tree_create_bits N n code len (k + 1) i (t, nf, tp) = .ret (false, r)) :
    tp < N := by
  unfold huffman_tree_create_bits at h
  dsimp only at h
  by_cases hgt : tp > (N + 2 ^ 32 - 2) % 2 ^ 32
  · rw [if_pos hgt] at h; cases h
  · rw [if_neg hgt] at h
    by_contra hge
    have hbit : (code >>> (len - i - 1)) &&& 1 < 2 := by
      rw [Nat.and_one_is_mod]; exact Nat.mod_lt _ (by decide)
    have : loadw t ((2 * tp + ((code >>> (len - i - 1)) &&& 1)) % 2 ^ 32) = .fault := by
      unfold loadw
      rw [List.getElem?_eq_none (by omega)]
    rw [this] at h
    cases h

/-- The inner loop of `huffman_tree_create`, when it does not reach `return 55`, enters
the code of symbol `n` into the table and leaves `treepos` at zero. -/
theorem create_bits_inv (N : Nat) (L c : Nat → Nat) (hN : N ≤ 16383)
    (hpc : prefix_code N L c) (n code : Nat) (hn : n < N) (hcode : code % 2 ^ L n = c n) :
    ∀ k i t nf tp depth val r, i + (k + 1) = L n → trie_inv N L c n i t nf depth val →
      tp ≤ nf → depth tp = i → val tp = c n / 2 ^ (L n - i) →
      huffman_tree_create_bits N n code (L n) (k + 1) i (t, nf, tp) = .ret (false, r) →
      ∃ depth1 val1, trie_inv N L c (n + 1) 0 r.1 r.2.1 depth1 val1 ∧ r.2.2 = 0 := by
  intro k
  induction k with
  | zero =>
    intro i t nf tp depth val r hik h htp hd hv hr
    have hbit := source_bit code (c n) (L n) i (by omega) hcode
    have hb2 : c n / 2 ^ (L n - i - 1) % 2 < 2 := Nat.mod_lt _ (by decide)
    have hlen := h.len
    have hnf := h.nfN
    unfold huffman_tree_create_bits at hr
    dsimp only at hr
    rw [hbit] at hr
    by_cases hgt : tp > (N + 2 ^ 32 - 2) % 2 ^ 32
    · rw [if_pos hgt] at hr; cases hr
    · rw [if_neg hgt, Nat.mod_eq_of_lt (by omega), loadw_getD _ _ (by omega), ret_bind] at hr
      by_cases he : t.getD (2 * tp + c n / 2 ^ (L n - i - 1) % 2) 0 = 32767
      · rw [if_pos he, if_pos (by omega), storew_eq _ _ _ (by omega), ret_bind] at hr
        unfold huffman_tree_create_bits at hr
        cases hr
        exact ⟨depth, val, trie_inv_leaf N L c n i t nf depth val tp _ h hN hn (by omega)
          htp hd hv rfl he, rfl⟩
      · obtain ⟨k1, _, _, h3, _⟩ := trie_inv_follow N L c n i t nf depth val tp _ h hpc hn
          (by omega) htp hd hv rfl he
        omega
  | succ k ih =>
    intro i t nf tp depth val r hik h htp hd hv hr
    have hbit := source_bit code (c n) (L n) i (by omega) hcode
    have hb2 : c n / 2 ^ (L n - i - 1) % 2 < 2 := Nat.mod_lt _ (by decide)
    have hlen := h.len
    have hnf := h.nfN
    unfold huffman_tree_create_bits at hr
    dsimp only at hr
    rw [hbit] at hr
    by_cases hgt : tp > (N + 2 ^ 32 - 2) % 2 ^ 32
    · rw [if_pos hgt] at hr; cases hr
    · rw [if_neg hgt, Nat.mod_eq_of_lt (by omega), loadw_getD _ _ (by omega), ret_bind] at hr
      by_cases he : t.getD (2 * tp + c n / 2 ^ (L n - i - 1) % 2) 0 = 32767
      · rw [if_pos he, if_neg (by omega), Nat.mod_eq_of_lt (show nf + 1 < 2 ^ 32 by omega),
          Nat.mod_eq_of_lt (show nf + 1 + N < 2 ^ 32 by omega),
          storew_eq _ _ _ (by omega), ret_bind] at hr
        have hnf1 : nf + 1 < N := create_bits_ret_lt N n code (L n) k (i + 1)
          (t.set (2 * tp + c n / 2 ^ (L n - i - 1) % 2) (nf + 1 + N)) (nf + 1) (nf + 1) r
          (by rw [List.length_set]; exact hlen)
          (Nat.lt_of_lt_of_le (show nf + 1 < 16384 by omega) (by norm_num)) hr
        exact ih (i + 1) _ (nf + 1) (nf + 1) _ _ r (by omega)
          (trie_inv_node N L c n i t nf depth val tp _ h hN hn (by omega) hnf1 htp hd hv
            rfl he)
          (Nat.le_refl _) (Function.update_same _ _ _) (Function.update_same _ _ _) hr
      · obtain ⟨k1, h1, h2, h3, h4, h5, h6⟩ := trie_inv_follow N L c n i t nf depth val tp _
          h hpc hn (by omega) htp hd hv rfl he
        rw [if_neg he, h1, show (k1 + N + 2 ^ 32 - N) % 2 ^ 32 = k1 by omega] at hr
        exact ih (i + 1) t nf k1 depth val r (by omega) h6 h2 h4 h5 hr

/-- The outer loop of `huffman_tree_create`, when it does not reach `return 55`, enters
the codes of all the symbols into the table. -/
theorem create_codes_inv (tree : huffman_tree) (c : Nat → Nat) (hN : tree.numcodes ≤ 16383)
    (hlen : tree.lengths.length = tree.numcodes)
    (hpc : prefix_code tree.numcodes (fun s => tree.lengths.getD s 0) c)
    (hcode : ∀ s, s < tree.numcodes → tree.lengths.getD s 0 ≠ 0 →
      tree.tree1d.getD s 0 % 2 ^ tree.lengths.getD s 0 = c s)
    (h1d : tree.tree1d.length = tree.numcodes) :
    ∀ k n t nf depth val r, n + k = tree.numcodes →
      trie_inv tree.numcodes (fun s => tree.lengths.getD s 0) c n 0 t nf depth val →
      huffman_tree_create_codes tree k n (t, nf, 0) = .ret (false, r) →
      ∃ depth1 val1,
        trie_inv tree.numcodes (fun s => tree.lengths.getD s 0) c tree.numcodes 0 r.1 r.2.1
          depth1 val1 := by
  intro k
  induction k with
  | zero =>
    intro n t nf depth val r hnk h hr
    unfold huffman_tree_create_codes at hr
    cases hr
    rw [Nat.add_zero] at hnk
    subst hnk
    exact ⟨depth, val, h⟩
  | succ k ih =>
    intro n t nf depth val r hnk h hr
    unfold huffman_tree_create_codes at hr
    rw [loadw_getD _ _ (by omega), ret_bind] at hr
    by_cases hl0 : tree.lengths.getD n 0 = 0
    · rw [if_pos hl0, ret_bind, hl0] at hr
      unfold huffman_tree_create_bits at hr
      rw [ret_bind] at hr
      dsimp only at hr
      rw [if_neg (by decide)] at hr
      exact ih (n + 1) t nf depth val r (by omega)
        (trie_inv_skip _ _ c n t nf depth val h hl0) hr
    · rw [if_neg hl0, loadw_getD _ _ (by omega), ret_bind] at hr
      dsimp only at hr
      obtain ⟨k1, hk1⟩ : ∃ k1, tree.lengths.getD n 0 = k1 + 1 := ⟨_, (Nat.succ_pred hl0).symm⟩
      cases hb : huffman_tree_create_bits tree.numcodes n (tree.tree1d.getD n 0)
          (tree.lengths.getD n 0) (tree.lengths.getD n 0) 0 (t, nf, 0) with
      | fault => rw [hb] at hr; cases hr
      | nofuel => rw [hb] at hr; cases hr
      | ret r1 =>
        rw [hb, ret_bind] at hr
        obtain ⟨f, st⟩ := r1
        cases f with
        | true => dsimp only at hr; rw [if_pos rfl] at hr; cases hr
        | false =>
          dsimp only at hr
          rw [if_neg (by decide)] at hr
          have hb1 := hb
          rw [show huffman_tree_create_bits tree.numcodes n (tree.tree1d.getD n 0)
              (tree.lengths.getD n 0) (tree.lengths.getD n 0) 0 (t, nf, 0)
            = huffman_tree_create_bits tree.numcodes n (tree.tree1d.getD n 0)
              (tree.lengths.getD n 0) (k1 + 1) 0 (t, nf, 0) by rw [← hk1]] at hb1
          obtain ⟨d1, v1, h1, h2⟩ := create_bits_inv tree.numcodes
            (fun s => tree.lengths.getD s 0) c hN hpc n (tree.tree1d.getD n 0) (by omega)
            (hcode n (by omega) hl0) k1 0 t nf 0 depth val st (by dsimp only; omega) h
            (Nat.zero_le _) h.root.1 (by
              rw [h.root.2, Nat.sub_zero]
              exact (Nat.div_eq_of_lt (hpc.fits n (by omega) hl0)).symm) hb1
          obtain ⟨t1, nf1, tp1⟩ := st
          dsimp only at h2
          subst h2
          exact ih (n + 1) t1 nf1 d1 v1 r (by omega) h1 hr

/-! ## Decoding with the table -/

theorem read_bit_ret_lt (bp : Nat) (inp : List Byte) (x : Nat × Nat)
    (h : read_bit bp inp = .ret x) : bp >>> 3 < inp.length := by
  by_contra hge
  unfold read_bit load at h
  rw [List.getElem?_eq_none (by omega)] at h
  cases h

/-- The entry that the bit `j` of the code of `s` selects in the node of the first `j`
bits: the symbol `s` when the bit is the last one, a pointer to the node of the first
`j + 1` bits otherwise. -/
theorem decode_step (N : Nat) (L c : Nat → Nat) (hpc : prefix_code N L c) (t : List Nat)
    (nf : Nat) (depth val : Nat → Nat) (h : trie_inv N L c N 0 t nf depth val)
    (s : Nat) (hs : s < N) (hs0 : L s ≠ 0) (j k : Nat) (hj : j < L s) (hk : k ≤ nf)
    (hd : depth k = j) (hv : val k = c s / 2 ^ (L s - j)) :
    t.getD (2 * k + c s / 2 ^ (L s - j - 1) % 2) 0 ≠ 32767 ∧
    ((j + 1 = L s ∧ t.getD (2 * k + c s / 2 ^ (L s - j - 1) % 2) 0 = s) ∨
     (j + 1 < L s ∧ ∃ k1, t.getD (2 * k + c s / 2 ^ (L s - j - 1) % 2) 0 = k1 + N ∧
        k1 ≤ nf ∧ depth k1 = j + 1 ∧ val k1 = c s / 2 ^ (L s - (j + 1)))) := by
  have hb2 : c s / 2 ^ (L s - j - 1) % 2 < 2 := Nat.mod_lt _ (by decide)
  have hpre := prefix_step (c s) (L s) j hj
  rw [← hv] at hpre
  obtain ⟨k0, g1, g2, g3, g4⟩ := h.reach s hs hs0 j hj
  have hkk : k0 = k := h.inj k0 k g1 hk (by omega) (by omega)
  rw [hkk] at g4
  refine ⟨g4, ?_⟩
  rcases h.cls k _ hk hb2 with h1 | ⟨h1, h2, h3⟩ | ⟨k1, h1, h2, h3, h4, h5⟩
  · exact absurd h1 g4
  · have hes : t.getD (2 * k + c s / 2 ^ (L s - j - 1) % 2) 0 = s := by
      by_contra hne
      have := hpc.free _ s h1 hs (by omega) hs0 hne (by omega)
      apply this
      rw [h3, h2, hd, ← hpre]
    rw [hes] at h2
    exact Or.inl ⟨by omega, hes⟩
  · have hlt : j + 1 < L s := by
      by_contra hcon
      have hL : L s = j + 1 := by omega
      rcases h.onpath k1 h2 h3 with ⟨s1, f1, f2, f3, f4⟩ | ⟨f1, _⟩
      · have := hpc.free s s1 hs f1 hs0 f2 (fun e => by rw [e] at hL; omega) (by omega)
        apply this
        have e1 : depth k1 = L s := by omega
        have e2 : c s = val k1 := by
          rw [h5, ← hpre, hL, Nat.sub_self, pow_zero, Nat.div_one]
        rw [e2, f4, e1]
      · omega
    exact Or.inr ⟨hlt, k1, h1, h2, by omega, by omega⟩

/-- The loop of `huffman_decode_symbol`, started in the node of the first `j` bits of the
code of `s` and fed with the other bits of that code, returns `s` at the end of the
code. -/
theorem decode_walk (N : Nat) (L c : Nat → Nat) (hN : N ≤ 16383) (hpc : prefix_code N L c)
    (t : List Nat) (nf : Nat) (depth val : Nat → Nat)
    (h : trie_inv N L c N 0 t nf depth val) (tree : huffman_tree)
    (htn : tree.numcodes = N)
    (ht2 : tree.tree2d = t.map (fun v => if v = 32767 then 0 else v))
    (inp : List Byte) (inlength : Nat) (hin : inp.length ≤ inlength + 1)
    (s : Nat) (hs : s < N) (hs0 : L s ≠ 0) (bp : Nat)
    (hbits : ∀ j, j < L s →
      read_bit (bp + j) inp = .ret (c s / 2 ^ (L s - j - 1) % 2, bp + j + 1)) :
    ∀ m j k fuel, j + (m + 1) = L s → k ≤ nf → depth k = j →
      val k = c s / 2 ^ (L s - j) → m + 1 ≤ fuel →
      huffman_decode_symbol_loop inp tree inlength fuel k (bp + j) = .ret (0, s, bp + L s) := by
  intro m
  induction m with
  | zero =>
    intro j k fuel hjm hk hd hv hfuel
    obtain ⟨f, rfl⟩ : ∃ f, fuel = f + 1 := ⟨fuel - 1, by omega⟩
    have hb2 : c s / 2 ^ (L s - j - 1) % 2 < 2 := Nat.mod_lt _ (by decide)
    have hlen := h.len
    have hnf := h.nfN
    have hlt := read_bit_ret_lt _ _ _ (hbits j (by omega))
    obtain ⟨hne, hstep⟩ := decode_step N L c hpc t nf depth val h s hs hs0 j k (by omega) hk
      hd hv
    unfold huffman_decode_symbol_loop
    rw [if_neg (by omega), hbits j (by omega), ret_bind]
    dsimp only
    unfold huffman_tree_decode
    rw [htn, if_neg (by omega), Nat.mod_eq_of_lt (by omega), ht2,
      loadw_getD _ _ (by rw [List.length_map]; omega), ret_bind]
    have hent : (t.map (fun v => if v = 32767 then 0 else v)).getD
        (2 * k + c s / 2 ^ (L s - j - 1) % 2) 0
        = t.getD (2 * k + c s / 2 ^ (L s - j - 1) % 2) 0 := by
      rw [List.getD_eq_getElem _ _ (by rw [List.length_map]; omega), List.getElem_map,
        if_neg, List.getD_eq_getElem _ _ (by omega)]
      rw [← List.getD_eq_getElem _ 0 (by omega)]
      exact hne
    rw [hent]
    rcases hstep with ⟨h1, h2⟩ | ⟨h1, _⟩
    · rw [h2]
      dsimp only
      rw [if_pos (by simpa using hs)]
      simp only [pure, ret_bind]
      rw [if_neg (by decide), if_pos (by simpa using hs), ← h1, Nat.add_assoc]
    · omega
  | succ m ih =>
    intro j k fuel hjm hk hd hv hfuel
    obtain ⟨f, rfl⟩ : ∃ f, fuel = f + 1 := ⟨fuel - 1, by omega⟩
    have hb2 : c s / 2 ^ (L s - j - 1) % 2 < 2 := Nat.mod_lt _ (by decide)
    have hlen := h.len
    have hnf := h.nfN
    have hlt := read_bit_ret_lt _ _ _ (hbits j (by omega))
    obtain ⟨hne, hstep⟩ := decode_step N L c hpc t nf depth val h s hs hs0 j k (by omega) hk
      hd hv
    unfold huffman_decode_symbol_loop
    rw [if_neg (by omega), hbits j (by omega), ret_bind]
    dsimp only
    unfold huffman_tree_decode
    rw [htn, if_neg (by omega), Nat.mod_eq_of_lt (by omega), ht2,
      loadw_getD _ _ (by rw [List.length_map]; omega), ret_bind]
    have hent : (t.map (fun v => if v = 32767 then 0 else v)).getD
        (2 * k + c s / 2 ^ (L s - j - 1) % 2) 0
        = t.getD (2 * k + c s / 2 ^ (L s - j - 1) % 2) 0 := by
      rw [List.getD_eq_getElem _ _ (by rw [List.length_map]; omega), List.getElem_map,
        if_neg, List.getD_eq_getElem _ _ (by omega)]
      rw [← List.getD_eq_getElem _ 0 (by omega)]
      exact hne
    rw [hent]
    rcases hstep with ⟨h1, _⟩ | ⟨h1, k1, h2, h3, h4, h5⟩
    · omega
    · rw [h2]
      dsimp only
      rw [if_neg (by simp)]
      simp only [pure, ret_bind]
      rw [if_neg (by decide), if_neg (by simp),
        show (k1 + N + 2 ^ 32 - N) % 2 ^ 32 = k1 by omega]
      have := ih (j + 1) k1 f (by omega) h3 h4 h5 (by omega)
      rw [← Nat.add_assoc] at this
      exact this

theorem getD_take (l : List Nat) (n s : Nat) (hs : s < n) :
    (l.take n).getD s 0 = l.getD s 0 := by
  rw [List.getD_eq_getElem?_getD, List.getD_eq_getElem?_getD, List.getElem?_take_of_lt hs]

/-- The canonical codes of lengths that are not oversubscribed are a prefix code. -/
theorem canonical_prefix_code (lens : List Nat) (M : Nat) (hlen : ∀ l ∈ lens, l ≤ M)
    (hk : ¬ oversubscribed M lens) :
    prefix_code lens.length (fun s => lens.getD s 0) (canonical_code lens) where
  fits := fun s hs hs0 => canonical_code_lt lens M s hlen hk hs hs0
  free := fun s t hs ht hs0 ht0 hne hle => canonical_prefix_free lens s t hs ht hs0 ht0 hne hle

/-- A table that `huffman_tree_create_lengths` returns with error 0 decodes the canonical
code of every symbol: started at the root with the bits of the code of `s` ahead,
`huffman_decode_symbol_loop` returns `s` at the end of the code. -/
theorem build_then_decode (tree0 : huffman_tree) (bitlen : List Nat)
    (numcodes maxbitlen : Nat) (t : huffman_tree) (inp : List Byte) (inlength bp s : Nat)
    (hM : maxbitlen ≤ 15) (hN : numcodes ≤ 16383)
    (hlen : ∀ l ∈ bitlen.take numcodes, l ≤ maxbitlen)
    (hk : ¬ oversubscribed maxbitlen (bitlen.take numcodes))
    (hcreate : huffman_tree_create_lengths tree0 bitlen numcodes maxbitlen = .ret (t, 0))
    (hs : s < numcodes) (hs0 : bitlen.getD s 0 ≠ 0) (hin : inp.length ≤ inlength + 1)
    (hbits : ∀ i, i < bitlen.getD s 0 →
      read_bit (bp + i) inp = .ret (code_bit (bitlen.take numcodes) s i, bp + i + 1))
    (fuel : Nat) (hfuel : bitlen.getD s 0 ≤ fuel) :
    huffman_decode_symbol_loop inp t inlength fuel 0 bp
      = .ret (0, s, bp + bitlen.getD s 0) := by
  unfold huffman_tree_create_lengths at hcreate
  by_cases hbl : bitlen.length < numcodes
  · rw [if_pos hbl] at hcreate; cases hcreate
  rw [if_neg hbl, Nat.mod_eq_of_lt (by omega)] at hcreate
  have hll : (bitlen.take numcodes).length = numcodes := by
    rw [List.length_take]; omega
  obtain ⟨tree1d, h1, h2, h3⟩ := create_lengths2_codes
    { tree0 with lengths := bitlen.take numcodes, numcodes := numcodes,
                 maxbitlen := maxbitlen }
    (by show maxbitlen ≤ 32; omega) hll.symm
    (by show (bitlen.take numcodes).length < 2 ^ 32; omega) hlen
  dsimp only at h1 h2 h3
  rw [h1] at hcreate
  unfold huffman_tree_create at hcreate
  dsimp only at hcreate
  have hpc := canonical_prefix_code (bitlen.take numcodes) maxbitlen hlen hk
  rw [hll] at hpc
  cases hc : huffman_tree_create_codes
      { tree2d := tree0.tree2d, tree1d := tree1d, lengths := bitlen.take numcodes,
        maxbitlen := maxbitlen, numcodes := numcodes } numcodes 0
      (List.replicate (numcodes * 2) 32767, 0, 0) with
  | fault => rw [hc] at hcreate; cases hcreate
  | nofuel => rw [hc] at hcreate; cases hcreate
  | ret r =>
    rw [hc, ret_bind] at hcreate
    obtain ⟨f, st⟩ := r
    cases f with
    | true => dsimp only at hcreate; rw [if_pos rfl] at hcreate; cases hcreate
    | false =>
      dsimp only at hcreate
      rw [if_neg (by decide)] at hcreate
      cases hcreate
      have hcode : ∀ x, x < numcodes → (bitlen.take numcodes).getD x 0 ≠ 0 →
          tree1d.getD x 0 % 2 ^ (bitlen.take numcodes).getD x 0
            = canonical_code (bitlen.take numcodes) x := by
        intro x hx hx0
        rw [h3 x (by omega) hx0]
        exact Nat.mod_eq_of_lt (hpc.fits x hx hx0)
      obtain ⟨d1, v1, hinv⟩ := create_codes_inv
        { tree2d := tree0.tree2d, tree1d := tree1d, lengths := bitlen.take numcodes,
          maxbitlen := maxbitlen, numcodes := numcodes }
        (canonical_code (bitlen.take numcodes)) hN hll hpc hcode
        (by rw [h2, hll]) numcodes 0 _ 0 _ _ st (by simp)
        (trie_inv_init numcodes _ _ (by omega)) hc
      dsimp only at hinv
      have hLs : (bitlen.take numcodes).getD s 0 = bitlen.getD s 0 := getD_take _ _ _ hs
      have hL0 : (bitlen.take numcodes).getD s 0 ≠ 0 := by rw [hLs]; exact hs0
      have hbits1 : ∀ j, j < (bitlen.take numcodes).getD s 0 →
          read_bit (bp + j) inp
            = .ret (canonical_code (bitlen.take numcodes) s
                / 2 ^ ((bitlen.take numcodes).getD s 0 - j - 1) % 2, bp + j + 1) := by
        intro j hj
        rw [hLs] at hj
        rw [hbits j hj]
        unfold code_bit
        rw [Nat.and_one_is_mod, Nat.shiftRight_eq_div_pow]
      have hm : 0 + (bitlen.getD s 0 - 1 + 1) = (bitlen.take numcodes).getD s 0 := by
        rw [hLs]; omega
      have hv0 : v1 0 = canonical_code (bitlen.take numcodes) s
          / 2 ^ ((bitlen.take numcodes).getD s 0 - 0) := by
        rw [hinv.root.2, Nat.sub_zero]
        exact (Nat.div_eq_of_lt (hpc.fits s hs hL0)).symm
      have := decode_walk numcodes (fun x => (bitlen.take numcodes).getD x 0)
        (canonical_code (bitlen.take numcodes)) hN hpc st.1 st.2.1 d1 v1 hinv
        { tree2d := st.1.map (fun v => if v = 32767 then 0 else v), tree1d := tree1d,
          lengths := bitlen.take numcodes, maxbitlen := maxbitlen, numcodes := numcodes }
        rfl rfl inp inlength hin s hs hL0 bp hbits1
        (bitlen.getD s 0 - 1) 0 0 fuel hm (Nat.zero_le _) hinv.root.1 hv0 (by omega)
      dsimp only at this
      rw [hLs, Nat.add_zero] at this
      exact this

/-- The same for `huffman_decode_symbol`, whose loop runs long enough. -/
theorem decode_symbol_created (tree0 : huffman_tree) (bitlen : List Nat)
    (numcodes maxbitlen : Nat) (t : huffman_tree) (inp : List Byte) (inlength bp s : Nat)
    (hM : maxbitlen ≤ 15) (hN : numcodes ≤ 16383)
    (hlen : ∀ l ∈ bitlen.take numcodes, l ≤ maxbitlen)
    (hk : ¬ oversubscribed maxbitlen (bitlen.take numcodes))
    (hcreate : huffman_tree_create_lengths tree0 bitlen numcodes maxbitlen = .ret (t, 0))
    (hs : s < numcodes) (hs0 : bitlen.getD s 0 ≠ 0) (hin : inp.length ≤ inlength + 1)
    (hbits : ∀ i, i < bitlen.getD s 0 →
      read_bit (bp + i) inp = .ret (code_bit (bitlen.take numcodes) s i, bp + i + 1)) :
    huffman_decode_symbol inp bp t inlength = .ret (0, s, bp + bitlen.getD s 0) := by
  unfold huffman_decode_symbol
  have hlt := read_bit_ret_lt _ _ _ (hbits (bitlen.getD s 0 - 1) (by omega))
  rw [Nat.shiftRight_eq_div_pow] at hlt
  exact build_then_decode tree0 bitlen numcodes maxbitlen t inp inlength bp s hM hN hlen hk
    hcreate hs hs0 hin hbits _ (by
      have : (bp + (bitlen.getD s 0 - 1)) / 2 ^ 3 < inp.length := hlt
      omega)

/-- C15 (Huffman build-then-decode round trip): for lengths `bitlen[0..numcodes)`, each at
most `maxbitlen ≤ 15`, that are not oversubscribed and for which
`huffman_tree_create_lengths` returns 0 with the table `t`, and for every symbol `s` of
non-zero length, `huffman_decode_symbol` on an input whose bits from `bp` on are the
`bitlen[s]` bits of the canonical code of `s`, most significant bit first, returns `s`
with error 0 and the bit pointer `bp + bitlen[s]`.  The table has at most 16383 symbols
(the program builds tables of 19, 32 and 288 symbols). -/
theorem C15_build_then_decode (tree0 : huffman_tree) (bitlen : List Nat)
    (numcodes maxbitlen : Nat) (t : huffman_tree) (inp : List Byte) (inlength bp s : Nat)
    (hM : maxbitlen ≤ 15) (hN : numcodes ≤ 16383)
    (hlen : ∀ l ∈ bitlen.take numcodes, l ≤ maxbitlen)
    (hk : ¬ oversubscribed maxbitlen (bitlen.take numcodes))
    (hcreate : huffman_tree_create_lengths tree0 bitlen numcodes maxbitlen = .ret (t, 0))
    (hs : s < numcodes) (hs0 : bitlen.getD s 0 ≠ 0) (hin : inp.length ≤ inlength)
    (hbits : ∀ i, i < bitlen.getD s 0 →
      read_bit (bp + i) inp = .ret (code_bit (bitlen.take numcodes) s i, bp + i + 1)) :
    huffman_decode_symbol inp bp t inlength = .ret (0, s, bp + bitlen.getD s 0) :=
  decode_symbol_created tree0 bitlen numcodes maxbitlen t inp inlength bp s hM hN hlen hk
    hcreate hs hs0 (by omega) hbits

/-- Witness for C15: the lengths 2, 0, 1, 3, 3 and the symbol 3, whose canonical code is
110: the input byte 3 holds these bits from bit 0 on. -/
theorem C15_witness :
    huffman_decode_symbol [3] 0 five_symbol_tree 1
      = .ret (0, 3, 0 + ([2, 0, 1, 3, 3] : List Nat).getD 3 0) :=
  C15_build_then_decode huffman_tree_init [2, 0, 1, 3, 3] 5 3 five_symbol_tree [3] 1 0 3
    (by decide) (by decide) (by decide) (by decide) (by rfl) (by decide) (by decide)
    (by decide) (by decide)

/-! ## Tables that are built without error -/

/-- The nodes in use are numbered by the count of the nodes, so there are at most `B` of
them besides the root. -/
theorem node_count_le (N : Nat) (L c : Nat → Nat) (n i : Nat) (t : List Nat) (nf : Nat)
    (depth val : Nat → Nat) (h : trie_inv N L c n i t nf depth val) (hN : N ≤ 16383)
    (hn : n ≤ N) (hni : i ≠ 0 → n < N) (S : Nat → Nat → Prop) (rank : Nat → Nat → Nat)
    (B : Nat) (hc : node_cert N L c S rank B) : nf ≤ B := by
  have hnf := h.nfN
  have hS : ∀ k, 1 ≤ k → k ≤ nf → S (depth k) (val k) := by
    intro k hk1 hk
    have hd : 0 < depth k := by
      obtain ⟨k0, b, h1, h2, h3⟩ := h.parent k hk (by omega)
      rcases h.cls k0 b h1 h2 with h4 | ⟨h4, _⟩ | ⟨k1, h4, _, _, h5, _⟩
      · omega
      · omega
      · have : k1 = k := by omega
        rw [this] at h5
        omega
    rcases h.onpath k hk (by omega) with ⟨s, g1, g2, g3, g4⟩ | ⟨g1, g2, g3⟩
    · rw [g4]
      exact hc.pre s (depth k) (by omega) g2 hd g3
    · rw [g3]
      exact hc.pre n (depth k) (hni (by omega)) (by omega) hd g2
  have hcard : (Finset.Icc 1 nf).card ≤ (Finset.Icc 1 B).card :=
    Finset.card_le_card_of_injOn (fun k => rank (depth k) (val k))
      (fun k hk => by
        have hk1 := Finset.mem_Icc.mp hk
        exact Finset.mem_Icc.mpr (hc.range _ _ (hS k hk1.1 hk1.2)))
      (fun k hk k1 hk1 e => by
        have g := Finset.mem_Icc.mp (Finset.mem_coe.mp hk)
        have g1 := Finset.mem_Icc.mp (Finset.mem_coe.mp hk1)
        have := hc.inj _ _ _ _ (hS k g.1 g.2) (hS k1 g1.1 g1.2) e
        exact h.inj k k1 g.2 g1.2 this.1 this.2)
  rw [Nat.card_Icc, Nat.card_Icc] at hcard
  omega

/-- With a count of the nodes, the inner loop of `huffman_tree_create` enters the code of
symbol `n` and does not reach `return 55`. -/
theorem create_bits_run (N : Nat) (L c : Nat → Nat) (hN : N ≤ 16383)
    (hpc : prefix_code N L c) (S : Nat → Nat → Prop) (rank : Nat → Nat → Nat) (B : Nat)
    (hc : node_cert N L c S rank B) (n code : Nat) (hn : n < N)
    (hcode : code % 2 ^ L n = c n) :
    ∀ k i t nf tp depth val, i + (k + 1) = L n → trie_inv N L c n i t nf depth val →
      tp ≤ nf → depth tp = i → val tp = c n / 2 ^ (L n - i) →
      ∃ r, huffman_tree_create_bits N n code (L n) (k + 1) i (t, nf, tp) = .ret (false, r) ∧
        ∃ depth1 val1, trie_inv N L c (n + 1) 0 r.1 r.2.1 depth1 val1 ∧ r.2.2 = 0 := by
  intro k
  induction k with
  | zero =>
    intro i t nf tp depth val hik h htp hd hv
    have hbit := source_bit code (c n) (L n) i (by omega) hcode
    have hb2 : c n / 2 ^ (L n - i - 1) % 2 < 2 := Nat.mod_lt _ (by decide)
    have hlen := h.len
    have hnf := h.nfN
    have hB := hc.bound
    have hnfB := node_count_le N L c n i t nf depth val h hN (by omega) (fun _ => hn) S rank
      B hc
    unfold huffman_tree_create_bits
    dsimp only
    rw [hbit, if_neg (by omega), Nat.mod_eq_of_lt (by omega), loadw_getD _ _ (by omega),
      ret_bind]
    by_cases he : t.getD (2 * tp + c n / 2 ^ (L n - i - 1) % 2) 0 = 32767
    · rw [if_pos he, if_pos (by omega), storew_eq _ _ _ (by omega), ret_bind]
      unfold huffman_tree_create_bits
      exact ⟨_, rfl, depth, val, trie_inv_leaf N L c n i t nf depth val tp _ h hN hn
        (by omega) htp hd hv rfl he, rfl⟩
    · obtain ⟨k1, _, _, h3, _⟩ := trie_inv_follow N L c n i t nf depth val tp _ h hpc hn
        (by omega) htp hd hv rfl he
      omega
  | succ k ih =>
    intro i t nf tp depth val hik h htp hd hv
    have hbit := source_bit code (c n) (L n) i (by omega) hcode
    have hb2 : c n / 2 ^ (L n - i - 1) % 2 < 2 := Nat.mod_lt _ (by decide)
    have hlen := h.len
    have hnf := h.nfN
    have hB := hc.bound
    have hnfB := node_count_le N L c n i t nf depth val h hN (by omega) (fun _ => hn) S rank
      B hc
    unfold huffman_tree_create_bits
    dsimp only
    rw [hbit, if_neg (by omega), Nat.mod_eq_of_lt (by omega), loadw_getD _ _ (by omega),
      ret_bind]
    by_cases he : t.getD (2 * tp + c n / 2 ^ (L n - i - 1) % 2) 0 = 32767
    · rw [if_pos he, if_neg (by omega), Nat.mod_eq_of_lt (show nf + 1 < 2 ^ 32 by omega),
        Nat.mod_eq_of_lt (show nf + 1 + N < 2 ^ 32 by omega),
        storew_eq _ _ _ (by omega), ret_bind]
      exact ih (i + 1) _ (nf + 1) (nf + 1) _ _ (by omega)
        (trie_inv_node N L c n i t nf depth val tp _ h hN hn (by omega) (by omega) htp hd hv
          rfl he)
        (Nat.le_refl _) (Function.update_same _ _ _) (Function.update_same _ _ _)
    · obtain ⟨k1, h1, h2, h3, h4, h5, h6⟩ := trie_inv_follow N L c n i t nf depth val tp _
        h hpc hn (by omega) htp hd hv rfl he
      rw [if_neg he, h1, show (k1 + N + 2 ^ 32 - N) % 2 ^ 32 = k1 by omega]
      exact ih (i + 1) t nf k1 depth val (by omega) h6 h2 h4 h5

/-- With a count of the nodes, the outer loop of `huffman_tree_create` does not reach
`return 55`. -/
theorem create_codes_run (tree : huffman_tree) (c : Nat → Nat) (hN : tree.numcodes ≤ 16383)
    (hlen : tree.lengths.length = tree.numcodes)
    (hpc : prefix_code tree.numcodes (fun s => tree.lengths.getD s 0) c)
    (S : Nat → Nat → Prop) (rank : Nat → Nat → Nat) (B : Nat)
    (hc : node_cert tree.numcodes (fun s => tree.lengths.getD s 0) c S rank B)
    (hcode : ∀ s, s < tree.numcodes → tree.lengths.getD s 0 ≠ 0 →
      tree.tree1d.getD s 0 % 2 ^ tree.lengths.getD s 0 = c s)
    (h1d : tree.tree1d.length = tree.numcodes) :
    ∀ k n t nf depth val, n + k = tree.numcodes →
      trie_inv tree.numcodes (fun s => tree.lengths.getD s 0) c n 0 t nf depth val →
      ∃ r, huffman_tree_create_codes tree k n (t, nf, 0) = .ret (false, r) := by
  intro k
  induction k with
  | zero =>
    intro n t nf depth val hnk h
    unfold huffman_tree_create_codes
    exact ⟨_, rfl⟩
  | succ k ih =>
    intro n t nf depth val hnk h
    unfold huffman_tree_create_codes
    rw [loadw_getD _ _ (by omega), ret_bind]
    by_cases hl0 : tree.lengths.getD n 0 = 0
    · rw [if_pos hl0, ret_bind, hl0]
      unfold huffman_tree_create_bits
      rw [ret_bind]
      dsimp only
      rw [if_neg (by decide)]
      exact ih (n + 1) t nf depth val (by omega) (trie_inv_skip _ _ c n t nf depth val h hl0)
    · rw [if_neg hl0, loadw_getD _ _ (by omega), ret_bind]
      dsimp only
      obtain ⟨k1, hk1⟩ : ∃ k1, tree.lengths.getD n 0 = k1 + 1 := ⟨_, (Nat.succ_pred hl0).symm⟩
      obtain ⟨r, hr, d1, v1, h1, h2⟩ := create_bits_run tree.numcodes
        (fun s => tree.lengths.getD s 0) c hN hpc S rank B hc n (tree.tree1d.getD n 0)
        (by omega) (hcode n (by omega) hl0) k1 0 t nf 0 depth val (by dsimp only; omega) h
        (Nat.zero_le _) h.root.1 (by
          rw [h.root.2, Nat.sub_zero]
          exact (Nat.div_eq_of_lt (hpc.fits n (by omega) hl0)).symm)
      rw [← hk1] at hr
      rw [hr, ret_bind]
      dsimp only
      rw [if_neg (by decide)]
      obtain ⟨t1, nf1, tp1⟩ := r
      dsimp only at h2
      subst h2
      exact ih (n + 1) t1 nf1 d1 v1 (by omega) h1

/-- With a count of the nodes, `huffman_tree_create` returns 0. -/
theorem create_run (tree : huffman_tree) (c : Nat → Nat) (hN : tree.numcodes ≤ 16383)
    (hlen : tree.lengths.length = tree.numcodes)
    (hpc : prefix_code tree.numcodes (fun s => tree.lengths.getD s 0) c)
    (S : Nat → Nat → Prop) (rank : Nat → Nat → Nat) (B : Nat)
    (hc : node_cert tree.numcodes (fun s => tree.lengths.getD s 0) c S rank B)
    (hcode : ∀ s, s < tree.numcodes → tree.lengths.getD s 0 ≠ 0 →
      tree.tree1d.getD s 0 % 2 ^ tree.lengths.getD s 0 = c s)
    (h1d : tree.tree1d.length = tree.numcodes) :
    ∃ t, huffman_tree_create tree = .ret (t, 0) := by
  have hB := hc.bound
  obtain ⟨r, hr⟩ := create_codes_run tree c hN hlen hpc S rank B hc hcode h1d tree.numcodes 0
    _ 0 _ _ (by simp) (trie_inv_init tree.numcodes _ _ (by omega))
  unfold huffman_tree_create
  dsimp only
  rw [hr, ret_bind]
  dsimp only
  rw [if_neg (by decide)]
  exact ⟨_, rfl⟩

/-! ## The fixed code -/

theorem fixed_take_count (s l : Nat) : (fixed_lengths.take s).count l
    = (if l = 8 then min s 144 else 0) + (if l = 9 then min (s - 144) 112 else 0)
      + (if l = 7 then min (s - 256) 24 else 0) + (if l = 8 then min (s - 280) 8 else 0) := by
  unfold fixed_lengths
  simp only [List.take_append_eq_append_take, List.take_replicate, List.count_append,
    List.count_replicate, List.length_append, List.length_replicate, beq_iff_eq]
  have e1 : s - (144 + 112) = s - 256 := by omega
  have e2 : s - (144 + 112 + 24) = s - 280 := by omega
  rw [e1, e2]
  by_cases h7 : l = 7
  · subst h7; simp
  by_cases h8 : l = 8
  · subst h8; simp
  by_cases h9 : l = 9
  · subst h9; simp
  simp [h7, h8, h9, Ne.symm h7, Ne.symm h8, Ne.symm h9]

theorem fixed_lengths_length : fixed_lengths.length = 288 := by
  unfold fixed_lengths
  simp only [List.length_append, List.length_replicate]

theorem fixed_getD (s : Nat) (hs : s < 288) : fixed_lengths.getD s 0 = fixed_len s := by
  unfold fixed_lengths fixed_len
  simp only [List.getD_eq_getElem?_getD, List.getElem?_append, List.getElem?_replicate,
    List.length_append, List.length_replicate]
  split_ifs <;> first | rfl | omega

theorem fixed_count (l : Nat) : fixed_lengths.count l
    = (if l = 8 then 152 else 0) + (if l = 9 then 112 else 0) + (if l = 7 then 24 else 0) := by
  have := fixed_take_count 288 l
  rw [List.take_of_length_le (by rw [fixed_lengths_length])] at this
  rw [this]
  split_ifs <;> simp

theorem fixed_next_code : next_code fixed_lengths 7 = 0 ∧ next_code fixed_lengths 8 = 48 ∧
    next_code fixed_lengths 9 = 400 := by
  simp [next_code, fixed_count]

/-- The canonical code of the lengths of `generate_fixed_tree` is the fixed code of
RFC 1951. -/
theorem fixed_canonical (s : Nat) (hs : s < 288) :
    canonical_code fixed_lengths s = fixed_code s := by
  unfold canonical_code
  rw [fixed_getD s hs, fixed_take_count]
  unfold fixed_len fixed_code
  obtain ⟨h7, h8, h9⟩ := fixed_next_code
  split_ifs <;> simp only [h7, h8, h9] <;> omega

theorem fixed_lengths_le : ∀ l ∈ fixed_lengths, l ≤ 15 := by
  intro l hl
  unfold fixed_lengths at hl
  simp only [List.mem_append, List.mem_replicate] at hl
  omega

theorem fixed_not_oversubscribed : ¬ oversubscribed 15 fixed_lengths := by
  unfold oversubscribed kraft_weight fixed_lengths
  simp only [List.map_append, List.map_replicate, List.sum_append, List.sum_replicate]
  norm_num

theorem fixed_prefix_code :
    prefix_code 288 (fun s => fixed_lengths.getD s 0) (canonical_code fixed_lengths) := by
  have := canonical_prefix_code fixed_lengths 15 fixed_lengths_le fixed_not_oversubscribed
  rw [fixed_lengths_length] at this
  exact this

theorem two_pow_bounds (d : Nat) (h1 : 1 ≤ d) (h6 : d ≤ 6) : 2 ≤ 2 ^ d ∧ 2 ^ d ≤ 64 := by
  constructor
  · calc 2 = 2 ^ 1 := rfl
      _ ≤ 2 ^ d := Nat.pow_le_pow_right (by decide) h1
  · calc 2 ^ d ≤ 2 ^ 6 := Nat.pow_le_pow_right (by decide) h6
      _ = 64 := rfl

theorem two_pow_step (d d1 : Nat) (h : d < d1) : 2 * 2 ^ d ≤ 2 ^ d1 := by
  calc 2 * 2 ^ d = 2 ^ (d + 1) := by rw [Nat.pow_succ, Nat.mul_comm]
    _ ≤ 2 ^ d1 := Nat.pow_le_pow_right (by decide) h

theorem prefix_lt (x len d : Nat) (hx : x < 2 ^ len) (hd : d ≤ len) :
    x / 2 ^ (len - d) < 2 ^ d := by
  rw [Nat.div_lt_iff_lt_mul (Nat.pow_pos (by decide)), ← Nat.pow_add,
    show d + (len - d) = len by omega]
  exact hx

/-- The fixed code needs 286 nodes besides the root. -/
theorem fixed_node_cert :
    node_cert 288 (fun s => fixed_lengths.getD s 0) (canonical_code fixed_lengths)
      fixed_node fixed_rank 286 where
  bound := by decide
  pre := by
    intro s d hs hs0 hd0 hdL
    have hlt := prefix_lt _ _ d (fixed_prefix_code.fits s hs hs0) (Nat.le_of_lt hdL)
    rw [fixed_getD s hs] at hdL hlt ⊢
    rw [fixed_canonical s hs] at hlt ⊢
    unfold fixed_node
    by_cases hd6 : d ≤ 6
    · exact Or.inl ⟨hd0, hd6, hlt⟩
    · unfold fixed_len at hdL hlt ⊢
      unfold fixed_code at hlt ⊢
      by_cases hd7 : d = 7
      · subst hd7
        refine Or.inr (Or.inl ⟨rfl, ?_⟩)
        split_ifs at hdL hlt ⊢
        · norm_num at hlt ⊢; omega
        · norm_num at hlt ⊢; omega
        · omega
        · norm_num at hlt ⊢; omega
      · have hd8 : d = 8 := by split_ifs at hdL <;> omega
        subst hd8
        refine Or.inr (Or.inr ⟨rfl, ?_⟩)
        split_ifs at hdL hlt ⊢
        · omega
        · norm_num at hlt ⊢; omega
        · omega
        · omega
  range := by
    intro d v h
    unfold fixed_node at h
    unfold fixed_rank
    rcases h with ⟨h1, h2, h3⟩ | ⟨h1, h2, h3⟩ | ⟨h1, h2, h3⟩
    · have := two_pow_bounds d h1 h2
      rw [if_pos h2]; omega
    · rw [if_neg (by omega), if_pos h1]; omega
    · rw [if_neg (by omega), if_neg (by omega)]; omega
  inj := by
    intro d v d1 v1 h h1 e
    unfold fixed_node at h h1
    unfold fixed_rank at e
    rcases h with ⟨g1, g2, g3⟩ | ⟨g1, g2, g3⟩ | ⟨g1, g2, g3⟩ <;>
      rcases h1 with ⟨f1, f2, f3⟩ | ⟨f1, f2, f3⟩ | ⟨f1, f2, f3⟩
    · rw [if_pos g2, if_pos f2] at e
      have := two_pow_bounds d g1 g2
      have := two_pow_bounds d1 f1 f2
      rcases Nat.lt_trichotomy d d1 with hlt | heq | hgt
      · have := two_pow_step d d1 hlt; omega
      · subst heq; omega
      · have := two_pow_step d1 d hgt; omega
    · rw [if_pos g2, if_neg (by omega), if_pos f1] at e
      have := two_pow_bounds d g1 g2
      omega
    · rw [if_pos g2, if_neg (by omega), if_neg (by omega)] at e
      have := two_pow_bounds d g1 g2
      omega
    · rw [if_neg (by omega), if_pos g1, if_pos f2] at e
      have := two_pow_bounds d1 f1 f2
      omega
    · rw [if_neg (by omega), if_pos g1, if_neg (by omega), if_pos f1] at e
      omega
    · rw [if_neg (by omega), if_pos g1, if_neg (by omega), if_neg (by omega)] at e
      omega
    · rw [if_neg (by omega), if_neg (by omega), if_pos f2] at e
      have := two_pow_bounds d1 f1 f2
      omega
    · rw [if_neg (by omega), if_neg (by omega), if_neg (by omega), if_pos f1] at e
      omega
    · rw [if_neg (by omega), if_neg (by omega), if_neg (by omega), if_neg (by omega)] at e
      omega

/-- The function `generate_fixed_tree` returns 0 with a table. -/
theorem fixed_tree_created (tree0 : huffman_tree) :
    ∃ t, huffman_tree_create_lengths tree0 fixed_lengths 288 15 = .ret (t, 0) := by
  unfold huffman_tree_create_lengths
  rw [if_neg (by rw [fixed_lengths_length]; omega),
    List.take_of_length_le (by rw [fixed_lengths_length]), Nat.mod_eq_of_lt (by norm_num)]
  obtain ⟨tree1d, h1, h2, h3⟩ := create_lengths2_codes
    { tree0 with lengths := fixed_lengths, numcodes := 288, maxbitlen := 15 }
    (by show 15 ≤ 32; omega) fixed_lengths_length.symm
    (by show fixed_lengths.length < 2 ^ 32; rw [fixed_lengths_length]; norm_num)
    fixed_lengths_le
  dsimp only at h1 h2 h3
  rw [h1]
  have hcode : ∀ x, x < 288 → fixed_lengths.getD x 0 ≠ 0 →
      tree1d.getD x 0 % 2 ^ fixed_lengths.getD x 0 = canonical_code fixed_lengths x := by
    intro x hx hx0
    rw [h3 x (by rw [fixed_lengths_length]; exact hx) hx0]
    exact Nat.mod_eq_of_lt (fixed_prefix_code.fits x hx hx0)
  exact create_run
    { tree2d := tree0.tree2d, tree1d := tree1d, lengths := fixed_lengths, maxbitlen := 15,
      numcodes := 288 }
    (canonical_code fixed_lengths) (by show 288 ≤ 16383; omega) fixed_lengths_length
    fixed_prefix_code fixed_node fixed_rank 286 fixed_node_cert hcode
    (by rw [h2, fixed_lengths_length])

/-! ## Bits packed into bytes -/

theorem pack_bit (b0 b1 b2 b3 b4 b5 b6 b7 r : Nat) (h0 : b0 < 2) (h1 : b1 < 2) (h2 : b2 < 2)
    (h3 : b3 < 2) (h4 : b4 < 2) (h5 : b5 < 2) (h6 : b6 < 2) (h7 : b7 < 2) (hr : r < 8) :
    (b0 + 2 * b1 + 4 * b2 + 8 * b3 + 16 * b4 + 32 * b5 + 64 * b6 + 128 * b7) / 2 ^ r % 2
      = [b0, b1, b2, b3, b4, b5, b6, b7].getD r 0 := by
  interval_cases r <;> norm_num <;> omega

theorem pack_bits_length (bits : List Nat) :
    (pack_bits bits).length = (bits.length + 7) / 8 := by
  unfold pack_bits
  rw [List.length_map, List.length_range]

/-- The function `read_bit` finds the bits of a packed sequence in their order. -/
theorem read_bit_pack (bits : List Nat) (hb : ∀ i, bits.getD i 0 < 2) (p : Nat)
    (hp : p < bits.length) : read_bit p (pack_bits bits) = .ret (bits.getD p 0, p + 1) := by
  have hj : p / 8 < (pack_bits bits).length := by rw [pack_bits_length]; omega
  unfold read_bit
  rw [shr_three, load_eq _ _ hj, ret_bind, and_seven]
  have hval : ((pack_bits bits)[p / 8]).val
      = bits.getD (8 * (p / 8)) 0 + 2 * bits.getD (8 * (p / 8) + 1) 0
        + 4 * bits.getD (8 * (p / 8) + 2) 0 + 8 * bits.getD (8 * (p / 8) + 3) 0
        + 16 * bits.getD (8 * (p / 8) + 4) 0 + 32 * bits.getD (8 * (p / 8) + 5) 0
        + 64 * bits.getD (8 * (p / 8) + 6) 0 + 128 * bits.getD (8 * (p / 8) + 7) 0 := by
    unfold pack_bits
    rw [List.getElem_map, List.getElem_range, toByte_val_eq]
    have := hb (8 * (p / 8))
    have := hb (8 * (p / 8) + 1)
    have := hb (8 * (p / 8) + 2)
    have := hb (8 * (p / 8) + 3)
    have := hb (8 * (p / 8) + 4)
    have := hb (8 * (p / 8) + 5)
    have := hb (8 * (p / 8) + 6)
    have := hb (8 * (p / 8) + 7)
    omega
  rw [hval]
  show Exec.ret (_, _) = _
  rw [Nat.and_one_is_mod, Nat.shiftRight_eq_div_pow, pack_bit _ _ _ _ _ _ _ _ _ (hb _) (hb _)
    (hb _) (hb _) (hb _) (hb _) (hb _) (hb _) (Nat.mod_lt _ (by decide))]
  have hr : p % 8 < 8 := Nat.mod_lt _ (by decide)
  have hp8 : 8 * (p / 8) + p % 8 = p := Nat.div_add_mod p 8
  congr 2
  clear hval hj
  generalize p % 8 = r at hr hp8
  generalize p / 8 = j at hp8
  subst hp8
  interval_cases r <;> rfl

theorem msb_bits_length (n v : Nat) : (msb_bits n v).length = n := by
  unfold msb_bits
  rw [List.length_map, List.length_range]

theorem msb_bits_getD (n v i : Nat) (hi : i < n) :
    (msb_bits n v).getD i 0 = v / 2 ^ (n - i - 1) % 2 := by
  unfold msb_bits
  rw [List.getD_eq_getElem _ _ (by rw [List.length_map, List.length_range]; exact hi),
    List.getElem_map, List.getElem_range]

theorem msb_bits_lt (n v x : Nat) (hx : x ∈ msb_bits n v) : x < 2 := by
  unfold msb_bits at hx
  obtain ⟨i, _, rfl⟩ := List.mem_map.mp hx
  exact Nat.mod_lt _ (by decide)

theorem fixed_literal_bits_lt (b x : Nat) (hx : x ∈ fixed_literal_bits b) : x < 2 := by
  unfold fixed_literal_bits at hx
  split_ifs at hx <;> exact msb_bits_lt _ _ _ hx

theorem fixed_literals_bits_lt (D : List Byte) : ∀ x ∈ fixed_literals_bits D, x < 2 := by
  induction D with
  | nil =>
    intro x hx
    unfold fixed_literals_bits at hx
    rw [List.mem_replicate] at hx
    omega
  | cons b D ih =>
    intro x hx
    unfold fixed_literals_bits at hx
    rcases List.mem_append.mp hx with h | h
    · exact fixed_literal_bits_lt _ _ h
    · exact ih x h

theorem getD_lt_of_all (l : List Nat) (h : ∀ x ∈ l, x < 2) (i : Nat) : l.getD i 0 < 2 := by
  by_cases hi : i < l.length
  · rw [List.getD_eq_getElem _ _ hi]; exact h _ (List.getElem_mem _)
  · rw [List.getD_eq_default _ _ (by omega)]; decide

/-! ## A block of literals in the fixed code -/

/-- A table of `generate_fixed_tree` decodes the fixed code of RFC 1951. -/
theorem fixed_decode (tree0 t : huffman_tree)
    (hcreate : huffman_tree_create_lengths tree0 fixed_lengths 288 15 = .ret (t, 0))
    (inp : List Byte) (inlength bp s : Nat) (hs : s < 288) (hin : inp.length ≤ inlength + 1)
    (hbits : ∀ i, i < fixed_len s →
      read_bit (bp + i) inp = .ret (fixed_code s / 2 ^ (fixed_len s - i - 1) % 2, bp + i + 1)) :
    huffman_decode_symbol inp bp t inlength = .ret (0, s, bp + fixed_len s) := by
  have htake : fixed_lengths.take 288 = fixed_lengths :=
    List.take_of_length_le (by rw [fixed_lengths_length])
  have hL := fixed_getD s hs
  have hL0 : fixed_len s ≠ 0 := by unfold fixed_len; split_ifs <;> decide
  have := decode_symbol_created tree0 fixed_lengths 288 15 t inp inlength bp s (by decide)
    (by decide) (by rw [htake]; exact fixed_lengths_le)
    (by rw [htake]; exact fixed_not_oversubscribed) hcreate hs (by rw [hL]; exact hL0) hin
    (fun i hi => by
      rw [hL] at hi
      rw [hbits i hi, htake]
      unfold code_bit
      rw [Nat.and_one_is_mod, Nat.shiftRight_eq_div_pow, hL, fixed_canonical s hs])
  rw [hL] at this
  exact this

theorem getD_append_mid (pre code post : List Nat) (i : Nat) (hi : i < code.length) :
    (pre ++ (code ++ post)).getD (pre.length + i) 0 = code.getD i 0 := by
  rw [List.getD_eq_getElem?_getD, List.getD_eq_getElem?_getD,
    List.getElem?_append_right (by omega), Nat.add_sub_cancel_left,
    List.getElem?_append_left hi]

/-- The bits of a code that stands in a packed sequence, as `read_bit` finds them. -/
theorem read_bit_mid (pre code post : List Nat) (hpre : ∀ x ∈ pre, x < 2)
    (hcode : ∀ x ∈ code, x < 2) (hpost : ∀ x ∈ post, x < 2) (i : Nat) (hi : i < code.length) :
    read_bit (pre.length + i) (pack_bits (pre ++ (code ++ post)))
      = .ret (code.getD i 0, pre.length + i + 1) := by
  rw [read_bit_pack _ (getD_lt_of_all _ (by
      intro x hx
      rcases List.mem_append.mp hx with h | h
      · exact hpre x h
      · rcases List.mem_append.mp h with h1 | h1
        · exact hcode x h1
        · exact hpost x h1)) _ (by
      rw [List.length_append, List.length_append]; omega),
    getD_append_mid _ _ _ _ hi]

theorem fixed_literal_bits_length (b : Nat) (hb : b < 256) :
    (fixed_literal_bits b).length = fixed_len b := by
  unfold fixed_literal_bits fixed_len
  split_ifs <;> first | omega | rw [msb_bits_length]

theorem fixed_literal_bits_getD (b i : Nat) (hb : b < 256) (hi : i < fixed_len b) :
    (fixed_literal_bits b).getD i 0 = fixed_code b / 2 ^ (fixed_len b - i - 1) % 2 := by
  unfold fixed_literal_bits fixed_len fixed_code
  unfold fixed_len at hi
  by_cases h : b ≤ 143
  · rw [if_pos h, if_pos (by omega), if_pos (by omega)]
    rw [if_pos (by omega)] at hi
    rw [msb_bits_getD _ _ _ hi]
  · rw [if_neg h, if_neg (by omega), if_pos (by omega), if_neg (by omega), if_pos (by omega)]
    rw [if_neg (by omega), if_pos (by omega)] at hi
    rw [msb_bits_getD _ _ _ hi]

theorem resize_store_size (out : ucvector) (pos : Nat) :
    ¬ pos ≥ (if pos ≥ out.size then ucvector_resize out ((pos + 1) * 2) else out).size := by
  by_cases h : pos ≥ out.size
  · rw [if_pos h, resize_size]; omega
  · rw [if_neg h]; exact h

theorem resize_store_data (out : ucvector) (pos : Nat) :
    (if pos ≥ out.size then ucvector_resize out ((pos + 1) * 2) else out).data = out.data := by
  by_cases h : pos ≥ out.size
  · rw [if_pos h, resize_data]
  · rw [if_neg h]

theorem store_run_data (d : List Byte) (pos : Nat) (b : Byte) (D : List Byte)
    (hpos : pos ≤ d.length) :
    (d.take pos ++ b :: d.drop (pos + 1)).take (pos + 1) ++ D
        ++ (d.take pos ++ b :: d.drop (pos + 1)).drop (pos + 1 + D.length)
      = d.take pos ++ b :: D ++ d.drop (pos + (D.length + 1)) := by
  have hl : (d.take pos).length = pos := by rw [List.length_take]; omega
  have e1 : d.take pos ++ b :: d.drop (pos + 1) = (d.take pos ++ [b]) ++ d.drop (pos + 1) := by
    simp
  have hl1 : (d.take pos ++ [b]).length = pos + 1 := by
    rw [List.length_append, hl]; rfl
  have e2 : ((d.take pos ++ [b]) ++ d.drop (pos + 1)).drop (pos + 1 + D.length)
      = d.drop (pos + (D.length + 1)) := by
    rw [show pos + 1 + D.length = (d.take pos ++ [b]).length + D.length by rw [hl1],
      List.drop_append, List.drop_drop]
    congr 1
    omega
  rw [e1, List.take_left' hl1, e2]
  simp

/-- The loop of `inflate_huffman` on the codes of the bytes `D` and the end of the block,
with a table of `generate_fixed_tree`: the bytes are written at `pos` and after. -/
theorem fixed_loop (tree0 t tD : huffman_tree)
    (hcreate : huffman_tree_create_lengths tree0 fixed_lengths 288 15 = .ret (t, 0))
    (inlength : Nat) :
    ∀ (D : List Byte) (pre : List Nat) (out : ucvector) (pos fuel : Nat),
      (∀ x ∈ pre, x < 2) →
      (pack_bits (pre ++ fixed_literals_bits D)).length ≤ inlength + 1 →
      pos ≤ out.data.length → D.length + 1 ≤ fuel →
      ∃ out1 bp1,
        inflate_huffman_loop (pack_bits (pre ++ fixed_literals_bits D)) inlength t tD fuel out
            pre.length pos = .ret (0, out1, bp1, pos + D.length) ∧
        out1.data = out.data.take pos ++ D ++ out.data.drop (pos + D.length) := by
  intro D
  induction D with
  | nil =>
    intro pre out pos fuel hpre hin hpos hfuel
    obtain ⟨f, rfl⟩ : ∃ f, fuel = f + 1 := ⟨fuel - 1, by omega⟩
    have hdec := fixed_decode tree0 t hcreate (pack_bits (pre ++ fixed_literals_bits []))
      inlength pre.length 256 (by decide) hin (fun i hi => by
        have h7 : fixed_len 256 = 7 := by decide
        rw [h7] at hi
        have := read_bit_mid pre (List.replicate 7 0) [] hpre
          (fun x hx => by rw [List.mem_replicate] at hx; omega)
          (fun x hx => by simp at hx) i (by rw [List.length_replicate]; exact hi)
        rw [List.append_nil] at this
        unfold fixed_literals_bits
        rw [this]
        have e0 : fixed_code 256 = 0 := by decide
        rw [e0, Nat.zero_div, List.getD_eq_getElem _ _ (by rw [List.length_replicate]; exact hi),
          List.getElem_replicate])
    unfold inflate_huffman_loop
    rw [hdec, ret_bind]
    dsimp only
    rw [if_neg (by decide), if_pos rfl]
    refine ⟨out, _, rfl, ?_⟩
    simp
  | cons b D ih =>
    intro pre out pos fuel hpre hin hpos hfuel
    obtain ⟨f, rfl⟩ : ∃ f, fuel = f + 1 := ⟨fuel - 1, by omega⟩
    have hb : b.val < 256 := b.isLt
    have hdec := fixed_decode tree0 t hcreate (pack_bits (pre ++ fixed_literals_bits (b :: D)))
      inlength pre.length b.val (by omega) hin (fun i hi => by
        unfold fixed_literals_bits
        rw [read_bit_mid pre (fixed_literal_bits b.val) (fixed_literals_bits D) hpre
          (fun x hx => fixed_literal_bits_lt _ _ hx) (fixed_literals_bits_lt D) i
          (by rw [fixed_literal_bits_length _ hb]; exact hi),
          fixed_literal_bits_getD _ _ hb hi])
    have hform : pre ++ fixed_literals_bits (b :: D)
        = (pre ++ fixed_literal_bits b.val) ++ fixed_literals_bits D := by
      rw [List.append_assoc]; rfl
    have hstore := store_eq
      (if pos ≥ out.size then ucvector_resize out ((pos + 1) * 2) else out).data pos b
      (by rw [resize_store_data]; exact hpos)
    rw [resize_store_data] at hstore
    obtain ⟨out1, bp1, hrun, hdata⟩ := ih (pre ++ fixed_literal_bits b.val)
      { (if pos ≥ out.size then ucvector_resize out ((pos + 1) * 2) else out) with
        data := out.data.take pos ++ b :: out.data.drop (pos + 1) }
      (pos + 1) f
      (fun x hx => by
        rcases List.mem_append.mp hx with h | h
        · exact hpre x h
        · exact fixed_literal_bits_lt _ _ h)
      (by rw [← hform]; exact hin)
      (by
        show pos + 1 ≤ (out.data.take pos ++ b :: out.data.drop (pos + 1)).length
        rw [List.length_append, List.length_take, List.length_cons]; omega)
      (by rw [List.length_cons] at hfuel; omega)
    rw [← hform, List.length_append, fixed_literal_bits_length _ hb] at hrun
    unfold inflate_huffman_loop
    rw [hdec, ret_bind]
    dsimp only
    rw [if_neg (by decide), if_neg (by omega), if_pos (by omega),
      if_neg (resize_store_size out pos), toByte_val, resize_store_data, hstore, ret_bind]
    refine ⟨out1, bp1, ?_, ?_⟩
    · rw [hrun, List.length_cons, Nat.add_assoc, Nat.add_comm 1]
    · rw [hdata]
      show (out.data.take pos ++ b :: out.data.drop (pos + 1)).take (pos + 1) ++ D
          ++ (out.data.take pos ++ b :: out.data.drop (pos + 1)).drop (pos + 1 + D.length) = _
      rw [store_run_data _ _ _ _ hpos, List.length_cons]

theorem fixed_literals_bits_length (D : List Byte) :
    D.length ≤ (fixed_literals_bits D).length := by
  induction D with
  | nil => exact Nat.zero_le _
  | cons b D ih =>
    unfold fixed_literals_bits
    rw [List.length_append, List.length_cons, fixed_literal_bits_length _ b.isLt]
    have : 7 ≤ fixed_len b.val := by unfold fixed_len; split_ifs <;> decide
    omega

set_option maxRecDepth 100000 in
/-- The table of the 32 distance codes of length 5 is built without error. -/
theorem distance_tree_created :
    ∃ t, huffman_tree_create_lengths huffman_tree_init (List.replicate 32 5) 32 15
      = .ret (t, 0) := ⟨_, by rfl⟩

/-- The function `generate_distance_tree` returns. -/
theorem distance_tree_returns :
    ∃ r, generate_distance_tree huffman_tree_init = .ret r := by
  obtain ⟨t, ht⟩ := distance_tree_created
  exact ⟨(t, 0), ht⟩

/-- The function `inflate_huffman` on a block of literals in the fixed code. -/
theorem inflate_huffman_fixed (D : List Byte) (out : ucvector) (inlength : Nat)
    (hin : (pack_bits ([1, 1, 0] ++ fixed_literals_bits D)).length ≤ inlength + 1) :
    ∃ out1 bp1,
      inflate_huffman out (pack_bits ([1, 1, 0] ++ fixed_literals_bits D)) 3 0 inlength 1
        = .ret (0, out1, bp1, D.length) ∧
      out1.data = D ++ out.data.drop D.length := by
  obtain ⟨t, ht⟩ := fixed_tree_created huffman_tree_init
  obtain ⟨rD, hD⟩ := distance_tree_returns
  have hgen : generate_fixed_tree huffman_tree_init = .ret (t, 0) := ht
  obtain ⟨out1, bp1, hrun, hdata⟩ := fixed_loop huffman_tree_init t rD.1 ht inlength D
    [1, 1, 0] out 0 (8 * (pack_bits ([1, 1, 0] ++ fixed_literals_bits D)).length + 1)
    (by decide) hin (Nat.zero_le _) (by
      have := fixed_literals_bits_length D
      rw [pack_bits_length, List.length_append]
      have : ([1, 1, 0] : List Nat).length = 3 := rfl
      omega)
  refine ⟨out1, bp1, ?_, ?_⟩
  · unfold inflate_huffman get_tree_inflate_fixed
    rw [if_pos rfl, hgen, ret_bind]
    dsimp only
    rw [hD, ret_bind]
    simp only [pure_eq_ret, ret_bind]
    rw [if_neg (by decide)]
    rw [Nat.zero_add] at hrun
    exact hrun
  · rw [hdata, List.take_zero, List.nil_append, Nat.zero_add]

/-- Inflating the zlib stream of one final block of literals in the fixed code: the output
receives the bytes and its size is their number. -/
theorem inflate_fixed (D o : List Byte) (osize : Nat) :
    uzlib_decompress o osize (fixed_zlib D) (fixed_zlib D).length
      = .ret (0, D ++ o.drop D.length, D.length) := by
  have hbits : ∀ i, ([1, 1, 0] ++ fixed_literals_bits D).getD i 0 < 2 :=
    getD_lt_of_all _ (by
      intro x hx
      rcases List.mem_append.mp hx with h | h
      · simp only [List.mem_cons, List.mem_singleton, List.mem_nil_iff, or_false] at h
        omega
      · exact fixed_literals_bits_lt D x h)
  have hlen : 3 < ([1, 1, 0] ++ fixed_literals_bits D).length := by
    rw [List.length_append]
    have : 7 ≤ (fixed_literals_bits D).length := by
      cases D with
      | nil => exact Nat.le_refl _
      | cons b D =>
        unfold fixed_literals_bits
        rw [List.length_append, fixed_literal_bits_length _ b.isLt]
        have : 7 ≤ fixed_len b.val := by unfold fixed_len; split_ifs <;> decide
        omega
    have : ([1, 1, 0] : List Nat).length = 3 := rfl
    omega
  have hz : (fixed_zlib D).length
      = (pack_bits ([1, 1, 0] ++ fixed_literals_bits D)).length + 2 := by
    unfold fixed_zlib
    rw [List.length_append]
    show 2 + _ = _
    omega
  have hP : 1 ≤ (pack_bits ([1, 1, 0] ++ fixed_literals_bits D)).length := by
    rw [pack_bits_length]; omega
  have h0 : load (fixed_zlib D) 0 = .ret 120 := by
    simp [fixed_zlib, load]
    rfl
  have h1 : load (fixed_zlib D) 1 = .ret 1 := by simp [fixed_zlib, load]
  have hr0 : read_bit 0 (pack_bits ([1, 1, 0] ++ fixed_literals_bits D)) = .ret (1, 1) :=
    read_bit_pack _ hbits 0 (by omega)
  have hr1 : read_bit 1 (pack_bits ([1, 1, 0] ++ fixed_literals_bits D)) = .ret (1, 2) :=
    read_bit_pack _ hbits 1 (by omega)
  have hr2 : read_bit 2 (pack_bits ([1, 1, 0] ++ fixed_literals_bits D)) = .ret (0, 3) :=
    read_bit_pack _ hbits 2 (by omega)
  obtain ⟨out1, bp1, hrun, hdata⟩ := inflate_huffman_fixed D (ucvector_init_buffer o osize)
    (fixed_zlib D).length (by rw [hz]; omega)
  unfold uzlib_decompress
  rw [if_neg (by omega), h0, ret_bind, h1, ret_bind]
  rw [if_neg (by decide)]
  dsimp only
  rw [if_neg (by decide), if_neg (by decide)]
  unfold uz_inflate
  rw [show (fixed_zlib D).drop 2 = pack_bits ([1, 1, 0] ++ fixed_literals_bits D) from rfl]
  rw [uz_inflate_loop, if_neg (by rw [Nat.zero_shiftRight]; omega), hr0, ret_bind]
  dsimp only
  rw [hr1, ret_bind]
  dsimp only
  rw [hr2, ret_bind]
  dsimp only
  rw [if_neg (by decide), if_neg (by decide), hrun, ret_bind]
  dsimp only
  rw [if_neg (by decide), if_pos (by decide)]
  simp only [pure_eq_ret, ret_bind, resize_data, resize_size, hdata, ucvector_init_buffer]

/-- The stream of the single byte 61 ("a") is the one that zlib writes for it, without
the checksum. -/
theorem fixed_zlib_example : fixed_zlib [0x61] = [0x78, 0x01, 0x4B, 0x04, 0x00] := by
  decide

/-- C14 (fixed-Huffman literal round trip): for every byte sequence `D`,
`uzlib_decompress` applied to the bytes 78 01 followed by the packed bits of BFINAL = 1,
BTYPE = 1, the fixed code of every byte of `D` and the 7-bit code of the end of the
block returns error 0, and the output is `D`: the output size is the length of `D` and
the first bytes of the output buffer are those of `D`. -/
theorem C14_fixed_literal_round_trip (D o : List Byte) (osize : Nat) :
    ∃ data, uzlib_decompress o osize (fixed_zlib D) (fixed_zlib D).length
        = .ret (0, data, D.length) ∧
      data.take D.length = D :=
  ⟨D ++ o.drop D.length, inflate_fixed D o osize, List.take_left' rfl⟩

/-! ## The Paeth predictor and the reference recurrence -/

/-- C22 (Paeth predictor): for all integers `a`, `b`, `c` (those in 0..255 among them,
for which the `int` arithmetic of the source stays far from overflow) and `p = a + b - c`,
`paeth_predictor a b c` is one of `a`, `b`, `c`, its distance to `p` is the least of
the three distances `|p - a|`, `|p - b|`, `|p - c|`, and it is `a` whenever `a` attains
that least distance, otherwise `b` whenever `b` attains it, otherwise `c`. -/
theorem C22_paeth_predictor (a b c : Int) :
    (paeth_predictor a b c = a ∨ paeth_predictor a b c = b ∨ paeth_predictor a b c = c) ∧
    |a + b - c - paeth_predictor a b c|
      = min (min |a + b - c - a| |a + b - c - b|) |a + b - c - c| ∧
    (|a + b - c - a| = min (min |a + b - c - a| |a + b - c - b|) |a + b - c - c| →
      paeth_predictor a b c = a) ∧
    (|a + b - c - a| ≠ min (min |a + b - c - a| |a + b - c - b|) |a + b - c - c| →
      |a + b - c - b| = min (min |a + b - c - a| |a + b - c - b|) |a + b - c - c| →
      paeth_predictor a b c = b) ∧
    (|a + b - c - a| ≠ min (min |a + b - c - a| |a + b - c - b|) |a + b - c - c| →
      |a + b - c - b| ≠ min (min |a + b - c - a| |a + b - c - b|) |a + b - c - c| →
      paeth_predictor a b c = c) := by
  rw [paeth_predictor_eq]
  unfold paeth_ref
  by_cases h1 : |a + b - c - a| ≤ |a + b - c - b| ∧ |a + b - c - a| ≤ |a + b - c - c|
  · rw [if_pos h1]
    obtain ⟨h2, h3⟩ := h1
    have hm : min (min |a + b - c - a| |a + b - c - b|) |a + b - c - c| = |a + b - c - a| := by
      rw [min_eq_left h2, min_eq_left h3]
    rw [hm]
    exact ⟨Or.inl rfl, rfl, fun _ => rfl, fun h => absurd rfl h, fun h => absurd rfl h⟩
  · rw [if_neg h1]
    by_cases h2 : |a + b - c - b| ≤ |a + b - c - c|
    · rw [if_pos h2]
      have h3 : |a + b - c - b| < |a + b - c - a| := by
        by_contra hcon
        exact h1 ⟨not_lt.mp hcon, le_trans (not_lt.mp hcon) h2⟩
      have hm : min (min |a + b - c - a| |a + b - c - b|) |a + b - c - c|
          = |a + b - c - b| := by
        rw [min_eq_right (le_of_lt h3), min_eq_left h2]
      rw [hm]
      exact ⟨Or.inr (Or.inl rfl), rfl, fun h => absurd h (ne_of_gt h3), fun _ _ => rfl,
        fun _ h => absurd rfl h⟩
    · rw [if_neg h2]
      have h3 : |a + b - c - c| < |a + b - c - b| := not_le.mp h2
      have h4 : |a + b - c - c| < |a + b - c - a| := by
        by_contra hcon
        exact h1 ⟨le_trans (not_lt.mp hcon) (le_of_lt h3), not_lt.mp hcon⟩
      have hm : min (min |a + b - c - a| |a + b - c - b|) |a + b - c - c|
          = |a + b - c - c| := by
        rw [min_eq_right (le_min (le_of_lt h4) (le_of_lt h3))]
      rw [hm]
      exact ⟨Or.inr (Or.inr rfl), rfl, fun h => absurd h (ne_of_gt h4),
        fun _ h => absurd h (ne_of_gt h3), fun _ _ => rfl⟩

/-- The predictor of 10, 20 and 5: `p = 25` is nearest to 20. -/
theorem paeth_example : paeth_predictor 10 20 5 = 20 := by decide

theorem toByteI_val (z : Int) : ((toByteI z).val : Int) = z % 256 := by
  unfold toByteI toByte
  simp only []
  omega

theorem line_state_getD (m : Mem) (ro : Nat) (R : List Byte) (n j : Nat)
    (hro : ro ≤ m.outb.length) (hn : n ≤ R.length) (hj : j < n) :
    (line_state m ro R n).outb.getD (ro + j) 0 = R.getD j 0 := by
  unfold line_state
  dsimp only
  have hl : (m.outb.take ro).length = ro := by rw [List.length_take]; omega
  rw [List.getD_eq_getElem?_getD, List.getD_eq_getElem?_getD, List.append_assoc,
    List.getElem?_append_right (by rw [hl]; omega), hl, show ro + j - ro = j by omega,
    List.getElem?_append_left (by rw [List.length_take]; omega),
    List.getElem?_take_of_lt hj]

/-- C21 (scanline reconstruction equals the reference recurrence): for every filter type
`f ≤ 4`, every bytewidth `bw ≥ 1`, every scanline of `n ≥ bw` bytes (at offset `so` of the
inflated block) and every previous line (absent, or the `n` bytes at offset `po` of the
output block, before the line that is written), `unfilter_scanline` returns OK, and every
byte `i < n` of the line written at offset `ro` is `(scan[i] + pred) mod 256`, where
`pred` is the predictor of type `f` of `left` (0 for `i < bw`, else `recon[i - bw]`), `up`
(`prev[i]`, or 0 without a previous line) and `upleft` (`prev[i - bw]` with a previous line
and `i ≥ bw`, else 0): 0, `left`, `up`, `floor ((left + up) / 2)` and Paeth. -/
theorem C21_scanline_reconstruction (m : Mem) (ro so : Nat) (pre : Option Nat) (f bw n : Nat)
    (hf : f ≤ 4) (hbw : 1 ≤ bw) (hn : bw ≤ n) (hro : ro + n ≤ m.outb.length)
    (hso : so + n ≤ m.inb.length) (hpre : ∀ po, pre = some po → po + n ≤ ro) :
    ∃ m1, unfilter_scanline m { obj := .outb, off := ro } { obj := .inb, off := so }
        (pre.map (fun po => { obj := .outb, off := po })) bw f n = .ret (m1, UPNG_EOK) ∧
      ∀ i, i < n →
        ((m1.outb.getD (ro + i) 0).val : Int)
          = (((m.inb.getD (so + i) 0).val : Int)
              + predictor f
                  (if i < bw then 0 else ((m1.outb.getD (ro + (i - bw)) 0).val : Int))
                  (pre.elim 0 (fun po => ((m.outb.getD (po + i) 0).val : Int)))
                  (pre.elim 0 (fun po =>
                    if i < bw then 0 else ((m.outb.getD (po + (i - bw)) 0).val : Int))))
              % 256 := by
  have hlen : ((m.inb.drop so).take n).length = n := by
    rw [List.length_take, List.length_drop]; omega
  have hR : (recon_line f bw ((m.inb.drop so).take n)
      (pre.map (fun po => (m.outb.drop po).take n))).length = n := by
    rw [recon_line_length, hlen]
  refine ⟨line_state m ro (recon_line f bw ((m.inb.drop so).take n)
      (pre.map (fun po => (m.outb.drop po).take n))) n, ?_, ?_⟩
  · cases pre with
    | none =>
      rw [Option.map_none', Option.map_none']
      exact unfilter_scanline_none m ro so bw f n hf hbw hn hro hso
    | some po =>
      rw [Option.map_some', Option.map_some']
      exact unfilter_scanline_some m ro so po bw f n hf hbw hn hro hso (hpre po rfl)
  · intro i hi
    rw [line_state_getD m ro _ n i (by omega) (by omega) hi,
      recon_line_get m so pre f bw n i hbw hso hi, toByteI_val]
    have hl : (if i < bw then (0 : Int)
          else (((recon_line f bw ((m.inb.drop so).take n)
            (pre.map (fun po => (m.outb.drop po).take n))).getD (i - bw) 0).val : Int))
        = (if i < bw then 0
          else (((line_state m ro (recon_line f bw ((m.inb.drop so).take n)
            (pre.map (fun po => (m.outb.drop po).take n))) n).outb.getD (ro + (i - bw)) 0).val
              : Int)) := by
      by_cases hb : i < bw
      · rw [if_pos hb, if_pos hb]
      · rw [if_neg hb, if_neg hb,
          line_state_getD m ro _ n (i - bw) (by omega) (by omega) (by omega)]
    rw [hl]
    cases pre <;> rfl

/-- Witness for C21: the Paeth-filtered line of three bytes above the line `05 06 07`. -/
theorem C21_witness :
    ∃ m1, unfilter_scanline paeth_line_mem { obj := .outb, off := 3 } { obj := .inb, off := 1 }
        ((some 0 : Option Nat).map (fun po => { obj := .outb, off := po })) 1 4 3
        = .ret (m1, UPNG_EOK) ∧
      ∀ i, i < 3 →
        ((m1.outb.getD (3 + i) 0).val : Int)
          = (((paeth_line_mem.inb.getD (1 + i) 0).val : Int)
              + predictor 4
                  (if i < 1 then 0 else ((m1.outb.getD (3 + (i - 1)) 0).val : Int))
                  ((some 0 : Option Nat).elim 0
                    (fun po => ((paeth_line_mem.outb.getD (po + i) 0).val : Int)))
                  ((some 0 : Option Nat).elim 0 (fun po =>
                    if i < 1 then 0
                    else ((paeth_line_mem.outb.getD (po + (i - 1)) 0).val : Int))))
              % 256 :=
  C21_scanline_reconstruction paeth_line_mem 3 1 (some 0) 4 1 3 (by decide) (by decide)
    (by decide) (by decide) (by decide) (by intro po h; cases h; decide)

/-! ## Reads and writes outside the buffers -/

/-- C24 at its failing input: on the two bytes `78 01` (a zlib header and nothing else,
`insize = 2`) `uzlib_decompress` does not return an error: `uz_inflate` tests
`bp >> 3 >= insize` with the size of the whole input although its input pointer is
already two bytes further, passes the test and reads the byte at index 2.  The same
happens when the two bytes are the payload of the IDAT chunk of a PNG file. -/
theorem C24_reads_past_the_header (o : List Byte) (osize : Nat) :
    uzlib_decompress o osize [0x78, 0x01] 2 = .fault ∧
    upng_decode upng_new png_header_only_stream = .fault :=
  ⟨by rfl, by rfl⟩

/-- C28 at its failing input: the stream of `png_short_stream` inflates without error to
one byte, the image needs `h * (1 + linebytes) = 4`, and `upng_decode` goes on to read
the scanline byte at index 1 of the inflated data, which the inflator never wrote. -/
theorem C28_short_stream_is_read_past :
    (upng_inspect upng_new png_short_stream).2 = UPNG_EOK ∧
    uzlib_decompress (scanlines_vector (upng_inspect upng_new png_short_stream).1).data
        (scanlines_vector (upng_inspect upng_new png_short_stream).1).size
        [120, 1, 1, 1, 0, 254, 255, 0, 0, 1, 0, 1] 12 = .ret (0, [0], 1) ∧
    (upng_inspect upng_new png_short_stream).1.height
        * (1 + ((upng_inspect upng_new png_short_stream).1.width
            * upng_get_bpp (upng_inspect upng_new png_short_stream).1 + 7) / 8) = 4 ∧
    upng_decode upng_new png_short_stream = .fault :=
  ⟨by rfl, by rfl, by rfl, by rfl⟩

/-- C29 at its failing inputs.  The header of `png_wide_grey` (GREY, depth 8, width
`2 ^ 29`) is accepted and `w * bpp + 7` wraps: `unfilter` computes 7 where the exact
value is `2 ^ 32 + 7`.  The header of `png_square_grey` (GREY, depth 8, width and height
`2 ^ 16`) is accepted and `h * w * bpp + 7` wraps: the output buffer gets size 0 where
the exact size is `2 ^ 32`, and `upng_decode` writes the first byte of the first line at
index 0 of this empty buffer (the load of the scanline byte succeeds, the store is
outside the buffer). -/
theorem C29_size_arithmetic_wraps :
    ((upng_inspect upng_new png_wide_grey).2 = UPNG_EOK ∧
      (((upng_inspect upng_new png_wide_grey).1.width
          * upng_get_bpp (upng_inspect upng_new png_wide_grey).1) % 2 ^ 32 + 7) % 2 ^ 32 = 7 ∧
      (upng_inspect upng_new png_wide_grey).1.width
          * upng_get_bpp (upng_inspect upng_new png_wide_grey).1 + 7 = 2 ^ 32 + 7) ∧
    ((upng_inspect upng_new png_square_grey).2 = UPNG_EOK ∧
      output_size (upng_inspect upng_new png_square_grey).1 = 0 ∧
      ((upng_inspect upng_new png_square_grey).1.height
          * (upng_inspect upng_new png_square_grey).1.width
          * upng_get_bpp (upng_inspect upng_new png_square_grey).1 + 7) / 8 = 2 ^ 32 ∧
      upng_decode upng_new png_square_grey = .fault ∧
      Mem.load { outb := [], inb := [0, 0] } { obj := .inb, off := 1 } 0 = .ret 0 ∧
      Mem.store { outb := [], inb := [0, 0] } { obj := .outb, off := 0 } 0 0 = .fault) :=
  ⟨⟨by rfl, by rfl, by rfl⟩, by rfl, by rfl, by rfl, by rfl, by rfl, by rfl⟩

/-! ## Back-references before the start of the output -/

/-- A round of the loop of `inflate_huffman` that decodes a length and a distance
larger than `pos`: nothing compares the distance with `pos`, `backward = start - distance`
wraps around, and the first byte that is copied is read from outside the output. -/
theorem back_reference_before_start (inp : List Byte) (inlength : Nat)
    (codetree codetreeD : huffman_tree) (fuel : Nat) (out : ucvector)
    (bp pos code bp1 v bp2 codeD bp3 vD bp4 L d : Nat)
    (hsym : huffman_decode_symbol inp bp codetree inlength = .ret (0, code, bp1))
    (hcode : 257 ≤ code ∧ code ≤ 285)
    (hbp1 : (bp1 >>> 3) < inlength)
    (hext : read_bits bp1 inp (LENGTHEXTRA.getD (code - 257) 0) = .ret (v, bp2))
    (hL : L = LENGTHBASE.getD (code - 257) 0 + v)
    (hsymD : huffman_decode_symbol inp bp2 codetreeD inlength = .ret (0, codeD, bp3))
    (hcodeD : codeD ≤ 29)
    (hbp3 : (bp3 >>> 3) < inlength)
    (hextD : read_bits bp3 inp (DISTANCEEXTRA.getD codeD 0) = .ret (vD, bp4))
    (hd : d = (DISTANCEBASE.getD codeD 0 + vD) % 2 ^ 32)
    (hdpos : pos < d) (hlen : out.data.length + 2 ^ 32 ≤ 2 ^ 64) :
    inflate_huffman_loop inp inlength codetree codetreeD (fuel + 1) out bp pos = .fault := by
  have hc29 : code - 257 < 29 := by omega
  have hL3 : 3 ≤ L := by
    have := lengthbase_ge ⟨code - 257, hc29⟩
    rw [hL]; exact Nat.le_trans this (Nat.le_add_right _ _)
  have hd32 : d < 2 ^ 32 := by rw [hd]; exact Nat.mod_lt _ (by norm_num)
  have hdata : (if pos + L ≥ out.size then ucvector_resize out ((pos + L) * 2) else out).data
      = out.data := ite_resize_data _ _ _
  have hsize : ¬ pos + L ≥
      (if pos + L ≥ out.size then ucvector_resize out ((pos + L) * 2) else out).size := by
    by_cases hc : pos + L ≥ out.size
    · rw [if_pos hc, resize_size]; omega
    · rw [if_neg hc]; exact hc
  rw [inflate_huffman_loop, hsym, ret_bind]
  dsimp only
  rw [if_neg (by decide), if_neg (by omega), if_neg (by omega),
    if_pos ⟨by unfold FIRST_LENGTH_CODE_INDEX; omega, by unfold LAST_LENGTH_CODE_INDEX; omega⟩]
  rw [show code - FIRST_LENGTH_CODE_INDEX = code - 257 from rfl]
  rw [loadw_getD LENGTHBASE _ hc29, ret_bind, loadw_getD LENGTHEXTRA _ hc29, ret_bind]
  rw [if_neg (by omega), hext, ret_bind]
  dsimp only
  rw [hsymD, ret_bind]
  dsimp only
  rw [if_neg (by decide), if_neg (by omega)]
  rw [loadw_getD DISTANCEBASE _ (show codeD < 30 by omega), ret_bind,
    loadw_getD DISTANCEEXTRA _ (show codeD < 30 by omega), ret_bind]
  rw [if_neg (by omega), hextD, ret_bind]
  dsimp only
  rw [← hL, ← hd, if_neg hsize, hdata]
  obtain ⟨l, rfl⟩ : ∃ l, L = l + 1 := ⟨L - 1, by omega⟩
  have hb : (pos + 2 ^ 64 - d) % 2 ^ 64 = pos + 2 ^ 64 - d := Nat.mod_eq_of_lt (by omega)
  have hload : load out.data (pos + 2 ^ 64 - d) = .fault := by
    unfold load
    rw [List.getElem?_eq_none (by omega)]
  rw [hb, for_loop]
  unfold copy_back
  dsimp only
  rw [hload]
  rfl

/-- C23 at its failing input: the zlib stream `78 01 03 02 00`, a final block in the fixed
code whose first symbol is the length code 257 (length 3) followed by the distance code 0
(distance 1) while nothing has been output yet (`pos = 0`).  `uzlib_decompress` does not
return an error: the copy reads the output at index `2 ^ 64 - 1`, outside the block. -/
theorem C23_back_reference_at_start (osize : Nat) :
    uzlib_decompress [] osize [0x78, 0x01, 0x03, 0x02, 0x00] 5 = .fault := by
  obtain ⟨t, ht⟩ := fixed_tree_created huffman_tree_init
  obtain ⟨tD, htD⟩ := distance_tree_created
  have hgen : generate_fixed_tree huffman_tree_init = .ret (t, 0) := ht
  have hgenD : generate_distance_tree huffman_tree_init = .ret (tD, 0) := htD
  have hsym : huffman_decode_symbol [0x03, 0x02, 0x00] 3 t 5 = .ret (0, 257, 10) :=
    fixed_decode huffman_tree_init t ht [0x03, 0x02, 0x00] 5 3 257 (by decide) (by decide)
      (by decide)
  have hsymD : huffman_decode_symbol [0x03, 0x02, 0x00] 10 tD 5 = .ret (0, 0, 15) :=
    decode_symbol_created huffman_tree_init (List.replicate 32 5) 32 15 tD
      [0x03, 0x02, 0x00] 5 10 0 (by decide) (by decide) (by decide) (by decide) htD
      (by decide) (by decide) (by decide) (by decide)
  have hloop := back_reference_before_start [0x03, 0x02, 0x00] 5 t tD 24
    (ucvector_init_buffer [] osize) 3 0 257 10 0 10 0 15 0 15 3 1 hsym (by decide) (by decide)
    (by rfl) (by rfl) hsymD (by decide) (by decide) (by rfl) (by rfl) (by decide)
    (by show 0 + 2 ^ 32 ≤ 2 ^ 64; norm_num)
  unfold uzlib_decompress
  rw [if_neg (by decide)]
  rw [show load ([0x78, 0x01, 0x03, 0x02, 0x00] : List Byte) 0 = .ret 120 from rfl, ret_bind,
    show load ([0x78, 0x01, 0x03, 0x02, 0x00] : List Byte) 1 = .ret 1 from rfl, ret_bind]
  rw [if_neg (by decide)]
  dsimp only
  rw [if_neg (by decide), if_neg (by decide)]
  unfold uz_inflate
  rw [show ([0x78, 0x01, 0x03, 0x02, 0x00] : List Byte).drop 2 = [0x03, 0x02, 0x00] from rfl]
  rw [show 8 * ([0x78, 0x01, 0x03, 0x02, 0x00] : List Byte).length + 1 = 40 + 1 from rfl]
  rw [uz_inflate_loop, if_neg (by decide),
    show read_bit 0 ([0x03, 0x02, 0x00] : List Byte) = .ret (1, 1) from rfl, ret_bind]
  dsimp only
  rw [show read_bit 1 ([0x03, 0x02, 0x00] : List Byte) = .ret (1, 2) from rfl, ret_bind]
  dsimp only
  rw [show read_bit 2 ([0x03, 0x02, 0x00] : List Byte) = .ret (0, 3) from rfl, ret_bind]
  dsimp only
  rw [if_neg (by decide), if_neg (by decide)]
  unfold inflate_huffman get_tree_inflate_fixed
  rw [if_pos rfl, hgen, ret_bind]
  dsimp only
  rw [hgenD, ret_bind]
  simp only [pure_eq_ret, ret_bind]
  rw [if_neg (by decide)]
  rw [show 8 * ([0x03, 0x02, 0x00] : List Byte).length + 1 = 24 + 1 from rfl, hloop]
  rfl

/-! ## What a decoded symbol tells about the bits that were read -/

theorem read_bit_ret (p : Nat) (inp : List Byte) (b p1 : Nat)
    (h : read_bit p inp = .ret (b, p1)) :
    b = stream_bit inp p ∧ p1 = p + 1 ∧ p >>> 3 < inp.length := by
  have hlt := read_bit_ret_lt _ _ _ h
  unfold read_bit at h
  rw [load_eq _ _ hlt, ret_bind] at h
  have h1 : ((inp[p >>> 3].val >>> (p &&& 0x7)) &&& 1, p + 1) = (b, p1) := by
    injection h
  unfold stream_bit
  rw [List.getD_eq_getElem _ _ hlt]
  refine ⟨?_, ?_, hlt⟩
  · exact (congrArg Prod.fst h1).symm
  · exact (congrArg Prod.snd h1).symm

theorem stream_bit_lt (inp : List Byte) (p : Nat) : stream_bit inp p < 2 := by
  unfold stream_bit
  rw [Nat.and_one_is_mod]
  exact Nat.mod_lt _ (by decide)

/-- The table that `huffman_tree_create_lengths` returns with error 0, for lengths that
are not oversubscribed: the codes entered are the canonical codes. -/
theorem created_table (tree0 : huffman_tree) (bitlen : List Nat)
    (numcodes maxbitlen : Nat) (t : huffman_tree) (hM : maxbitlen ≤ 15)
    (hN : numcodes ≤ 16383) (hN1 : 1 ≤ numcodes)
    (hlen : ∀ l ∈ bitlen.take numcodes, l ≤ maxbitlen)
    (hk : ¬ oversubscribed maxbitlen (bitlen.take numcodes))
    (hcreate : huffman_tree_create_lengths tree0 bitlen numcodes maxbitlen = .ret (t, 0)) :
    ∃ t2 nf depth val,
      trie_inv numcodes (fun x => (bitlen.take numcodes).getD x 0)
        (canonical_code (bitlen.take numcodes)) numcodes 0 t2 nf depth val ∧
      t.numcodes = numcodes ∧
      t.tree2d = t2.map (fun v => if v = 32767 then 0 else v) := by
  unfold huffman_tree_create_lengths at hcreate
  by_cases hbl : bitlen.length < numcodes
  · rw [if_pos hbl] at hcreate; cases hcreate
  rw [if_neg hbl, Nat.mod_eq_of_lt (by omega)] at hcreate
  have hll : (bitlen.take numcodes).length = numcodes := by
    rw [List.length_take]; omega
  obtain ⟨tree1d, h1, h2, h3⟩ := create_lengths2_codes
    { tree0 with lengths := bitlen.take numcodes, numcodes := numcodes,
                 maxbitlen := maxbitlen }
    (by show maxbitlen ≤ 32; omega) hll.symm
    (by show (bitlen.take numcodes).length < 2 ^ 32; omega) hlen
  dsimp only at h1 h2 h3
  rw [h1] at hcreate
  unfold huffman_tree_create at hcreate
  dsimp only at hcreate
  have hpc := canonical_prefix_code (bitlen.take numcodes) maxbitlen hlen hk
  rw [hll] at hpc
  cases hc : huffman_tree_create_codes
      { tree2d := tree0.tree2d, tree1d := tree1d, lengths := bitlen.take numcodes,
        maxbitlen := maxbitlen, numcodes := numcodes } numcodes 0
      (List.replicate (numcodes * 2) 32767, 0, 0) with
  | fault => rw [hc] at hcreate; cases hcreate
  | nofuel => rw [hc] at hcreate; cases hcreate
  | ret r =>
    rw [hc, ret_bind] at hcreate
    obtain ⟨f, st⟩ := r
    cases f with
    | true => dsimp only at hcreate; rw [if_pos rfl] at hcreate; cases hcreate
    | false =>
      dsimp only at hcreate
      rw [if_neg (by decide)] at hcreate
      cases hcreate
      have hcode : ∀ x, x < numcodes → (bitlen.take numcodes).getD x 0 ≠ 0 →
          tree1d.getD x 0 % 2 ^ (bitlen.take numcodes).getD x 0
            = canonical_code (bitlen.take numcodes) x := by
        intro x hx hx0
        rw [h3 x (by omega) hx0]
        exact Nat.mod_eq_of_lt (hpc.fits x hx hx0)
      obtain ⟨d1, v1, hinv⟩ := create_codes_inv
        { tree2d := tree0.tree2d, tree1d := tree1d, lengths := bitlen.take numcodes,
          maxbitlen := maxbitlen, numcodes := numcodes }
        (canonical_code (bitlen.take numcodes)) hN hll hpc hcode
        (by rw [h2, hll]) numcodes 0 _ 0 _ _ st (by simp)
        (trie_inv_init numcodes _ _ (by omega)) hc
      exact ⟨st.1, st.2.1, d1, v1, hinv, rfl, rfl⟩

/-- Every node but the root lies at a depth between 1 and the length of a code. -/
theorem node_depth (N : Nat) (L c : Nat → Nat) (M : Nat) (hN : N ≤ 16383)
    (hLM : ∀ s, s < N → L s ≤ M) (t : List Nat) (nf : Nat) (depth val : Nat → Nat)
    (h : trie_inv N L c N 0 t nf depth val) (k : Nat) (hk : k ≤ nf) (hk0 : k ≠ 0) :
    1 ≤ depth k ∧ depth k < M := by
  have hnf := h.nfN
  have hd : 0 < depth k := by
    obtain ⟨k0, b, h1, h2, h3⟩ := h.parent k hk hk0
    rcases h.cls k0 b h1 h2 with h4 | ⟨h4, _⟩ | ⟨k1, h4, _, _, h5, _⟩
    · omega
    · omega
    · have : k1 = k := by omega
      rw [this] at h5
      omega
  refine ⟨hd, ?_⟩
  rcases h.onpath k hk hk0 with ⟨s, g1, _, g3, _⟩ | ⟨g1, _⟩
  · exact Nat.lt_of_lt_of_le g3 (hLM s g1)
  · omega

/-- The loop of `huffman_decode_symbol` on a table of `huffman_tree_create`, started in
the node that the first `j` bits lead to: when it returns, the error is 0 or 10 and at
most `max 1 M` bits were read; with error 0 the symbol is one whose code is the bits
that were read, or it is 0 and these bits are the code of no symbol (they led to an entry
that was never filled, which the table holds as 0). -/
theorem decode_trace (N : Nat) (L c : Nat → Nat) (M : Nat) (hN : N ≤ 16383)
    (hLM : ∀ s, s < N → L s ≤ M) (t : List Nat) (nf : Nat) (depth val : Nat → Nat)
    (h : trie_inv N L c N 0 t nf depth val) (tree : huffman_tree)
    (htn : tree.numcodes = N)
    (ht2 : tree.tree2d = t.map (fun v => if v = 32767 then 0 else v))
    (inp : List Byte) (inlength bp : Nat) :
    ∀ fuel j k e s q, k ≤ nf → depth k = j → val k = msb_value inp bp j →
      huffman_decode_symbol_loop inp tree inlength fuel k (bp + j) = .ret (e, s, q) →
      (e = 0 ∨ e = 10) ∧ q ≤ bp + max 1 M ∧
      (e = 0 →
        (s < N ∧ L s ≠ 0 ∧ q = bp + L s ∧ c s = msb_value inp bp (L s)) ∨
        (s = 0 ∧ bp < q ∧
          ∀ s1, s1 < N → L s1 ≠ 0 →
            ¬ (q = bp + L s1 ∧ c s1 = msb_value inp bp (L s1)))) := by
  intro fuel
  induction fuel with
  | zero =>
    intro j k e s q _ _ _ hr
    unfold huffman_decode_symbol_loop at hr
    cases hr
  | succ fuel ih =>
    intro j k e s q hk hd hv hr
    have hlen := h.len
    have hnf := h.nfN
    have hjM : j + 1 ≤ max 1 M := by
      by_cases hk0 : k = 0
      · rw [hk0, h.root.1] at hd
        have := Nat.le_max_left 1 M
        omega
      · have := node_depth N L c M hN hLM t nf depth val h k hk hk0
        have := Nat.le_max_right 1 M
        omega
    unfold huffman_decode_symbol_loop at hr
    by_cases hchk : ((bp + j) &&& 0x07) = 0 ∧ ((bp + j) >>> 3) > inlength
    · rw [if_pos hchk] at hr
      cases hr
      exact ⟨Or.inr rfl, by omega, fun h0 => absurd h0 (by decide)⟩
    · rw [if_neg hchk] at hr
      cases hrb : read_bit (bp + j) inp with
      | fault => rw [hrb] at hr; cases hr
      | nofuel => rw [hrb] at hr; cases hr
      | ret r =>
        obtain ⟨b, p1⟩ := r
        obtain ⟨hb, hp1, _⟩ := read_bit_ret _ _ _ _ hrb
        have hb2 := stream_bit_lt inp (bp + j)
        rw [← hb] at hb2
        rw [hrb, ret_bind] at hr
        dsimp only at hr
        unfold huffman_tree_decode at hr
        rw [htn, if_neg (by omega), Nat.mod_eq_of_lt (by omega), ht2,
          loadw_getD _ _ (by rw [List.length_map]; omega), ret_bind] at hr
        have hent : (t.map (fun v => if v = 32767 then 0 else v)).getD (2 * k + b) 0
            = if t.getD (2 * k + b) 0 = 32767 then 0 else t.getD (2 * k + b) 0 := by
          rw [List.getD_eq_getElem _ _ (by rw [List.length_map]; omega), List.getElem_map,
            List.getD_eq_getElem _ _ (by omega)]
        rw [hent] at hr
        have hmsb : msb_value inp bp (j + 1) = 2 * val k + b := by
          rw [msb_value, ← hv, ← hb]
        rcases h.cls k b hk hb2 with h1 | ⟨h1, h2, h3⟩ | ⟨k1, h1, h2, h3, h4, h5⟩
        · -- an entry that was never filled
          rw [h1, if_pos rfl] at hr
          dsimp only at hr
          rw [if_pos (decide_eq_true (show 0 < N by omega))] at hr
          simp only [pure_eq_ret, ret_bind] at hr
          rw [if_neg (by decide), if_pos (decide_eq_true (show 0 < N by omega))] at hr
          cases hr
          refine ⟨Or.inl rfl, by omega, fun _ => Or.inr ⟨rfl, by omega, ?_⟩⟩
          rintro s1 hs1 hs10 ⟨g1, g2⟩
          have hL1 : L s1 = j + 1 := by omega
          obtain ⟨k0, f1, f2, f3, f4⟩ := h.reach s1 hs1 hs10 j (by omega)
          rw [hL1, hmsb] at g2
          rw [hL1, g2, show j + 1 - j = 1 by omega, pow_one] at f3
          rw [hL1, g2, show j + 1 - j - 1 = 0 by omega, pow_zero, Nat.div_one] at f4
          have hkk : k0 = k := h.inj k0 k f1 hk (by omega) (by omega)
          rw [hkk, show (2 * val k + b) % 2 = b by omega] at f4
          exact f4 h1
        · -- a symbol
          rw [if_neg (show ¬ t.getD (2 * k + b) 0 = 32767 by omega)] at hr
          dsimp only at hr
          rw [if_pos (decide_eq_true h1)] at hr
          simp only [pure_eq_ret, ret_bind] at hr
          rw [if_neg (by decide), if_pos (decide_eq_true h1)] at hr
          cases hr
          have hLe : L (t.getD (2 * k + b) 0) ≤ M := hLM _ (by omega)
          refine ⟨Or.inl rfl, by omega, fun _ => Or.inl ⟨h1, by omega, by omega, ?_⟩⟩
          rw [h3, h2, hd, hmsb]
        · -- a pointer to the next node
          have hnd : ¬ decide (k1 + N < N) = true := by
            rw [decide_eq_true_eq]; omega
          rw [h1, if_neg (show ¬ k1 + N = 32767 by omega)] at hr
          dsimp only at hr
          rw [if_neg hnd] at hr
          simp only [pure_eq_ret, ret_bind] at hr
          rw [if_neg (by decide), if_neg hnd,
            show (k1 + N + 2 ^ 32 - N) % 2 ^ 32 = k1 by omega, hp1] at hr
          have := ih (j + 1) k1 e s q h2 (by omega) (by rw [h5, hmsb]) (by
            rw [← Nat.add_assoc]; exact hr)
          exact this

theorem tree_decode_not_nofuel (tree : huffman_tree) (k b : Nat) :
    huffman_tree_decode tree k b ≠ .nofuel := by
  unfold huffman_tree_decode loadw
  split_ifs
  · intro h; cases h
  · cases tree.tree2d[(2 * k + b) % 2 ^ 32]? with
    | none => intro h; cases h
    | some v =>
      simp only [ret_bind]
      split_ifs <;> intro h <;> cases h

/-- The loop of `huffman_decode_symbol` never runs out of the rounds that the embedding
gives it: every round but the last reads a bit that lies in the input. -/
theorem decode_loop_fuel (inp : List Byte) (tree : huffman_tree) (inlength : Nat) :
    ∀ fuel k p, 1 ≤ fuel → 8 * inp.length + 1 ≤ p + fuel →
      huffman_decode_symbol_loop inp tree inlength fuel k p ≠ .nofuel := by
  intro fuel
  induction fuel with
  | zero => intro k p h1 _; omega
  | succ fuel ih =>
    intro k p _ hp
    unfold huffman_decode_symbol_loop
    by_cases hchk : (p &&& 0x07) = 0 ∧ (p >>> 3) > inlength
    · rw [if_pos hchk]; intro hcon; cases hcon
    · rw [if_neg hchk]
      cases hrb : read_bit p inp with
      | fault => intro hcon; cases hcon
      | nofuel => exact absurd hrb (by unfold read_bit load; split <;> simp)
      | ret r =>
        obtain ⟨b, p1⟩ := r
        obtain ⟨_, hp1, hlt⟩ := read_bit_ret _ _ _ _ hrb
        rw [shr_three] at hlt
        rw [ret_bind]
        dsimp only
        cases hd : huffman_tree_decode tree k b with
        | fault => intro hcon; cases hcon
        | nofuel => exact absurd hd (tree_decode_not_nofuel tree k b)
        | ret d =>
          obtain ⟨err, decoded, ct, tp⟩ := d
          rw [ret_bind]
          dsimp only
          by_cases he : err ≠ 0
          · rw [if_pos he]; intro hcon; cases hcon
          · rw [if_neg he]
            by_cases hdc : decoded = true
            · rw [if_pos hdc]; intro hcon; cases hcon
            · rw [if_neg hdc, hp1]
              exact ih tp (p + 1) (by omega) (by omega)

/-- C25 as amended (what a decoded symbol tells): for lengths `bitlen[0..numcodes)`, at
least one and at most 16383 of them, each at most `maxbitlen ≤ 15`, that are not
oversubscribed and for which `huffman_tree_create_lengths` returns 0 with the table `t`,
and for every input: a symbol `s` that `huffman_decode_symbol` returns with error 0
either has a non-zero length, and the `bitlen[s]` bits consumed are its canonical code,
or is the symbol 0, returned for bits that are the code of no symbol. -/
theorem C25_decoded_symbol_or_unfilled (tree0 : huffman_tree) (bitlen : List Nat)
    (numcodes maxbitlen : Nat) (t : huffman_tree) (inp : List Byte) (inlength bp s q : Nat)
    (hM : maxbitlen ≤ 15) (hN : numcodes ≤ 16383) (hN1 : 1 ≤ numcodes)
    (hlen : ∀ l ∈ bitlen.take numcodes, l ≤ maxbitlen)
    (hk : ¬ oversubscribed maxbitlen (bitlen.take numcodes))
    (hcreate : huffman_tree_create_lengths tree0 bitlen numcodes maxbitlen = .ret (t, 0))
    (hret : huffman_decode_symbol inp bp t inlength = .ret (0, s, q)) :
    (s < numcodes ∧ bitlen.getD s 0 ≠ 0 ∧ q = bp + bitlen.getD s 0 ∧
      canonical_code (bitlen.take numcodes) s = msb_value inp bp (bitlen.getD s 0)) ∨
    (s = 0 ∧ bp < q ∧
      ∀ s1, s1 < numcodes → bitlen.getD s1 0 ≠ 0 →
        ¬ (q = bp + bitlen.getD s1 0 ∧
          canonical_code (bitlen.take numcodes) s1 = msb_value inp bp (bitlen.getD s1 0))) := by
  obtain ⟨t2, nf, depth, val, hinv, htn, ht2⟩ := created_table tree0 bitlen numcodes maxbitlen t
    hM hN hN1 hlen hk hcreate
  have hLM : ∀ x, x < numcodes → (bitlen.take numcodes).getD x 0 ≤ maxbitlen := by
    intro x _
    by_cases hx : x < (bitlen.take numcodes).length
    · rw [List.getD_eq_getElem _ _ hx]; exact hlen _ (List.getElem_mem _)
    · rw [List.getD_eq_default _ _ (by omega)]; exact Nat.zero_le _
  unfold huffman_decode_symbol at hret
  have := decode_trace numcodes (fun x => (bitlen.take numcodes).getD x 0)
    (canonical_code (bitlen.take numcodes)) maxbitlen hN hLM t2 nf depth val hinv t htn ht2
    inp inlength bp (8 * inp.length + 1) 0 0 0 s q (Nat.zero_le _) hinv.root.1
    (by rw [hinv.root.2]; rfl) hret
  rcases this.2.2 rfl with ⟨h1, h2, h3, h4⟩ | ⟨h1, h2, h3⟩
  · have e := getD_take bitlen numcodes s h1
    dsimp only at h2 h3 h4
    rw [e] at h2 h3 h4
    exact Or.inl ⟨h1, h2, h3, h4⟩
  · refine Or.inr ⟨h1, h2, ?_⟩
    intro s1 hs1 hs10 hcon
    have e := getD_take bitlen numcodes s1 hs1
    apply h3 s1 hs1 (by dsimp only; rw [e]; exact hs10)
    dsimp only
    rw [e]
    exact hcon

/-- Witness for C25 as amended: the lengths 1, 0, 2 and an input that starts with the
bits 1 1, which begin no code: the symbol 0 is returned after two bits. -/
theorem C25_witness :
    ((0 : Nat) < 3 ∧ ([1, 0, 2] : List Nat).getD 0 0 ≠ 0 ∧
        2 = 0 + ([1, 0, 2] : List Nat).getD 0 0 ∧
        canonical_code (([1, 0, 2] : List Nat).take 3) 0
          = msb_value [3] 0 (([1, 0, 2] : List Nat).getD 0 0)) ∨
    ((0 : Nat) = 0 ∧ 0 < 2 ∧
      ∀ s1, s1 < 3 → ([1, 0, 2] : List Nat).getD s1 0 ≠ 0 →
        ¬ (2 = 0 + ([1, 0, 2] : List Nat).getD s1 0 ∧
          canonical_code (([1, 0, 2] : List Nat).take 3) s1
            = msb_value [3] 0 (([1, 0, 2] : List Nat).getD s1 0))) :=
  C25_decoded_symbol_or_unfilled huffman_tree_init [1, 0, 2] 3 2 three_symbol_tree [3] 1 0 0 2
    (by decide) (by decide) (by decide) (by decide) (by decide) (by rfl) (by rfl)

/-- C25 at a counterexample: the 32 distance lengths 0, 1, 0, ..., 0 (one code, the bit 0
for symbol 1) give a table without error, and on an input whose first bit is 1
`huffman_decode_symbol` returns the symbol 0 with error 0, although its length is 0. -/
theorem C25_counterexample_symbol_of_length_zero :
    ∃ t, huffman_tree_create_lengths huffman_tree_init (0 :: 1 :: List.replicate 30 0) 32 15
        = .ret (t, 0) ∧
      huffman_decode_symbol [1] 0 t 1 = .ret (0, 0, 1) ∧
      (0 :: 1 :: List.replicate 30 0 : List Nat).getD 0 0 = 0 :=
  ⟨_, by rfl, by rfl, by rfl⟩

/-! ## The end of the input while a symbol is decoded -/

/-- When `huffman_decode_symbol` returns on a table of `huffman_tree_create_lengths`, the
error is 0 or 10 (never 11), and at most `max 1 maxbitlen` bits were consumed; and its
loop is not cut short by the embedding. -/
theorem decode_symbol_bounded (tree0 : huffman_tree) (bitlen : List Nat)
    (numcodes maxbitlen : Nat) (t : huffman_tree) (inp : List Byte) (inlength bp : Nat)
    (hM : maxbitlen ≤ 15) (hN : numcodes ≤ 16383) (hN1 : 1 ≤ numcodes)
    (hlen : ∀ l ∈ bitlen.take numcodes, l ≤ maxbitlen)
    (hk : ¬ oversubscribed maxbitlen (bitlen.take numcodes))
    (hcreate : huffman_tree_create_lengths tree0 bitlen numcodes maxbitlen = .ret (t, 0)) :
    huffman_decode_symbol inp bp t inlength ≠ .nofuel ∧
    ∀ e s q, huffman_decode_symbol inp bp t inlength = .ret (e, s, q) →
      (e = 0 ∨ e = 10) ∧ q ≤ bp + max 1 maxbitlen := by
  obtain ⟨t2, nf, depth, val, hinv, htn, ht2⟩ := created_table tree0 bitlen numcodes maxbitlen t
    hM hN hN1 hlen hk hcreate
  have hLM : ∀ x, x < numcodes → (bitlen.take numcodes).getD x 0 ≤ maxbitlen := by
    intro x _
    by_cases hx : x < (bitlen.take numcodes).length
    · rw [List.getD_eq_getElem _ _ hx]; exact hlen _ (List.getElem_mem _)
    · rw [List.getD_eq_default _ _ (by omega)]; exact Nat.zero_le _
  unfold huffman_decode_symbol
  refine ⟨decode_loop_fuel inp t inlength _ 0 bp (by omega) (by omega), ?_⟩
  intro e s q hret
  have := decode_trace numcodes (fun x => (bitlen.take numcodes).getD x 0)
    (canonical_code (bitlen.take numcodes)) maxbitlen hN hLM t2 nf depth val hinv t htn ht2
    inp inlength bp (8 * inp.length + 1) 0 0 e s q (Nat.zero_le _) hinv.root.1
    (by rw [hinv.root.2]; rfl) hret
  exact ⟨this.1, this.2.1⟩

/-- The loop of `huffman_decode_symbol`, fed with the first `n` bits of the code of `s`,
which is longer, when the test for the end of the input lets the next bit be read
outside the input. -/
theorem decode_walk_fault (N : Nat) (L c : Nat → Nat) (hN : N ≤ 16383)
    (hpc : prefix_code N L c) (t : List Nat) (nf : Nat) (depth val : Nat → Nat)
    (h : trie_inv N L c N 0 t nf depth val) (tree : huffman_tree)
    (htn : tree.numcodes = N)
    (ht2 : tree.tree2d = t.map (fun v => if v = 32767 then 0 else v))
    (inp : List Byte) (inlength : Nat) (hin : inp.length ≤ inlength + 1)
    (s : Nat) (hs : s < N) (hs0 : L s ≠ 0) (bp n : Nat) (hn : n < L s)
    (hbits : ∀ j, j < n →
      read_bit (bp + j) inp = .ret (c s / 2 ^ (L s - j - 1) % 2, bp + j + 1))
    (hfault : read_bit (bp + n) inp = .fault)
    (hchk : ¬ (((bp + n) &&& 0x07) = 0 ∧ ((bp + n) >>> 3) > inlength)) :
    ∀ m j k fuel, j + m = n → k ≤ nf → depth k = j →
      val k = c s / 2 ^ (L s - j) → m + 1 ≤ fuel →
      huffman_decode_symbol_loop inp tree inlength fuel k (bp + j) = .fault := by
  intro m
  induction m with
  | zero =>
    intro j k fuel hjm hk hd hv hfuel
    obtain ⟨f, rfl⟩ : ∃ f, fuel = f + 1 := ⟨fuel - 1, by omega⟩
    rw [Nat.add_zero] at hjm
    subst hjm
    unfold huffman_decode_symbol_loop
    rw [if_neg hchk, hfault]
    rfl
  | succ m ih =>
    intro j k fuel hjm hk hd hv hfuel
    obtain ⟨f, rfl⟩ : ∃ f, fuel = f + 1 := ⟨fuel - 1, by omega⟩
    have hb2 : c s / 2 ^ (L s - j - 1) % 2 < 2 := Nat.mod_lt _ (by decide)
    have hlen := h.len
    have hnf := h.nfN
    have hlt := read_bit_ret_lt _ _ _ (hbits j (by omega))
    obtain ⟨hne, hstep⟩ := decode_step N L c hpc t nf depth val h s hs hs0 j k (by omega) hk
      hd hv
    unfold huffman_decode_symbol_loop
    rw [if_neg (by omega), hbits j (by omega), ret_bind]
    dsimp only
    unfold huffman_tree_decode
    rw [htn, if_neg (by omega), Nat.mod_eq_of_lt (by omega), ht2,
      loadw_getD _ _ (by rw [List.length_map]; omega), ret_bind]
    have hent : (t.map (fun v => if v = 32767 then 0 else v)).getD
        (2 * k + c s / 2 ^ (L s - j - 1) % 2) 0
        = t.getD (2 * k + c s / 2 ^ (L s - j - 1) % 2) 0 := by
      rw [List.getD_eq_getElem _ _ (by rw [List.length_map]; omega), List.getElem_map,
        if_neg, List.getD_eq_getElem _ _ (by omega)]
      rw [← List.getD_eq_getElem _ 0 (by omega)]
      exact hne
    rw [hent]
    rcases hstep with ⟨h1, _⟩ | ⟨h1, k1, h2, h3, h4, h5⟩
    · omega
    · have hnd : ¬ decide (k1 + N < N) = true := by
        rw [decide_eq_true_eq]; omega
      rw [h2]
      dsimp only
      rw [if_neg hnd]
      simp only [pure, ret_bind]
      rw [if_neg (by decide), if_neg hnd,
        show (k1 + N + 2 ^ 32 - N) % 2 ^ 32 = k1 by omega]
      have := ih (j + 1) k1 f (by omega) h3 h4 h5 (by omega)
      rw [← Nat.add_assoc] at this
      exact this

/-- A table of `generate_fixed_tree`, fed with the first `n` bits of a code that is
longer, reads the next bit outside the input when its test for the end of the input does
not stop it. -/
theorem fixed_decode_fault (tree0 t : huffman_tree)
    (hcreate : huffman_tree_create_lengths tree0 fixed_lengths 288 15 = .ret (t, 0))
    (inp : List Byte) (inlength bp s n : Nat) (hs : s < 288) (hin : inp.length ≤ inlength + 1)
    (hn : n < fixed_len s)
    (hbits : ∀ i, i < n →
      read_bit (bp + i) inp = .ret (fixed_code s / 2 ^ (fixed_len s - i - 1) % 2, bp + i + 1))
    (hfault : read_bit (bp + n) inp = .fault)
    (hchk : ¬ (((bp + n) &&& 0x07) = 0 ∧ ((bp + n) >>> 3) > inlength)) :
    huffman_decode_symbol inp bp t inlength = .fault := by
  have htake : fixed_lengths.take 288 = fixed_lengths :=
    List.take_of_length_le (by rw [fixed_lengths_length])
  obtain ⟨t2, nf, depth, val, hinv, htn, ht2⟩ := created_table tree0 fixed_lengths 288 15 t
    (by decide) (by decide) (by decide) (by rw [htake]; exact fixed_lengths_le)
    (by rw [htake]; exact fixed_not_oversubscribed) hcreate
  rw [htake] at hinv
  have hL := fixed_getD s hs
  have hc := fixed_canonical s hs
  have hL0 : fixed_lengths.getD s 0 ≠ 0 := by
    rw [hL]; unfold fixed_len; split_ifs <;> decide
  have hfuel : n + 1 ≤ 8 * inp.length + 1 := by
    by_cases h0 : n = 0
    · omega
    · have := read_bit_ret_lt _ _ _ (hbits (n - 1) (by omega))
      rw [shr_three] at this
      omega
  have hn1 : n < fixed_lengths.getD s 0 := by rw [hL]; exact hn
  have hbits1 : ∀ j, j < n →
      read_bit (bp + j) inp
        = .ret (canonical_code fixed_lengths s / 2 ^ (fixed_lengths.getD s 0 - j - 1) % 2,
            bp + j + 1) := fun j hj => by rw [hL, hc]; exact hbits j hj
  have hv0 : val 0 = canonical_code fixed_lengths s / 2 ^ (fixed_lengths.getD s 0 - 0) := by
    rw [hinv.root.2, Nat.sub_zero]
    exact (Nat.div_eq_of_lt (fixed_prefix_code.fits s hs hL0)).symm
  unfold huffman_decode_symbol
  have := decode_walk_fault 288 (fun x => fixed_lengths.getD x 0) (canonical_code fixed_lengths)
    (by decide) fixed_prefix_code t2 nf depth val hinv t htn ht2 inp inlength hin s hs hL0 bp n
    hn1 hbits1 hfault hchk n 0 0 (8 * inp.length + 1)
    (by omega) (Nat.zero_le _) hinv.root.1 hv0 hfuel
  rw [Nat.add_zero] at this
  exact this

/-- C30 at its failing inputs.  With no input at all (`inlength = 0`) the test
`(bp & 7) == 0 && (bp >> 3) > inlength` of `huffman_decode_symbol` does not hold, and
the function reads the byte at index 0, whatever the table.  With a table of
`generate_fixed_tree` and the one byte `03` left of the stream `78 01 03`, decoding from
bit 3 reads five bits of the 7-bit code 0000000, arrives at the end of the input, where
the test fails again (`1 > 1`, and `1 > 3` with the `inlength` that `uz_inflate`
passes), and reads the byte at index 1. -/
theorem C30_end_of_input_is_read :
    (∀ t : huffman_tree, huffman_decode_symbol [] 0 t 0 = .fault) ∧
    ∃ t, generate_fixed_tree huffman_tree_init = .ret (t, 0) ∧
      huffman_decode_symbol [0x03] 3 t 1 = .fault ∧
      huffman_decode_symbol [0x03] 3 t 3 = .fault := by
  refine ⟨fun t => rfl, ?_⟩
  obtain ⟨t, ht⟩ := fixed_tree_created huffman_tree_init
  refine ⟨t, ht, ?_, ?_⟩
  · exact fixed_decode_fault huffman_tree_init t ht [0x03] 1 3 256 5 (by decide) (by decide)
      (by decide) (by decide) (by rfl) (by decide)
  · exact fixed_decode_fault huffman_tree_init t ht [0x03] 3 3 256 5 (by decide) (by decide)
      (by decide) (by decide) (by rfl) (by decide)

/-! ## Validation of the dynamic header -/

theorem for_loop_sat {σ : Type} (body : Nat → σ → Exec σ) (Inv : Nat → σ → Prop) :
    ∀ count lo s, Inv lo s → (∀ i s, Inv i s → (body i s).sat (Inv (i + 1))) →
      (for_loop body count lo s).sat (Inv (lo + count)) := by
  intro count
  induction count with
  | zero => intro lo s h _; exact sat_ret _ _ h
  | succ k ih =>
    intro lo s h hstep
    rw [for_loop]
    refine sat_bind _ _ _ _ (hstep lo s h) ?_
    intro s1 h1
    rw [show lo + (k + 1) = lo + 1 + k by omega]
    exact ih (lo + 1) s1 h1 hstep

/-- The value of `read_bits` has `nbits` bits. -/
theorem read_bits_lt (bp : Nat) (inp : List Byte) (n v q : Nat)
    (h : read_bits bp inp n = .ret (v, q)) : v < 2 ^ n := by
  have hs := for_loop_sat (fun i (s : Nat × Nat) => (do
      let (bit, bp1) ← read_bit s.2 inp
      pure ((s.1 + (bit <<< i)) % 2 ^ 32, bp1) : Exec (Nat × Nat)))
    (fun i s => s.1 < 2 ^ i) n 0 (0, bp) (by show 0 < 2 ^ 0; norm_num) (by
      intro i s hs r hr
      obtain ⟨a, ha, hfa⟩ := bind_eq_ret _ _ _ hr
      obtain ⟨bit, p1⟩ := a
      have hb := (read_bit_ret _ _ _ _ ha).1
      have hlt := stream_bit_lt inp s.2
      have hr1 : ((s.1 + (bit <<< i)) % 2 ^ 32, p1) = r := by injection hfa
      rw [← hr1]
      show (s.1 + (bit <<< i)) % 2 ^ 32 < 2 ^ (i + 1)
      have h1 : bit <<< i ≤ 2 ^ i := by
        rw [Nat.shiftLeft_eq]
        calc bit * 2 ^ i ≤ 1 * 2 ^ i := Nat.mul_le_mul_right _ (by omega)
          _ = 2 ^ i := Nat.one_mul _
      have h2 : 2 ^ (i + 1) = 2 * 2 ^ i := by rw [Nat.pow_succ, Nat.mul_comm]
      have h3 : s.1 < 2 ^ i := hs
      exact Nat.lt_of_le_of_lt (Nat.mod_le _ _) (by omega))
  rw [Nat.zero_add] at hs
  exact hs (v, q) h

theorem getD_set_or (l : List Nat) (i v j : Nat) :
    (l.set i v).getD j 0 = v ∨ (l.set i v).getD j 0 = l.getD j 0 := by
  rw [List.getD_eq_getElem?_getD, List.getD_eq_getElem?_getD, List.getElem?_set]
  by_cases h : i = j
  · rw [if_pos h]
    by_cases hl : i < l.length
    · rw [if_pos hl]; exact Or.inl rfl
    · rw [if_neg hl, List.getElem?_eq_none (by omega)]; exact Or.inr rfl
  · rw [if_neg h]; exact Or.inr rfl

theorem repeat_lengths_ok (HLIT HDIST value errcode : Nat) (hH : HLIT ≤ 288) (hD : HDIST ≤ 32) :
    ∀ k i bitlen bitlenD, bitlen.length = 288 → bitlenD.length = 32 → i + k ≤ HLIT + HDIST →
      ∃ b bD, repeat_lengths HLIT HDIST value errcode k i bitlen bitlenD = .ret (0, i + k, b, bD)
        ∧ b.length = 288 ∧ bD.length = 32
        ∧ ∀ j, b.getD j 0 = value ∨ b.getD j 0 = bitlen.getD j 0 := by
  intro k
  induction k with
  | zero =>
    intro i bitlen bitlenD hb hbD _
    exact ⟨bitlen, bitlenD, rfl, hb, hbD, fun j => Or.inr rfl⟩
  | succ k ih =>
    intro i bitlen bitlenD hb hbD hik
    rw [repeat_lengths, if_neg (show ¬ i ≥ HLIT + HDIST by omega)]
    by_cases hlt : i < HLIT
    · rw [if_pos hlt, storew_eq _ _ _ (by omega), ret_bind]
      obtain ⟨b, bD, h1, h2, h3, h4⟩ := ih (i + 1) (bitlen.set i value) bitlenD
        (by rw [List.length_set]; exact hb) hbD (by omega)
      refine ⟨b, bD, by rw [h1, show i + 1 + k = i + (k + 1) by omega], h2, h3, ?_⟩
      intro j
      rcases h4 j with h | h
      · exact Or.inl h
      · rw [h]; exact getD_set_or bitlen i value j
    · rw [if_neg hlt, storew_eq _ _ _ (by omega), ret_bind]
      obtain ⟨b, bD, h1, h2, h3, h4⟩ := ih (i + 1) bitlen (bitlenD.set (i - HLIT) value) hb
        (by rw [List.length_set]; exact hbD) (by omega)
      exact ⟨b, bD, by rw [h1, show i + 1 + k = i + (k + 1) by omega], h2, h3, h4⟩

theorem repeat_lengths_over (HLIT HDIST value errcode : Nat) (hH : HLIT ≤ 288)
    (hD : HDIST ≤ 32) :
    ∀ k i bitlen bitlenD, bitlen.length = 288 → bitlenD.length = 32 → i ≤ HLIT + HDIST →
      HLIT + HDIST < i + k →
      ∃ b bD, repeat_lengths HLIT HDIST value errcode k i bitlen bitlenD
          = .ret (errcode, HLIT + HDIST, b, bD) ∧ b.length = 288 ∧ bD.length = 32 := by
  intro k
  induction k with
  | zero => intro i bitlen bitlenD _ _ h1 h2; omega
  | succ k ih =>
    intro i bitlen bitlenD hb hbD hi hik
    rw [repeat_lengths]
    by_cases hge : i ≥ HLIT + HDIST
    · rw [if_pos hge, show i = HLIT + HDIST by omega]
      exact ⟨bitlen, bitlenD, rfl, hb, hbD⟩
    rw [if_neg hge]
    by_cases hlt : i < HLIT
    · rw [if_pos hlt, storew_eq _ _ _ (by omega), ret_bind]
      exact ih (i + 1) (bitlen.set i value) bitlenD
        (by rw [List.length_set]; exact hb) hbD (by omega) (by omega)
    · rw [if_neg hlt, storew_eq _ _ _ (by omega), ret_bind]
      exact ih (i + 1) bitlen (bitlenD.set (i - HLIT) value) hb
        (by rw [List.length_set]; exact hbD) (by omega) (by omega)

/-- One round of the loop of `get_tree_inflate_dynamic` on a repeat symbol whose
repeat count is inside the input (for symbol 16 at an index `i >= 1`). -/
theorem read_code_lengths_repeat (inp : List Byte) (inlength : Nat) (cltree : huffman_tree)
    (HLIT HDIST : Nat) (hH1 : 257 ≤ HLIT) (hH : HLIT ≤ 288) (hD : HDIST ≤ 32)
    (f i : Nat) (bitlen bitlenD : List Nat) (p code q v q2 : Nat)
    (hb : bitlen.length = 288) (hbD : bitlenD.length = 32) (hi : i < HLIT + HDIST)
    (hdec : huffman_decode_symbol inp p cltree inlength = .ret (0, code, q))
    (hcode : code = 16 ∨ code = 17 ∨ code = 18)
    (h50 : ¬ (q >>> 3) ≥ inlength)
    (hv : read_bits q inp (if code = 16 then 2 else if code = 17 then 3 else 7) = .ret (v, q2))
    (h16 : code = 16 → 1 ≤ i) :
    ∃ value, (code ≠ 16 → value = 0) ∧
      read_code_lengths inp inlength cltree HLIT HDIST (f + 1) i bitlen bitlenD p
      = (do
          let (e, i1, b, bD) ← repeat_lengths HLIT HDIST value (code - 3)
            ((if code = 18 then 11 else 3) + v) i bitlen bitlenD
          if e ≠ 0 then pure (e, b, bD, q2)
          else read_code_lengths inp inlength cltree HLIT HDIST f i1 b bD q2) := by
  rw [read_code_lengths, if_neg (show ¬ ¬ (i < HLIT + HDIST) by omega), hdec, ret_bind]
  dsimp only
  rw [if_neg (show ¬ (0 : Nat) ≠ 0 by omega)]
  rcases hcode with h | h | h
  · subst h
    rw [if_pos rfl] at hv
    have hi1 : 1 ≤ i := h16 rfl
    rw [if_neg (show ¬ (16 : Nat) = 18 by decide)]
    rw [if_neg (show ¬ (16 : Nat) ≤ 15 by decide), if_pos rfl, if_neg h50, hv, ret_bind]
    dsimp only
    have e1 : (i + 2 ^ 32 - 1) % 2 ^ 32 = i - 1 := by omega
    have e2 : (i + 2 * 2 ^ 32 - HLIT - 1) % 2 ^ 32
        = (if i - 1 < HLIT then (i + 2 * 2 ^ 32 - HLIT - 1) % 2 ^ 32 else i - HLIT - 1) := by
      split <;> omega
    rw [e1]
    by_cases hlt : i - 1 < HLIT
    · rw [if_pos hlt, loadw_getD _ _ (by omega), ret_bind]
      exact ⟨_, fun h => absurd rfl h, rfl⟩
    · rw [if_neg hlt, e2, if_neg hlt, loadw_getD _ _ (by omega), ret_bind]
      exact ⟨_, fun h => absurd rfl h, rfl⟩
  · subst h
    rw [if_neg (show ¬ (17 : Nat) = 16 by decide), if_pos rfl] at hv
    rw [if_neg (show ¬ (17 : Nat) = 18 by decide)]
    rw [if_neg (show ¬ (17 : Nat) ≤ 15 by decide), if_neg (show ¬ (17 : Nat) = 16 by decide),
      if_pos rfl, if_neg h50, hv, ret_bind]
    exact ⟨0, fun _ => rfl, rfl⟩
  · subst h
    rw [if_neg (show ¬ (18 : Nat) = 16 by decide), if_neg (show ¬ (18 : Nat) = 17 by decide)]
      at hv
    rw [if_pos rfl]
    rw [if_neg (show ¬ (18 : Nat) ≤ 15 by decide), if_neg (show ¬ (18 : Nat) = 16 by decide),
      if_neg (show ¬ (18 : Nat) = 17 by decide), if_pos rfl, if_neg h50, hv, ret_bind]
    exact ⟨0, fun _ => rfl, rfl⟩

/-- The repeat count of symbol 16 is at most 6, so that a repeat that reaches index
`HLIT + HDIST >= 258` does not start at index 0. -/
theorem repeat_index_pos (inp : List Byte) (HLIT HDIST i code q v q2 : Nat) (hH1 : 257 ≤ HLIT)
    (hv : read_bits q inp (if code = 16 then 2 else if code = 17 then 3 else 7) = .ret (v, q2))
    (hge : HLIT + HDIST ≤ i + ((if code = 18 then 11 else 3) + v)) : code = 16 → 1 ≤ i := by
  intro h
  subst h
  have hvlt := read_bits_lt _ _ _ _ _ hv
  rw [if_pos rfl] at hvlt
  rw [if_neg (show ¬ (16 : Nat) = 18 by decide)] at hge
  have hv4 : v < 4 := hvlt
  omega

/-- A repeat that stays below index `HLIT + HDIST` or ends exactly there: the loop goes
on at the index after the repeat. -/
theorem read_code_lengths_step (inp : List Byte) (inlength : Nat) (cltree : huffman_tree)
    (HLIT HDIST : Nat) (hH1 : 257 ≤ HLIT) (hH : HLIT ≤ 288) (hD : HDIST ≤ 32)
    (f i : Nat) (bitlen bitlenD : List Nat) (p code q v q2 : Nat)
    (hb : bitlen.length = 288) (hbD : bitlenD.length = 32) (hi : i < HLIT + HDIST)
    (hdec : huffman_decode_symbol inp p cltree inlength = .ret (0, code, q))
    (hcode : code = 16 ∨ code = 17 ∨ code = 18)
    (h50 : ¬ (q >>> 3) ≥ inlength)
    (hv : read_bits q inp (if code = 16 then 2 else if code = 17 then 3 else 7) = .ret (v, q2))
    (h16 : code = 16 → 1 ≤ i)
    (hle : i + ((if code = 18 then 11 else 3) + v) ≤ HLIT + HDIST) :
    ∃ b bD, read_code_lengths inp inlength cltree HLIT HDIST (f + 1) i bitlen bitlenD p
        = read_code_lengths inp inlength cltree HLIT HDIST f
            (i + ((if code = 18 then 11 else 3) + v)) b bD q2 ∧
      b.length = 288 ∧ bD.length = 32 ∧
      (code ≠ 16 → ∀ j, b.getD j 0 = 0 ∨ b.getD j 0 = bitlen.getD j 0) := by
  obtain ⟨value, hval, hround⟩ := read_code_lengths_repeat inp inlength cltree HLIT HDIST hH1 hH
    hD f i bitlen bitlenD p code q v q2 hb hbD hi hdec hcode h50 hv h16
  obtain ⟨b, bD, hrep, h1, h2, h3⟩ := repeat_lengths_ok HLIT HDIST value (code - 3) hH hD
    ((if code = 18 then 11 else 3) + v) i bitlen bitlenD hb hbD hle
  refine ⟨b, bD, ?_, h1, h2, ?_⟩
  · rw [hround, hrep, ret_bind]
    dsimp only
    rw [if_neg (show ¬ (0 : Nat) ≠ 0 by omega)]
  · intro h16n j
    have h := h3 j
    rw [hval h16n] at h
    exact h

/-- A repeat that would write at an index `>= HLIT + HDIST` ends the loop with error
13, 14 or 15. -/
theorem read_code_lengths_over (inp : List Byte) (inlength : Nat) (cltree : huffman_tree)
    (HLIT HDIST : Nat) (hH1 : 257 ≤ HLIT) (hH : HLIT ≤ 288) (hD : HDIST ≤ 32)
    (f i : Nat) (bitlen bitlenD : List Nat) (p code q v q2 : Nat)
    (hb : bitlen.length = 288) (hbD : bitlenD.length = 32) (hi : i < HLIT + HDIST)
    (hdec : huffman_decode_symbol inp p cltree inlength = .ret (0, code, q))
    (hcode : code = 16 ∨ code = 17 ∨ code = 18)
    (h50 : ¬ (q >>> 3) ≥ inlength)
    (hv : read_bits q inp (if code = 16 then 2 else if code = 17 then 3 else 7) = .ret (v, q2))
    (hover : HLIT + HDIST < i + ((if code = 18 then 11 else 3) + v)) :
    ∃ b bD, read_code_lengths inp inlength cltree HLIT HDIST (f + 1) i bitlen bitlenD p
      = .ret (code - 3, b, bD, q2) ∧ b.length = 288 ∧ bD.length = 32 := by
  obtain ⟨value, _, hround⟩ := read_code_lengths_repeat inp inlength cltree HLIT HDIST hH1 hH hD
    f i bitlen bitlenD p code q v q2 hb hbD hi hdec hcode h50 hv
    (repeat_index_pos inp HLIT HDIST i code q v q2 hH1 hv (by omega))
  obtain ⟨b, bD, hrep, h1, h2⟩ := repeat_lengths_over HLIT HDIST value (code - 3) hH hD
    ((if code = 18 then 11 else 3) + v) i bitlen bitlenD hb hbD (by omega) hover
  refine ⟨b, bD, ?_, h1, h2⟩
  rw [hround, hrep, ret_bind]
  dsimp only
  rw [if_pos (show code - 3 ≠ 0 by omega)]
  rfl

/-- A repeat that ends exactly at index `HLIT + HDIST` ends the loop without error. -/
theorem read_code_lengths_exact (inp : List Byte) (inlength : Nat) (cltree : huffman_tree)
    (HLIT HDIST : Nat) (hH1 : 257 ≤ HLIT) (hH : HLIT ≤ 288) (hD : HDIST ≤ 32)
    (f i : Nat) (bitlen bitlenD : List Nat) (p code q v q2 : Nat)
    (hb : bitlen.length = 288) (hbD : bitlenD.length = 32) (hi : i < HLIT + HDIST)
    (hdec : huffman_decode_symbol inp p cltree inlength = .ret (0, code, q))
    (hcode : code = 16 ∨ code = 17 ∨ code = 18)
    (h50 : ¬ (q >>> 3) ≥ inlength)
    (hv : read_bits q inp (if code = 16 then 2 else if code = 17 then 3 else 7) = .ret (v, q2))
    (hexact : i + ((if code = 18 then 11 else 3) + v) = HLIT + HDIST) :
    ∃ b bD, read_code_lengths inp inlength cltree HLIT HDIST (f + 2) i bitlen bitlenD p
      = .ret (0, b, bD, q2) ∧ b.length = 288 ∧ bD.length = 32 ∧
      (code ≠ 16 → ∀ j, b.getD j 0 = 0 ∨ b.getD j 0 = bitlen.getD j 0) := by
  obtain ⟨b, bD, hstep, h1, h2, h3⟩ := read_code_lengths_step inp inlength cltree HLIT HDIST
    hH1 hH hD (f + 1) i bitlen bitlenD p code q v q2 hb hbD hi hdec hcode h50 hv
    (repeat_index_pos inp HLIT HDIST i code q v q2 hH1 hv (by omega)) (by omega)
  refine ⟨b, bD, ?_, h1, h2, h3⟩
  rw [hstep, read_code_lengths,
    if_pos (show ¬ (i + ((if code = 18 then 11 else 3) + v) < HLIT + HDIST) by omega)]

theorem storew_length (l : List Nat) (i v : Nat) :
    (storew l i v).sat (fun b => b.length = l.length) := by
  unfold storew
  refine sat_ite _ _ _ _ ?_ ?_
  · intro _; exact sat_ret _ _ (List.length_set _ _ _)
  · intro _; exact sat_fault _

theorem repeat_lengths_length (HLIT HDIST value errcode : Nat) :
    ∀ k i bitlen bitlenD, (repeat_lengths HLIT HDIST value errcode k i bitlen bitlenD).sat
      (fun r => r.2.2.1.length = bitlen.length ∧ r.2.2.2.length = bitlenD.length) := by
  intro k
  induction k with
  | zero => intro i bitlen bitlenD; exact sat_ret _ _ ⟨rfl, rfl⟩
  | succ k ih =>
    intro i bitlen bitlenD
    rw [repeat_lengths]
    refine sat_ite _ _ _ _ ?_ ?_
    · intro _; exact sat_ret _ _ ⟨rfl, rfl⟩
    · intro _
      refine sat_ite _ _ _ _ ?_ ?_
      · intro _
        refine sat_bind _ _ _ _ (storew_length _ _ _) ?_
        intro b hb r hr
        have h := ih _ _ _ r hr
        rw [hb] at h; exact h
      · intro _
        refine sat_bind _ _ _ _ (storew_length _ _ _) ?_
        intro b hb r hr
        have h := ih _ _ _ r hr
        rw [hb] at h; exact h

/-- The loop of `get_tree_inflate_dynamic` keeps the sizes of `bitlen` and
`bitlenD`. -/
theorem read_code_lengths_length (inp : List Byte) (inlength : Nat) (cltree : huffman_tree)
    (HLIT HDIST : Nat) :
    ∀ fuel i bitlen bitlenD bp,
      (read_code_lengths inp inlength cltree HLIT HDIST fuel i bitlen bitlenD bp).sat
        (fun r => r.2.1.length = bitlen.length ∧ r.2.2.1.length = bitlenD.length) := by
  intro fuel
  induction fuel with
  | zero => intro i bitlen bitlenD bp; exact sat_nofuel _
  | succ f ih =>
    intro i bitlen bitlenD bp
    have hrep : ∀ value errcode k bp2,
        (repeat_lengths HLIT HDIST value errcode k i bitlen bitlenD >>= fun x =>
          match x with
          | (e, i1, b, bD) =>
            if e ≠ 0 then pure (e, b, bD, bp2)
            else read_code_lengths inp inlength cltree HLIT HDIST f i1 b bD bp2).sat
        (fun r => r.2.1.length = bitlen.length ∧ r.2.2.1.length = bitlenD.length) := by
      intro value errcode k bp2
      refine sat_bind _ _ _ _ (repeat_lengths_length HLIT HDIST value errcode k i bitlen bitlenD) ?_
      rintro ⟨e, i1, b, bD⟩ hl
      dsimp only at hl ⊢
      refine sat_ite _ _ _ _ ?_ ?_
      · intro _; exact sat_pure _ _ hl
      · intro _ r hr
        have h := ih _ _ _ _ r hr
        rw [hl.1, hl.2] at h; exact h
    rw [read_code_lengths]
    refine sat_ite _ _ _ _ ?_ ?_
    · intro _; exact sat_ret _ _ ⟨rfl, rfl⟩
    · intro _
      refine sat_bind_any _ _ _ ?_
      rintro ⟨err, code, bp1⟩
      dsimp only
      refine sat_ite _ _ _ _ ?_ ?_
      · intro _; exact sat_pure _ _ ⟨rfl, rfl⟩
      intro _
      refine sat_ite _ _ _ _ ?_ ?_
      · intro _
        refine sat_ite _ _ _ _ ?_ ?_
        · intro _
          refine sat_bind _ _ _ _ (storew_length _ _ _) ?_
          intro b hb r hr
          have h := ih _ _ _ _ r hr
          rw [hb] at h; exact h
        · intro _
          refine sat_bind _ _ _ _ (storew_length _ _ _) ?_
          intro b hb r hr
          have h := ih _ _ _ _ r hr
          rw [hb] at h; exact h
      intro _
      refine sat_ite _ _ _ _ ?_ ?_
      · intro _
        refine sat_ite _ _ _ _ ?_ ?_
        · intro _; exact sat_pure _ _ ⟨rfl, rfl⟩
        intro _
        refine sat_bind_any _ _ _ ?_; rintro ⟨v, bp2⟩
        dsimp only
        refine sat_ite _ _ _ _ ?_ ?_ <;> intro _ <;> refine sat_bind_any _ _ _ ?_ <;>
          intro value <;> exact hrep _ _ _ _
      intro _
      refine sat_ite _ _ _ _ ?_ ?_
      · intro _
        refine sat_ite _ _ _ _ ?_ ?_
        · intro _; exact sat_pure _ _ ⟨rfl, rfl⟩
        intro _
        refine sat_bind_any _ _ _ ?_; rintro ⟨v, bp2⟩
        exact hrep _ _ _ _
      intro _
      refine sat_ite _ _ _ _ ?_ ?_
      · intro _
        refine sat_ite _ _ _ _ ?_ ?_
        · intro _; exact sat_pure _ _ ⟨rfl, rfl⟩
        intro _
        refine sat_bind_any _ _ _ ?_; rintro ⟨v, bp2⟩
        exact hrep _ _ _ _
      · intro _; exact sat_pure _ _ ⟨rfl, rfl⟩

/-- The function `get_tree_inflate_dynamic` after the loop that reads the code
lengths. -/
theorem get_tree_after_loop (codetree codetreeD cl : huffman_tree) (inp : List Byte)
    (bp inlength v1 bp1 v2 bp2 v3 bp3 : Nat) (clc : List Nat) (bp4 : Nat) (cltree : huffman_tree)
    (h49 : ¬ (bp >>> 3) ≥ (inlength + 2 ^ 64 - 2) % 2 ^ 64)
    (hv1 : read_bits bp inp 5 = .ret (v1, bp1))
    (hv2 : read_bits bp1 inp 5 = .ret (v2, bp2))
    (hv3 : read_bits bp2 inp 4 = .ret (v3, bp3))
    (hclc : read_clcl inp (v3 + 4) bp3 = .ret (clc, bp4))
    (hcl : huffman_tree_create_lengths cl clc NUM_CODE_LENGTH_CODES 7 = .ret (cltree, 0))
    (e : Nat) (b bD : List Nat) (p5 : Nat)
    (hloop : read_code_lengths inp inlength cltree (v1 + 257) (v2 + 1) (8 * inp.length + 1) 0
        (List.replicate NUM_DEFLATE_CODE_SYMBOLS 0) (List.replicate NUM_DISTANCE_SYMBOLS 0) bp4
      = .ret (e, b, bD, p5)) :
    get_tree_inflate_dynamic codetree codetreeD cl inp bp inlength
      = (if e ≠ 0 then .ret (e, codetree, codetreeD, p5)
          else if b.getD 256 0 = 0 then .ret (64, codetree, codetreeD, p5)
          else do
            let (t, error3) ← huffman_tree_create_lengths codetree b NUM_DEFLATE_CODE_SYMBOLS 15
            if error3 ≠ 0 then pure (error3, t, codetreeD, p5)
            else do
              let (tD, error4) ←
                huffman_tree_create_lengths codetreeD bD NUM_DISTANCE_SYMBOLS 15
              pure (error4, t, tD, p5)) := by
  have hlen := read_code_lengths_length inp inlength cltree (v1 + 257) (v2 + 1) _ _ _ _ _ _ hloop
  have hb : 256 < b.length := by
    have h1 : b.length = 288 := by
      have h := hlen.1
      rw [List.length_replicate] at h
      exact h
    omega
  unfold get_tree_inflate_dynamic
  rw [if_neg h49, hv1, ret_bind]
  dsimp only
  rw [hv2, ret_bind]
  dsimp only
  rw [hv3, ret_bind]
  dsimp only
  rw [hclc, ret_bind]
  dsimp only
  rw [hcl, ret_bind]
  dsimp only
  rw [if_neg (show ¬ (0 : Nat) ≠ 0 by omega), hloop, ret_bind]
  dsimp only
  rw [loadw_getD _ _ hb, ret_bind]
  by_cases he : e ≠ 0
  · rw [if_pos he, if_neg (show ¬ (e = 0 ∧ b.getD 256 0 = 0) from fun h => he h.1), if_pos he]
    rfl
  · rw [if_neg he]
    have he0 : e = 0 := by omega
    subst he0
    by_cases h256 : b.getD 256 0 = 0
    · rw [if_pos h256, if_pos (show (0 : Nat) = 0 ∧ b.getD 256 0 = 0 from ⟨rfl, h256⟩),
        if_pos (show (64 : Nat) ≠ 0 by decide)]
      rfl
    · rw [if_neg h256, if_neg (show ¬ ((0 : Nat) = 0 ∧ b.getD 256 0 = 0) from fun h => h256 h.2),
        if_neg (show ¬ (0 : Nat) ≠ 0 by omega)]

/-- Claim C26 (validation of the dynamic header).  Let the header of a dynamic block be
read without error: the counts `HLIT = v1 + 257`, `HDIST = v2 + 1` and `HCLEN = v3 + 4`,
the code length code lengths and their table `cltree`.  Then
(1) whenever the loop that reads the code lengths, started on the zeroed vectors,
arrives at index `i < HLIT + HDIST` (the run from the start is the run from that
state) and decodes there a repeat symbol 16, 17 or 18 whose repeat count `3 + v`,
`3 + v` or `11 + v` would write at an index `>= HLIT + HDIST`, the function
`get_tree_inflate_dynamic` returns error 13, 14 or 15 respectively;
(2) whenever the loop has read all `HLIT + HDIST` lengths without error and the length
of symbol 256 is 0, the function returns error 64;
(3) whenever the repeat of (1) ends exactly at index `HLIT + HDIST` instead, the loop
ends without error at the bit after the repeat count, and the function goes on to the
test of symbol 256 and to the two tables. -/
theorem C26_dynamic_header_validation (codetree codetreeD cl : huffman_tree) (inp : List Byte)
    (bp inlength v1 bp1 v2 bp2 v3 bp3 : Nat) (clc : List Nat) (bp4 : Nat) (cltree : huffman_tree)
    (h49 : ¬ (bp >>> 3) ≥ (inlength + 2 ^ 64 - 2) % 2 ^ 64)
    (hv1 : read_bits bp inp 5 = .ret (v1, bp1))
    (hv2 : read_bits bp1 inp 5 = .ret (v2, bp2))
    (hv3 : read_bits bp2 inp 4 = .ret (v3, bp3))
    (hclc : read_clcl inp (v3 + 4) bp3 = .ret (clc, bp4))
    (hcl : huffman_tree_create_lengths cl clc NUM_CODE_LENGTH_CODES 7 = .ret (cltree, 0)) :
    (∀ f i bitlen bitlenD p code q v q2,
      read_code_lengths inp inlength cltree (v1 + 257) (v2 + 1) (8 * inp.length + 1) 0
          (List.replicate NUM_DEFLATE_CODE_SYMBOLS 0) (List.replicate NUM_DISTANCE_SYMBOLS 0) bp4
        = read_code_lengths inp inlength cltree (v1 + 257) (v2 + 1) (f + 1) i bitlen bitlenD p →
      bitlen.length = NUM_DEFLATE_CODE_SYMBOLS → bitlenD.length = NUM_DISTANCE_SYMBOLS →
      i < v1 + 257 + (v2 + 1) →
      huffman_decode_symbol inp p cltree inlength = .ret (0, code, q) →
      (code = 16 ∨ code = 17 ∨ code = 18) →
      ¬ (q >>> 3) ≥ inlength →
      read_bits q inp (if code = 16 then 2 else if code = 17 then 3 else 7) = .ret (v, q2) →
      v1 + 257 + (v2 + 1) < i + ((if code = 18 then 11 else 3) + v) →
      get_tree_inflate_dynamic codetree codetreeD cl inp bp inlength
        = .ret (code - 3, codetree, codetreeD, q2)) ∧
    (∀ bitlen bitlenD bp5,
      read_code_lengths inp inlength cltree (v1 + 257) (v2 + 1) (8 * inp.length + 1) 0
          (List.replicate NUM_DEFLATE_CODE_SYMBOLS 0) (List.replicate NUM_DISTANCE_SYMBOLS 0) bp4
        = .ret (0, bitlen, bitlenD, bp5) →
      bitlen.getD 256 0 = 0 →
      get_tree_inflate_dynamic codetree codetreeD cl inp bp inlength
        = .ret (64, codetree, codetreeD, bp5)) ∧
    (∀ f i bitlen bitlenD p code q v q2,
      read_code_lengths inp inlength cltree (v1 + 257) (v2 + 1) (8 * inp.length + 1) 0
          (List.replicate NUM_DEFLATE_CODE_SYMBOLS 0) (List.replicate NUM_DISTANCE_SYMBOLS 0) bp4
        = read_code_lengths inp inlength cltree (v1 + 257) (v2 + 1) (f + 2) i bitlen bitlenD p →
      bitlen.length = NUM_DEFLATE_CODE_SYMBOLS → bitlenD.length = NUM_DISTANCE_SYMBOLS →
      i < v1 + 257 + (v2 + 1) →
      huffman_decode_symbol inp p cltree inlength = .ret (0, code, q) →
      (code = 16 ∨ code = 17 ∨ code = 18) →
      ¬ (q >>> 3) ≥ inlength →
      read_bits q inp (if code = 16 then 2 else if code = 17 then 3 else 7) = .ret (v, q2) →
      i + ((if code = 18 then 11 else 3) + v) = v1 + 257 + (v2 + 1) →
      ∃ b bD,
        read_code_lengths inp inlength cltree (v1 + 257) (v2 + 1) (8 * inp.length + 1) 0
            (List.replicate NUM_DEFLATE_CODE_SYMBOLS 0) (List.replicate NUM_DISTANCE_SYMBOLS 0) bp4
          = .ret (0, b, bD, q2) ∧
        get_tree_inflate_dynamic codetree codetreeD cl inp bp inlength
          = (if b.getD 256 0 = 0 then .ret (64, codetree, codetreeD, q2)
              else do
                let (t, error3) ←
                  huffman_tree_create_lengths codetree b NUM_DEFLATE_CODE_SYMBOLS 15
                if error3 ≠ 0 then pure (error3, t, codetreeD, q2)
                else do
                  let (tD, error4) ←
                    huffman_tree_create_lengths codetreeD bD NUM_DISTANCE_SYMBOLS 15
                  pure (error4, t, tD, q2))) := by
  have hH : v1 + 257 ≤ 288 := by
    have h := read_bits_lt _ _ _ _ _ hv1
    have h32 : (2 : Nat) ^ 5 = 32 := by norm_num
    omega
  have hD : v2 + 1 ≤ 32 := by
    have h := read_bits_lt _ _ _ _ _ hv2
    have h32 : (2 : Nat) ^ 5 = 32 := by norm_num
    omega
  have hafter := get_tree_after_loop codetree codetreeD cl inp bp inlength v1 bp1 v2 bp2 v3 bp3
    clc bp4 cltree h49 hv1 hv2 hv3 hclc hcl
  refine ⟨?_, ?_, ?_⟩
  · intro f i bitlen bitlenD p code q v q2 hreach hb hbD hi hdec hcode h50 hv hover
    obtain ⟨b, bD, hrun, _, _⟩ := read_code_lengths_over inp inlength cltree (v1 + 257) (v2 + 1)
      (by omega) hH hD f i bitlen bitlenD p code q v q2 hb hbD hi hdec hcode h50 hv hover
    rw [hafter (code - 3) b bD q2 (by rw [hreach, hrun]),
      if_pos (show code - 3 ≠ 0 by omega)]
  · intro bitlen bitlenD bp5 hloop h256
    rw [hafter 0 bitlen bitlenD bp5 hloop, if_neg (show ¬ (0 : Nat) ≠ 0 by omega), if_pos h256]
  · intro f i bitlen bitlenD p code q v q2 hreach hb hbD hi hdec hcode h50 hv hexact
    obtain ⟨b, bD, hrun, _, _⟩ := read_code_lengths_exact inp inlength cltree (v1 + 257) (v2 + 1)
      (by omega) hH hD f i bitlen bitlenD p code q v q2 hb hbD hi hdec hcode h50 hv hexact
    refine ⟨b, bD, by rw [hreach, hrun], ?_⟩
    rw [hafter 0 b bD q2 (by rw [hreach, hrun]), if_neg (show ¬ (0 : Nat) ≠ 0 by omega)]

/-- Witness for C26: in `dynamic_header_overflow` the second symbol 18 (at index 138,
repeat count 138) would write beyond index 258 and the function returns error 15; in
`dynamic_header_no_end` the second repeat count is 120, the repeat ends exactly at index
258 without error, and the function returns error 64 because the length of symbol 256
is 0. -/
theorem C26_witness :
    get_tree_inflate_dynamic huffman_tree_init huffman_tree_init huffman_tree_init
        dynamic_header_overflow 0 8
      = .ret (15, huffman_tree_init, huffman_tree_init, 42) ∧
    get_tree_inflate_dynamic huffman_tree_init huffman_tree_init huffman_tree_init
        dynamic_header_no_end 0 8
      = .ret (64, huffman_tree_init, huffman_tree_init, 42) ∧
    ∃ b bD,
      read_code_lengths dynamic_header_no_end 8 example_cltree (0 + 257) (0 + 1)
          (8 * dynamic_header_no_end.length + 1) 0
          (List.replicate NUM_DEFLATE_CODE_SYMBOLS 0) (List.replicate NUM_DISTANCE_SYMBOLS 0) 26
        = .ret (0, b, bD, 42) ∧
      get_tree_inflate_dynamic huffman_tree_init huffman_tree_init huffman_tree_init
          dynamic_header_no_end 0 8
        = (if b.getD 256 0 = 0 then .ret (64, huffman_tree_init, huffman_tree_init, 42)
            else do
              let (t, error3) ←
                huffman_tree_create_lengths huffman_tree_init b NUM_DEFLATE_CODE_SYMBOLS 15
              if error3 ≠ 0 then pure (error3, t, huffman_tree_init, 42)
              else do
                let (tD, error4) ←
                  huffman_tree_create_lengths huffman_tree_init bD NUM_DISTANCE_SYMBOLS 15
                pure (error4, t, tD, 42)) := by
  have hover := C26_dynamic_header_validation huffman_tree_init huffman_tree_init
    huffman_tree_init dynamic_header_overflow 0 8 0 5 0 10 0 14 example_clcl 26 example_cltree
    (by decide) (by rfl) (by rfl) (by rfl) (by rfl) (by rfl)
  have hnoend := C26_dynamic_header_validation huffman_tree_init huffman_tree_init
    huffman_tree_init dynamic_header_no_end 0 8 0 5 0 10 0 14 example_clcl 26 example_cltree
    (by decide) (by rfl) (by rfl) (by rfl) (by rfl) (by rfl)
  -- the first symbol 18 of both headers: 138 zeros from index 0
  obtain ⟨b1, bD1, hs1, hb1, hbD1, _⟩ := read_code_lengths_step dynamic_header_overflow 8
    example_cltree (0 + 257) (0 + 1) (by decide) (by decide) (by decide) 48 0
    (List.replicate NUM_DEFLATE_CODE_SYMBOLS 0) (List.replicate NUM_DISTANCE_SYMBOLS 0)
    26 18 27 127 34 (List.length_replicate _ _) (List.length_replicate _ _) (by omega)
    (by rfl) (by decide) (by decide) (by rfl)
    (by decide) (by decide)
  obtain ⟨c1, cD1, ht1, hc1, hcD1, hz1⟩ := read_code_lengths_step dynamic_header_no_end 8
    example_cltree (0 + 257) (0 + 1) (by decide) (by decide) (by decide) 48 0
    (List.replicate NUM_DEFLATE_CODE_SYMBOLS 0) (List.replicate NUM_DISTANCE_SYMBOLS 0)
    26 18 27 127 34 (List.length_replicate _ _) (List.length_replicate _ _) (by omega)
    (by rfl) (by decide) (by decide) (by rfl)
    (by decide) (by decide)
  -- the second symbol 18 of `dynamic_header_no_end`: 120 zeros from index 138
  obtain ⟨c2, cD2, ht2, _, _, hz2⟩ := read_code_lengths_exact dynamic_header_no_end 8
    example_cltree (0 + 257) (0 + 1) (by decide) (by decide) (by decide) 46 138 c1 cD1
    34 18 35 109 42 hc1 hcD1 (by omega) (by rfl) (by decide) (by decide) (by rfl) (by decide)
  have h256 : c2.getD 256 0 = 0 := by
    rcases hz2 (by decide) 256 with h | h
    · exact h
    · rw [h]
      rcases hz1 (by decide) 256 with h1 | h1
      · exact h1
      · rw [h1]; rfl
  refine ⟨?_, ?_, ?_⟩
  · exact hover.1 47 138 b1 bD1 34 18 35 127 42 hs1 hb1 hbD1 (by omega) (by rfl) (by decide)
      (by decide) (by rfl) (by decide)
  · exact hnoend.2.1 c2 cD2 42 (ht1.trans ht2) h256
  · exact hnoend.2.2 46 138 c1 cD1 34 18 35 109 42 ht1 hc1 hcD1 (by omega) (by rfl)
      (by decide) (by decide) (by rfl) (by decide)

/-! ## Reconstruction in place -/

theorem line_state_in_zero (m : Mem) (ro : Nat) (R : List Byte) :
    line_state_in m ro R 0 = m := by
  unfold line_state_in
  simp

/-- A load from the scanline, which lies at or after the byte that is written next. -/
theorem line_state_in_load_scan (m : Mem) (ro so : Nat) (R : List Byte) (i j : Nat)
    (hi : i ≤ R.length) (h : so + j < m.inb.length) (hge : ro + i ≤ so + j) :
    (line_state_in m ro R i).load { obj := .inb, off := so } j
      = .ret (m.inb.getD (so + j) 0).val := by
  unfold Mem.load Mem.bytes line_state_in load
  dsimp only
  have hl : (m.inb.take ro ++ R.take i).length = ro + i := by
    rw [List.length_append, List.length_take, List.length_take]; omega
  rw [List.getElem?_append_right (by rw [hl]; omega), hl, List.getElem?_drop,
    show ro + i + (so + j - (ro + i)) = so + j by omega,
    List.getElem?_eq_getElem h, List.getD_eq_getElem _ _ h]

theorem line_state_in_load_before (m : Mem) (ro po : Nat) (R : List Byte) (i j : Nat)
    (hro : ro ≤ m.inb.length) (h : po + j < ro) :
    (line_state_in m ro R i).load { obj := .inb, off := po } j
      = .ret (m.inb.getD (po + j) 0).val := by
  unfold Mem.load Mem.bytes line_state_in load
  dsimp only
  rw [List.append_assoc, List.getElem?_append_left (by rw [List.length_take]; omega),
    List.getElem?_take_of_lt h, List.getElem?_eq_getElem (by omega),
    List.getD_eq_getElem _ _ (by omega)]

theorem line_state_in_load_recon (m : Mem) (ro : Nat) (R : List Byte) (i j : Nat)
    (hro : ro ≤ m.inb.length) (hi : i ≤ R.length) (h : j < i) :
    (line_state_in m ro R i).load { obj := .inb, off := ro } j = .ret (R.getD j 0).val := by
  unfold Mem.load Mem.bytes line_state_in load
  dsimp only
  have hl : (m.inb.take ro).length = ro := by rw [List.length_take]; omega
  rw [List.append_assoc, List.getElem?_append_right (by rw [hl]; omega), hl,
    show ro + j - ro = j by omega,
    List.getElem?_append_left (by rw [List.length_take]; omega),
    List.getElem?_take_of_lt h, List.getElem?_eq_getElem (by omega),
    List.getD_eq_getElem _ _ (by omega)]

theorem line_state_in_store (m : Mem) (ro : Nat) (R : List Byte) (i : Nat) (v : Byte)
    (hro : ro + R.length ≤ m.inb.length) (hi : i < R.length) (hv : v = R.getD i 0) :
    (line_state_in m ro R i).store { obj := .inb, off := ro } i v
      = .ret (line_state_in m ro R (i + 1)) := by
  have hl : (m.inb.take ro ++ R.take i).length = ro + i := by
    rw [List.length_append, List.length_take, List.length_take]; omega
  unfold Mem.store line_state_in
  dsimp only
  rw [poke_eq _ _ _ (by
    rw [List.length_append, hl, List.length_drop]; omega)]
  rw [ret_bind]
  congr 2
  rw [← hl, List.take_left, List.drop_append, List.drop_drop, hl]
  rw [show R.take (i + 1) = R.take i ++ [R.getD i 0] by
    rw [List.take_succ, List.getD_eq_getElem?_getD, List.getElem?_eq_getElem hi]; rfl]
  rw [hv, show ro + i + 1 = ro + (i + 1) by omega]
  simp

theorem line_state_in_inb_length (m : Mem) (ro : Nat) (R : List Byte) (i : Nat)
    (hro : ro + i ≤ m.inb.length) (hi : i ≤ R.length) :
    (line_state_in m ro R i).inb.length = m.inb.length := by
  unfold line_state_in
  dsimp only
  rw [List.length_append, List.length_append, List.length_take, List.length_take,
    List.length_drop]
  omega

/-- Byte `i` of the reference reconstruction of a line whose previous line lies in the
inflated block as well. -/
theorem recon_line_get_in (m : Mem) (so : Nat) (pre : Option Nat) (f bw n i : Nat)
    (hbw : 1 ≤ bw) (hso : so + n ≤ m.inb.length) (hi : i < n) :
    (recon_line f bw ((m.inb.drop so).take n)
        (pre.map (fun po => (m.inb.drop po).take n))).getD i 0
      = toByteI (((m.inb.getD (so + i) 0).val : Int)
          + predictor f
              (if i < bw then 0
                else (((recon_line f bw ((m.inb.drop so).take n)
                  (pre.map (fun po => (m.inb.drop po).take n))).getD (i - bw) 0).val : Int))
              (match pre with
                | some po => ((m.inb.getD (po + i) 0).val : Int)
                | none => 0)
              (match pre with
                | some po => if i < bw then 0 else ((m.inb.getD (po + (i - bw)) 0).val : Int)
                | none => 0)) :=
  recon_line_get { outb := m.inb, inb := m.inb } so pre f bw n i hbw hso hi

/-- The function `unfilter_scanline` in place and without a previous line, for the filter
types 0 to 4: the line written at offset `ro` of the inflated block is the reference
reconstruction of the scanline at offset `so >= ro` of the same block. -/
theorem unfilter_scanline_inplace_none (m : Mem) (ro so bw f n : Nat) (hf : f ≤ 4)
    (hbw : 1 ≤ bw) (hn : bw ≤ n) (hso : so + n ≤ m.inb.length) (hrs : ro ≤ so) :
    unfilter_scanline m { obj := .inb, off := ro } { obj := .inb, off := so } none bw f n
      = .ret (line_state_in m ro (recon_line f bw ((m.inb.drop so).take n) none) n, UPNG_EOK) := by
  have hlen : ((m.inb.drop so).take n).length = n := by
    rw [List.length_take, List.length_drop]; omega
  have hR : (recon_line f bw ((m.inb.drop so).take n) none).length = n := by
    rw [recon_line_length, hlen]
  have hget := fun i (hi : i < n) => recon_line_get_in m so none f bw n i hbw hso hi
  simp only [Option.map_none'] at hget
  generalize recon_line f bw ((m.inb.drop so).take n) none = R at hR hget ⊢
  have hro1 : ro + R.length ≤ m.inb.length := by omega
  -- the loop that copies bytes
  have hcopy : ∀ count lo, lo + count ≤ n →
      (∀ i, lo ≤ i → i < lo + count → R.getD i 0 = m.inb.getD (so + i) 0) →
      for_loop (fun i (m : Mem) =>
            m.load { obj := .inb, off := so } i >>= fun s =>
              m.store { obj := .inb, off := ro } i (toByte s))
          count lo (line_state_in m ro R lo)
        = .ret (line_state_in m ro R (lo + count)) := by
    intro count lo hc hv
    refine for_loop_chain _ (line_state_in m ro R) count lo ?_
    intro i h1 h2
    dsimp only
    rw [line_state_in_load_scan m ro so R i i (by omega) (by omega) (by omega), ret_bind, toByte_val]
    exact line_state_in_store m ro R i _ hro1 (by omega) (hv i h1 h2).symm
  -- the loops that use the left neighbour
  have hleft : ∀ (g : Nat → Nat → Byte),
      (∀ i, bw ≤ i → i < n →
        R.getD i 0 = g (m.inb.getD (so + i) 0).val (R.getD (i - bw) 0).val) →
      for_loop (fun i (m : Mem) =>
            m.load { obj := .inb, off := so } i >>= fun s =>
              m.load { obj := .inb, off := ro } (i - bw) >>= fun r =>
                m.store { obj := .inb, off := ro } i (g s r))
          (n - bw) bw (line_state_in m ro R bw)
        = .ret (line_state_in m ro R n) := by
    intro g hv
    have := for_loop_chain (fun i (m : Mem) =>
            m.load { obj := .inb, off := so } i >>= fun s =>
              m.load { obj := .inb, off := ro } (i - bw) >>= fun r =>
                m.store { obj := .inb, off := ro } i (g s r)) (line_state_in m ro R) (n - bw) bw
      (by
        intro i h1 h2
        dsimp only
        rw [line_state_in_load_scan m ro so R i i (by omega) (by omega) (by omega), ret_bind,
          line_state_in_load_recon m ro R i (i - bw) (by omega) (by omega) (by omega), ret_bind]
        exact line_state_in_store m ro R i _ hro1 (by omega) (hv i h1 (by omega)).symm)
    rw [show bw + (n - bw) = n by omega] at this
    exact this
  have hfirst := hcopy bw 0 (by omega)
  rw [line_state_in_zero, Nat.zero_add] at hfirst
  have hall := hcopy n 0 (by omega)
  rw [line_state_in_zero, Nat.zero_add] at hall
  unfold unfilter_scanline
  have hcases : f = 0 ∨ f = 1 ∨ f = 2 ∨ f = 3 ∨ f = 4 := by omega
  rcases hcases with h | h | h | h | h <;> subst h
  · rw [if_pos rfl]
    simp only [hall (fun i _ hi => by
      rw [hget i hi]; simp [predictor, toByteI_natCast, toByte_val]), ret_bind, pure_eq_ret]
  · rw [if_neg (by decide), if_pos rfl]
    simp only [hfirst (fun i _ hi => by
        rw [hget i (by omega), if_pos (by omega)]
        simp [predictor, toByteI_natCast, toByte_val]),
      hleft (fun s r => toByte (s + r)) (fun i h1 h2 => by
        rw [hget i h2, if_neg (by omega)]
        simp only [predictor, if_neg (show ¬ (1 = 0) by decide), if_pos]
        rw [← Nat.cast_add, toByteI_natCast]),
      ret_bind, pure_eq_ret]
  · rw [if_neg (by decide), if_neg (by decide), if_pos rfl]
    simp only [hall (fun i _ hi => by
      rw [hget i hi]; simp [predictor, toByteI_natCast, toByte_val]), ret_bind, pure_eq_ret]
  · rw [if_neg (by decide), if_neg (by decide), if_neg (by decide), if_pos rfl]
    simp only [hfirst (fun i _ hi => by
        rw [hget i (by omega), if_pos (by omega)]
        simp [predictor, toByteI_natCast, toByte_val]),
      hleft (fun s r => toByte (s + r / 2)) (fun i h1 h2 => by
        rw [hget i h2, if_neg (by omega)]
        simp only [predictor, if_neg (show ¬ (3 = 0) by decide),
          if_neg (show ¬ (3 = 1) by decide), if_neg (show ¬ (3 = 2) by decide), if_pos]
        rw [← toByteI_natCast]
        congr 1),
      ret_bind, pure_eq_ret]
  · rw [if_neg (by decide), if_neg (by decide), if_neg (by decide), if_neg (by decide),
      if_pos rfl]
    simp only [hfirst (fun i _ hi => by
        rw [hget i (by omega), if_pos (by omega)]
        simp [predictor, paeth_ref_zero, toByteI_natCast, toByte_val]),
      hleft (fun s r => toByteI ((s : Int) + paeth_predictor (r : Int) 0 0)) (fun i h1 h2 => by
        rw [hget i h2, if_neg (by omega)]
        simp only [predictor, if_neg (show ¬ (4 = 0) by decide),
          if_neg (show ¬ (4 = 1) by decide), if_neg (show ¬ (4 = 2) by decide),
          if_neg (show ¬ (4 = 3) by decide), paeth_predictor_eq]),
      ret_bind, pure_eq_ret]

/-- The function `unfilter_scanline` in place, with the previous line at offset `po` of
the inflated block, before the line that is written, for the filter types 0 to 4: the
line written at offset `ro` is the reference reconstruction of the scanline at offset
`so >= ro` of the same block. -/
theorem unfilter_scanline_inplace_some (m : Mem) (ro so po bw f n : Nat) (hf : f ≤ 4)
    (hbw : 1 ≤ bw) (hn : bw ≤ n) (hso : so + n ≤ m.inb.length) (hrs : ro ≤ so)
    (hpo : po + n ≤ ro) :
    unfilter_scanline m { obj := .inb, off := ro } { obj := .inb, off := so }
        (some { obj := .inb, off := po }) bw f n
      = .ret (line_state_in m ro (recon_line f bw ((m.inb.drop so).take n)
          (some ((m.inb.drop po).take n))) n, UPNG_EOK) := by
  have hlen : ((m.inb.drop so).take n).length = n := by
    rw [List.length_take, List.length_drop]; omega
  have hR : (recon_line f bw ((m.inb.drop so).take n)
      (some ((m.inb.drop po).take n))).length = n := by
    rw [recon_line_length, hlen]
  have hget := fun i (hi : i < n) => recon_line_get_in m so (some po) f bw n i hbw hso hi
  simp only [Option.map_some'] at hget
  generalize recon_line f bw ((m.inb.drop so).take n) (some ((m.inb.drop po).take n)) = R
    at hR hget ⊢
  have hro1 : ro + R.length ≤ m.inb.length := by omega
  have hcopy : ∀ count lo, lo + count ≤ n →
      (∀ i, lo ≤ i → i < lo + count → R.getD i 0 = m.inb.getD (so + i) 0) →
      for_loop (fun i (m : Mem) =>
            m.load { obj := .inb, off := so } i >>= fun s =>
              m.store { obj := .inb, off := ro } i (toByte s))
          count lo (line_state_in m ro R lo)
        = .ret (line_state_in m ro R (lo + count)) := by
    intro count lo hc hv
    refine for_loop_chain _ (line_state_in m ro R) count lo ?_
    intro i h1 h2
    dsimp only
    rw [line_state_in_load_scan m ro so R i i (by omega) (by omega) (by omega), ret_bind, toByte_val]
    exact line_state_in_store m ro R i _ hro1 (by omega) (hv i h1 h2).symm
  have hleft : ∀ (g : Nat → Nat → Byte),
      (∀ i, bw ≤ i → i < n →
        R.getD i 0 = g (m.inb.getD (so + i) 0).val (R.getD (i - bw) 0).val) →
      for_loop (fun i (m : Mem) =>
            m.load { obj := .inb, off := so } i >>= fun s =>
              m.load { obj := .inb, off := ro } (i - bw) >>= fun r =>
                m.store { obj := .inb, off := ro } i (g s r))
          (n - bw) bw (line_state_in m ro R bw)
        = .ret (line_state_in m ro R n) := by
    intro g hv
    have := for_loop_chain (fun i (m : Mem) =>
            m.load { obj := .inb, off := so } i >>= fun s =>
              m.load { obj := .inb, off := ro } (i - bw) >>= fun r =>
                m.store { obj := .inb, off := ro } i (g s r)) (line_state_in m ro R) (n - bw) bw
      (by
        intro i h1 h2
        dsimp only
        rw [line_state_in_load_scan m ro so R i i (by omega) (by omega) (by omega), ret_bind,
          line_state_in_load_recon m ro R i (i - bw) (by omega) (by omega) (by omega), ret_bind]
        exact line_state_in_store m ro R i _ hro1 (by omega) (hv i h1 (by omega)).symm)
    rw [show bw + (n - bw) = n by omega] at this
    exact this
  have hup : ∀ (g : Nat → Nat → Byte) count lo, lo + count ≤ n →
      (∀ i, lo ≤ i → i < lo + count →
        R.getD i 0 = g (m.inb.getD (so + i) 0).val (m.inb.getD (po + i) 0).val) →
      for_loop (fun i (m : Mem) =>
            m.load { obj := .inb, off := so } i >>= fun s =>
              m.load { obj := .inb, off := po } i >>= fun u =>
                m.store { obj := .inb, off := ro } i (g s u))
          count lo (line_state_in m ro R lo)
        = .ret (line_state_in m ro R (lo + count)) := by
    intro g count lo hc hv
    refine for_loop_chain _ (line_state_in m ro R) count lo ?_
    intro i h1 h2
    dsimp only
    rw [line_state_in_load_scan m ro so R i i (by omega) (by omega) (by omega), ret_bind,
      line_state_in_load_before m ro po R i i (by omega) (by omega), ret_bind]
    exact line_state_in_store m ro R i _ hro1 (by omega) (hv i h1 h2).symm
  have hleftup : ∀ (g : Nat → Nat → Nat → Byte),
      (∀ i, bw ≤ i → i < n →
        R.getD i 0 = g (m.inb.getD (so + i) 0).val (R.getD (i - bw) 0).val
          (m.inb.getD (po + i) 0).val) →
      for_loop (fun i (m : Mem) =>
            m.load { obj := .inb, off := so } i >>= fun s =>
              m.load { obj := .inb, off := ro } (i - bw) >>= fun r =>
                m.load { obj := .inb, off := po } i >>= fun u =>
                  m.store { obj := .inb, off := ro } i (g s r u))
          (n - bw) bw (line_state_in m ro R bw)
        = .ret (line_state_in m ro R n) := by
    intro g hv
    have := for_loop_chain (fun i (m : Mem) =>
            m.load { obj := .inb, off := so } i >>= fun s =>
              m.load { obj := .inb, off := ro } (i - bw) >>= fun r =>
                m.load { obj := .inb, off := po } i >>= fun u =>
                  m.store { obj := .inb, off := ro } i (g s r u)) (line_state_in m ro R)
      (n - bw) bw
      (by
        intro i h1 h2
        dsimp only
        rw [line_state_in_load_scan m ro so R i i (by omega) (by omega) (by omega), ret_bind,
          line_state_in_load_recon m ro R i (i - bw) (by omega) (by omega) (by omega), ret_bind,
          line_state_in_load_before m ro po R i i (by omega) (by omega), ret_bind]
        exact line_state_in_store m ro R i _ hro1 (by omega) (hv i h1 (by omega)).symm)
    rw [show bw + (n - bw) = n by omega] at this
    exact this
  have hfull : ∀ (g : Nat → Nat → Nat → Nat → Byte),
      (∀ i, bw ≤ i → i < n →
        R.getD i 0 = g (m.inb.getD (so + i) 0).val (R.getD (i - bw) 0).val
          (m.inb.getD (po + i) 0).val (m.inb.getD (po + (i - bw)) 0).val) →
      for_loop (fun i (m : Mem) =>
            m.load { obj := .inb, off := so } i >>= fun s =>
              m.load { obj := .inb, off := ro } (i - bw) >>= fun r =>
                m.load { obj := .inb, off := po } i >>= fun u =>
                  m.load { obj := .inb, off := po } (i - bw) >>= fun ul =>
                    m.store { obj := .inb, off := ro } i (g s r u ul))
          (n - bw) bw (line_state_in m ro R bw)
        = .ret (line_state_in m ro R n) := by
    intro g hv
    have := for_loop_chain (fun i (m : Mem) =>
            m.load { obj := .inb, off := so } i >>= fun s =>
              m.load { obj := .inb, off := ro } (i - bw) >>= fun r =>
                m.load { obj := .inb, off := po } i >>= fun u =>
                  m.load { obj := .inb, off := po } (i - bw) >>= fun ul =>
                    m.store { obj := .inb, off := ro } i (g s r u ul)) (line_state_in m ro R)
      (n - bw) bw
      (by
        intro i h1 h2
        dsimp only
        rw [line_state_in_load_scan m ro so R i i (by omega) (by omega) (by omega), ret_bind,
          line_state_in_load_recon m ro R i (i - bw) (by omega) (by omega) (by omega), ret_bind,
          line_state_in_load_before m ro po R i i (by omega) (by omega), ret_bind,
          line_state_in_load_before m ro po R i (i - bw) (by omega) (by omega), ret_bind]
        exact line_state_in_store m ro R i _ hro1 (by omega) (hv i h1 (by omega)).symm)
    rw [show bw + (n - bw) = n by omega] at this
    exact this
  have hfirst := hcopy bw 0 (by omega)
  rw [line_state_in_zero, Nat.zero_add] at hfirst
  have hall := hcopy n 0 (by omega)
  rw [line_state_in_zero, Nat.zero_add] at hall
  have hupfirst := fun g => hup g bw 0 (by omega)
  simp only [line_state_in_zero, Nat.zero_add] at hupfirst
  have hupall := fun g => hup g n 0 (by omega)
  simp only [line_state_in_zero, Nat.zero_add] at hupall
  unfold unfilter_scanline
  have hcases : f = 0 ∨ f = 1 ∨ f = 2 ∨ f = 3 ∨ f = 4 := by omega
  rcases hcases with h | h | h | h | h <;> subst h
  · rw [if_pos rfl]
    simp only [hall (fun i _ hi => by
      rw [hget i hi]; simp [predictor, toByteI_natCast, toByte_val]), ret_bind, pure_eq_ret]
  · rw [if_neg (by decide), if_pos rfl]
    simp only [hfirst (fun i _ hi => by
        rw [hget i (by omega), if_pos (by omega)]
        simp [predictor, toByteI_natCast, toByte_val]),
      hleft (fun s r => toByte (s + r)) (fun i h1 h2 => by
        rw [hget i h2, if_neg (by omega)]
        simp only [predictor, if_neg (show ¬ (1 = 0) by decide), if_pos]
        rw [← Nat.cast_add, toByteI_natCast]),
      ret_bind, pure_eq_ret]
  · rw [if_neg (by decide), if_neg (by decide), if_pos rfl]
    simp only [hupall (fun s u => toByte (s + u)) (fun i _ hi => by
        rw [hget i hi]
        simp only [predictor, if_neg (show ¬ (2 = 0) by decide),
          if_neg (show ¬ (2 = 1) by decide), if_pos]
        rw [← Nat.cast_add, toByteI_natCast]),
      ret_bind, pure_eq_ret]
  · rw [if_neg (by decide), if_neg (by decide), if_neg (by decide), if_pos rfl]
    simp only [hupfirst (fun s u => toByte (s + u / 2)) (fun i _ hi => by
        rw [hget i (by omega), if_pos (by omega)]
        simp only [predictor, if_neg (show ¬ (3 = 0) by decide),
          if_neg (show ¬ (3 = 1) by decide), if_neg (show ¬ (3 = 2) by decide), if_pos]
        rw [← toByteI_natCast]
        congr 1
        omega),
      hleftup (fun s r u => toByte (s + (r + u) / 2)) (fun i h1 h2 => by
        rw [hget i h2, if_neg (by omega)]
        simp only [predictor, if_neg (show ¬ (3 = 0) by decide),
          if_neg (show ¬ (3 = 1) by decide), if_neg (show ¬ (3 = 2) by decide), if_pos]
        rw [← toByteI_natCast]
        congr 1),
      ret_bind, pure_eq_ret]
  · rw [if_neg (by decide), if_neg (by decide), if_neg (by decide), if_neg (by decide),
      if_pos rfl]
    simp only [hupfirst (fun s u => toByteI ((s : Int) + paeth_predictor 0 (u : Int) 0))
        (fun i _ hi => by
          rw [hget i (by omega), if_pos (by omega), if_pos (by omega)]
          simp only [predictor, if_neg (show ¬ (4 = 0) by decide),
            if_neg (show ¬ (4 = 1) by decide), if_neg (show ¬ (4 = 2) by decide),
            if_neg (show ¬ (4 = 3) by decide), paeth_predictor_eq]),
      hfull (fun s r u ul => toByteI ((s : Int) + paeth_predictor (r : Int) (u : Int) (ul : Int)))
        (fun i h1 h2 => by
          rw [hget i h2, if_neg (by omega), if_neg (by omega)]
          simp only [predictor, if_neg (show ¬ (4 = 0) by decide),
            if_neg (show ¬ (4 = 1) by decide), if_neg (show ¬ (4 = 2) by decide),
            if_neg (show ¬ (4 = 3) by decide), paeth_predictor_eq]),
      ret_bind, pure_eq_ret]

theorem getD_of_drop_eq (l1 l2 : List Byte) (k idx : Nat) (h : l1.drop k = l2.drop k)
    (hk : k ≤ idx) : l1.getD idx 0 = l2.getD idx 0 := by
  have e : ∀ l : List Byte, l.getD idx 0 = (l.drop k).getD (idx - k) 0 := by
    intro l
    rw [List.getD_eq_getElem?_getD, List.getD_eq_getElem?_getD, List.getElem?_drop,
      show k + (idx - k) = idx by omega]
  rw [e l1, e l2, h]

theorem drop_of_drop_eq (l1 l2 : List Byte) (k n : Nat) (h : l1.drop k = l2.drop k)
    (hk : k ≤ n) : l1.drop n = l2.drop n := by
  have e : ∀ l : List Byte, l.drop n = (l.drop k).drop (n - k) := by
    intro l
    rw [List.drop_drop, show k + (n - k) = n by omega]
  rw [e l1, e l2, h]

theorem drop_take_of_take_eq (l1 l2 : List Byte) (po n : Nat)
    (h : l1.take (po + n) = l2.take (po + n)) : (l1.drop po).take n = (l2.drop po).take n := by
  have e : ∀ l : List Byte, (l.drop po).take n = (l.take (po + n)).drop po := by
    intro l
    rw [List.drop_take, show po + n - po = n by omega]
  rw [e l1, e l2, h]

/-- The loop of `unfilter` over the scanlines from line `y` on, run in place on `mi` and
into a separate output block on `mo`, when the two memories agree on the lines
reconstructed so far and the rest of the inflated block of `mi` is untouched: both
runs return the same error code, and after OK the `h` reconstructed lines agree. -/
theorem unfilter_lines_inplace (bw L h : Nat) (hbw : 1 ≤ bw) (hL : bw ≤ L) (B : List Byte)
    (hB : B.length = h * (1 + L)) (olen : Nat) (hout : h * L ≤ olen) :
    ∀ k y previ prevo (mi mo : Mem), y + k = h → mo.inb = B → mo.outb.length = olen →
      mi.inb.length = B.length → mi.inb.take (L * y) = mo.outb.take (L * y) →
      mi.inb.drop (L * y) = B.drop (L * y) →
      ((previ = none ∧ prevo = none) ∨
        (1 ≤ y ∧ previ = some { obj := .inb, off := L * (y - 1) } ∧
          prevo = some { obj := .outb, off := L * (y - 1) })) →
      ∃ mi1 mo1 e,
        unfilter_lines { obj := .inb, off := 0 } { obj := .inb, off := 0 } bw L k y previ mi
          = .ret (mi1, e) ∧
        unfilter_lines { obj := .outb, off := 0 } { obj := .inb, off := 0 } bw L k y prevo mo
          = .ret (mo1, e) ∧
        (e = UPNG_EOK → mi1.inb.take (L * h) = mo1.outb.take (L * h)) := by
  intro k
  induction k with
  | zero =>
    intro y previ prevo mi mo hyk _ _ _ htake _ _
    have hy : y = h := by omega
    subst hy
    exact ⟨mi, mo, UPNG_EOK, rfl, rfl, fun _ => htake⟩
  | succ k ih =>
    intro y previ prevo mi mo hyk hmo hmolen hmilen htake hdrop hprev
    have e1 : h * (1 + L) = (1 + L) * y + (1 + L) * k + 1 + L := by rw [← hyk]; ring
    have e2 : h * L = L * y + L * k + L := by rw [← hyk]; ring
    have e3 : (1 + L) * y = L * y + y := by ring
    have hfo : mo.load { obj := .inb, off := 0 } ((1 + L) * y)
        = .ret (B.getD ((1 + L) * y) 0).val := by
      unfold Mem.load Mem.bytes
      dsimp only
      rw [Nat.zero_add, hmo, load_eq _ _ (by omega), List.getD_eq_getElem _ _ (by omega)]
    have hfi : mi.load { obj := .inb, off := 0 } ((1 + L) * y)
        = .ret (B.getD ((1 + L) * y) 0).val := by
      unfold Mem.load Mem.bytes
      dsimp only
      rw [Nat.zero_add, load_eq _ _ (by omega), ← List.getD_eq_getElem _ 0 (by omega),
        getD_of_drop_eq _ _ (L * y) _ hdrop (by omega)]
    rw [unfilter_lines, unfilter_lines, hfi, hfo, ret_bind, ret_bind]
    dsimp only [Ptr.add]
    rw [Nat.zero_add, Nat.zero_add]
    by_cases hft : 4 < (B.getD ((1 + L) * y) 0).val
    · rw [unfilter_scanline_unknown _ _ _ _ _ _ _ hft, unfilter_scanline_unknown _ _ _ _ _ _ _ hft,
        ret_bind, ret_bind]
      dsimp only
      rw [if_pos (by decide)]
      exact ⟨mi, mo, UPNG_EUNSUPPORTED, rfl, rfl, fun h => absurd h (by decide)⟩
    · have hscan : (mi.inb.drop ((1 + L) * y + 1)).take L = (mo.inb.drop ((1 + L) * y + 1)).take L := by
        rw [hmo, drop_of_drop_eq _ _ (L * y) _ hdrop (by omega)]
      have hstep : ∃ R : List Byte, R.length = L ∧
          unfilter_scanline mi { obj := .inb, off := L * y }
            { obj := .inb, off := (1 + L) * y + 1 } previ bw (B.getD ((1 + L) * y) 0).val L
            = .ret (line_state_in mi (L * y) R L, UPNG_EOK) ∧
          unfilter_scanline mo { obj := .outb, off := L * y }
            { obj := .inb, off := (1 + L) * y + 1 } prevo bw (B.getD ((1 + L) * y) 0).val L
            = .ret (line_state mo (L * y) R L, UPNG_EOK) := by
        rcases hprev with ⟨hpi, hpo⟩ | ⟨hy, hpi, hpo⟩
        · refine ⟨recon_line (B.getD ((1 + L) * y) 0).val bw
            ((mo.inb.drop ((1 + L) * y + 1)).take L) none, ?_, ?_, ?_⟩
          · rw [recon_line_length, List.length_take, List.length_drop, hmo]; omega
          · rw [hpi, unfilter_scanline_inplace_none mi (L * y) ((1 + L) * y + 1) bw _ L
              (by omega) hbw hL (by omega) (by omega), hscan]
          · rw [hpo, unfilter_scanline_none mo (L * y) ((1 + L) * y + 1) bw _ L (by omega) hbw hL
              (by omega) (by rw [hmo]; omega)]
        · have e4 : L * y = L * (y - 1) + L := by
            obtain ⟨z, rfl⟩ : ∃ z, y = z + 1 := ⟨y - 1, by omega⟩
            rw [Nat.add_sub_cancel]; ring
          have hprevl : (mi.inb.drop (L * (y - 1))).take L
              = (mo.outb.drop (L * (y - 1))).take L := by
            refine drop_take_of_take_eq _ _ _ _ ?_
            rw [← e4]; exact htake
          refine ⟨recon_line (B.getD ((1 + L) * y) 0).val bw
            ((mo.inb.drop ((1 + L) * y + 1)).take L)
            (some ((mo.outb.drop (L * (y - 1))).take L)), ?_, ?_, ?_⟩
          · rw [recon_line_length, List.length_take, List.length_drop, hmo]; omega
          · rw [hpi, unfilter_scanline_inplace_some mi (L * y) ((1 + L) * y + 1) (L * (y - 1))
              bw _ L (by omega) hbw hL (by omega) (by omega) (by omega), hscan, hprevl]
          · rw [hpo, unfilter_scanline_some mo (L * y) ((1 + L) * y + 1) (L * (y - 1)) bw _ L
              (by omega) hbw hL (by omega) (by rw [hmo]; omega) (by omega)]
      obtain ⟨R, hR, hruni, hruno⟩ := hstep
      rw [hruni, hruno, ret_bind, ret_bind]
      dsimp only
      rw [if_neg (by decide)]
      have hli : (mi.inb.take (L * y) ++ R.take L).length = L * (y + 1) := by
        rw [List.length_append, List.length_take, List.length_take, Nat.mul_add, Nat.mul_one]
        omega
      have hlo : (mo.outb.take (L * y) ++ R.take L).length = L * (y + 1) := by
        rw [List.length_append, List.length_take, List.length_take, Nat.mul_add, Nat.mul_one]
        omega
      refine ih (y + 1) (some { obj := .inb, off := L * y }) (some { obj := .outb, off := L * y })
        (line_state_in mi (L * y) R L) (line_state mo (L * y) R L) (by omega) hmo ?_ ?_ ?_ ?_
        (Or.inr ⟨by omega, by rw [Nat.add_sub_cancel], by rw [Nat.add_sub_cancel]⟩)
      · rw [line_state_outb_length _ _ _ _ (by omega) (by omega)]; exact hmolen
      · rw [line_state_in_inb_length _ _ _ _ (by omega) (by omega)]; exact hmilen
      · show (mi.inb.take (L * y) ++ R.take L ++ mi.inb.drop (L * y + L)).take (L * (y + 1))
          = (mo.outb.take (L * y) ++ R.take L ++ mo.outb.drop (L * y + L)).take (L * (y + 1))
        rw [List.take_left' hli, List.take_left' hlo, htake]
      · show (mi.inb.take (L * y) ++ R.take L ++ mi.inb.drop (L * y + L)).drop (L * (y + 1))
          = B.drop (L * (y + 1))
        rw [List.drop_left' hli, Nat.mul_add, Nat.mul_one]
        exact drop_of_drop_eq _ _ (L * y) _ hdrop (by omega)

/-- The two runs on `two_line_mem`: both return OK, and the six reconstructed bytes
are the same. -/
theorem two_line_runs :
    unfilter two_line_mem { obj := .inb, off := 0 } { obj := .inb, off := 0 } 3 2 8
      = .ret ({ outb := [0, 0, 0, 0, 0, 0], inb := [10, 30, 60, 11, 32, 63, 2, 3] }, UPNG_EOK) ∧
    unfilter two_line_mem { obj := .outb, off := 0 } { obj := .inb, off := 0 } 3 2 8
      = .ret ({ outb := [10, 30, 60, 11, 32, 63], inb := [1, 10, 20, 30, 4, 1, 2, 3] },
          UPNG_EOK) :=
  ⟨by rfl, by rfl⟩

/-- In-place and out-of-place unfiltering where the line size does not wrap: for every
`w >= 1`, every `h` and every `bpp >= 1` for which `w * bpp + 7` stays within 32 bits,
every inflated block of `h * (1 + linebytes)` bytes and every separate output block of
at least `h * linebytes` bytes, the calls `unfilter(in, in, w, h, bpp)` and
`unfilter(out, in, w, h, bpp)` both return, with the same error code, and after OK the
first `h * linebytes` bytes of the inflated block of the first call are the first
`h * linebytes` bytes of the output block of the second. -/
theorem inplace_unfilter_nowrap (m : Mem) (w h bpp : Nat) (hw : 1 ≤ w) (hbpp : 1 ≤ bpp)
    (hnowrap : w * bpp + 7 < 2 ^ 32)
    (hin : m.inb.length = h * (1 + (w * bpp + 7) / 8))
    (hout : h * ((w * bpp + 7) / 8) ≤ m.outb.length) :
    ∃ mi mo e,
      unfilter m { obj := .inb, off := 0 } { obj := .inb, off := 0 } w h bpp = .ret (mi, e) ∧
      unfilter m { obj := .outb, off := 0 } { obj := .inb, off := 0 } w h bpp = .ret (mo, e) ∧
      (e = UPNG_EOK →
        mi.inb.take (h * ((w * bpp + 7) / 8)) = mo.outb.take (h * ((w * bpp + 7) / 8))) := by
  have hle : bpp ≤ w * bpp := Nat.le_mul_of_pos_left bpp hw
  have h1 : ((bpp + 7) % 2 ^ 32) / 8 = (bpp + 7) / 8 := by
    rw [Nat.mod_eq_of_lt (by omega)]
  have h2 : (((w * bpp) % 2 ^ 32 + 7) % 2 ^ 32) / 8 = (w * bpp + 7) / 8 := by
    rw [Nat.mod_eq_of_lt (show w * bpp < 2 ^ 32 by omega), Nat.mod_eq_of_lt hnowrap]
  obtain ⟨mi, mo, e, hri, hro, hok⟩ := unfilter_lines_inplace ((bpp + 7) / 8)
    ((w * bpp + 7) / 8) h (by omega) (by omega) m.inb hin m.outb.length hout h 0 none none m m
    (by omega) rfl rfl rfl (by rw [Nat.mul_zero]; rfl) rfl (Or.inl ⟨rfl, rfl⟩)
  refine ⟨mi, mo, e, ?_, ?_, ?_⟩
  · unfold unfilter
    dsimp only
    rw [h1, h2]
    exact hri
  · unfold unfilter
    dsimp only
    rw [h1, h2]
    exact hro
  · intro he
    rw [Nat.mul_comm h]
    exact hok he

/-- An instance of `inplace_unfilter_nowrap`: a 3x2 image of 8 bits per pixel with a line
of filter type 1 and a line of filter type 4. -/
theorem inplace_unfilter_example :
    ∃ mi mo e,
      unfilter two_line_mem { obj := .inb, off := 0 } { obj := .inb, off := 0 } 3 2 8
        = .ret (mi, e) ∧
      unfilter two_line_mem { obj := .outb, off := 0 } { obj := .inb, off := 0 } 3 2 8
        = .ret (mo, e) ∧
      (e = UPNG_EOK →
        mi.inb.take (2 * ((3 * 8 + 7) / 8)) = mo.outb.take (2 * ((3 * 8 + 7) / 8))) :=
  inplace_unfilter_nowrap two_line_mem 3 2 8 (by decide) (by decide) (by decide) (by decide)
    (by decide)

theorem wide_inplace_load0 (n : Nat) :
    (wide_inplace_mem n).load { obj := .inb, off := 0 } 0 = .ret 0 := by rfl

theorem wide_inplace_load1 (n : Nat) :
    (wide_inplace_mem n).load { obj := .inb, off := 0 } 1 = .ret 0 := by
  unfold Mem.load Mem.bytes wide_inplace_mem load
  simp

/-- Byte 2 of the inflated block of `wide_inplace_mem` is 7, byte 2 of its output block
is 0. -/
theorem wide_inplace_differ (n k : Nat) (hk : 2 < k) (hn : 2 < n) :
    (wide_inplace_mem n).inb.take k ≠ (wide_inplace_mem n).outb.take k := by
  intro h
  have h2 := congrArg (fun l => l.getD 2 0) h
  dsimp only at h2
  rw [List.getD_eq_getElem?_getD, List.getD_eq_getElem?_getD,
    List.getElem?_take_of_lt hk, List.getElem?_take_of_lt hk] at h2
  have hi : (wide_inplace_mem n).inb[2]? = some 7 := by
    show (0 :: 0 :: List.replicate n (7 : Byte))[0 + 1 + 1]? = some 7
    rw [List.getElem?_cons_succ, List.getElem?_cons_succ, List.getElem?_replicate,
      if_pos (by omega)]
  have ho : (wide_inplace_mem n).outb[2]? = some 0 := by
    show (List.replicate n (0 : Byte))[2]? = some 0
    rw [List.getElem?_replicate, if_pos hn]
  rw [hi, ho] at h2
  revert h2
  decide

/-- C27 at its failing input: an image of width `2 ^ 32 - 1`, height 2 and 1 bit per
pixel, a header that `upng_inspect` accepts (`png_widest_bits`) and for which
`post_process_scanlines` calls `unfilter` in place.  A line has `2 ^ 29` bytes, but
`unfilter` computes `linebytes = (w * bpp + 7) / 8` in 32 bits and gets 0.  On the
inflated block `00 00 07 07 ...` of `2 * (1 + 2 ^ 29)` bytes and a separate output block
of `2 * 2 ^ 29` bytes 0, both calls return OK and leave the memory as it is: the first
`2 * 2 ^ 29` bytes of the inflated block are still the input, not the bytes of the
output block.  The same holds for width `2 ^ 29` and 8 bits per pixel. -/
theorem C27_inplace_differs_when_wrapped :
    (upng_inspect upng_new png_widest_bits).2 = UPNG_EOK ∧
    (upng_inspect upng_new png_widest_bits).1.width = 2 ^ 32 - 1 ∧
    (upng_inspect upng_new png_widest_bits).1.height = 2 ∧
    upng_get_bpp (upng_inspect upng_new png_widest_bits).1 = 1 ∧
    ((((2 ^ 32 - 1) * 1) % 2 ^ 32 + 7) % 2 ^ 32) / 8 = 0 ∧
    ((2 ^ 32 - 1) * 1 + 7) / 8 = 2 ^ 29 ∧
    (wide_inplace_mem (2 ^ 30)).inb.length = 2 * (1 + ((2 ^ 32 - 1) * 1 + 7) / 8) ∧
    2 * (((2 ^ 32 - 1) * 1 + 7) / 8) ≤ (wide_inplace_mem (2 ^ 30)).outb.length ∧
    unfilter (wide_inplace_mem (2 ^ 30)) { obj := .inb, off := 0 } { obj := .inb, off := 0 }
        (2 ^ 32 - 1) 2 1
      = .ret (wide_inplace_mem (2 ^ 30), UPNG_EOK) ∧
    unfilter (wide_inplace_mem (2 ^ 30)) { obj := .outb, off := 0 } { obj := .inb, off := 0 }
        (2 ^ 32 - 1) 2 1
      = .ret (wide_inplace_mem (2 ^ 30), UPNG_EOK) ∧
    (wide_inplace_mem (2 ^ 30)).inb.take (2 * (((2 ^ 32 - 1) * 1 + 7) / 8))
      ≠ (wide_inplace_mem (2 ^ 30)).outb.take (2 * (((2 ^ 32 - 1) * 1 + 7) / 8)) ∧
    unfilter (wide_inplace_mem (2 ^ 30)) { obj := .inb, off := 0 } { obj := .inb, off := 0 }
        (2 ^ 29) 2 8
      = .ret (wide_inplace_mem (2 ^ 30), UPNG_EOK) ∧
    unfilter (wide_inplace_mem (2 ^ 30)) { obj := .outb, off := 0 } { obj := .inb, off := 0 }
        (2 ^ 29) 2 8
      = .ret (wide_inplace_mem (2 ^ 30), UPNG_EOK) := by
  have hrun : ∀ (out : Ptr) (w bpp : Nat), (((w * bpp) % 2 ^ 32 + 7) % 2 ^ 32) / 8 = 0 →
      unfilter (wide_inplace_mem (2 ^ 30)) out { obj := .inb, off := 0 } w 2 bpp
        = .ret (wide_inplace_mem (2 ^ 30), UPNG_EOK) := by
    intro out w bpp hl
    exact unfilter_two_empty_lines (wide_inplace_mem (2 ^ 30)) out w bpp 0 hl
      (wide_inplace_load0 _) (wide_inplace_load1 _) (Or.inl rfl)
  refine ⟨by rfl, by rfl, by rfl, by rfl, by norm_num, by norm_num, ?_, ?_,
    hrun _ _ _ (by norm_num), hrun _ _ _ (by norm_num), ?_,
    hrun _ _ _ (by norm_num), hrun _ _ _ (by norm_num)⟩
  · show (0 :: 0 :: List.replicate (2 ^ 30) (7 : Byte)).length = _
    rw [List.length_cons, List.length_cons, List.length_replicate]
    norm_num
  · show _ ≤ (List.replicate (2 ^ 30) (0 : Byte)).length
    rw [List.length_replicate]
    norm_num
  · exact wide_inplace_differ _ _ (by norm_num) (by norm_num)

/-! ## Accesses to the vectors of code lengths -/

theorem loadw_fault (m : List Nat) (i : Nat) (h : m.length ≤ i) : loadw m i = .fault := by
  unfold loadw
  rw [List.getElem?_eq_none h]

/-- A round of the loop of `get_tree_inflate_dynamic` that decodes symbol 16 at index 0:
`i - 1` wraps around to `2 ^ 32 - 1`, which is not below `HLIT`, and the previous length
is read from the vector of distance lengths at index `2 ^ 32 - HLIT - 1`, outside its 32
entries. -/
theorem repeat_without_previous (inp : List Byte) (inlength : Nat) (cltree : huffman_tree)
    (HLIT HDIST f : Nat) (bitlen bitlenD : List Nat) (p q v q2 : Nat)
    (hH1 : 257 ≤ HLIT) (hH : HLIT ≤ 288) (hbD : bitlenD.length = 32)
    (hdec : huffman_decode_symbol inp p cltree inlength = .ret (0, 16, q))
    (h50 : ¬ (q >>> 3) ≥ inlength)
    (hv : read_bits q inp 2 = .ret (v, q2)) :
    ¬ ((0 + 2 ^ 32 - 1) % 2 ^ 32 < HLIT) ∧
    bitlenD.length ≤ (0 + 2 * 2 ^ 32 - HLIT - 1) % 2 ^ 32 ∧
    read_code_lengths inp inlength cltree HLIT HDIST (f + 1) 0 bitlen bitlenD p = .fault := by
  have h1 : ¬ ((0 + 2 ^ 32 - 1) % 2 ^ 32 < HLIT) := by omega
  have h2 : bitlenD.length ≤ (0 + 2 * 2 ^ 32 - HLIT - 1) % 2 ^ 32 := by omega
  refine ⟨h1, h2, ?_⟩
  rw [read_code_lengths, if_neg (show ¬ ¬ (0 < HLIT + HDIST) by omega), hdec, ret_bind]
  dsimp only
  rw [if_neg (show ¬ (0 : Nat) ≠ 0 by omega), if_neg (show ¬ (16 : Nat) ≤ 15 by decide),
    if_pos rfl, if_neg h50, hv, ret_bind]
  dsimp only
  rw [if_neg h1, loadw_fault _ _ h2]
  rfl

/-- The repeat loops return, with vectors of the same sizes and an index that is at
most `HLIT + HDIST`. -/
theorem repeat_lengths_returns (HLIT HDIST value errcode : Nat) (hH : HLIT ≤ 288)
    (hD : HDIST ≤ 32) (k i : Nat) (bitlen bitlenD : List Nat) (hb : bitlen.length = 288)
    (hbD : bitlenD.length = 32) (hi : i ≤ HLIT + HDIST) :
    ∃ e i1 b bD, repeat_lengths HLIT HDIST value errcode k i bitlen bitlenD
        = .ret (e, i1, b, bD) ∧ b.length = 288 ∧ bD.length = 32 ∧ i1 ≤ HLIT + HDIST := by
  by_cases hk : i + k ≤ HLIT + HDIST
  · obtain ⟨b, bD, h1, h2, h3, _⟩ := repeat_lengths_ok HLIT HDIST value errcode hH hD k i
      bitlen bitlenD hb hbD hk
    exact ⟨0, i + k, b, bD, h1, h2, h3, hk⟩
  · obtain ⟨b, bD, h1, h2, h3⟩ := repeat_lengths_over HLIT HDIST value errcode hH hD k i
      bitlen bitlenD hb hbD hi (by omega)
    exact ⟨errcode, HLIT + HDIST, b, bD, h1, h2, h3, Nat.le_refl _⟩

/-- Every other round of the loop of `get_tree_inflate_dynamic` stays inside the two
vectors: when a symbol is decoded at an index `i < HLIT + HDIST` and the bits of a
repeat count are inside the input, and the round is not symbol 16 at index 0, the round
is completed (every load and store of a code length succeeds) and the loop either
returns an error or goes on at an index that is at most `HLIT + HDIST`, with vectors
of 288 and 32 entries. -/
theorem code_length_round_in_bounds (inp : List Byte) (inlength : Nat) (cltree : huffman_tree)
    (HLIT HDIST : Nat) (hH1 : 257 ≤ HLIT) (hH : HLIT ≤ 288) (hD : HDIST ≤ 32)
    (f i : Nat) (bitlen bitlenD : List Nat) (p e code q : Nat)
    (hb : bitlen.length = 288) (hbD : bitlenD.length = 32) (hi : i < HLIT + HDIST)
    (hdec : huffman_decode_symbol inp p cltree inlength = .ret (e, code, q))
    (hcount : e = 0 → (code = 16 ∨ code = 17 ∨ code = 18) → ¬ (q >>> 3) ≥ inlength →
      ∃ v q2, read_bits q inp (if code = 16 then 2 else if code = 17 then 3 else 7)
        = .ret (v, q2))
    (hfirst : ¬ (e = 0 ∧ code = 16 ∧ i = 0)) :
    ∃ e1 i1 b bD q1, b.length = 288 ∧ bD.length = 32 ∧ i1 ≤ HLIT + HDIST ∧
      read_code_lengths inp inlength cltree HLIT HDIST (f + 1) i bitlen bitlenD p
        = (if e1 ≠ 0 then .ret (e1, b, bD, q1)
            else read_code_lengths inp inlength cltree HLIT HDIST f i1 b bD q1) := by
  by_cases he : e ≠ 0
  · refine ⟨e, i, bitlen, bitlenD, q, hb, hbD, by omega, ?_⟩
    rw [read_code_lengths, if_neg (show ¬ ¬ (i < HLIT + HDIST) by omega), hdec, ret_bind]
    dsimp only
    rw [if_pos he, if_pos he]
    rfl
  have he0 : e = 0 := by omega
  subst he0
  by_cases h15 : code ≤ 15
  · by_cases hlt : i < HLIT
    · refine ⟨0, i + 1, bitlen.set i code, bitlenD, q, by rw [List.length_set]; exact hb, hbD,
        by omega, ?_⟩
      rw [read_code_lengths, if_neg (show ¬ ¬ (i < HLIT + HDIST) by omega), hdec, ret_bind]
      dsimp only
      rw [if_neg he, if_pos h15, if_pos hlt, storew_eq _ _ _ (by omega), ret_bind, if_neg he]
    · refine ⟨0, i + 1, bitlen, bitlenD.set (i - HLIT) code, q, hb,
        by rw [List.length_set]; exact hbD, by omega, ?_⟩
      rw [read_code_lengths, if_neg (show ¬ ¬ (i < HLIT + HDIST) by omega), hdec, ret_bind]
      dsimp only
      rw [if_neg he, if_pos h15, if_neg hlt, storew_eq _ _ _ (by omega), ret_bind, if_neg he]
  by_cases hrep : code = 16 ∨ code = 17 ∨ code = 18
  · by_cases h50 : (q >>> 3) ≥ inlength
    · refine ⟨50, i, bitlen, bitlenD, q, hb, hbD, by omega, ?_⟩
      rw [read_code_lengths, if_neg (show ¬ ¬ (i < HLIT + HDIST) by omega), hdec, ret_bind]
      dsimp only
      rw [if_neg he, if_neg h15, if_pos (show (50 : Nat) ≠ 0 by decide)]
      rcases hrep with h | h | h
      · subst h
        rw [if_pos rfl, if_pos h50]
        rfl
      · subst h
        rw [if_neg (show ¬ (17 : Nat) = 16 by decide), if_pos rfl, if_pos h50]
        rfl
      · subst h
        rw [if_neg (show ¬ (18 : Nat) = 16 by decide), if_neg (show ¬ (18 : Nat) = 17 by decide),
          if_pos rfl, if_pos h50]
        rfl
    · obtain ⟨v, q2, hv⟩ := hcount rfl hrep h50
      obtain ⟨value, _, hround⟩ := read_code_lengths_repeat inp inlength cltree HLIT HDIST hH1
        hH hD f i bitlen bitlenD p code q v q2 hb hbD hi hdec hrep h50 hv
        (fun h16 => by
          by_contra hc
          exact hfirst ⟨rfl, h16, by omega⟩)
      obtain ⟨e1, i1, b, bD, hrun, h1, h2, h3⟩ := repeat_lengths_returns HLIT HDIST value
        (code - 3) hH hD ((if code = 18 then 11 else 3) + v) i bitlen bitlenD hb hbD (by omega)
      refine ⟨e1, i1, b, bD, q2, h1, h2, h3, ?_⟩
      rw [hround, hrun, ret_bind]
      rfl
  · refine ⟨16, i, bitlen, bitlenD, q, hb, hbD, by omega, ?_⟩
    rw [read_code_lengths, if_neg (show ¬ ¬ (i < HLIT + HDIST) by omega), hdec, ret_bind]
    dsimp only
    rw [if_neg he, if_neg h15, if_neg (show ¬ code = 16 from fun h => hrep (Or.inl h)),
      if_neg (show ¬ code = 17 from fun h => hrep (Or.inr (Or.inl h))),
      if_neg (show ¬ code = 18 from fun h => hrep (Or.inr (Or.inr h))),
      if_pos (show (16 : Nat) ≠ 0 by decide)]
    rfl

/-- C31 at its failing input: the dynamic block of `zlib_repeat_first`, read from bit 3 of
the four bytes after the zlib header.  The counts are `HLIT = 257`, `HDIST = 1` and
`HCLEN = 4`, the table of the code length code is built without error, the first symbol
decoded is 16 (at index `i = 0`), and its two repeat count bits are inside the input.
Then `(i - 1) < HLIT` does not hold, because `i - 1` wraps around, and the previous
length is read from the 32 distance lengths at index `2 ^ 32 - 258`: a load outside the
vector.  The same happens when the stream is given to `uzlib_decompress`, and when it is
the payload of the IDAT chunk of a PNG file whose header `upng_inspect` accepts. -/
theorem C31_repeat_at_first_index :
    read_bits 3 (zlib_repeat_first.drop 2) 5 = .ret (0, 8) ∧
    read_bits 8 (zlib_repeat_first.drop 2) 5 = .ret (0, 13) ∧
    read_bits 13 (zlib_repeat_first.drop 2) 4 = .ret (0, 17) ∧
    read_clcl (zlib_repeat_first.drop 2) (0 + 4) 17 = .ret (repeat_first_clcl, 29) ∧
    huffman_tree_create_lengths huffman_tree_init repeat_first_clcl NUM_CODE_LENGTH_CODES 7
      = .ret (repeat_first_cltree, 0) ∧
    huffman_decode_symbol (zlib_repeat_first.drop 2) 29 repeat_first_cltree 6
      = .ret (0, 16, 30) ∧
    read_bits 30 (zlib_repeat_first.drop 2) 2 = .ret (0, 32) ∧
    ¬ ((0 + 2 ^ 32 - 1) % 2 ^ 32 < 0 + 257) ∧
    (0 + 2 * 2 ^ 32 - (0 + 257) - 1) % 2 ^ 32 = 2 ^ 32 - 258 ∧
    loadw (List.replicate NUM_DISTANCE_SYMBOLS 0) ((0 + 2 * 2 ^ 32 - (0 + 257) - 1) % 2 ^ 32)
      = .fault ∧
    read_code_lengths (zlib_repeat_first.drop 2) 6 repeat_first_cltree (0 + 257) (0 + 1)
        (8 * (zlib_repeat_first.drop 2).length + 1) 0
        (List.replicate NUM_DEFLATE_CODE_SYMBOLS 0) (List.replicate NUM_DISTANCE_SYMBOLS 0) 29
      = .fault ∧
    get_tree_inflate_dynamic huffman_tree_init huffman_tree_init huffman_tree_init
        (zlib_repeat_first.drop 2) 3 6 = .fault ∧
    uzlib_decompress [] 0 zlib_repeat_first 6 = .fault ∧
    (upng_inspect upng_new png_repeat_first).2 = UPNG_EOK ∧
    upng_decode upng_new png_repeat_first = .fault :=
  ⟨by rfl, by rfl, by rfl, by rfl, by rfl, by rfl, by rfl, by decide, by rfl, by rfl, by rfl,
    by rfl, by rfl, by rfl, by rfl⟩

end upng
